import Mathlib

/-!
# schemactor: a verification development

A shallow embedding of the consolidation core of `schemactor`
(`internal/state`, `internal/parser`, `internal/consolidator`) and theorems
about it.

Conventions of the embedding.

* A Go `map[string]V` is an association list `List (String × V)` with at most
  one entry per key (`mapSet` keeps that); reading is `mapGet` / `mapGetD`.
* Go leaves the order in which `range` visits a map unspecified.  For a map
  that a function builds itself (the in-degree map of `TopologicalSort`) the
  embedded function takes the visiting order as an explicit argument; for a
  map of the catalog the order of the association list is the visiting order.
* Go `int` values are `Int`; no arithmetic here comes near the machine bounds.
* A loop whose termination is not structural takes a counter.  The main loop
  of `TopologicalSort` returns `none` when the counter runs out, and
  `TopologicalSort_isSome` shows that it never does; the other counters start
  above the length of the text that the loop reads, a character or more a step.
* A Go `string` is a Lean `String`; the text functions work on its characters.

The definitions come first, the lemmas and theorems after them.
-/

namespace Schemactor

/-! ## Go maps as association lists -/

/-- Read `m[k]`; `none` when the key is absent. -/
def mapGet {V : Type} (m : List (String × V)) (k : String) : Option V :=
  match m with
  | [] => none
  | (k', v) :: rest => if k' = k then some v else mapGet rest k

/-- Read `m[k]` the way Go does for a missing key: the zero value `d`. -/
def mapGetD {V : Type} (m : List (String × V)) (k : String) (d : V) : V :=
  (mapGet m k).getD d

/-- Assign `m[k] = v`: overwrite the entry in place, or add one. -/
def mapSet {V : Type} (m : List (String × V)) (k : String) (v : V) : List (String × V) :=
  match m with
  | [] => [(k, v)]
  | (k', v') :: rest => if k' = k then (k', v) :: rest else (k', v') :: mapSet rest k v

/-- The function `delete(m, k)`. -/
def mapDelete {V : Type} (m : List (String × V)) (k : String) : List (String × V) :=
  m.filter (fun e => !decide (e.1 = k))

/-- The keys of a map, in list order. -/
def mapKeys {V : Type} (m : List (String × V)) : List String := m.map Prod.fst

/-- The helper `contains(slice, item)` of dependency.go and table.go. -/
def contains (slice : List String) (item : String) : Bool :=
  match slice with
  | [] => false
  | s :: rest => if s = item then true else contains rest item

/-! ## Go strings

A Go `string` is a Lean `String`; the functions of package `strings` that the program
calls are written on the list of characters. -/

/-- The predicate `unicode.IsSpace`. -/
def isSpace (c : Char) : Bool :=
  c = '\t' || c = '\n' || c.toNat = 0x0B || c.toNat = 0x0C || c = '\r' || c = ' ' ||
  c.toNat = 0x85 || c.toNat = 0xA0 || c.toNat = 0x1680 ||
  (0x2000 ≤ c.toNat && c.toNat ≤ 0x200A) ||
  c.toNat = 0x2028 || c.toNat = 0x2029 || c.toNat = 0x202F || c.toNat = 0x205F ||
  c.toNat = 0x3000

/-- The function `strings.TrimSpace`, on characters. -/
def trimSpaceChars (s : List Char) : List Char :=
  ((s.dropWhile isSpace).reverse.dropWhile isSpace).reverse

/-- The function `strings.TrimSpace`. -/
def TrimSpace (s : String) : String := String.mk (trimSpaceChars s.data)

/-- The function `strings.Split(s, sep)` for a separator of one character, on characters:
`cur` holds the characters of the piece being read, in reverse. -/
def splitChars (sep : Char) : List Char → List Char → List (List Char)
  | [], cur => [cur.reverse]
  | c :: rest, cur =>
    if c = sep then cur.reverse :: splitChars sep rest [] else splitChars sep rest (c :: cur)

/-- The function `strings.Split(s, sep)` for a separator `sep` of one character. -/
def Split (s : String) (sep : Char) : List String :=
  (splitChars sep s.data []).map String.mk

/-- The first piece of `strings.Split(s, " ")`, the Go expression
`strings.Split(s, " ")[0]`. -/
def firstWord (s : String) : String := (Split s ' ').headD ""

/-- Concatenation of a list of strings. -/
def concatAll : List String → String
  | [] => ""
  | x :: rest => x ++ concatAll rest

/-! ## internal/state: the catalog -/

/-- The Go struct `Column`; the field `Typ` is the Go field `Type`. -/
structure Column where
  Name : String
  Typ : String
  Nullable : Bool
  Default : String
  Generated : String
  Comment : String
  deriving DecidableEq, Repr

/-- The Go struct `PrimaryKey`. -/
structure PrimaryKey where
  Columns : List String
  Name : String
  deriving DecidableEq, Repr

/-- The Go struct `ForeignKey`. -/
structure ForeignKey where
  Name : String
  Columns : List String
  ReferencedTable : String
  ReferencedColumns : List String
  OnDelete : String
  OnUpdate : String
  deriving DecidableEq, Repr

/-- The Go struct `UniqueConstraint`. -/
structure UniqueConstraint where
  Name : String
  Columns : List String
  deriving DecidableEq, Repr

/-- The Go struct `CheckConstraint`. -/
structure CheckConstraint where
  Name : String
  Expression : String
  deriving DecidableEq, Repr

/-- The Go struct `Index`. -/
structure Index where
  Name : String
  Columns : List String
  Unique : Bool
  Where : String
  Method : String
  deriving DecidableEq, Repr

/-- The Go struct `Table`.  `PrimaryKey` is a pointer in Go: `none` is `nil`. -/
structure Table where
  Name : String
  Columns : List (String × Column)
  ColumnOrder : List String
  PrimaryKey : Option PrimaryKey
  ForeignKeys : List ForeignKey
  Indexes : List Index
  Checks : List CheckConstraint
  Uniques : List UniqueConstraint
  TableComment : String
  ColumnComments : List (String × String)
  CreatedIn : Int
  DependsOn : List String
  RequiredEnums : List String
  deriving DecidableEq, Repr

/-- The constructor `NewTable`. -/
def NewTable (name : String) : Table :=
  { Name := name, Columns := [], ColumnOrder := [], PrimaryKey := none, ForeignKeys := [],
    Indexes := [], Checks := [], Uniques := [], TableComment := "", ColumnComments := [],
    CreatedIn := 0, DependsOn := [], RequiredEnums := [] }

/-- The method `Table.AddColumn`. -/
def Table.AddColumn (t : Table) (col : Column) : Table :=
  { t with
    ColumnOrder :=
      if (mapGet t.Columns col.Name).isSome then t.ColumnOrder else t.ColumnOrder ++ [col.Name]
    Columns := mapSet t.Columns col.Name col }

/-- The loop of `Table.DropColumn` over `ColumnOrder`: remove the first occurrence. -/
def removeFirst (name : String) : List String → List String
  | [] => []
  | c :: rest => if c = name then rest else c :: removeFirst name rest

/-- The function `indexReferencesColumn`. -/
def indexReferencesColumn (idx : Index) (colName : String) : Bool :=
  idx.Columns.any (fun col => decide (col = colName))

/-- The function `containsColumn`. -/
def containsColumn (columns : List String) (colName : String) : Bool :=
  columns.any (fun col => decide (col = colName))

/-- The method `Table.DropColumn`. -/
def Table.DropColumn (t : Table) (name : String) : Table :=
  { t with
    Columns := mapDelete t.Columns name
    ColumnOrder := removeFirst name t.ColumnOrder
    ColumnComments := mapDelete t.ColumnComments name
    Indexes := t.Indexes.filter (fun idx => !indexReferencesColumn idx name)
    Uniques := t.Uniques.filter (fun u => !containsColumn u.Columns name) }

/-- The method `Table.AlterColumn`. -/
def Table.AlterColumn (t : Table) (name : String) (updates : Column → Column) : Table :=
  match mapGet t.Columns name with
  | some col => { t with Columns := mapSet t.Columns name (updates col) }
  | none => t

/-- The method `Table.AddIndex`. -/
def Table.AddIndex (t : Table) (idx : Index) : Table :=
  { t with Indexes := t.Indexes ++ [idx] }

/-- The method `Table.AddForeignKey`. -/
def Table.AddForeignKey (t : Table) (fk : ForeignKey) : Table :=
  { t with
    ForeignKeys := t.ForeignKeys ++ [fk]
    DependsOn :=
      if contains t.DependsOn fk.ReferencedTable then t.DependsOn
      else t.DependsOn ++ [fk.ReferencedTable] }

/-- The method `Table.AddCheck`. -/
def Table.AddCheck (t : Table) (check : CheckConstraint) : Table :=
  { t with Checks := t.Checks ++ [check] }

/-- The method `Table.AddUnique`. -/
def Table.AddUnique (t : Table) (unique : UniqueConstraint) : Table :=
  { t with Uniques := t.Uniques ++ [unique] }

/-- The method `Table.SetColumnComment`. -/
def Table.SetColumnComment (t : Table) (colName comment : String) : Table :=
  { t with ColumnComments := mapSet t.ColumnComments colName comment }

/-- The method `Table.AddRequiredEnum`. -/
def Table.AddRequiredEnum (t : Table) (enumName : String) : Table :=
  if contains t.RequiredEnums enumName then t
  else { t with RequiredEnums := t.RequiredEnums ++ [enumName] }

/-- The Go struct `Enum`. -/
structure Enum where
  Name : String
  Values : List String
  TypeComment : String
  CreatedIn : Int
  UsedBy : List String
  deriving DecidableEq, Repr

/-- The constructor `NewEnum`. -/
def NewEnum (name : String) : Enum :=
  { Name := name, Values := [], TypeComment := "", CreatedIn := 0, UsedBy := [] }

/-- The method `Enum.AddValue`. -/
def Enum.AddValue (e : Enum) (value : String) : Enum :=
  if contains e.Values value then e else { e with Values := e.Values ++ [value] }

/-- The method `Enum.AddUsedBy`. -/
def Enum.AddUsedBy (e : Enum) (tableName : String) : Enum :=
  if contains e.UsedBy tableName then e else { e with UsedBy := e.UsedBy ++ [tableName] }

/-- The Go struct `Domain`. -/
structure Domain where
  Name : String
  BaseType : String
  Default : String
  Constraint : String
  Comment : String
  CreatedIn : Int
  deriving DecidableEq, Repr

/-- The constructor `NewDomain`. -/
def NewDomain (name : String) : Domain :=
  { Name := name, BaseType := "", Default := "", Constraint := "", Comment := "", CreatedIn := 0 }

/-- The Go struct `View`. -/
structure View where
  Name : String
  Definition : String
  DependsOn : List String
  Comment : String
  CreatedIn : Int
  Version : Int
  deriving DecidableEq, Repr

/-- The constructor `NewView`. -/
def NewView (name : String) : View :=
  { Name := name, Definition := "", DependsOn := [], Comment := "", CreatedIn := 0, Version := 0 }

/-- The Go struct `DatabaseState`.  The in-memory catalog. -/
structure DatabaseState where
  Domains : List (String × Domain)
  Enums : List (String × Enum)
  Tables : List (String × Table)
  Views : List (String × View)
  DroppedTables : List (String × Bool)
  DroppedDomains : List (String × Bool)
  DroppedEnums : List (String × Bool)
  DroppedViews : List (String × Bool)
  Indexes : List (String × Index)
  deriving DecidableEq, Repr

/-- The constructor `NewDatabaseState`. -/
def NewDatabaseState : DatabaseState :=
  { Domains := [], Enums := [], Tables := [], Views := [], DroppedTables := [],
    DroppedDomains := [], DroppedEnums := [], DroppedViews := [], Indexes := [] }

/-- The method `AddOrUpdateTable`. -/
def DatabaseState.AddOrUpdateTable (ds : DatabaseState) (table : Table) : DatabaseState :=
  { ds with
    Tables := mapSet ds.Tables table.Name table
    DroppedTables := mapDelete ds.DroppedTables table.Name }

/-- The method `GetTable`. -/
def DatabaseState.GetTable (ds : DatabaseState) (name : String) : Option Table :=
  mapGet ds.Tables name

/-- The method `DropTable`. -/
def DatabaseState.DropTable (ds : DatabaseState) (name : String) : DatabaseState :=
  { ds with
    Tables := mapDelete ds.Tables name
    DroppedTables := mapSet ds.DroppedTables name true }

/-- The method `AddOrUpdateDomain`. -/
def DatabaseState.AddOrUpdateDomain (ds : DatabaseState) (domain : Domain) : DatabaseState :=
  { ds with
    Domains := mapSet ds.Domains domain.Name domain
    DroppedDomains := mapDelete ds.DroppedDomains domain.Name }

/-- The method `GetDomain`. -/
def DatabaseState.GetDomain (ds : DatabaseState) (name : String) : Option Domain :=
  mapGet ds.Domains name

/-- The method `DropDomain`. -/
def DatabaseState.DropDomain (ds : DatabaseState) (name : String) : DatabaseState :=
  { ds with
    Domains := mapDelete ds.Domains name
    DroppedDomains := mapSet ds.DroppedDomains name true }

/-- The method `AddOrUpdateEnum`. -/
def DatabaseState.AddOrUpdateEnum (ds : DatabaseState) (enum : Enum) : DatabaseState :=
  { ds with
    Enums := mapSet ds.Enums enum.Name enum
    DroppedEnums := mapDelete ds.DroppedEnums enum.Name }

/-- The method `GetEnum`. -/
def DatabaseState.GetEnum (ds : DatabaseState) (name : String) : Option Enum :=
  mapGet ds.Enums name

/-- The method `DropEnum`. -/
def DatabaseState.DropEnum (ds : DatabaseState) (name : String) : DatabaseState :=
  { ds with
    Enums := mapDelete ds.Enums name
    DroppedEnums := mapSet ds.DroppedEnums name true }

/-- The method `AddOrUpdateView`. -/
def DatabaseState.AddOrUpdateView (ds : DatabaseState) (view : View) : DatabaseState :=
  { ds with
    Views := mapSet ds.Views view.Name
      (match mapGet ds.Views view.Name with
        | some existingView => { view with Version := existingView.Version + 1 }
        | none => view)
    DroppedViews := mapDelete ds.DroppedViews view.Name }

/-- The method `GetView`. -/
def DatabaseState.GetView (ds : DatabaseState) (name : String) : Option View :=
  mapGet ds.Views name

/-- The method `DropView`. -/
def DatabaseState.DropView (ds : DatabaseState) (name : String) : DatabaseState :=
  { ds with
    Views := mapDelete ds.Views name
    DroppedViews := mapSet ds.DroppedViews name true }

/-- The method `AddIndex`. -/
def DatabaseState.AddIndex (ds : DatabaseState) (idx : Index) : DatabaseState :=
  { ds with Indexes := mapSet ds.Indexes idx.Name idx }

/-- The method `GetIndex`. -/
def DatabaseState.GetIndex (ds : DatabaseState) (name : String) : Option Index :=
  mapGet ds.Indexes name

/-- The method `DropIndex`. -/
def DatabaseState.DropIndex (ds : DatabaseState) (name : String) : DatabaseState :=
  { ds with Indexes := mapDelete ds.Indexes name }

/-! ## dependency.go: the dependency graph -/

/-- The Go enumeration `ObjectType`. -/
inductive ObjectType where
  | ObjectDomain
  | ObjectEnum
  | ObjectTable
  | ObjectView
  deriving DecidableEq, Repr

/-- The Go struct `DependencyNode`; the field `Typ` is the Go field `Type`. -/
structure DependencyNode where
  Typ : ObjectType
  Name : String
  CreatedIn : Int
  deriving DecidableEq, Repr

/-- The Go struct `DependencyGraph`.  `Edges[to]` lists the objects that depend on `to`. -/
structure DependencyGraph where
  Nodes : List (String × DependencyNode)
  Edges : List (String × List String)
  deriving DecidableEq, Repr

/-- The constructor `NewDependencyGraph`. -/
def NewDependencyGraph : DependencyGraph := { Nodes := [], Edges := [] }

/-- The method `AddNode`. -/
def DependencyGraph.AddNode (g : DependencyGraph) (objType : ObjectType) (name : String)
    (createdIn : Int) : DependencyGraph :=
  { g with Nodes := mapSet g.Nodes name { Typ := objType, Name := name, CreatedIn := createdIn } }

/-- The method `AddEdge(from, to)`: `dependent` is the Go parameter `from`, `target` is `to`.
The dependent is stored under the key `target`, once. -/
def DependencyGraph.AddEdge (g : DependencyGraph) (dependent target : String) : DependencyGraph :=
  if contains (mapGetD g.Edges target []) dependent then g
  else { g with Edges := mapSet g.Edges target (mapGetD g.Edges target [] ++ [dependent]) }

/-- The function `getPriority`. -/
def getPriority (node : DependencyNode) : Int :=
  match node.Typ with
  | .ObjectDomain => 0
  | .ObjectEnum => 1
  | .ObjectTable => 2
  | .ObjectView => 3

/-- The body of the inner loop of `sortByPriority`: are `nodes[i]` (named `a`) and
`nodes[j]` (named `b`) exchanged?  A name without a node is never exchanged. -/
def shouldSwap (g : DependencyGraph) (a b : String) : Bool :=
  match mapGet g.Nodes a, mapGet g.Nodes b with
  | some nodeI, some nodeJ =>
    if getPriority nodeI > getPriority nodeJ then true
    else if getPriority nodeI = getPriority nodeJ then decide (nodeI.CreatedIn > nodeJ.CreatedIn)
    else false
  | _, _ => false

/-- One run of the inner loop of `sortByPriority` for a fixed `i`: `x` is the present
`nodes[i]`, the list is `nodes[i+1:]`, visited left to right; the result is the final
`nodes[i]` and the final `nodes[i+1:]`. -/
def sortInner (g : DependencyGraph) (x : String) : List String → String × List String
  | [] => (x, [])
  | y :: ys =>
    if shouldSwap g x y then
      ((sortInner g y ys).1, x :: (sortInner g y ys).2)
    else
      ((sortInner g x ys).1, y :: (sortInner g x ys).2)

/-- The outer loop of `sortByPriority`, `n` iterations still to run on the part of the
slice from `i` on. -/
def sortOuter (g : DependencyGraph) : Nat → List String → List String
  | 0, nodes => nodes
  | _ + 1, [] => []
  | n + 1, x :: xs => (sortInner g x xs).1 :: sortOuter g n (sortInner g x xs).2

/-- The function `sortByPriority`: the exchange sort of dependency.go. -/
def sortByPriority (g : DependencyGraph) (nodes : List String) : List String :=
  sortOuter g nodes.length nodes

/-- The first two loops of `TopologicalSort`: every node gets in-degree 0, then every
name listed in `Edges` is counted once per listing. -/
def inDegreeInit (g : DependencyGraph) : List (String × Int) :=
  g.Edges.foldl
    (fun d e => e.2.foldl (fun d' dependent => mapSet d' dependent (mapGetD d' dependent 0 + 1)) d)
    (g.Nodes.foldl (fun d e => mapSet d e.1 0) [])

/-- The third loop of `TopologicalSort`: `order` is the order in which `range inDegree`
visits the keys; the keys of degree 0 are queued in that order. -/
def initialQueue (inDegree : List (String × Int)) (order : List String) : List String :=
  order.filter (fun node => decide (mapGet inDegree node = some 0))

/-- The loop over `g.Edges[node]` inside the main loop of `TopologicalSort`. -/
def relaxNeighbors (g : DependencyGraph) :
    List String → List (String × Int) → List String → List (String × Int) × List String
  | [], inDegree, queue => (inDegree, queue)
  | neighbor :: rest, inDegree, queue =>
    if mapGetD inDegree neighbor 0 - 1 = 0 then
      relaxNeighbors g rest (mapSet inDegree neighbor (mapGetD inDegree neighbor 0 - 1))
        (sortByPriority g (queue ++ [neighbor]))
    else
      relaxNeighbors g rest (mapSet inDegree neighbor (mapGetD inDegree neighbor 0 - 1)) queue

/-- The main loop of `TopologicalSort`, `for len(queue) > 0`, with fuel. -/
def sortLoop (g : DependencyGraph) :
    Nat → List (String × Int) → List String → List String → Option (List String)
  | 0, _, _, _ => none
  | _ + 1, _, [], result => some result
  | fuel + 1, inDegree, node :: queue, result =>
    sortLoop g fuel (relaxNeighbors g (mapGetD g.Edges node []) inDegree queue).1
      (relaxNeighbors g (mapGetD g.Edges node []) inDegree queue).2 (result ++ [node])

/-- The method `TopologicalSort`.  `order` is the order in which `range inDegree` visits
the in-degree map.  `none`: out of fuel; `some (.error _)`: the Go error;
`some (.ok result)`: the Go result. -/
def DependencyGraph.TopologicalSort (g : DependencyGraph) (order : List String) :
    Option (Except String (List String)) :=
  match sortLoop g (order.length + (inDegreeInit g).length + 1) (inDegreeInit g)
      (sortByPriority g (initialQueue (inDegreeInit g) order)) [] with
  | none => none
  | some result =>
    if result.length ≠ g.Nodes.length then some (.error "circular dependency detected")
    else some (.ok result)

/-- The loop of `findEnumDependencies` over `ColumnOrder`.  A column name without a
column reads the nil pointer in Go; the loop is given no such table (`AddColumn` and
`DropColumn` keep `ColumnOrder` and `Columns` in step), and the embedding skips it. -/
def findEnumDependencies (table : Table) (dbState : DatabaseState) : List String :=
  table.ColumnOrder.foldl
    (fun deps colName =>
      match mapGet table.Columns colName with
      | none => deps
      | some col =>
        if (mapGet dbState.Enums (firstWord (TrimSpace col.Typ))).isSome then
          if contains deps (firstWord (TrimSpace col.Typ)) then deps
          else deps ++ [firstWord (TrimSpace col.Typ)]
        else deps)
    []

/-- The loop of `findDomainDependencies` over `ColumnOrder`. -/
def findDomainDependencies (table : Table) (dbState : DatabaseState) : List String :=
  table.ColumnOrder.foldl
    (fun deps colName =>
      match mapGet table.Columns colName with
      | none => deps
      | some col =>
        if (mapGet dbState.Domains (firstWord (TrimSpace col.Typ))).isSome then
          if contains deps (firstWord (TrimSpace col.Typ)) then deps
          else deps ++ [firstWord (TrimSpace col.Typ)]
        else deps)
    []

/-- The step "track enum usage" of `BuildDependencyGraph`: `enum.AddUsedBy(tableName)` when
the enum exists. -/
def trackEnumUsage (dbState : DatabaseState) (enumName tableName : String) : DatabaseState :=
  match mapGet dbState.Enums enumName with
  | some enum => { dbState with Enums := mapSet dbState.Enums enumName (enum.AddUsedBy tableName) }
  | none => dbState

/-- The body of the loop "build edges for tables" of `BuildDependencyGraph`, for one table.
The state is threaded because the loop updates `UsedBy` of the enums. -/
def tableEdges (acc : DependencyGraph × DatabaseState) (tableName : String) (table : Table) :
    DependencyGraph × DatabaseState :=
  let g1 := table.ForeignKeys.foldl
    (fun g fk => if fk.ReferencedTable ≠ tableName then g.AddEdge tableName fk.ReferencedTable else g)
    acc.1
  let r2 := (findEnumDependencies table acc.2).foldl
    (fun (r : DependencyGraph × DatabaseState) enumName =>
      (r.1.AddEdge tableName enumName, trackEnumUsage r.2 enumName tableName))
    (g1, acc.2)
  let g3 := (findDomainDependencies table r2.2).foldl
    (fun g domainName => g.AddEdge tableName domainName) r2.1
  (g3, r2.2)

/-- The body of the loop "build edges for views" of `BuildDependencyGraph`, for one view. -/
def viewEdges (g : DependencyGraph) (viewName : String) (view : View) : DependencyGraph :=
  view.DependsOn.foldl
    (fun g dep =>
      if dep ≠ viewName then
        if (mapGet g.Nodes dep).isSome then g.AddEdge viewName dep else g
      else g)
    g

/-- The four loops of `BuildDependencyGraph` that add the nodes. -/
def buildNodes (dbState : DatabaseState) : DependencyGraph :=
  let g1 := dbState.Domains.foldl (fun g e => g.AddNode .ObjectDomain e.1 e.2.CreatedIn)
    NewDependencyGraph
  let g2 := dbState.Enums.foldl (fun g e => g.AddNode .ObjectEnum e.1 e.2.CreatedIn) g1
  let g3 := dbState.Tables.foldl (fun g e => g.AddNode .ObjectTable e.1 e.2.CreatedIn) g2
  dbState.Views.foldl (fun g e => g.AddNode .ObjectView e.1 e.2.CreatedIn) g3

/-- The function `BuildDependencyGraph`.  Each `range` over a map of the catalog visits it in
list order.  The result is the graph and the catalog as the function leaves it (with the
`UsedBy` lists it filled in). -/
def BuildDependencyGraph (dbState : DatabaseState) : DependencyGraph × DatabaseState :=
  let r := dbState.Tables.foldl (fun acc e => tableEdges acc e.1 e.2) (buildNodes dbState, dbState)
  (dbState.Views.foldl (fun g e => viewEdges g e.1 e.2) r.1, r.2)

/-- The function `AnalyzeEnumUsage`, the body for one column of one table. -/
def analyzeColumn (acc : DatabaseState × Table) (tableName : String) (colName : String) :
    DatabaseState × Table :=
  match mapGet acc.2.Columns colName with
  | none => acc
  | some col =>
    match mapGet acc.1.Enums (firstWord (TrimSpace col.Typ)) with
    | some enum =>
      ({ acc.1 with
          Enums := mapSet acc.1.Enums (firstWord (TrimSpace col.Typ)) (enum.AddUsedBy tableName) },
        acc.2.AddRequiredEnum (firstWord (TrimSpace col.Typ)))
    | none => acc

/-- The function `AnalyzeEnumUsage`.  The tables are visited in list order; each table is
updated in place in the catalog (Go holds a pointer to it). -/
def AnalyzeEnumUsage (dbState : DatabaseState) : DatabaseState :=
  dbState.Tables.foldl
    (fun st e =>
      let r := e.2.ColumnOrder.foldl (fun acc colName => analyzeColumn acc e.1 colName) (st, e.2)
      { r.1 with Tables := mapSet r.1.Tables e.1 r.2 })
    dbState

/-! ## generator.go: the emitter -/

/-- The Go struct `migration.ConsolidatedMigration`. -/
structure ConsolidatedMigration where
  Number : Int
  Name : String
  UpSQL : String
  DownSQL : String
  deriving DecidableEq, Repr

/-- The Go struct `Generator`. -/
structure Generator where
  state : DatabaseState
  graph : DependencyGraph
  enumsUsed : List (String × Bool)
  deriving DecidableEq, Repr

/-- The constructor `NewGenerator`. -/
def NewGenerator (dbState : DatabaseState) (graph : DependencyGraph) : Generator :=
  { state := dbState, graph := graph, enumsUsed := [] }

/-- The apostrophe. -/
def apostrophe : Char := Char.ofNat 39

/-- The function `escapeComment`: `strings.ReplaceAll(comment, "'", "''")`. -/
def escapeComment (comment : String) : String :=
  String.mk (comment.data.flatMap (fun c => if c = apostrophe then [apostrophe, apostrophe] else [c]))

/-- The function `strings.Join`. -/
def Join (elems : List String) (sep : String) : String :=
  match elems with
  | [] => ""
  | [x] => x
  | x :: rest => x ++ sep ++ Join rest sep

/-- A loop that writes one line per item, `"    " + item`, then `","` when the item is not
the last one or when `more` holds (a clause follows), then a newline: the shape of each of
the five loops of `GenerateTableSQL` over columns and constraints. -/
def writeLines (items : List String) (more : Bool) : String :=
  match items with
  | [] => ""
  | [x] => "    " ++ x ++ (if more then "," else "") ++ "\n"
  | x :: rest => "    " ++ x ++ "," ++ "\n" ++ writeLines rest more

/-- The loop of `GenerateEnumSQL` over the values. -/
def writeEnumValues (values : List String) : String :=
  match values with
  | [] => ""
  | [v] => "    '" ++ v ++ "'" ++ "\n"
  | v :: rest => "    '" ++ v ++ "'" ++ "," ++ "\n" ++ writeEnumValues rest

/-- The method `GenerateEnumSQL`. -/
def GenerateEnumSQL (enum : Enum) : String :=
  "DROP TYPE IF EXISTS " ++ enum.Name ++ ";\n" ++
  "CREATE TYPE " ++ enum.Name ++ " AS ENUM (\n" ++
  writeEnumValues enum.Values ++
  ");\n" ++
  (if enum.TypeComment ≠ "" then
    "\nCOMMENT ON TYPE " ++ enum.Name ++ " IS '" ++ escapeComment enum.TypeComment ++ "';\n"
   else "")

/-- The method `GenerateColumnDef`. -/
def GenerateColumnDef (col : Column) : String :=
  col.Name ++ " " ++ col.Typ ++
  (if col.Default ≠ "" then " DEFAULT " ++ col.Default else "") ++
  (if !col.Nullable then " NOT NULL" else "")

/-- The method `GenerateIndexSQL`. -/
def GenerateIndexSQL (idx : Index) (tableName : String) : String :=
  (if idx.Unique then "CREATE UNIQUE INDEX " else "CREATE INDEX ") ++
  idx.Name ++ " ON " ++ tableName ++ " (" ++ Join idx.Columns ", " ++ ")" ++
  (if idx.Where ≠ "" then " WHERE " ++ idx.Where else "") ++
  ";\n"

/-- The text that `GenerateTableSQL` writes for one foreign key, after the indent. -/
def foreignKeyClause (fk : ForeignKey) : String :=
  "FOREIGN KEY (" ++ Join fk.Columns ", " ++ ") REFERENCES " ++ fk.ReferencedTable ++
  " (" ++ Join fk.ReferencedColumns ", " ++ ")" ++
  (if fk.OnDelete ≠ "" then " ON DELETE " ++ fk.OnDelete else "") ++
  (if fk.OnUpdate ≠ "" then " ON UPDATE " ++ fk.OnUpdate else "")

/-- The column that Go reads for `table.Columns[colName]`.  For a name without a column Go
reads a nil pointer and stops with a panic; `AddColumn` and `DropColumn` keep `ColumnOrder`
and `Columns` in step, so no table built by the applier has one, and the embedding reads
the zero `Column` there. -/
def columnOf (table : Table) (colName : String) : Column :=
  mapGetD table.Columns colName
    { Name := "", Typ := "", Nullable := false, Default := "", Generated := "", Comment := "" }

/-- The method `GenerateTableSQL`.  The last loop ranges over the map `ColumnComments`; the
order of that association list is the order in which `range` visits the map. -/
def GenerateTableSQL (table : Table) : String :=
  "CREATE TABLE " ++ table.Name ++ " (\n" ++
  writeLines (table.ColumnOrder.map (fun colName => GenerateColumnDef (columnOf table colName)))
    (table.PrimaryKey.isSome || decide (table.Checks.length > 0) ||
      decide (table.Uniques.length > 0) || decide (table.ForeignKeys.length > 0)) ++
  (match table.PrimaryKey with
    | some pk =>
      writeLines ["PRIMARY KEY (" ++ Join pk.Columns ", " ++ ")"]
        (decide (table.Checks.length > 0) || decide (table.Uniques.length > 0) ||
          decide (table.ForeignKeys.length > 0))
    | none => "") ++
  writeLines (table.Uniques.map (fun unique => "UNIQUE (" ++ Join unique.Columns ", " ++ ")"))
    (decide (table.Checks.length > 0) || decide (table.ForeignKeys.length > 0)) ++
  writeLines (table.Checks.map (fun check => "CHECK (" ++ check.Expression ++ ")"))
    (decide (table.ForeignKeys.length > 0)) ++
  writeLines (table.ForeignKeys.map foreignKeyClause) false ++
  ");\n" ++
  String.join (table.Indexes.map (fun idx => "\n" ++ GenerateIndexSQL idx table.Name)) ++
  (if table.TableComment ≠ "" then
    "\nCOMMENT ON TABLE " ++ table.Name ++ " IS '" ++ escapeComment table.TableComment ++ "';\n"
   else "") ++
  String.join (table.ColumnComments.map (fun e =>
    "COMMENT ON COLUMN " ++ table.Name ++ "." ++ e.1 ++ " IS '" ++ escapeComment e.2 ++ "';\n"))

/-- The method `GenerateTableDownSQL`. -/
def GenerateTableDownSQL (table : Table) : String :=
  "DROP TABLE IF EXISTS " ++ table.Name ++ " CASCADE;\n"

/-- The method `GenerateDomainSQL`. -/
def GenerateDomainSQL (domain : Domain) : String :=
  "DROP DOMAIN IF EXISTS " ++ domain.Name ++ ";\n" ++
  "CREATE DOMAIN " ++ domain.Name ++ " AS " ++ domain.BaseType ++
  (if domain.Default ≠ "" then " DEFAULT " ++ domain.Default else "") ++
  (if domain.Constraint ≠ "" then " CHECK (" ++ domain.Constraint ++ ")" else "") ++
  ";\n" ++
  (if domain.Comment ≠ "" then
    "\nCOMMENT ON DOMAIN " ++ domain.Name ++ " IS '" ++ escapeComment domain.Comment ++ "';\n"
   else "")

/-- The method `GenerateDomainDownSQL`. -/
def GenerateDomainDownSQL (domain : Domain) : String :=
  "DROP DOMAIN IF EXISTS " ++ domain.Name ++ ";\n"

/-- The test `strings.HasSuffix(strings.TrimSpace(s), ";")`. -/
def endsWithSemicolon (s : String) : Bool :=
  (trimSpaceChars s.data).getLast? = some ';'

/-- The method `GenerateViewSQL`. -/
def GenerateViewSQL (view : View) : String :=
  view.Definition ++
  (if !endsWithSemicolon view.Definition then ";" else "") ++
  "\n" ++
  (if view.Comment ≠ "" then
    "\nCOMMENT ON VIEW " ++ view.Name ++ " IS '" ++ escapeComment view.Comment ++ "';\n"
   else "")

/-- The method `GenerateViewDownSQL`. -/
def GenerateViewDownSQL (view : View) : String :=
  "DROP VIEW IF EXISTS " ++ view.Name ++ " CASCADE;\n"

/-- The loop of `GenerateRequiredEnums` over `table.RequiredEnums`: `sql` is the builder,
`used` the map `enumsUsed`.  The third component is a ghost variable, absent from the Go
code: the names of the enums whose block the loop has written, in the order of writing. -/
def requiredEnumsLoop (state : DatabaseState) :
    List String → String → List (String × Bool) → List String →
      String × List (String × Bool) × List String
  | [], sql, used, written => (sql, used, written)
  | enumName :: rest, sql, used, written =>
    if mapGetD used enumName false then requiredEnumsLoop state rest sql used written
    else
      match mapGet state.Enums enumName with
      | none => requiredEnumsLoop state rest sql used written
      | some enum =>
        requiredEnumsLoop state rest (sql ++ GenerateEnumSQL enum ++ "\n\n")
          (mapSet used enumName true) (written ++ [enumName])

/-- The method `GenerateRequiredEnums`: the text, and the generator with its updated
`enumsUsed`. -/
def GenerateRequiredEnums (g : Generator) (table : Table) : String × Generator :=
  (TrimSpace (requiredEnumsLoop g.state table.RequiredEnums "" g.enumsUsed []).1,
    { g with enumsUsed := (requiredEnumsLoop g.state table.RequiredEnums "" g.enumsUsed []).2.1 })

/-- Ghost: the names of the enums whose block `GenerateRequiredEnums` writes for `table`. -/
def writtenEnums (g : Generator) (table : Table) : List String :=
  (requiredEnumsLoop g.state table.RequiredEnums "" g.enumsUsed []).2.2

/-- The method `GenerateTableMigration`: the up-SQL, the down-SQL and the generator. -/
def GenerateTableMigration (g : Generator) (table : Table) : String × String × Generator :=
  ((if (GenerateRequiredEnums g table).1 ≠ "" then (GenerateRequiredEnums g table).1 ++ "\n"
    else "") ++ GenerateTableSQL table,
    GenerateTableDownSQL table,
    (GenerateRequiredEnums g table).2)

/-- The loop of `Generate`, instrumented: `migrationNum` is the Go variable; each migration
comes with a ghost value, absent from the Go code: the names of the enums whose block was
written into its up-SQL. -/
def generateLoop (g : Generator) (migrationNum : Int) :
    List String → List (ConsolidatedMigration × List String)
  | [] => []
  | objName :: rest =>
    match mapGet g.graph.Nodes objName with
    | none => generateLoop g migrationNum rest
    | some node =>
      match node.Typ with
      | .ObjectDomain =>
        match mapGet g.state.Domains objName with
        | none => generateLoop g migrationNum rest
        | some domain =>
          ({ Number := migrationNum, Name := "create-" ++ domain.Name ++ "-domain",
             UpSQL := GenerateDomainSQL domain, DownSQL := GenerateDomainDownSQL domain }, []) ::
            generateLoop g (migrationNum + 1) rest
      | .ObjectEnum => generateLoop g migrationNum rest
      | .ObjectTable =>
        match mapGet g.state.Tables objName with
        | none => generateLoop g migrationNum rest
        | some table =>
          ({ Number := migrationNum, Name := "create-" ++ table.Name,
             UpSQL := (GenerateTableMigration g table).1,
             DownSQL := (GenerateTableMigration g table).2.1 }, writtenEnums g table) ::
            generateLoop (GenerateTableMigration g table).2.2 (migrationNum + 1) rest
      | .ObjectView =>
        match mapGet g.state.Views objName with
        | none => generateLoop g migrationNum rest
        | some view =>
          ({ Number := migrationNum, Name := "create-" ++ view.Name ++ "-view",
             UpSQL := GenerateViewSQL view, DownSQL := GenerateViewDownSQL view }, []) ::
            generateLoop g (migrationNum + 1) rest

/-- The method `Generate`: the migrations, in the order of emission. -/
def Generate (g : Generator) (orderedObjects : List String) : List ConsolidatedMigration :=
  (generateLoop g 1 orderedObjects).map Prod.fst

/-- The phases 3 to 6 of `Consolidate` on a catalog: `AnalyzeEnumUsage`,
`BuildDependencyGraph`, `NewGenerator`; the generator that `Generate` is called on. -/
def generatorOf (dbState : DatabaseState) : Generator :=
  NewGenerator (BuildDependencyGraph (AnalyzeEnumUsage dbState)).2
    (BuildDependencyGraph (AnalyzeEnumUsage dbState)).1

/-! ## More of package `strings` -/

/-- The function `unicode.ToUpper` on the characters that matter here: the ASCII letters,
and the two characters outside ASCII whose upper case is an ASCII letter (dotless i U+0131,
long s U+017F).  Every other character is left as it is: the program only compares upper-cased
text with ASCII text. -/
def toUpperChar (c : Char) : Char :=
  if 'a' ≤ c && c ≤ 'z' then Char.ofNat (c.toNat - 32)
  else if c.toNat = 0x131 then 'I'
  else if c.toNat = 0x17F then 'S'
  else c

/-- The function `unicode.ToLower` on the characters that matter here: the ASCII letters,
and the two characters outside ASCII whose lower case is an ASCII letter (I with dot U+0130,
Kelvin sign U+212A). -/
def toLowerChar (c : Char) : Char :=
  if 'A' ≤ c && c ≤ 'Z' then Char.ofNat (c.toNat + 32)
  else if c.toNat = 0x130 then 'i'
  else if c.toNat = 0x212A then 'k'
  else c

/-- The function `strings.ToUpper`. -/
def ToUpper (s : String) : String := String.mk (s.data.map toUpperChar)

/-- The function `strings.ToLower`. -/
def ToLower (s : String) : String := String.mk (s.data.map toLowerChar)

/-- Does the text `s` start with `pre`? -/
def startsWithChars : List Char → List Char → Bool
  | [], _ => true
  | _ :: _, [] => false
  | p :: ps, c :: cs => p = c && startsWithChars ps cs

/-- The function `strings.HasPrefix`. -/
def HasPrefix (s pre : String) : Bool := startsWithChars pre.data s.data

/-- Does `sub` occur in the text? -/
def containsChars (sub : List Char) : List Char → Bool
  | [] => sub.isEmpty
  | c :: cs => startsWithChars sub (c :: cs) || containsChars sub cs

/-- The function `strings.Contains`. -/
def Contains (s sub : String) : Bool := containsChars sub.data s.data

/-- The function `strings.Fields`, on characters: `cur` is the field being read, reversed. -/
def fieldsChars : List Char → List Char → List (List Char)
  | [], cur => if cur.isEmpty then [] else [cur.reverse]
  | c :: rest, cur =>
    if isSpace c then
      (if cur.isEmpty then fieldsChars rest [] else cur.reverse :: fieldsChars rest [])
    else fieldsChars rest (c :: cur)

/-- The function `strings.Fields`. -/
def Fields (s : String) : List String := (fieldsChars s.data []).map String.mk

/-! ## Go regular expressions -/

/-- A regular expression of Go's package `regexp`, parsed: the constructors are the
operators that the patterns of the program use. -/
inductive Re where
  | empty : Re
  | char (p : Char → Bool) : Re
  | seq (a b : Re) : Re
  | alt (a b : Re) : Re
  | star (greedy : Bool) (a : Re) : Re
  | group (i : Nat) (a : Re) : Re
  | bol : Re
  | eol : Re
  | wordBoundary : Re

/-- A position in the text during a match: the character before it (`none` at the start of
the text), the text from it on, and the groups captured so far. -/
structure MatchState where
  prev : Option Char
  rest : List Char
  caps : List (Nat × String)

/-- Record the text of group `i`. -/
def setCap (caps : List (Nat × String)) (i : Nat) (text : String) : List (Nat × String) :=
  match caps with
  | [] => [(i, text)]
  | (j, t) :: more => if j = i then (j, text) :: more else (j, t) :: setCap more i text

/-- The text of group `i`; a group that took no part in the match reads as `""`. -/
def getCap (caps : List (Nat × String)) (i : Nat) : String :=
  match caps with
  | [] => ""
  | (j, t) :: more => if j = i then t else getCap more i

/-- The class `\w` of Go: `[0-9A-Za-z_]`. -/
def isWordChar (c : Char) : Bool :=
  ('0' ≤ c && c ≤ '9') || ('A' ≤ c && c ≤ 'Z') || ('a' ≤ c && c ≤ 'z') || c = '_'

/-- The repetition `a*` (`greedy`) or `a*?` (not `greedy`), `m` the matcher of `a`.  An
iteration that consumes nothing is not repeated.  The counter bounds the number of
iterations; it starts above the length of the text, so it is never the reason to stop. -/
def starLoop (m : MatchState → (MatchState → Option MatchState) → Option MatchState)
    (greedy : Bool) :
    Nat → MatchState → (MatchState → Option MatchState) → Option MatchState
  | 0, st, k => k st
  | n + 1, st, k =>
    if greedy then
      match m st (fun st' =>
          if st'.rest.length < st.rest.length then starLoop m greedy n st' k else none) with
      | some r => some r
      | none => k st
    else
      match k st with
      | some r => some r
      | none =>
        m st (fun st' =>
          if st'.rest.length < st.rest.length then starLoop m greedy n st' k else none)

/-- The backtracking matcher: match `re` at `st`, then go on with `k`.  The first success in
the order of preference of the syntax (left alternative first, a greedy repetition as long
as possible first) is the result: the leftmost-first match that Go's `regexp` reports. -/
def Re.run : Re → MatchState → (MatchState → Option MatchState) → Option MatchState
  | .empty, st, k => k st
  | .char p, st, k =>
    match st.rest with
    | [] => none
    | c :: cs => if p c then k { prev := some c, rest := cs, caps := st.caps } else none
  | .seq a b, st, k => a.run st (fun st' => b.run st' k)
  | .alt a b, st, k =>
    match a.run st k with
    | some r => some r
    | none => b.run st k
  | .star greedy a, st, k => starLoop (fun s k' => a.run s k') greedy (st.rest.length + 1) st k
  | .group i a, st, k =>
    a.run st (fun st' =>
      k { st' with
          caps := setCap st'.caps i
            (String.mk (st.rest.take (st.rest.length - st'.rest.length))) })
  | .bol, st, k => if st.prev.isNone then k st else none
  | .eol, st, k => if st.rest.isEmpty then k st else none
  | .wordBoundary, st, k =>
    if (match st.prev with | some c => isWordChar c | none => false)
        ≠ (match st.rest with | c :: _ => isWordChar c | [] => false) then k st
    else none

/-- A compiled pattern: the expression and the number of its capturing groups. -/
structure Regexp where
  re : Re
  groups : Nat

/-- The leftmost match of `re` in the text `rest`, which follows the character `prev`: the
text from the start of the match on, and the state at the end of the match. -/
def searchFrom (re : Re) : Option Char → List Char → Option (List Char × MatchState)
  | prev, [] =>
    match re.run { prev := prev, rest := [], caps := [] } some with
    | some st => some ([], st)
    | none => none
  | prev, c :: cs =>
    match re.run { prev := prev, rest := c :: cs, caps := [] } some with
    | some st => some (c :: cs, st)
    | none => searchFrom re (some c) cs

/-- The slice that `FindStringSubmatch` returns for a match: the whole match, then the text
of each group. -/
def submatches (r : Regexp) (start : List Char) (st : MatchState) : List String :=
  String.mk (start.take (start.length - st.rest.length)) ::
    (List.range r.groups).map (fun i => getCap st.caps (i + 1))

/-- The method `FindStringSubmatch`; no match is the empty slice (Go's `nil`). -/
def Regexp.FindStringSubmatch (r : Regexp) (s : String) : List String :=
  match searchFrom r.re none s.data with
  | none => []
  | some (start, st) => submatches r start st

/-- The method `MatchString`. -/
def Regexp.MatchString (r : Regexp) (s : String) : Bool :=
  (searchFrom r.re none s.data).isSome

/-- The loop of `FindAllStringSubmatch(s, -1)`: search from the present position; after a
match go on at its end, or one character further when the match is empty; an empty match
right at the end of the match before it is left out.  `prevEnd` is the length of the text
after the match before.  No pattern that the program uses here matches the empty text.  The
counter starts above the length of the text. -/
def findAllLoop (r : Regexp) :
    Nat → Option Char → List Char → Option Nat → List (List String)
  | 0, _, _, _ => []
  | n + 1, prev, rest, prevEnd =>
    match searchFrom r.re prev rest with
    | none => []
    | some (start, st) =>
      if st.rest.length = start.length then
        match start with
        | [] => if prevEnd = some 0 then [] else [submatches r start st]
        | c :: cs =>
          if prevEnd = some start.length then findAllLoop r n (some c) cs (some st.rest.length)
          else submatches r start st :: findAllLoop r n (some c) cs (some st.rest.length)
      else
        submatches r start st :: findAllLoop r n st.prev st.rest (some st.rest.length)

/-- The method `FindAllStringSubmatch(s, -1)`. -/
def Regexp.FindAllStringSubmatch (r : Regexp) (s : String) : List (List String) :=
  findAllLoop r (s.data.length + 1) none s.data none

/-! ### The syntax, as functions that build a `Re` -/

/-- Lower case of an ASCII letter. -/
def asciiLower (c : Char) : Char :=
  if 'A' ≤ c && c ≤ 'Z' then Char.ofNat (c.toNat + 32) else c

/-- Is `x` the character `c`, or, when `fold` is set (the flag `i`), a character of the same
case-folding orbit?  The orbit of an ASCII letter holds its two cases and, for `k` and `s`,
the Kelvin sign U+212A and the long s U+017F. -/
def charIs (fold : Bool) (c x : Char) : Bool :=
  if fold then
    asciiLower x = asciiLower c || (asciiLower c = 'k' && x.toNat = 0x212A) ||
      (asciiLower c = 's' && x.toNat = 0x17F)
  else x = c

/-- A literal, character by character. -/
def litChars (fold : Bool) : List Char → Re
  | [] => .empty
  | [c] => .char (charIs fold c)
  | c :: cs => .seq (.char (charIs fold c)) (litChars fold cs)

/-- A literal; `fold` is the flag `i`. -/
def lit (fold : Bool) (s : String) : Re := litChars fold s.data

/-- The class `\s` of Go: `[\t\n\f\r ]`. -/
def isReSpace (c : Char) : Bool :=
  c = '\t' || c = '\n' || c.toNat = 0x0C || c = '\r' || c = ' '

/-- The expression `a+`. -/
def plus (a : Re) : Re := .seq a (.star true a)

/-- The expression `a+?`. -/
def lazyPlus (a : Re) : Re := .seq a (.star false a)

/-- The expression `a?`. -/
def opt (a : Re) : Re := .alt a .empty

/-- The expression `\s`. -/
def ws : Re := .char isReSpace

/-- The expression `\S`. -/
def nonWs : Re := .char (fun c => !isReSpace c)

/-- The expression `\w`; under the flag `i` the class also holds the characters that fold to
one of its letters (U+017F, U+212A). -/
def word (fold : Bool) : Re :=
  .char (fun c => isWordChar c || (fold && (c.toNat = 0x17F || c.toNat = 0x212A)))

/-- The expression `.`: any character but the newline, which it takes under the flag `s`. -/
def dot (dotAll : Bool) : Re := .char (fun c => dotAll || c ≠ '\n')

/-- The expression `[^...]` for a class of the listed characters, with `\s` when `space`. -/
def noneOf (space : Bool) (chars : List Char) : Re :=
  .char (fun c => !(chars.contains c || (space && isReSpace c)))

/-- A sequence. -/
def seqs : List Re → Re
  | [] => .empty
  | [a] => a
  | a :: rest => .seq a (seqs rest)

/-- An alternation, the first alternative preferred. -/
def alts : List Re → Re
  | [] => .empty
  | [a] => a
  | a :: rest => .alt a (alts rest)

/-- The words of a statement head under the flag `i`, separated by `\s+`:
`words ["A", "B"]` is `A\s+B`. -/
def words : List String → Re
  | [] => .empty
  | [w] => lit true w
  | w :: rest => .seq (lit true w) (.seq (plus ws) (words rest))

/-- The expression `(?:IF\s+EXISTS\s+)?`. -/
def ifExists : Re := opt (seqs [words ["IF", "EXISTS"], plus ws])

/-- The expression `(?:IF\s+NOT\s+EXISTS\s+)?`. -/
def ifNotExists : Re := opt (seqs [words ["IF", "NOT", "EXISTS"], plus ws])

/-- The data type of `ADD_COLUMN` and `ALTER_COL_TYPE`, under the flag `i`:
`(?:(?:double|character|timestamp|time)\s+(?:precision|varying|with(?:\s+time)?\s+zone`
`|without(?:\s+time)?\s+zone)|\w+)(?:\([^)]+\))?(?:\[\])?`. -/
def dataTypeRe : Re :=
  seqs [
    alts [
      seqs [alts [lit true "double", lit true "character", lit true "timestamp", lit true "time"],
        plus ws,
        alts [lit true "precision", lit true "varying",
          seqs [lit true "with", opt (seqs [plus ws, lit true "time"]), plus ws, lit true "zone"],
          seqs [lit true "without", opt (seqs [plus ws, lit true "time"]), plus ws,
            lit true "zone"]]],
      plus (word true)],
    opt (seqs [lit true "(", plus (noneOf false [')']), lit true ")"]),
    opt (lit true "[]")]

/-! ### The patterns of parser.go -/

/-- `(?i)^\s*CREATE\s+TABLE\s+(?:IF\s+NOT\s+EXISTS\s+)?(\w+)` -/
def reCREATE_TABLE : Regexp :=
  { re := seqs [.bol, .star true ws, words ["CREATE", "TABLE"], plus ws, ifNotExists,
      .group 1 (plus (word true))], groups := 1 }

/-- `(?i)^\s*ALTER\s+TABLE\s+(?:IF\s+EXISTS\s+)?(\w+)` -/
def reALTER_TABLE : Regexp :=
  { re := seqs [.bol, .star true ws, words ["ALTER", "TABLE"], plus ws, ifExists,
      .group 1 (plus (word true))], groups := 1 }

/-- `(?i)^\s*DROP\s+TABLE\s+(?:IF\s+EXISTS\s+)?(\w+)` -/
def reDROP_TABLE : Regexp :=
  { re := seqs [.bol, .star true ws, words ["DROP", "TABLE"], plus ws, ifExists,
      .group 1 (plus (word true))], groups := 1 }

/-- `(?i)^\s*CREATE\s+TYPE\s+(\w+)\s+AS\s+ENUM` -/
def reCREATE_TYPE : Regexp :=
  { re := seqs [.bol, .star true ws, words ["CREATE", "TYPE"], plus ws,
      .group 1 (plus (word true)), plus ws, words ["AS", "ENUM"]], groups := 1 }

/-- `(?i)^\s*ALTER\s+TYPE\s+(\w+)\s+ADD\s+VALUE` -/
def reALTER_TYPE : Regexp :=
  { re := seqs [.bol, .star true ws, words ["ALTER", "TYPE"], plus ws,
      .group 1 (plus (word true)), plus ws, words ["ADD", "VALUE"]], groups := 1 }

/-- `(?i)^\s*DROP\s+TYPE\s+(?:IF\s+EXISTS\s+)?(\w+)` -/
def reDROP_TYPE : Regexp :=
  { re := seqs [.bol, .star true ws, words ["DROP", "TYPE"], plus ws, ifExists,
      .group 1 (plus (word true))], groups := 1 }

/-- `(?i)^\s*CREATE\s+DOMAIN\s+(\w+)\s+AS` -/
def reCREATE_DOMAIN : Regexp :=
  { re := seqs [.bol, .star true ws, words ["CREATE", "DOMAIN"], plus ws,
      .group 1 (plus (word true)), plus ws, lit true "AS"], groups := 1 }

/-- `(?i)^\s*DROP\s+DOMAIN\s+(?:IF\s+EXISTS\s+)?(\w+)` -/
def reDROP_DOMAIN : Regexp :=
  { re := seqs [.bol, .star true ws, words ["DROP", "DOMAIN"], plus ws, ifExists,
      .group 1 (plus (word true))], groups := 1 }

/-- `(?i)^\s*CREATE\s+(?:OR\s+REPLACE\s+)?VIEW\s+(\w+)` -/
def reCREATE_VIEW : Regexp :=
  { re := seqs [.bol, .star true ws, lit true "CREATE", plus ws,
      opt (seqs [words ["OR", "REPLACE"], plus ws]), lit true "VIEW", plus ws,
      .group 1 (plus (word true))], groups := 1 }

/-- `(?i)^\s*DROP\s+VIEW\s+(?:IF\s+EXISTS\s+)?(\w+)` -/
def reDROP_VIEW : Regexp :=
  { re := seqs [.bol, .star true ws, words ["DROP", "VIEW"], plus ws, ifExists,
      .group 1 (plus (word true))], groups := 1 }

/-- `(?i)^\s*CREATE\s+(?:UNIQUE\s+)?INDEX\s+(\w+)\s+ON\s+(\w+)` -/
def reCREATE_INDEX : Regexp :=
  { re := seqs [.bol, .star true ws, lit true "CREATE", plus ws,
      opt (seqs [lit true "UNIQUE", plus ws]), lit true "INDEX", plus ws,
      .group 1 (plus (word true)), plus ws, lit true "ON", plus ws,
      .group 2 (plus (word true))], groups := 2 }

/-- `(?i)^\s*DROP\s+INDEX\s+(?:IF\s+EXISTS\s+)?(\w+)` -/
def reDROP_INDEX : Regexp :=
  { re := seqs [.bol, .star true ws, words ["DROP", "INDEX"], plus ws, ifExists,
      .group 1 (plus (word true))], groups := 1 }

/-- `(?i)^\s*COMMENT\s+ON\s+(TABLE|COLUMN|TYPE|VIEW)\s+(\S+)` -/
def reCOMMENT_ON : Regexp :=
  { re := seqs [.bol, .star true ws, words ["COMMENT", "ON"], plus ws,
      .group 1 (alts [lit true "TABLE", lit true "COLUMN", lit true "TYPE", lit true "VIEW"]),
      plus ws, .group 2 (plus nonWs)], groups := 2 }

/-- `(?i)^\s*DO\s+\$\$` -/
def reDO_BLOCK : Regexp :=
  { re := seqs [.bol, .star true ws, lit true "DO", plus ws, lit true "$$"], groups := 0 }

/-- `(?i)ADD\s+COLUMN\s+(\w+)\s+(<data type>)` -/
def reADD_COLUMN : Regexp :=
  { re := seqs [words ["ADD", "COLUMN"], plus ws, .group 1 (plus (word true)), plus ws,
      .group 2 dataTypeRe], groups := 2 }

/-- `(?i)DROP\s+COLUMN\s+(?:IF\s+EXISTS\s+)?(\w+)` -/
def reDROP_COLUMN : Regexp :=
  { re := seqs [words ["DROP", "COLUMN"], plus ws, ifExists, .group 1 (plus (word true))],
    groups := 1 }

/-- `(?i)ALTER\s+COLUMN\s+(\w+)\s+TYPE\s+(<data type>)(?:\s+USING\s+(.+))?` -/
def reALTER_COL_TYPE : Regexp :=
  { re := seqs [words ["ALTER", "COLUMN"], plus ws, .group 1 (plus (word true)), plus ws,
      lit true "TYPE", plus ws, .group 2 dataTypeRe,
      opt (seqs [plus ws, lit true "USING", plus ws, .group 3 (plus (dot false))])],
    groups := 3 }

/-- `(?i)ALTER\s+COLUMN\s+(\w+)\s+(SET|DROP)\s+NOT\s+NULL` -/
def reALTER_COL_NULL : Regexp :=
  { re := seqs [words ["ALTER", "COLUMN"], plus ws, .group 1 (plus (word true)), plus ws,
      .group 2 (alts [lit true "SET", lit true "DROP"]), plus ws, words ["NOT", "NULL"]],
    groups := 2 }

/-- `(?is)ALTER\s+TABLE\s+\w+\s+(.+)`, the pattern of `parseAlterOperations`. -/
def reAlterOps : Regexp :=
  { re := seqs [words ["ALTER", "TABLE"], plus ws, plus (word true), plus ws,
      .group 1 (plus (dot true))], groups := 1 }

/-- `(?i)ADD\s+VALUE\s+(?:IF\s+NOT\s+EXISTS\s+)?'([^']+)'`, the pattern of `parseAlterType`. -/
def reAddValue : Regexp :=
  { re := seqs [words ["ADD", "VALUE"], plus ws, ifNotExists, lit true "'",
      .group 1 (plus (noneOf false [apostrophe])), lit true "'"], groups := 1 }

/-- `(?i)AS\s+(.+?)(?:\s+DEFAULT|\s+CHECK|\s+NOT\s+NULL|\s+NULL|\s+CONSTRAINT|\s*;|\s*$)`,
the pattern of `parseCreateDomain` for the base type. -/
def reDomainType : Regexp :=
  { re := seqs [lit true "AS", plus ws, .group 1 (lazyPlus (dot false)),
      alts [seqs [plus ws, lit true "DEFAULT"], seqs [plus ws, lit true "CHECK"],
        seqs [plus ws, words ["NOT", "NULL"]], seqs [plus ws, lit true "NULL"],
        seqs [plus ws, lit true "CONSTRAINT"], seqs [.star true ws, lit true ";"],
        seqs [.star true ws, .eol]]], groups := 1 }

/-- `(?i)DEFAULT\s+([^\s]+(?:\([^)]+\))?)`, the pattern of `parseCreateDomain`. -/
def reDomainDefault : Regexp :=
  { re := seqs [lit true "DEFAULT", plus ws,
      .group 1 (seqs [plus (noneOf true []),
        opt (seqs [lit true "(", plus (noneOf false [')']), lit true ")"])])], groups := 1 }

/-- `(?i)CHECK\s*\(([^)]+)\)`, the pattern of `parseCreateDomain`. -/
def reDomainCheck : Regexp :=
  { re := seqs [lit true "CHECK", .star true ws, lit true "(",
      .group 1 (plus (noneOf false [')'])), lit true ")"], groups := 1 }

/-- `(?i)WHERE\s+(.+)`, the pattern of `parseCreateIndex`. -/
def reWhere : Regexp :=
  { re := seqs [lit true "WHERE", plus ws, .group 1 (plus (dot false))], groups := 1 }

/-- `(?i)IS\s+'((?:[^']|'')+)'`, the pattern of `parseComment`. -/
def reCommentText : Regexp :=
  { re := seqs [lit true "IS", plus ws, lit true "'",
      .group 1 (plus (alts [noneOf false [apostrophe], lit true "''"])), lit true "'"],
    groups := 1 }

/-- `(?i)ALTER\s+TYPE\s+(\w+)\s+ADD\s+VALUE\s+'([^']+)'`, the pattern of `parseDoBlock`. -/
def reDoAlterType : Regexp :=
  { re := seqs [words ["ALTER", "TYPE"], plus ws, .group 1 (plus (word true)), plus ws,
      words ["ADD", "VALUE"], plus ws, lit true "'",
      .group 2 (plus (noneOf false [apostrophe])), lit true "'"], groups := 2 }

/-! ## lexer.go -/

/-- The text of a line up to the first `--`: the Go expression `line[:idx]` for
`idx := strings.Index(line, "--")`, and the whole line when there is none. -/
def cutAtDashes : List Char → List Char
  | [] => []
  | [c] => [c]
  | c :: d :: rest => if c = '-' && d = '-' then [] else c :: cutAtDashes (d :: rest)

/-- The function `StripComments`. -/
def StripComments (sql : String) : String :=
  concatAll ((Split sql '\n').map (fun line =>
    if TrimSpace (String.mk (cutAtDashes line.data)) ≠ "" then
      String.mk (cutAtDashes line.data) ++ "\n"
    else ""))

/-- The look-ahead of `SplitStatements` for the next `$`: the characters before it and the
text after it. -/
def findDollar : List Char → List Char → Option (List Char × List Char)
  | [], _ => none
  | c :: cs, acc => if c = '$' then some (acc.reverse, cs) else findDollar cs (c :: acc)

/-- The variables of the loop of `SplitStatements`. -/
structure SplitState where
  statements : List String
  current : List Char
  inSingleQuote : Bool
  inDoubleQuote : Bool
  inDollarQuote : Bool
  dollarTag : List Char

/-- The end of a statement in `SplitStatements`: the trimmed text is kept when not empty. -/
def flushStatement (st : SplitState) : List String :=
  if TrimSpace (String.mk st.current) ≠ "" then
    st.statements ++ [TrimSpace (String.mk st.current)]
  else st.statements

/-- The body of the loop of `SplitStatements` from "handle single quotes" on, for the
character `ch` followed by `rest`: the text still to read and the new variables. -/
def splitPlain (ch : Char) (rest : List Char) (st : SplitState) : List Char × SplitState :=
  if ch = apostrophe && !st.inDoubleQuote && !st.inDollarQuote then
    match rest with
    | next :: rest' =>
      if next = apostrophe then (rest', { st with current := st.current ++ [ch, next] })
      else (rest, { st with current := st.current ++ [ch],
                            inSingleQuote := !st.inSingleQuote })
    | [] => (rest, { st with current := st.current ++ [ch],
                             inSingleQuote := !st.inSingleQuote })
  else if ch = '"' && !st.inSingleQuote && !st.inDollarQuote then
    (rest, { st with current := st.current ++ [ch], inDoubleQuote := !st.inDoubleQuote })
  else if ch = ';' && !st.inSingleQuote && !st.inDoubleQuote && !st.inDollarQuote then
    (rest, { st with statements := flushStatement st, current := [] })
  else (rest, { st with current := st.current ++ [ch] })

/-- The body of the loop of `SplitStatements` for the character `ch` followed by `rest`. -/
def splitStep (ch : Char) (rest : List Char) (st : SplitState) : List Char × SplitState :=
  if ch = '$' && !st.inSingleQuote && !st.inDoubleQuote then
    match findDollar rest [] with
    | some (body, after) =>
      if st.inDollarQuote then
        if '$' :: (body ++ ['$']) = st.dollarTag then
          (after, { st with current := st.current ++ [ch] ++ body ++ ['$'],
                            inDollarQuote := false, dollarTag := [] })
        else splitPlain ch rest { st with current := st.current ++ [ch] }
      else
        (after, { st with current := st.current ++ '$' :: (body ++ ['$']),
                          inDollarQuote := true, dollarTag := '$' :: (body ++ ['$']) })
    | none => splitPlain ch rest st
  else splitPlain ch rest st

/-- The loop of `SplitStatements`.  Every step reads at least one character; the counter
starts above the length of the text. -/
def splitLoop : Nat → List Char → SplitState → List String
  | 0, _, st => flushStatement st
  | _ + 1, [], st => flushStatement st
  | n + 1, ch :: rest, st => splitLoop n (splitStep ch rest st).1 (splitStep ch rest st).2

/-- The function `SplitStatements`. -/
def SplitStatements (sql : String) : List String :=
  splitLoop (sql.data.length + 1) sql.data
    { statements := [], current := [], inSingleQuote := false, inDoubleQuote := false,
      inDollarQuote := false, dollarTag := [] }

/-- The loop of `ExtractParenthesesContent` after the opening parenthesis: `depth` is the
Go variable, `acc` the content read so far, reversed. -/
def parenScan : List Char → Nat → List Char → List Char
  | [], _, _ => []
  | c :: cs, depth, acc =>
    if c = '(' then parenScan cs (depth + 1) (c :: acc)
    else if c = ')' then
      (if depth - 1 = 0 then acc.reverse else parenScan cs (depth - 1) (c :: acc))
    else parenScan cs depth (c :: acc)

/-- The function `ExtractParenthesesContent`. -/
def ExtractParenthesesContent (s : String) : String :=
  match s.data.dropWhile (fun c => c ≠ '(') with
  | [] => ""
  | _ :: body => String.mk (parenScan body 1 [])

/-! ## statement.go -/

/-- The Go enumeration `StatementType`. -/
inductive StatementType where
  | Unknown | CreateTable | AlterTable | DropTable | CreateType | AlterType | DropType
  | CreateDomain | DropDomain | CreateView | DropView | CreateIndex | DropIndex | Comment
  | DoBlock
  deriving DecidableEq, Repr

/-- The Go enumeration `AlterTableOperation`. -/
inductive AlterTableOperation where
  | AddColumn | DropColumn | AlterColumn | AddConstraint | DropConstraint
  deriving DecidableEq, Repr

/-- The Go struct `AlterOperation`; the field `Typ` is the Go field `Type`. -/
structure AlterOperation where
  Typ : AlterTableOperation
  ColumnName : String
  DataType : String
  Details : String
  deriving DecidableEq, Repr

/-- The Go field `Statement.Details`, an `interface{}`: `nil` or a pointer to one of the
nine details structs. -/
inductive Details where
  | nil
  | CreateTableDetails (TableName Definition : String)
  | AlterTableDetails (TableName : String) (Operations : List AlterOperation)
  | CreateTypeDetails (TypeName : String) (Values : List String)
  | AlterTypeDetails (TypeName NewValue : String)
  | CreateDomainDetails (DomainName BaseType Default Constraint : String)
  | CreateViewDetails (ViewName Definition : String)
  | CreateIndexDetails (IndexName TableName : String) (Columns : List String) (Unique : Bool)
      (Where : String)
  | CommentDetails (ObjectType ObjectName Comment : String)
  | DoBlockDetails (Content TypeName Value : String)
  deriving DecidableEq, Repr

/-- The Go struct `Statement`; the field `Typ` is the Go field `Type`. -/
structure Statement where
  Typ : StatementType
  Original : String
  ObjectName : String
  Details : Details
  deriving DecidableEq, Repr

/-! ## parser.go -/

/-- The Go expression `matches[i]`, for an index the program has checked. -/
def nth (found : List String) (i : Nat) : String := found.getD i ""

/-- The method `parseCreateTable`. -/
def parseCreateTable (sql : String) : Except String Statement :=
  if (reCREATE_TABLE.FindStringSubmatch sql).length < 2 then
    .error ("invalid CREATE TABLE: " ++ sql)
  else
    .ok { Typ := .CreateTable, Original := sql,
          ObjectName := nth (reCREATE_TABLE.FindStringSubmatch sql) 1,
          Details := .CreateTableDetails (nth (reCREATE_TABLE.FindStringSubmatch sql) 1)
            (ExtractParenthesesContent sql) }

/-- The method `parseAlterOperations`. -/
def parseAlterOperations (sql : String) : List AlterOperation :=
  if (reAlterOps.FindStringSubmatch sql).length < 2 then []
  else
    let opsText := nth (reAlterOps.FindStringSubmatch sql) 1
    if (reALTER_COL_TYPE.FindStringSubmatch opsText).length ≥ 3 then
      [{ Typ := .AlterColumn, ColumnName := nth (reALTER_COL_TYPE.FindStringSubmatch opsText) 1,
         DataType := nth (reALTER_COL_TYPE.FindStringSubmatch opsText) 2, Details := opsText }]
    else if (reALTER_COL_NULL.FindStringSubmatch opsText).length ≥ 3 then
      [{ Typ := .AlterColumn, ColumnName := nth (reALTER_COL_NULL.FindStringSubmatch opsText) 1,
         DataType := "", Details := opsText }]
    else
      ((reADD_COLUMN.FindAllStringSubmatch opsText).filter (fun m => decide (m.length ≥ 3))).map
        (fun m => { Typ := .AddColumn, ColumnName := nth m 1, DataType := nth m 2,
                    Details := TrimSpace (nth m 0) })
      ++
      ((reDROP_COLUMN.FindAllStringSubmatch opsText).filter (fun m => decide (m.length ≥ 2))).map
        (fun m => { Typ := .DropColumn, ColumnName := nth m 1, DataType := "",
                    Details := TrimSpace (nth m 0) })

/-- The method `parseAlterTable`. -/
def parseAlterTable (sql : String) : Except String Statement :=
  if (reALTER_TABLE.FindStringSubmatch sql).length < 2 then
    .error ("invalid ALTER TABLE: " ++ sql)
  else
    .ok { Typ := .AlterTable, Original := sql,
          ObjectName := nth (reALTER_TABLE.FindStringSubmatch sql) 1,
          Details := .AlterTableDetails (nth (reALTER_TABLE.FindStringSubmatch sql) 1)
            (parseAlterOperations sql) }

/-- The shape shared by `parseDropTable`, `parseDropType`, `parseDropDomain`,
`parseDropView` and `parseDropIndex`: the object name is group 1, there are no details. -/
def parseDrop (re : Regexp) (typ : StatementType) (what : String) (sql : String) :
    Except String Statement :=
  if (re.FindStringSubmatch sql).length < 2 then .error ("invalid " ++ what ++ ": " ++ sql)
  else
    .ok { Typ := typ, Original := sql, ObjectName := nth (re.FindStringSubmatch sql) 1,
          Details := .nil }

/-- The loop of `parseEnumValues`: `current` is the builder, `inQuote` the Go variable. -/
def enumValuesLoop : List Char → List Char → Bool → List String → List String
  | [], current, _, values =>
    if TrimSpace (String.mk current) ≠ "" then values ++ [TrimSpace (String.mk current)]
    else values
  | ch :: rest, current, inQuote, values =>
    if ch = apostrophe then enumValuesLoop rest current (!inQuote) values
    else if ch = ',' && !inQuote then
      enumValuesLoop rest [] inQuote
        (if TrimSpace (String.mk current) ≠ "" then values ++ [TrimSpace (String.mk current)]
         else values)
    else enumValuesLoop rest (current ++ [ch]) inQuote values

/-- The method `parseEnumValues`. -/
def parseEnumValues (content : String) : List String :=
  enumValuesLoop content.data [] false []

/-- The method `parseCreateType`. -/
def parseCreateType (sql : String) : Except String Statement :=
  if (reCREATE_TYPE.FindStringSubmatch sql).length < 2 then
    .error ("invalid CREATE TYPE: " ++ sql)
  else
    .ok { Typ := .CreateType, Original := sql,
          ObjectName := nth (reCREATE_TYPE.FindStringSubmatch sql) 1,
          Details := .CreateTypeDetails (nth (reCREATE_TYPE.FindStringSubmatch sql) 1)
            (parseEnumValues (ExtractParenthesesContent sql)) }

/-- The method `parseAlterType`. -/
def parseAlterType (sql : String) : Except String Statement :=
  if (reALTER_TYPE.FindStringSubmatch sql).length < 2 then
    .error ("invalid ALTER TYPE: " ++ sql)
  else
    .ok { Typ := .AlterType, Original := sql,
          ObjectName := nth (reALTER_TYPE.FindStringSubmatch sql) 1,
          Details := .AlterTypeDetails (nth (reALTER_TYPE.FindStringSubmatch sql) 1)
            (if (reAddValue.FindStringSubmatch sql).length ≥ 2 then
              nth (reAddValue.FindStringSubmatch sql) 1 else "") }

/-- The method `parseCreateDomain`. -/
def parseCreateDomain (sql : String) : Except String Statement :=
  if (reCREATE_DOMAIN.FindStringSubmatch sql).length < 2 then
    .error ("invalid CREATE DOMAIN: " ++ sql)
  else
    .ok { Typ := .CreateDomain, Original := sql,
          ObjectName := nth (reCREATE_DOMAIN.FindStringSubmatch sql) 1,
          Details := .CreateDomainDetails (nth (reCREATE_DOMAIN.FindStringSubmatch sql) 1)
            (if (reDomainType.FindStringSubmatch sql).length ≥ 2 then
              TrimSpace (nth (reDomainType.FindStringSubmatch sql) 1) else "")
            (if (reDomainDefault.FindStringSubmatch sql).length ≥ 2 then
              nth (reDomainDefault.FindStringSubmatch sql) 1 else "")
            (if (reDomainCheck.FindStringSubmatch sql).length ≥ 2 then
              nth (reDomainCheck.FindStringSubmatch sql) 1 else "") }

/-- The method `parseCreateView`. -/
def parseCreateView (sql : String) : Except String Statement :=
  if (reCREATE_VIEW.FindStringSubmatch sql).length < 2 then
    .error ("invalid CREATE VIEW: " ++ sql)
  else
    .ok { Typ := .CreateView, Original := sql,
          ObjectName := nth (reCREATE_VIEW.FindStringSubmatch sql) 1,
          Details := .CreateViewDetails (nth (reCREATE_VIEW.FindStringSubmatch sql) 1) sql }

/-- The loop of `parseCreateIndex` over the columns: trim, keep the part before the first
space, keep it when not empty. -/
def indexColumns (columnsContent : String) : List String :=
  ((Split columnsContent ',').map (fun col => firstWord (TrimSpace col))).filter
    (fun col => decide (col ≠ ""))

/-- The method `parseCreateIndex`. -/
def parseCreateIndex (sql : String) : Except String Statement :=
  if (reCREATE_INDEX.FindStringSubmatch sql).length < 3 then
    .error ("invalid CREATE INDEX: " ++ sql)
  else
    .ok { Typ := .CreateIndex, Original := sql,
          ObjectName := nth (reCREATE_INDEX.FindStringSubmatch sql) 1,
          Details := .CreateIndexDetails (nth (reCREATE_INDEX.FindStringSubmatch sql) 1)
            (nth (reCREATE_INDEX.FindStringSubmatch sql) 2)
            (indexColumns (ExtractParenthesesContent sql))
            (Contains (ToUpper sql) "UNIQUE")
            (if (reWhere.FindStringSubmatch sql).length ≥ 2 then
              TrimSpace (nth (reWhere.FindStringSubmatch sql) 1) else "") }

/-- The Go expression `strings.ReplaceAll(s, "''", "'")`, on characters. -/
def unescapeQuotes : List Char → List Char
  | [] => []
  | [c] => [c]
  | c :: d :: rest =>
    if c = apostrophe && d = apostrophe then apostrophe :: unescapeQuotes rest
    else c :: unescapeQuotes (d :: rest)

/-- The method `parseComment`. -/
def parseComment (sql : String) : Except String Statement :=
  if (reCOMMENT_ON.FindStringSubmatch sql).length < 3 then
    .error ("invalid COMMENT: " ++ sql)
  else
    .ok { Typ := .Comment, Original := sql,
          ObjectName := nth (reCOMMENT_ON.FindStringSubmatch sql) 2,
          Details := .CommentDetails (ToUpper (nth (reCOMMENT_ON.FindStringSubmatch sql) 1))
            (nth (reCOMMENT_ON.FindStringSubmatch sql) 2)
            (if (reCommentText.FindStringSubmatch sql).length ≥ 2 then
              String.mk (unescapeQuotes (nth (reCommentText.FindStringSubmatch sql) 1).data)
             else "") }

/-- The method `parseDoBlock`. -/
def parseDoBlock (sql : String) : Except String Statement :=
  .ok { Typ := .DoBlock, Original := sql,
        ObjectName := if (reDoAlterType.FindStringSubmatch sql).length ≥ 3 then
            nth (reDoAlterType.FindStringSubmatch sql) 1 else "",
        Details := .DoBlockDetails sql
          (if (reDoAlterType.FindStringSubmatch sql).length ≥ 3 then
            nth (reDoAlterType.FindStringSubmatch sql) 1 else "")
          (if (reDoAlterType.FindStringSubmatch sql).length ≥ 3 then
            nth (reDoAlterType.FindStringSubmatch sql) 2 else "") }

/-- The method `parseStatement`, on the trimmed text: the first pattern that matches
decides.  `none` is Go's `nil, nil`: the statement is skipped. -/
def classify (sql : String) : Except String (Option Statement) :=
  if reCREATE_TABLE.MatchString sql then (parseCreateTable sql).map some
  else if reALTER_TABLE.MatchString sql then (parseAlterTable sql).map some
  else if reDROP_TABLE.MatchString sql then
    (parseDrop reDROP_TABLE .DropTable "DROP TABLE" sql).map some
  else if reCREATE_TYPE.MatchString sql then (parseCreateType sql).map some
  else if reALTER_TYPE.MatchString sql then (parseAlterType sql).map some
  else if reDROP_TYPE.MatchString sql then
    (parseDrop reDROP_TYPE .DropType "DROP TYPE" sql).map some
  else if reCREATE_DOMAIN.MatchString sql then (parseCreateDomain sql).map some
  else if reDROP_DOMAIN.MatchString sql then
    (parseDrop reDROP_DOMAIN .DropDomain "DROP DOMAIN" sql).map some
  else if reCREATE_VIEW.MatchString sql then (parseCreateView sql).map some
  else if reDROP_VIEW.MatchString sql then
    (parseDrop reDROP_VIEW .DropView "DROP VIEW" sql).map some
  else if reCREATE_INDEX.MatchString sql then (parseCreateIndex sql).map some
  else if reDROP_INDEX.MatchString sql then
    (parseDrop reDROP_INDEX .DropIndex "DROP INDEX" sql).map some
  else if reCOMMENT_ON.MatchString sql then (parseComment sql).map some
  else if reDO_BLOCK.MatchString sql then (parseDoBlock sql).map some
  else .ok none

/-- The method `parseStatement`. -/
def parseStatement (sql : String) : Except String (Option Statement) :=
  if TrimSpace sql = "" then .ok none else classify (TrimSpace sql)

/-- The loop of `Parse` over the raw statements. -/
def parseAll : List String → List Statement → Except String (List Statement)
  | [], statements => .ok statements
  | rawStmt :: rest, statements =>
    match parseStatement rawStmt with
    | .error err => .error err
    | .ok none => parseAll rest statements
    | .ok (some stmt) => parseAll rest (statements ++ [stmt])

/-- The method `Parse`. -/
def Parse (sql : String) : Except String (List Statement) :=
  parseAll (SplitStatements (StripComments sql)) []

/-! ### The patterns of applier.go and view.go -/

/-- A referential action, `\w+(?:\s+\w+)?`; `fold` is the flag `i`. -/
def actionRe (fold : Bool) : Re :=
  seqs [plus (word fold), opt (seqs [plus ws, plus (word fold)])]

/-- `(?i)DEFAULT\s+([^\s,]+(?:\([^)]*\))?)`, the pattern of `parseColumnDefinition` and
`applyAddColumn`. -/
def reColumnDefault : Regexp :=
  { re := seqs [lit true "DEFAULT", plus ws,
      .group 1 (seqs [plus (noneOf true [',']),
        opt (seqs [lit true "(", .star true (noneOf false [')']), lit true ")"])])],
    groups := 1 }

/-- `(?i)REFERENCES\s+(\w+)\s*\((\w+)\)(?:\s+ON\s+DELETE\s+(\w+(?:\s+\w+)?))?`
`(?:\s+ON\s+UPDATE\s+(\w+(?:\s+\w+)?))?`, the pattern of `parseColumnDefinition`. -/
def reInlineReferences : Regexp :=
  { re := seqs [lit true "REFERENCES", plus ws, .group 1 (plus (word true)), .star true ws,
      lit true "(", .group 2 (plus (word true)), lit true ")",
      opt (seqs [plus ws, words ["ON", "DELETE"], plus ws, .group 3 (actionRe true)]),
      opt (seqs [plus ws, words ["ON", "UPDATE"], plus ws, .group 4 (actionRe true)])],
    groups := 4 }

/-- `PRIMARY\s+KEY\s*\(([^)]+)\)`, the pattern of `parsePrimaryKey`. -/
def rePrimaryKey : Regexp :=
  { re := seqs [lit false "PRIMARY", plus ws, lit false "KEY", .star true ws, lit false "(",
      .group 1 (plus (noneOf false [')'])), lit false ")"], groups := 1 }

/-- `FOREIGN\s+KEY\s*\(([^)]+)\)\s+REFERENCES\s+(\w+)\s*\(([^)]+)\)`, the pattern of
`parseForeignKey`. -/
def reForeignKey : Regexp :=
  { re := seqs [lit false "FOREIGN", plus ws, lit false "KEY", .star true ws, lit false "(",
      .group 1 (plus (noneOf false [')'])), lit false ")", plus ws, lit false "REFERENCES",
      plus ws, .group 2 (plus (word false)), .star true ws, lit false "(",
      .group 3 (plus (noneOf false [')'])), lit false ")"], groups := 3 }

/-- `ON\s+DELETE\s+(\w+(?:\s+\w+)?)`, the pattern of `parseForeignKey`. -/
def reOnDelete : Regexp :=
  { re := seqs [lit false "ON", plus ws, lit false "DELETE", plus ws, .group 1 (actionRe false)],
    groups := 1 }

/-- `ON\s+UPDATE\s+(\w+(?:\s+\w+)?)`, the pattern of `parseForeignKey`. -/
def reOnUpdate : Regexp :=
  { re := seqs [lit false "ON", plus ws, lit false "UPDATE", plus ws, .group 1 (actionRe false)],
    groups := 1 }

/-- `UNIQUE\s*\(([^)]+)\)`, the pattern of `parseUnique`. -/
def reUnique : Regexp :=
  { re := seqs [lit false "UNIQUE", .star true ws, lit false "(",
      .group 1 (plus (noneOf false [')'])), lit false ")"], groups := 1 }

/-- `CHECK\s*\((.+)\)`, the pattern of `parseCheck`. -/
def reCheck : Regexp :=
  { re := seqs [lit false "CHECK", .star true ws, lit false "(", .group 1 (plus (dot false)),
      lit false ")"], groups := 1 }

/-- `(?i)\bFROM\s+(\w+)`, the pattern of `ExtractDependencies`. -/
def reFrom : Regexp :=
  { re := seqs [.wordBoundary, lit true "FROM", plus ws, .group 1 (plus (word true))],
    groups := 1 }

/-- `(?i)\bJOIN\s+(\w+)`, the pattern of `ExtractDependencies`. -/
def reJoin : Regexp :=
  { re := seqs [.wordBoundary, lit true "JOIN", plus ws, .group 1 (plus (word true))],
    groups := 1 }

/-! ## view.go -/

/-- The method `View.ExtractDependencies`. -/
def View.ExtractDependencies (v : View) : View :=
  { v with
    DependsOn :=
      (((reFrom.FindAllStringSubmatch v.Definition).filter (fun m => decide (m.length ≥ 2)))
        ++ ((reJoin.FindAllStringSubmatch v.Definition).filter (fun m => decide (m.length ≥ 2)))
        ).foldl (fun deps m => if contains deps (nth m 1) then deps else deps ++ [nth m 1]) [] }

/-! ## applier.go -/

/-- The Go struct `Applier`. -/
structure Applier where
  state : DatabaseState
  currentMigration : Int
  deriving DecidableEq, Repr

/-- The constructor `NewApplier`. -/
def NewApplier (dbState : DatabaseState) : Applier :=
  { state := dbState, currentMigration := 0 }

/-- The method `SetCurrentMigration`. -/
def Applier.SetCurrentMigration (a : Applier) (migrationNumber : Int) : Applier :=
  { a with currentMigration := migrationNumber }

/-- The loop of `splitTopLevel`: `current` is the builder, `depth` the Go variable. -/
def splitTopLevelLoop (delim : Char) : List Char → List Char → Int → List String → List String
  | [], current, _, parts => if current.length > 0 then parts ++ [String.mk current] else parts
  | ch :: rest, current, depth, parts =>
    if ch = '(' then splitTopLevelLoop delim rest (current ++ [ch]) (depth + 1) parts
    else if ch = ')' then splitTopLevelLoop delim rest (current ++ [ch]) (depth - 1) parts
    else if ch = delim && depth = 0 then
      splitTopLevelLoop delim rest [] depth (parts ++ [String.mk current])
    else splitTopLevelLoop delim rest (current ++ [ch]) depth parts

/-- The function `splitTopLevel`. -/
def splitTopLevel (s : String) (delim : Char) : List String :=
  splitTopLevelLoop delim s.data [] 0 []

/-- The Go expression `strings.TrimSpace(col)` over the pieces of `strings.Split(s, ",")`:
the loops of `parsePrimaryKey`, `parseForeignKey` and `parseUnique` over the columns. -/
def columnList (s : String) : List String := (Split s ',').map TrimSpace

/-- The part "parse type" of `parseColumnDefinition`: the type and the final `typeIdx`, for
the fields `parts` (at least two). -/
def columnType (parts : List String) : String × Nat :=
  let multi : String × Nat :=
    if 2 < parts.length then
      if ToLower (nth parts 2) = "precision" || ToLower (nth parts 2) = "varying" then
        (nth parts 1 ++ " " ++ nth parts 2, 2)
      else if ToLower (nth parts 2) = "with" || ToLower (nth parts 2) = "without" then
        if 3 < parts.length && ToLower (nth parts 3) = "time" then
          if 4 < parts.length && ToLower (nth parts 4) = "zone" then
            (nth parts 1 ++ " " ++ nth parts 2 ++ " " ++ nth parts 3 ++ " " ++ nth parts 4, 4)
          else (nth parts 1, 1)
        else if 3 < parts.length && ToLower (nth parts 3) = "zone" then
          (nth parts 1 ++ " " ++ nth parts 2 ++ " " ++ nth parts 3, 3)
        else (nth parts 1, 1)
      else (nth parts 1, 1)
    else (nth parts 1, 1)
  if multi.2 + 1 < parts.length && HasPrefix (nth parts (multi.2 + 1)) "(" then
    (multi.1 ++ " " ++ nth parts (multi.2 + 1), multi.2 + 1)
  else multi

/-- The method `parseColumnDefinition`. -/
def parseColumnDefinition (table : Table) (definition : String) : Table :=
  let parts := Fields definition
  if parts.length < 2 then table
  else
    let remaining := Join (parts.drop ((columnType parts).2 + 1)) " "
    let col : Column :=
      { Name := nth parts 0, Typ := (columnType parts).1,
        Nullable := !Contains (ToUpper remaining) "NOT NULL",
        Default := if (reColumnDefault.FindStringSubmatch remaining).length ≥ 2 then
            nth (reColumnDefault.FindStringSubmatch remaining) 1 else "",
        Generated := "", Comment := "" }
    let table1 : Table :=
      if Contains (ToUpper remaining) "PRIMARY KEY" then
        { table with PrimaryKey := some { Columns := [col.Name], Name := "" } }
      else table
    let table2 : Table :=
      if (reInlineReferences.FindStringSubmatch remaining).length ≥ 3 then
        table1.AddForeignKey
          { Name := "", Columns := [col.Name],
            ReferencedTable := nth (reInlineReferences.FindStringSubmatch remaining) 1,
            ReferencedColumns := [nth (reInlineReferences.FindStringSubmatch remaining) 2],
            OnDelete := nth (reInlineReferences.FindStringSubmatch remaining) 3,
            OnUpdate := nth (reInlineReferences.FindStringSubmatch remaining) 4 }
      else table1
    table2.AddColumn col

/-- The method `parsePrimaryKey`. -/
def parsePrimaryKey (table : Table) (definition : String) : Table :=
  if (rePrimaryKey.FindStringSubmatch definition).length ≥ 2 then
    { table with
      PrimaryKey := some
        { Columns := columnList (nth (rePrimaryKey.FindStringSubmatch definition) 1),
          Name := "" } }
  else table

/-- The method `parseForeignKey`. -/
def parseForeignKey (table : Table) (definition : String) : Table :=
  if (reForeignKey.FindStringSubmatch definition).length ≥ 4 then
    table.AddForeignKey
      { Name := "",
        Columns := columnList (nth (reForeignKey.FindStringSubmatch definition) 1),
        ReferencedTable := nth (reForeignKey.FindStringSubmatch definition) 2,
        ReferencedColumns := columnList (nth (reForeignKey.FindStringSubmatch definition) 3),
        OnDelete := if (reOnDelete.FindStringSubmatch definition).length ≥ 2 then
            nth (reOnDelete.FindStringSubmatch definition) 1 else "",
        OnUpdate := if (reOnUpdate.FindStringSubmatch definition).length ≥ 2 then
            nth (reOnUpdate.FindStringSubmatch definition) 1 else "" }
  else table

/-- The method `parseUnique`. -/
def parseUnique (table : Table) (definition : String) : Table :=
  if (reUnique.FindStringSubmatch definition).length ≥ 2 then
    table.AddUnique
      { Name := "", Columns := columnList (nth (reUnique.FindStringSubmatch definition) 1) }
  else table

/-- The method `parseCheck`. -/
def parseCheck (table : Table) (definition : String) : Table :=
  if (reCheck.FindStringSubmatch definition).length ≥ 2 then
    table.AddCheck { Name := "", Expression := nth (reCheck.FindStringSubmatch definition) 1 }
  else table

/-- The body of the loop of `parseTableDefinition`, for one part. -/
def parseTablePart (table : Table) (rawPart : String) : Table :=
  let part := TrimSpace rawPart
  if part = "" then table
  else if HasPrefix (ToUpper part) "PRIMARY KEY" then parsePrimaryKey table part
  else if HasPrefix (ToUpper part) "FOREIGN KEY" then parseForeignKey table part
  else if HasPrefix (ToUpper part) "UNIQUE" then parseUnique table part
  else if HasPrefix (ToUpper part) "CHECK" then parseCheck table part
  else parseColumnDefinition table part

/-- The method `parseTableDefinition`. -/
def parseTableDefinition (table : Table) (definition : String) : Table :=
  (splitTopLevel definition ',').foldl parseTablePart table

/-- The method `applyCreateTable`. -/
def Applier.applyCreateTable (a : Applier) (stmt : Statement) : Except String Applier :=
  match stmt.Details with
  | .CreateTableDetails tableName definition =>
    .ok { a with
          state := a.state.AddOrUpdateTable
            (parseTableDefinition { NewTable tableName with CreatedIn := a.currentMigration }
              definition) }
  | _ => .error "invalid CREATE TABLE details"

/-- The method `applyAddColumn`. -/
def applyAddColumn (table : Table) (op : AlterOperation) : Table :=
  table.AddColumn
    { Name := op.ColumnName, Typ := op.DataType,
      Nullable := !Contains (ToUpper op.Details) "NOT NULL",
      Default := if (reColumnDefault.FindStringSubmatch op.Details).length ≥ 2 then
          nth (reColumnDefault.FindStringSubmatch op.Details) 1 else "",
      Generated := "", Comment := "" }

/-- The method `applyDropColumn`: the global indexes that name the column go first, then
`Table.DropColumn`. -/
def applyDropColumn (state : DatabaseState) (table : Table) (op : AlterOperation) :
    DatabaseState × Table :=
  (table.Indexes.foldl
      (fun st idx => if indexReferencesColumn idx op.ColumnName then st.DropIndex idx.Name else st)
      state,
    table.DropColumn op.ColumnName)

/-- The method `applyAlterColumn`. -/
def applyAlterColumn (table : Table) (op : AlterOperation) : Table :=
  let table1 :=
    if op.DataType ≠ "" then table.AlterColumn op.ColumnName (fun col => { col with Typ := op.DataType })
    else table
  if Contains (ToUpper op.Details) "SET NOT NULL" then
    table1.AlterColumn op.ColumnName (fun col => { col with Nullable := false })
  else if Contains (ToUpper op.Details) "DROP NOT NULL" then
    table1.AlterColumn op.ColumnName (fun col => { col with Nullable := true })
  else table1

/-- The body of the loop of `applyAlterTable` over the operations. -/
def applyAlterOperation (acc : DatabaseState × Table) (op : AlterOperation) :
    DatabaseState × Table :=
  match op.Typ with
  | .AddColumn => (acc.1, applyAddColumn acc.2 op)
  | .DropColumn => applyDropColumn acc.1 acc.2 op
  | .AlterColumn => (acc.1, applyAlterColumn acc.2 op)
  | _ => acc

/-- The method `applyAlterTable`.  Go changes the table through the pointer held in the
map; here the changed table is put back under its name. -/
def Applier.applyAlterTable (a : Applier) (stmt : Statement) : Except String Applier :=
  match stmt.Details with
  | .AlterTableDetails tableName operations =>
    let start : DatabaseState × Table :=
      match a.state.GetTable tableName with
      | some table => (a.state, table)
      | none => (a.state.AddOrUpdateTable (NewTable tableName), NewTable tableName)
    let result := operations.foldl applyAlterOperation start
    .ok { a with state := { result.1 with Tables := mapSet result.1.Tables tableName result.2 } }
  | _ => .error "invalid ALTER TABLE details"

/-- The method `applyCreateType`. -/
def Applier.applyCreateType (a : Applier) (stmt : Statement) : Except String Applier :=
  match stmt.Details with
  | .CreateTypeDetails typeName values =>
    .ok { a with
          state := a.state.AddOrUpdateEnum
            (values.foldl Enum.AddValue { NewEnum typeName with CreatedIn := a.currentMigration }) }
  | _ => .error "invalid CREATE TYPE details"

/-- The steps shared by `applyAlterType` and `applyDoBlock`: fetch the enum or create it,
then add the value. -/
def addEnumValue (a : Applier) (typeName value : String) : Applier :=
  match a.state.GetEnum typeName with
  | some enum =>
    { a with state := { a.state with Enums := mapSet a.state.Enums typeName (enum.AddValue value) } }
  | none =>
    { a with
      state :=
        let st := a.state.AddOrUpdateEnum { NewEnum typeName with CreatedIn := a.currentMigration }
        { st with
          Enums := mapSet st.Enums typeName
            (Enum.AddValue { NewEnum typeName with CreatedIn := a.currentMigration } value) } }

/-- The first step of `applyAlterType` alone, for an empty new value: fetch the enum or
create it. -/
def ensureEnum (a : Applier) (typeName : String) : Applier :=
  match a.state.GetEnum typeName with
  | some _ => a
  | none =>
    { a with
      state := a.state.AddOrUpdateEnum { NewEnum typeName with CreatedIn := a.currentMigration } }

/-- The method `applyAlterType`. -/
def Applier.applyAlterType (a : Applier) (stmt : Statement) : Except String Applier :=
  match stmt.Details with
  | .AlterTypeDetails typeName newValue =>
    if newValue ≠ "" then .ok (addEnumValue a typeName newValue) else .ok (ensureEnum a typeName)
  | _ => .error "invalid ALTER TYPE details"

/-- The method `applyCreateDomain`. -/
def Applier.applyCreateDomain (a : Applier) (stmt : Statement) : Except String Applier :=
  match stmt.Details with
  | .CreateDomainDetails domainName baseType default constraint =>
    .ok { a with
          state := a.state.AddOrUpdateDomain
            { NewDomain domainName with
              CreatedIn := a.currentMigration, BaseType := baseType, Default := default,
              Constraint := constraint } }
  | _ => .error "invalid CREATE DOMAIN details"

/-- The method `applyCreateView`. -/
def Applier.applyCreateView (a : Applier) (stmt : Statement) : Except String Applier :=
  match stmt.Details with
  | .CreateViewDetails viewName definition =>
    .ok { a with
          state := a.state.AddOrUpdateView
            (View.ExtractDependencies
              { NewView viewName with CreatedIn := a.currentMigration, Definition := definition }) }
  | _ => .error "invalid CREATE VIEW details"

/-- The method `applyCreateIndex`. -/
def Applier.applyCreateIndex (a : Applier) (stmt : Statement) : Except String Applier :=
  match stmt.Details with
  | .CreateIndexDetails indexName tableName columns unique whereClause =>
    let idx : Index :=
      { Name := indexName, Columns := columns, Unique := unique, Where := whereClause,
        Method := "" }
    let st := a.state.AddIndex idx
    match st.GetTable tableName with
    | some table =>
      .ok { a with state := { st with Tables := mapSet st.Tables tableName (table.AddIndex idx) } }
    | none => .ok { a with state := st }
  | _ => .error "invalid CREATE INDEX details"

/-- The method `applyComment`. -/
def Applier.applyComment (a : Applier) (stmt : Statement) : Except String Applier :=
  match stmt.Details with
  | .CommentDetails objectType objectName comment =>
    if objectType = "TABLE" then
      match a.state.GetTable objectName with
      | some table =>
        .ok { a with
              state := { a.state with
                Tables := mapSet a.state.Tables objectName { table with TableComment := comment } } }
      | none => .ok a
    else if objectType = "COLUMN" then
      match Split objectName '.' with
      | [tableName, colName] =>
        match a.state.GetTable tableName with
        | some table =>
          .ok { a with
                state := { a.state with
                  Tables := mapSet a.state.Tables tableName
                    (table.SetColumnComment colName comment) } }
        | none => .ok a
      | _ => .ok a
    else if objectType = "TYPE" then
      match a.state.GetEnum objectName with
      | some enum =>
        .ok { a with
              state := { a.state with
                Enums := mapSet a.state.Enums objectName { enum with TypeComment := comment } } }
      | none => .ok a
    else if objectType = "VIEW" then
      match a.state.GetView objectName with
      | some view =>
        .ok { a with
              state := { a.state with
                Views := mapSet a.state.Views objectName { view with Comment := comment } } }
      | none => .ok a
    else .ok a
  | _ => .error "invalid COMMENT details"

/-- The method `applyDoBlock`. -/
def Applier.applyDoBlock (a : Applier) (stmt : Statement) : Except String Applier :=
  match stmt.Details with
  | .DoBlockDetails _ typeName value =>
    if typeName ≠ "" && value ≠ "" then .ok (addEnumValue a typeName value) else .ok a
  | _ => .error "invalid DO BLOCK details"

/-- The method `Apply`. -/
def Applier.Apply (a : Applier) (stmt : Statement) : Except String Applier :=
  match stmt.Typ with
  | .CreateTable => a.applyCreateTable stmt
  | .AlterTable => a.applyAlterTable stmt
  | .DropTable => .ok { a with state := a.state.DropTable stmt.ObjectName }
  | .CreateType => a.applyCreateType stmt
  | .AlterType => a.applyAlterType stmt
  | .DropType => .ok { a with state := a.state.DropEnum stmt.ObjectName }
  | .CreateDomain => a.applyCreateDomain stmt
  | .DropDomain => .ok { a with state := a.state.DropDomain stmt.ObjectName }
  | .CreateView => a.applyCreateView stmt
  | .DropView => .ok { a with state := a.state.DropView stmt.ObjectName }
  | .CreateIndex => a.applyCreateIndex stmt
  | .DropIndex => .ok { a with state := a.state.DropIndex stmt.ObjectName }
  | .Comment => a.applyComment stmt
  | .DoBlock => a.applyDoBlock stmt
  | .Unknown => .ok a

/-- The loop of `Consolidate` over the statements of one migration. -/
def applyAll (a : Applier) : List Statement → Except String Applier
  | [] => .ok a
  | stmt :: rest =>
    match a.Apply stmt with
    | .error err => .error err
    | .ok a' => applyAll a' rest

/-- Phase 2 of `Consolidate` for one migration: set the current migration number, parse the
text of the up file, apply its statements. -/
def applyMigration (a : Applier) (number : Int) (sql : String) : Except String Applier :=
  match Parse sql with
  | .error err => .error err
  | .ok statements => applyAll (a.SetCurrentMigration number) statements

/-- The column `col` of the table `table` in the catalog of an applier, when all exist. -/
def columnIn (r : Except String Applier) (table col : String) : Option Column :=
  match r with
  | .ok a => (mapGet a.state.Tables table).bind (fun t => mapGet t.Columns col)
  | .error _ => none

/-! ## Notions for the proofs about `TopologicalSort` -/

/-- How often `x` is listed under a key of `E` that is not in `done`: the number of
dependencies of `x` whose target has not been emitted yet. -/
def pending (E : List (String × List String)) (done : List String) (x : String) : Nat :=
  match E with
  | [] => 0
  | e :: rest => (if e.1 ∈ done then 0 else e.2.count x) + pending rest done x

/-- The invariant of the main loop: `d` is the in-degree map, `q` the queue, `res` the
result so far, `S` a set of names that holds every name the loop can meet. -/
structure SortInv (g : DependencyGraph) (S : List String) (d : List (String × Int))
    (q res : List String) : Prop where
  nodup : (res ++ q).Nodup
  deg : ∀ x, mapGetD d x 0 = (pending g.Edges res x : Int)
  ready : ∀ x ∈ q, pending g.Edges res x = 0
  ordered : ∀ e ∈ g.Edges, ∀ x ∈ e.2, x ∈ res → res.indexOf e.1 < res.indexOf x
  sub : ∀ x ∈ res ++ q, x ∈ S

/-- The number of entries of the in-degree map with a positive degree. -/
def posCount (d : List (String × Int)) : Nat :=
  match d with
  | [] => 0
  | e :: rest => (if 0 < e.2 then 1 else 0) + posCount rest

/-! ## Notions for the proofs about `BuildDependencyGraph` -/

/-- The edges of `g` have one list per key and list only names that satisfy `P`. -/
def GraphOK (P : String → Prop) (g : DependencyGraph) : Prop :=
  (mapKeys g.Edges).Nodup ∧ ∀ e ∈ g.Edges, ∀ x ∈ e.2, P x

/-- The graph `g'` has the nodes of `g`, keeps every listing of `g`, and is `GraphOK`
when `g` is. -/
def GraphLe (P : String → Prop) (g g' : DependencyGraph) : Prop :=
  g'.Nodes = g.Nodes ∧ (GraphOK P g → GraphOK P g') ∧
    ∀ k x, x ∈ mapGetD g.Edges k [] → x ∈ mapGetD g'.Edges k []

/-! ## Example catalogs and graphs -/

/-- A table with the given name, migration number and foreign keys, and nothing else. -/
def tableWith (name : String) (createdIn : Int) (fks : List ForeignKey) : Table :=
  { NewTable name with CreatedIn := createdIn, ForeignKeys := fks }

/-- A foreign key from column `col` to `target(id)`. -/
def fkTo (col target : String) : ForeignKey :=
  { Name := "", Columns := [col], ReferencedTable := target, ReferencedColumns := ["id"],
    OnDelete := "", OnUpdate := "" }

/-- Scenario 4 of the specification: table `b`, then table `a` with a foreign key to `b`. -/
def fkCatalog : DatabaseState :=
  { NewDatabaseState with
    Tables := [("b", tableWith "b" 1 []), ("a", tableWith "a" 2 [fkTo "bid" "b"])] }

/-- A graph made with `AddNode` and `AddEdge` in which two names that are not nodes, `x` and
`y`, depend on the node `a`, and the nodes `b` and `c` depend on each other. -/
def strayGraph : DependencyGraph :=
  ((((((NewDependencyGraph.AddNode .ObjectTable "a" 1).AddNode .ObjectTable "b" 2).AddNode
    .ObjectTable "c" 3).AddEdge "b" "c").AddEdge "c" "b").AddEdge "x" "a").AddEdge "y" "a"

/-- The table `orders` keeps its foreign key to `customers`; the table `customers` was
dropped (or never created) and is not in the catalog. -/
def danglingCatalog : DatabaseState :=
  { NewDatabaseState with
    Tables := [("orders", tableWith "orders" 2 [fkTo "customer_id" "customers"])] }

/-- Two tables without dependencies, created in the same migration. -/
def twinGraph : DependencyGraph :=
  (NewDependencyGraph.AddNode .ObjectTable "a" 1).AddNode .ObjectTable "b" 1

/-! ## Notions for the statements and proofs about `Generate` -/

/-- Does `Generate` emit a migration for `name`: is `name` a domain, table or view node of
the graph that is present in the catalog under that kind? -/
def emitsMigration (graph : DependencyGraph) (state : DatabaseState) (name : String) : Bool :=
  match mapGet graph.Nodes name with
  | none => false
  | some node =>
    match node.Typ with
    | .ObjectDomain => (mapGet state.Domains name).isSome
    | .ObjectEnum => false
    | .ObjectTable => (mapGet state.Tables name).isSome
    | .ObjectView => (mapGet state.Views name).isSome

/-- The text that the loop of `GenerateRequiredEnums` writes for the enums `names`: for each
one, `GenerateEnumSQL` and two newlines. -/
def enumBlocks (state : DatabaseState) (names : List String) : String :=
  concatAll (names.map (fun n =>
    match mapGet state.Enums n with
    | some enum => GenerateEnumSQL enum ++ "\n\n"
    | none => ""))

/-- The names for which the loop of `GenerateRequiredEnums` writes a block, when it runs
over `required` with `used` as `enumsUsed`. -/
def toWrite (state : DatabaseState) : List String → List (String × Bool) → List String
  | [], _ => []
  | n :: rest, used =>
    if mapGetD used n false then toWrite state rest used
    else
      match mapGet state.Enums n with
      | none => toWrite state rest used
      | some _ => n :: toWrite state rest (mapSet used n true)

/-- The map `enumsUsed` after the loop of `GenerateRequiredEnums`. -/
def usedAfter (state : DatabaseState) : List String → List (String × Bool) → List (String × Bool)
  | [], used => used
  | n :: rest, used =>
    if mapGetD used n false then usedAfter state rest used
    else
      match mapGet state.Enums n with
      | none => usedAfter state rest used
      | some _ => usedAfter state rest (mapSet used n true)

/-- Is `name` a table that `Generate` emits and that requires the enum `E`: a table node of
the graph, present in the catalog, with `E` among its `RequiredEnums`, `E` an enum of the
catalog? -/
def tableRequires (graph : DependencyGraph) (state : DatabaseState) (E name : String) : Bool :=
  match mapGet graph.Nodes name with
  | none => false
  | some node =>
    match node.Typ with
    | .ObjectTable =>
      match mapGet state.Tables name with
      | none => false
      | some table => decide (E ∈ table.RequiredEnums) && (mapGet state.Enums E).isSome
    | _ => false

/-- The generator after `Generate` has gone through `objs`. -/
def generatorAfter (g : Generator) : List String → Generator
  | [] => g
  | objName :: rest =>
    match mapGet g.graph.Nodes objName with
    | none => generatorAfter g rest
    | some node =>
      match node.Typ with
      | .ObjectTable =>
        match mapGet g.state.Tables objName with
        | none => generatorAfter g rest
        | some table => generatorAfter (GenerateTableMigration g table).2.2 rest
      | _ => generatorAfter g rest

/-- The up-SQL of the traced migration `p` is made of the blocks of the enums `p.2`, in
this order (trimmed, then a newline), followed by the text of one table; or, when `p.2` is
empty, it is the text of one domain, table or view alone. -/
def UpSQLFromBlocks (state : DatabaseState) (p : ConsolidatedMigration × List String) : Prop :=
  (p.2 = [] ∧ ((∃ d : Domain, p.1.UpSQL = GenerateDomainSQL d) ∨
      (∃ t : Table, p.1.UpSQL = GenerateTableSQL t) ∨
      (∃ v : View, p.1.UpSQL = GenerateViewSQL v))) ∨
  (p.2 ≠ [] ∧ ∃ t : Table,
      p.1.UpSQL = TrimSpace (enumBlocks state p.2) ++ "\n" ++ GenerateTableSQL t)

/-- The catalog `s'` has the views and domains of `s` and an enum for the same names. -/
def EnumsKept (s s' : DatabaseState) : Prop :=
  s'.Views = s.Views ∧ s'.Domains = s.Domains ∧
    ∀ x, (mapGet s'.Enums x).isSome = (mapGet s.Enums x).isSome

/-- The body of the loop of `AnalyzeEnumUsage` for one table. -/
def analyzeTable (st : DatabaseState) (e : String × Table) : DatabaseState :=
  { (e.2.ColumnOrder.foldl (fun acc colName => analyzeColumn acc e.1 colName) (st, e.2)).1 with
    Tables := mapSet
      (e.2.ColumnOrder.foldl (fun acc colName => analyzeColumn acc e.1 colName) (st, e.2)).1.Tables
      e.1 (e.2.ColumnOrder.foldl (fun acc colName => analyzeColumn acc e.1 colName) (st, e.2)).2 }

/-! ## More example catalogs and tables -/

/-- A column with the given name and type, nullable, without default. -/
def plainColumn (name typ : String) : Column :=
  { Name := name, Typ := typ, Nullable := true, Default := "", Generated := "", Comment := "" }

/-- A catalog with the enum `mood`, which no table uses, and the table `t (id int)`. -/
def unusedEnumCatalog : DatabaseState :=
  { NewDatabaseState with
    Enums := [("mood", { NewEnum "mood" with Values := ["sad", "ok"], CreatedIn := 1 })]
    Tables := [("t", { (NewTable "t").AddColumn (plainColumn "id" "int") with CreatedIn := 2 })] }

/-- Scenario 3 of the specification: the enum `status`, then the table `t (s status)`. -/
def enumCatalog : DatabaseState :=
  { NewDatabaseState with
    Enums := [("status", { NewEnum "status" with Values := ["a", "b"], CreatedIn := 1 })]
    Tables := [("t", { (NewTable "t").AddColumn (plainColumn "s" "status") with CreatedIn := 2 })] }

/-- The catalog of scenario 3 with a view that has the name of the table, `t`. -/
def sameNameCatalog : DatabaseState :=
  { enumCatalog with
    Views := [("t", { NewView "t" with Definition := "CREATE VIEW t AS SELECT 1", CreatedIn := 3 })] }

/-- A table `t (a int, b int)` with the given map of column comments. -/
def commentedTable (comments : List (String × String)) : Table :=
  { ((NewTable "t").AddColumn (plainColumn "a" "int")).AddColumn (plainColumn "b" "int") with
    ColumnComments := comments }

/-! ## Notions for the statements about the applier -/

/-- The view `name` in the catalog of an applier, when the run succeeded. -/
def viewIn (r : Except String Applier) (name : String) : Option View :=
  match r with
  | .ok a => mapGet a.state.Views name
  | .error _ => none

/-- The table `name` in the catalog of an applier, when the run succeeded. -/
def tableIn (r : Except String Applier) (name : String) : Option Table :=
  match r with
  | .ok a => mapGet a.state.Tables name
  | .error _ => none

/-- The enum `name` in the catalog of an applier, when the run succeeded. -/
def enumIn (r : Except String Applier) (name : String) : Option Enum :=
  match r with
  | .ok a => mapGet a.state.Enums name
  | .error _ => none

/-- Phase 2 of `Consolidate` over the texts of the up files, each with its number. -/
def applyMigrations (a : Applier) : List (Int × String) → Except String Applier
  | [] => .ok a
  | (number, sql) :: rest =>
    match applyMigration a number sql with
    | .error err => .error err
    | .ok a' => applyMigrations a' rest

/-- Phase 2 of `Consolidate` on parsed statements, each with the number of its migration:
`SetCurrentMigration`, then `Apply`. -/
def applyNumbered (a : Applier) : List (Int × Statement) → Except String Applier
  | [] => .ok a
  | (number, stmt) :: rest =>
    match (a.SetCurrentMigration number).Apply stmt with
    | .error err => .error err
    | .ok a' => applyNumbered a' rest

/-- Is `s` a CREATE TABLE statement for the table `name`? -/
def Statement.createsTable (s : Statement) (name : String) : Bool :=
  match s.Typ, s.Details with
  | .CreateTable, .CreateTableDetails tableName _ => tableName = name
  | _, _ => false

/-- Is `s` a DROP TABLE statement for the table `name`? -/
def Statement.dropsTable (s : Statement) (name : String) : Bool :=
  match s.Typ with
  | .DropTable => s.ObjectName = name
  | _ => false

/-- Is `s` a CREATE TYPE statement for the enum `name`? -/
def Statement.createsEnum (s : Statement) (name : String) : Bool :=
  match s.Typ, s.Details with
  | .CreateType, .CreateTypeDetails typeName _ => typeName = name
  | _, _ => false

/-- Is `s` a DROP TYPE statement for the enum `name`? -/
def Statement.dropsEnum (s : Statement) (name : String) : Bool :=
  match s.Typ with
  | .DropType => s.ObjectName = name
  | _ => false

/-! ## Notions for the statements about `Table` -/

/-- The tables that the program makes from `NewTable`: by the methods of `Table` and by the
three writes to a field of a table in the applier, `table.CreatedIn = ...` in
`applyCreateTable`, `table.PrimaryKey = ...` in `parseColumnDefinition` and
`parsePrimaryKey`, and `table.TableComment = ...` in `applyComment`. -/
inductive Table.Reachable : Table → Prop where
  | new (name : String) : Table.Reachable (NewTable name)
  | addColumn {t : Table} (col : Column) : t.Reachable → (t.AddColumn col).Reachable
  | dropColumn {t : Table} (name : String) : t.Reachable → (t.DropColumn name).Reachable
  | alterColumn {t : Table} (name : String) (updates : Column → Column) :
      t.Reachable → (t.AlterColumn name updates).Reachable
  | addIndex {t : Table} (idx : Index) : t.Reachable → (t.AddIndex idx).Reachable
  | addForeignKey {t : Table} (fk : ForeignKey) : t.Reachable → (t.AddForeignKey fk).Reachable
  | addCheck {t : Table} (check : CheckConstraint) : t.Reachable → (t.AddCheck check).Reachable
  | addUnique {t : Table} (unique : UniqueConstraint) :
      t.Reachable → (t.AddUnique unique).Reachable
  | setColumnComment {t : Table} (colName comment : String) :
      t.Reachable → (t.SetColumnComment colName comment).Reachable
  | addRequiredEnum {t : Table} (enumName : String) :
      t.Reachable → (t.AddRequiredEnum enumName).Reachable
  | createdIn {t : Table} (number : Int) :
      t.Reachable → Table.Reachable { t with CreatedIn := number }
  | primaryKey {t : Table} (pk : Option Schemactor.PrimaryKey) :
      t.Reachable → Table.Reachable { t with PrimaryKey := pk }
  | tableComment {t : Table} (comment : String) :
      t.Reachable → Table.Reachable { t with TableComment := comment }

/-- A call of one of the three methods of `Table` that change the columns. -/
inductive ColumnCall where
  | AddColumn (col : Column)
  | DropColumn (name : String)
  | AlterColumn (name : String) (updates : Column → Column)

/-- Make the call on the table `t`. -/
def ColumnCall.run (t : Table) : ColumnCall → Table
  | .AddColumn col => t.AddColumn col
  | .DropColumn name => t.DropColumn name
  | .AlterColumn name updates => t.AlterColumn name updates

/-- The bookkeeping of the columns: `ColumnOrder` has no name twice, and holds exactly the
keys of `Columns`. -/
structure ColumnsOK (t : Table) : Prop where
  nodup : t.ColumnOrder.Nodup
  live : ∀ name, name ∈ t.ColumnOrder ↔ name ∈ mapKeys t.Columns

/-! ## Notions for the statements about the recognizer -/

/-- The comment text of the statement that the recognizer returns, when it is a comment
statement. -/
def commentText (r : Except String (Option Statement)) : Option String :=
  match r with
  | .ok (some stmt) =>
    match stmt.Details with
    | .CommentDetails _ _ text => some text
    | _ => none
  | _ => none

/-! ## Example statements, appliers and tables -/

/-- A catalog with the view `v`, created in migration 1; the applier reads migration 2. -/
def viewApplier : Applier :=
  { state :=
      { NewDatabaseState with
        Views := [("v", { NewView "v" with
          Definition := "CREATE VIEW v AS SELECT 1", CreatedIn := 1 })] },
    currentMigration := 2 }

/-- The statement `CREATE OR REPLACE VIEW v AS SELECT 2`, recognised. -/
def recreateView : Statement :=
  { Typ := .CreateView, Original := "CREATE OR REPLACE VIEW v AS SELECT 2", ObjectName := "v",
    Details := .CreateViewDetails "v" "CREATE OR REPLACE VIEW v AS SELECT 2" }

/-- The statement `CREATE TABLE t (id int)`, recognised. -/
def createTableT : Statement :=
  { Typ := .CreateTable, Original := "CREATE TABLE t (id int)", ObjectName := "t",
    Details := .CreateTableDetails "t" "id int" }

/-- The statement `DROP TABLE t`, recognised. -/
def dropTableT : Statement :=
  { Typ := .DropTable, Original := "DROP TABLE t", ObjectName := "t", Details := .nil }

/-- The statement `ALTER TABLE t ADD COLUMN c int`, recognised. -/
def addColumnT : Statement :=
  { Typ := .AlterTable, Original := "ALTER TABLE t ADD COLUMN c int", ObjectName := "t",
    Details := .AlterTableDetails "t"
      [{ Typ := .AddColumn, ColumnName := "c", DataType := "int", Details := "ADD COLUMN c int" }] }

/-- The statement `CREATE TYPE e AS ENUM ('a')`, recognised. -/
def createTypeE : Statement :=
  { Typ := .CreateType, Original := "CREATE TYPE e AS ENUM ('a')", ObjectName := "e",
    Details := .CreateTypeDetails "e" ["a"] }

/-- The statement `DROP TYPE e`, recognised. -/
def dropTypeE : Statement :=
  { Typ := .DropType, Original := "DROP TYPE e", ObjectName := "e", Details := .nil }

/-- The statement `ALTER TYPE e ADD VALUE 'b'`, recognised. -/
def addValueE : Statement :=
  { Typ := .AlterType, Original := "ALTER TYPE e ADD VALUE 'b'", ObjectName := "e",
    Details := .AlterTypeDetails "e" "b" }

/-- The table `t (a int, b int)` with an index on `a`, an index on `b`, a unique constraint
on `(a, b)` and a comment on `a`. -/
def indexedTable : Table :=
  ((((((NewTable "t").AddColumn (plainColumn "a" "int")).AddColumn (plainColumn "b" "int")).AddIndex
    { Name := "i_a", Columns := ["a"], Unique := false, Where := "", Method := "" }).AddIndex
    { Name := "i_b", Columns := ["b"], Unique := false, Where := "", Method := "" }).AddUnique
    { Name := "", Columns := ["a", "b"] }).SetColumnComment "a" "first"

/-- The table `users (id int, email text)` with the primary key `(id)`, a unique index and
a unique constraint on `email`, a table comment and a comment on `email`, created in
migration 1: built as the applier builds it, with the methods of `Table` and the writes to
`CreatedIn`, `PrimaryKey` and `TableComment`. -/
def accountsTable : Table :=
  { ({ ({ ((((((NewTable "users").AddColumn (plainColumn "id" "int")).AddColumn
      (plainColumn "email" "text")).AddIndex
      { Name := "users_email", Columns := ["email"], Unique := true, Where := "",
        Method := "" }).AddUnique
      { Name := "", Columns := ["email"] }).SetColumnComment "email" "login") with
      CreatedIn := 1 } : Table) with
      PrimaryKey := some { Name := "", Columns := ["id"] } } : Table) with
    TableComment := "accounts" }

/-! ## Notions for the statements about the text of a table -/

/-- The clause texts that `GenerateTableSQL` writes for the columns, in `ColumnOrder`. -/
def columnClauses (table : Table) : List String :=
  table.ColumnOrder.map (fun colName => GenerateColumnDef (columnOf table colName))

/-- The clause texts that `GenerateTableSQL` writes after the columns: the primary key if
there is one, then the unique constraints, the check constraints and the foreign keys. -/
def constraintClauses (table : Table) : List String :=
  (match table.PrimaryKey with
    | some pk => ["PRIMARY KEY (" ++ Join pk.Columns ", " ++ ")"]
    | none => []) ++
  (table.Uniques.map (fun unique => "UNIQUE (" ++ Join unique.Columns ", " ++ ")") ++
  (table.Checks.map (fun check => "CHECK (" ++ check.Expression ++ ")") ++
  table.ForeignKeys.map foreignKeyClause))

/-- The comma rule in the words of the specification, not of the code: one line per clause,
indented by four spaces; a comma follows the clause on every line except the last one. -/
def commaLines : List String → List String
  | [] => []
  | [x] => ["    " ++ x]
  | x :: y :: rest => ("    " ++ x ++ ",") :: commaLines (y :: rest)

/-- The text that `GenerateTableSQL` writes after the line that closes the table: the
indexes of the table, the comment of the table and the comments of the columns. -/
def tableTail (table : Table) : String :=
  String.join (table.Indexes.map (fun idx => "\n" ++ GenerateIndexSQL idx table.Name)) ++
  (if table.TableComment ≠ "" then
    "\nCOMMENT ON TABLE " ++ table.Name ++ " IS '" ++ escapeComment table.TableComment ++ "';\n"
   else "") ++
  String.join (table.ColumnComments.map (fun e =>
    "COMMENT ON COLUMN " ++ table.Name ++ "." ++ e.1 ++ " IS '" ++ escapeComment e.2 ++ "';\n"))

/-! ## Notions for the statements about the order of the kinds -/

/-- The priority of the node that `name` has in the graph, as `sortByPriority` reads it;
0 for a name without a node (`sortByPriority` skips such a name). -/
def priorityOf (g : DependencyGraph) (name : String) : Int :=
  match mapGet g.Nodes name with
  | some node => getPriority node
  | none => 0

/-- The object names of the catalog are distinct across kinds: no name is a key of two of
the maps `Domains`, `Enums`, `Tables` and `Views`. -/
def KindsDistinct (dbState : DatabaseState) : Prop :=
  (∀ x ∈ mapKeys dbState.Domains,
    x ∉ mapKeys dbState.Enums ∧ x ∉ mapKeys dbState.Tables ∧ x ∉ mapKeys dbState.Views) ∧
  (∀ x ∈ mapKeys dbState.Enums, x ∉ mapKeys dbState.Tables ∧ x ∉ mapKeys dbState.Views) ∧
  (∀ x ∈ mapKeys dbState.Tables, x ∉ mapKeys dbState.Views)

/-- Every foreign key of every table of the catalog references a table of the catalog. -/
def ForeignKeysSurvive (dbState : DatabaseState) : Prop :=
  ∀ e ∈ dbState.Tables, ∀ fk ∈ e.2.ForeignKeys, fk.ReferencedTable ∈ mapKeys dbState.Tables

/-- Every listing of the graph satisfies `R`: `R target dependent` holds for every dependent
listed under a target. -/
def EdgesRel (R : String → String → Prop) (g : DependencyGraph) : Prop :=
  ∀ e ∈ g.Edges, ∀ x ∈ e.2, R e.1 x

/-- The invariant of the main loop of `TopologicalSort` for the order of the kinds: every
queued name is a node, the queue and the result are in the order of the priorities, and
no queued name has a smaller priority than a name of the result. -/
structure PriorityInv (g : DependencyGraph) (q res : List String) : Prop where
  nodes : ∀ x ∈ q, (mapGet g.Nodes x).isSome = true
  queue : q.Pairwise (fun a b => priorityOf g a ≤ priorityOf g b)
  result : res.Pairwise (fun a b => priorityOf g a ≤ priorityOf g b)
  le : ∀ r ∈ res, ∀ x ∈ q, priorityOf g r ≤ priorityOf g x

/-! ## Notions for the statements about `Enum` -/

/-- The distinct values of a list in the order of their first occurrence, in the words of
the specification: a value stays where it occurs first, its later occurrences go. -/
def firstAdditions : List String → List String
  | [] => []
  | v :: rest => v :: (firstAdditions rest).filter (fun w => decide (w ≠ v))

/-! ## Example statements, catalogs and tables for the applier and the emitter -/

/-- The statement `DO $$ BEGIN ALTER TYPE mood ADD VALUE 'sad'; END $$`, recognised. -/
def doBlockMood : Statement :=
  { Typ := .DoBlock, Original := "DO $$ BEGIN ALTER TYPE mood ADD VALUE 'sad'; END $$",
    ObjectName := "mood",
    Details := .DoBlockDetails "DO $$ BEGIN ALTER TYPE mood ADD VALUE 'sad'; END $$" "mood" "sad" }

/-- The statement `ALTER TYPE mood ADD VALUE 'sad'`, recognised. -/
def alterTypeMood : Statement :=
  { Typ := .AlterType, Original := "ALTER TYPE mood ADD VALUE 'sad'", ObjectName := "mood",
    Details := .AlterTypeDetails "mood" "sad" }

/-- An applier at migration 2 whose catalog holds the enum `mood` with the value `ok`. -/
def moodApplier : Applier :=
  { state :=
      { NewDatabaseState with
        Enums := [("mood", { NewEnum "mood" with Values := ["ok"], CreatedIn := 1 })] },
    currentMigration := 2 }

/-- The table `users (id int, name text NOT NULL, PRIMARY KEY (id))`. -/
def usersTable : Table :=
  { ((NewTable "users").AddColumn (plainColumn "id" "int")).AddColumn
      { plainColumn "name" "text" with Nullable := false } with
    PrimaryKey := some { Name := "", Columns := ["id"] } }

/-- The table `t (id int)`. -/
def idTable : Table := (NewTable "t").AddColumn (plainColumn "id" "int")

/-- A catalog with one object of each kind, the later kinds created first: the table `t`
in migration 1, the view `v` over `t` in migration 2, the enum `e` in migration 3 and the
domain `d` in migration 4. -/
def kindsCatalog : DatabaseState :=
  { NewDatabaseState with
    Domains := [("d", { NewDomain "d" with BaseType := "text", CreatedIn := 4 })],
    Enums := [("e", { NewEnum "e" with Values := ["a"], CreatedIn := 3 })],
    Tables := [("t", tableWith "t" 1 [])],
    Views := [("v", { NewView "v" with
      Definition := "CREATE VIEW v AS SELECT 1 FROM t", DependsOn := ["t"], CreatedIn := 2 })] }

/-- An applier whose catalog holds the table `t (id int, email text)`. -/
def emailApplier : Applier :=
  { state :=
      { NewDatabaseState with
        Tables := [("t", ((NewTable "t").AddColumn (plainColumn "id" "int")).AddColumn
          (plainColumn "email" "text"))] },
    currentMigration := 2 }

/-- The statement `CREATE INDEX i ON t (email)`, recognised. -/
def createIndexI : Statement :=
  { Typ := .CreateIndex, Original := "CREATE INDEX i ON t (email)", ObjectName := "i",
    Details := .CreateIndexDetails "i" "t" ["email"] false "" }

/-- The statement `DROP INDEX i`, recognised. -/
def dropIndexI : Statement :=
  { Typ := .DropIndex, Original := "DROP INDEX i", ObjectName := "i", Details := .nil }

/-- The statement `COMMENT ON COLUMN t.c IS 'x'`, recognised. -/
def commentOnMissingColumn : Statement :=
  { Typ := .Comment, Original := "COMMENT ON COLUMN t.c IS 'x'", ObjectName := "t.c",
    Details := .CommentDetails "COLUMN" "t.c" "x" }

/-! ## Notions for the statements about `Parse` and `Apply` together -/

/-- Has the `Details` payload of the statement the shape that its `Typ` requires: the
details struct that the apply method of the type asserts?  The drop statements and
`Unknown` require none. -/
def Statement.wellShaped (s : Statement) : Bool :=
  match s.Typ, s.Details with
  | .CreateTable, .CreateTableDetails _ _ => true
  | .CreateTable, _ => false
  | .AlterTable, .AlterTableDetails _ _ => true
  | .AlterTable, _ => false
  | .CreateType, .CreateTypeDetails _ _ => true
  | .CreateType, _ => false
  | .AlterType, .AlterTypeDetails _ _ => true
  | .AlterType, _ => false
  | .CreateDomain, .CreateDomainDetails _ _ _ _ => true
  | .CreateDomain, _ => false
  | .CreateView, .CreateViewDetails _ _ => true
  | .CreateView, _ => false
  | .CreateIndex, .CreateIndexDetails _ _ _ _ _ => true
  | .CreateIndex, _ => false
  | .Comment, .CommentDetails _ _ _ => true
  | .Comment, _ => false
  | .DoBlock, .DoBlockDetails _ _ _ => true
  | .DoBlock, _ => false
  | _, _ => true

/-! ## Notions for the statements about `splitTopLevel` -/

/-- The parenthesis depth at the end of a text: the opening parentheses minus the closing
ones. -/
def parenDepth (text : List Char) : Int := (text.count '(' : Int) - (text.count ')' : Int)

/-! ## Example graphs and tables for the statements about ties and dropped columns -/

/-- A graph without edges: the tables `a` (created in migration 2) and `b` (created in
migration 1) and the enum `e` (created in migration 3). -/
def tieGraph : DependencyGraph :=
  ((NewDependencyGraph.AddNode .ObjectTable "a" 2).AddNode .ObjectTable "b" 1).AddNode
    .ObjectEnum "e" 3


/-- The table `t (id int, c int)` with the primary key `(c)`, a foreign key from `c`
to `u (id)`, an index on `c` and a unique constraint on `(c)`. -/
def keyedTable : Table :=
  { (((((NewTable "t").AddColumn (plainColumn "id" "int")).AddColumn
      (plainColumn "c" "int")).AddForeignKey (fkTo "c" "u")).AddIndex
      { Name := "i_c", Columns := ["c"], Unique := false, Where := "", Method := "" }).AddUnique
      { Name := "", Columns := ["c"] } with
    PrimaryKey := some { Name := "", Columns := ["c"] } }

/-! ## Example column for the statement about definitions read back -/

/-- The column `created_at timestamptz DEFAULT now() NOT NULL`. -/
def createdAtColumn : Column :=
  { Name := "created_at", Typ := "timestamptz", Nullable := false, Default := "now()",
    Generated := "", Comment := "" }

/-! ## Lemmas: maps -/

theorem mapGet_mapSet_self {V : Type} (m : List (String × V)) (k : String) (v : V) :
    mapGet (mapSet m k v) k = some v := by
  induction m with
  | nil => simp [mapSet, mapGet]
  | cons e rest ih =>
    obtain ⟨k', v'⟩ := e
    by_cases h : k' = k
    · simp [mapSet, mapGet, h]
    · simp [mapSet, mapGet, h, ih]

theorem mapGet_mapSet_ne {V : Type} (m : List (String × V)) (k k' : String) (v : V)
    (h : k' ≠ k) : mapGet (mapSet m k v) k' = mapGet m k' := by
  induction m with
  | nil => simp [mapSet, mapGet, Ne.symm h]
  | cons e rest ih =>
    obtain ⟨k0, v0⟩ := e
    by_cases h0 : k0 = k
    · subst h0
      simp [mapSet, mapGet, Ne.symm h]
    · by_cases h1 : k0 = k'
      · subst h1
        simp [mapSet, mapGet, h0]
      · simp [mapSet, mapGet, h0, h1, ih]

theorem mapGetD_mapSet_self {V : Type} (m : List (String × V)) (k : String) (v d : V) :
    mapGetD (mapSet m k v) k d = v := by
  simp [mapGetD, mapGet_mapSet_self]

theorem mapGetD_mapSet_ne {V : Type} (m : List (String × V)) (k k' : String) (v d : V)
    (h : k' ≠ k) : mapGetD (mapSet m k v) k' d = mapGetD m k' d := by
  simp [mapGetD, mapGet_mapSet_ne m k k' v h]

theorem mapGet_eq_none_iff {V : Type} (m : List (String × V)) (k : String) :
    mapGet m k = none ↔ k ∉ mapKeys m := by
  induction m with
  | nil => simp [mapGet, mapKeys]
  | cons e rest ih =>
    obtain ⟨k', v'⟩ := e
    by_cases h : k' = k
    · simp [mapGet, mapKeys, h]
    · have h' : ¬ k = k' := fun e => h e.symm
      simp only [mapKeys] at ih
      simp [mapGet, mapKeys, h, h', ih]

theorem mapGet_some_mem {V : Type} (m : List (String × V)) (k : String) (v : V)
    (h : mapGet m k = some v) : (k, v) ∈ m := by
  induction m with
  | nil => simp [mapGet] at h
  | cons e rest ih =>
    obtain ⟨k', v'⟩ := e
    by_cases h' : k' = k
    · simp [mapGet, h'] at h
      simp [h, h']
    · simp [mapGet, h'] at h
      exact List.mem_cons_of_mem _ (ih h)

theorem mapGet_some_key {V : Type} (m : List (String × V)) (k : String) (v : V)
    (h : mapGet m k = some v) : k ∈ mapKeys m := by
  by_contra hc
  rw [← mapGet_eq_none_iff] at hc
  rw [hc] at h
  cases h

theorem mem_mapKeys_mapSet {V : Type} (m : List (String × V)) (k x : String) (v : V) :
    x ∈ mapKeys (mapSet m k v) ↔ x ∈ mapKeys m ∨ x = k := by
  induction m with
  | nil => simp [mapSet, mapKeys]
  | cons e rest ih =>
    obtain ⟨k', v'⟩ := e
    simp only [mapKeys] at ih
    by_cases h : k' = k
    · subst h
      simp only [mapSet, if_true, mapKeys, List.map_cons, List.mem_cons]
      tauto
    · simp only [mapSet, h, if_false, mapKeys, List.map_cons, List.mem_cons, ih]
      tauto

theorem mapKeys_mapSet_nodup {V : Type} (m : List (String × V)) (k : String) (v : V)
    (h : (mapKeys m).Nodup) : (mapKeys (mapSet m k v)).Nodup := by
  induction m with
  | nil => simp [mapSet, mapKeys]
  | cons e rest ih =>
    obtain ⟨k', v'⟩ := e
    by_cases hk : k' = k
    · subst hk
      simpa [mapSet, mapKeys] using h
    · simp only [mapKeys, List.map_cons, List.nodup_cons] at h
      have h1 : k' ∉ mapKeys (mapSet rest k v) := by
        rw [mem_mapKeys_mapSet]
        intro hc
        rcases hc with hc | hc
        · exact h.1 hc
        · exact hk hc
      have h2 := ih h.2
      simp only [mapSet, hk, if_false, mapKeys, List.map_cons, List.nodup_cons]
      exact ⟨h1, h2⟩

/-! ## Lemmas: `sortByPriority` rearranges, nothing more -/

theorem sortInner_perm (g : DependencyGraph) (x : String) (ys : List String) :
    List.Perm ((sortInner g x ys).1 :: (sortInner g x ys).2) (x :: ys) := by
  induction ys generalizing x with
  | nil => simp [sortInner]
  | cons y ys ih =>
    by_cases h : shouldSwap g x y = true
    · simp only [sortInner, h, if_true]
      exact (List.Perm.swap _ _ _).trans ((ih y).cons x)
    · simp only [sortInner, h, if_false]
      exact ((List.Perm.swap _ _ _).trans ((ih x).cons y)).trans (List.Perm.swap _ _ _)

theorem sortOuter_perm (g : DependencyGraph) (n : Nat) (nodes : List String) :
    List.Perm (sortOuter g n nodes) nodes := by
  induction n generalizing nodes with
  | zero => simp [sortOuter]
  | succ n ih =>
    cases nodes with
    | nil => simp [sortOuter]
    | cons x xs =>
      simp only [sortOuter]
      exact ((ih _).cons _).trans (sortInner_perm g x xs)

theorem sortByPriority_perm (g : DependencyGraph) (nodes : List String) :
    List.Perm (sortByPriority g nodes) nodes :=
  sortOuter_perm g _ nodes

/-! ## Lemmas: the in-degree map counts the listings not yet discharged -/

theorem mapGetD_countFold (l : List String) (d : List (String × Int)) (x : String) :
    mapGetD (l.foldl (fun d' dependent => mapSet d' dependent (mapGetD d' dependent 0 + 1)) d) x 0
      = mapGetD d x 0 + (l.count x : Int) := by
  induction l generalizing d with
  | nil => simp
  | cons y ys ih =>
    simp only [List.foldl_cons]
    rw [ih]
    by_cases h : y = x
    · subst h
      rw [mapGetD_mapSet_self]
      simp only [List.count_cons_self, Nat.cast_add, Nat.cast_one]
      ring
    · have hx : x ≠ y := fun e => h e.symm
      rw [mapGetD_mapSet_ne _ _ _ _ _ hx]
      simp [List.count_cons, h]

theorem mapGetD_edgeFold (E : List (String × List String)) (d : List (String × Int))
    (x : String) :
    mapGetD (E.foldl (fun d e =>
        e.2.foldl (fun d' dependent => mapSet d' dependent (mapGetD d' dependent 0 + 1)) d) d) x 0
      = mapGetD d x 0 + (pending E [] x : Int) := by
  induction E generalizing d with
  | nil => simp [pending]
  | cons e rest ih =>
    simp only [List.foldl_cons]
    rw [ih, mapGetD_countFold]
    simp only [pending, List.not_mem_nil, if_false, Nat.cast_add]
    ring

theorem mapGetD_nodeFold (N : List (String × DependencyNode)) (d : List (String × Int))
    (x : String) (h : mapGetD d x 0 = 0) :
    mapGetD (N.foldl (fun d e => mapSet d e.1 0) d) x 0 = 0 := by
  induction N generalizing d with
  | nil => simpa using h
  | cons e rest ih =>
    simp only [List.foldl_cons]
    apply ih
    by_cases hx : x = e.1
    · subst hx
      rw [mapGetD_mapSet_self]
    · rw [mapGetD_mapSet_ne _ _ _ _ _ hx]
      exact h

theorem inDegreeInit_get (g : DependencyGraph) (x : String) :
    mapGetD (inDegreeInit g) x 0 = (pending g.Edges [] x : Int) := by
  unfold inDegreeInit
  rw [mapGetD_edgeFold, mapGetD_nodeFold _ _ _ (by simp [mapGetD, mapGet])]
  simp

theorem mem_keys_countFold (l : List String) (d : List (String × Int)) (x : String) :
    x ∈ mapKeys (l.foldl (fun d' dependent => mapSet d' dependent (mapGetD d' dependent 0 + 1)) d)
      ↔ x ∈ mapKeys d ∨ x ∈ l := by
  induction l generalizing d with
  | nil => simp
  | cons y ys ih =>
    simp only [List.foldl_cons, ih, mem_mapKeys_mapSet, List.mem_cons]
    tauto

theorem mem_keys_edgeFold (E : List (String × List String)) (d : List (String × Int))
    (x : String) :
    x ∈ mapKeys (E.foldl (fun d e =>
        e.2.foldl (fun d' dependent => mapSet d' dependent (mapGetD d' dependent 0 + 1)) d) d)
      ↔ x ∈ mapKeys d ∨ ∃ e ∈ E, x ∈ e.2 := by
  induction E generalizing d with
  | nil => simp
  | cons e rest ih =>
    simp only [List.foldl_cons, ih, mem_keys_countFold, List.mem_cons, exists_eq_or_imp]
    tauto

theorem mem_keys_nodeFold (N : List (String × DependencyNode)) (d : List (String × Int))
    (x : String) :
    x ∈ mapKeys (N.foldl (fun d e => mapSet d e.1 0) d) ↔ x ∈ mapKeys d ∨ x ∈ mapKeys N := by
  induction N generalizing d with
  | nil => simp [mapKeys]
  | cons e rest ih =>
    simp only [List.foldl_cons, ih, mem_mapKeys_mapSet]
    simp only [mapKeys, List.map_cons, List.mem_cons]
    tauto

/-- The keys of the in-degree map: the nodes and every name listed as a dependent. -/
theorem mem_keys_inDegreeInit (g : DependencyGraph) (x : String) :
    x ∈ mapKeys (inDegreeInit g) ↔ x ∈ mapKeys g.Nodes ∨ ∃ e ∈ g.Edges, x ∈ e.2 := by
  unfold inDegreeInit
  rw [mem_keys_edgeFold, mem_keys_nodeFold]
  simp [mapKeys]

theorem pending_le_of_subset (E : List (String × List String)) (done done' : List String)
    (x : String) (h : done ⊆ done') : pending E done' x ≤ pending E done x := by
  induction E with
  | nil => simp [pending]
  | cons e rest ih =>
    simp only [pending]
    by_cases h1 : e.1 ∈ done
    · have h2 : e.1 ∈ done' := h h1
      simp only [h1, h2, if_true]
      omega
    · by_cases h2 : e.1 ∈ done'
      · simp only [h1, h2, if_true, if_false]
        omega
      · simp only [h1, h2, if_false]
        omega

theorem pending_snoc_of_not_key (E : List (String × List String)) (done : List String)
    (node x : String) (h : node ∉ mapKeys E) :
    pending E (done ++ [node]) x = pending E done x := by
  induction E with
  | nil => simp [pending]
  | cons e rest ih =>
    simp only [mapKeys, List.map_cons, List.mem_cons, not_or] at h
    have hne : ¬ e.1 = node := fun e' => h.1 e'.symm
    simp only [pending, List.mem_append, List.mem_singleton, hne, or_false]
    rw [ih (by simpa [mapKeys] using h.2)]

/-- Emitting `node` discharges exactly the listings under `Edges[node]`. -/
theorem pending_snoc (E : List (String × List String)) (done : List String) (node x : String)
    (hE : (mapKeys E).Nodup) (hnode : node ∉ done) :
    pending E (done ++ [node]) x + (mapGetD E node []).count x = pending E done x := by
  induction E with
  | nil => simp [pending, mapGetD, mapGet]
  | cons e rest ih =>
    obtain ⟨k, l⟩ := e
    simp only [mapKeys, List.map_cons, List.nodup_cons] at hE
    by_cases hk : k = node
    · subst hk
      have h1 := pending_snoc_of_not_key rest done k x (by simpa [mapKeys] using hE.1)
      simp only [pending, List.mem_append, List.mem_singleton, or_true, if_true, hnode,
        if_false, h1, mapGetD, mapGet, Option.getD_some]
      omega
    · have h1 := ih (by simpa [mapKeys] using hE.2)
      simp only [mapGetD, mapGet, hk, if_false] at h1 ⊢
      simp only [pending, List.mem_append, List.mem_singleton, hk, or_false]
      omega

theorem pending_eq_zero_mem (E : List (String × List String)) (done : List String) (x : String)
    (h : pending E done x = 0) : ∀ e ∈ E, x ∈ e.2 → e.1 ∈ done := by
  induction E with
  | nil => simp
  | cons e rest ih =>
    simp only [pending, Nat.add_eq_zero] at h
    intro e' he' hx
    rcases List.mem_cons.1 he' with he' | he'
    · subst he'
      by_contra hc
      simp only [hc, if_false] at h
      exact (List.count_pos_iff.2 hx).ne' h.1
    · exact ih h.2 e' he' hx

theorem pending_pos_of_mem (E : List (String × List String)) (done : List String) (x : String)
    (e : String × List String) (he : e ∈ E) (hx : x ∈ e.2) (hd : e.1 ∉ done) :
    0 < pending E done x := by
  by_contra hc
  exact hd (pending_eq_zero_mem E done x (by omega) e he hx)

/-! ## Lemmas: one pass over the dependents of an emitted node -/

theorem relaxNeighbors_get (g : DependencyGraph) (l : List String) (d : List (String × Int))
    (q : List String) (x : String) :
    mapGetD (relaxNeighbors g l d q).1 x 0 = mapGetD d x 0 - (l.count x : Int) := by
  induction l generalizing d q with
  | nil => simp [relaxNeighbors]
  | cons nb rest ih =>
    have key : mapGetD (mapSet d nb (mapGetD d nb 0 - 1)) x 0 - (rest.count x : Int)
        = mapGetD d x 0 - ((nb :: rest).count x : Int) := by
      by_cases h : nb = x
      · subst h
        rw [mapGetD_mapSet_self]
        simp only [List.count_cons_self, Nat.cast_add, Nat.cast_one]
        ring
      · have hx : x ≠ nb := fun e => h e.symm
        rw [mapGetD_mapSet_ne _ _ _ _ _ hx]
        simp [List.count_cons, h]
    simp only [relaxNeighbors]
    split
    · rw [ih, key]
    · rw [ih, key]

theorem relaxNeighbors_queue (g : DependencyGraph) (l : List String) (d : List (String × Int))
    (q : List String) (H : ∀ x, (l.count x : Int) ≤ mapGetD d x 0) :
    ∃ pushed : List String, List.Perm (relaxNeighbors g l d q).2 (q ++ pushed) ∧ pushed.Nodup ∧
      ∀ y ∈ pushed, y ∈ l ∧ mapGetD (relaxNeighbors g l d q).1 y 0 = 0 ∧ mapGetD d y 0 ≠ 0 := by
  induction l generalizing d q with
  | nil => exact ⟨[], by simp [relaxNeighbors]⟩
  | cons nb rest ih =>
    have H1 : ∀ x, (rest.count x : Int) ≤ mapGetD (mapSet d nb (mapGetD d nb 0 - 1)) x 0 := by
      intro x
      have hx := H x
      by_cases h : nb = x
      · subst h
        rw [mapGetD_mapSet_self]
        simp only [List.count_cons_self, Nat.cast_add, Nat.cast_one] at hx
        omega
      · have hx' : x ≠ nb := fun e => h e.symm
        rw [mapGetD_mapSet_ne _ _ _ _ _ hx']
        simpa [List.count_cons, h] using hx
    have hnb : (1 : Int) ≤ mapGetD d nb 0 := by
      have := H nb
      simp only [List.count_cons_self, Nat.cast_add, Nat.cast_one] at this
      omega
    by_cases h0 : mapGetD d nb 0 - 1 = 0
    · have hdef : relaxNeighbors g (nb :: rest) d q
          = relaxNeighbors g rest (mapSet d nb (mapGetD d nb 0 - 1))
              (sortByPriority g (q ++ [nb])) := by
        rw [relaxNeighbors, if_pos h0]
      obtain ⟨pushed, hperm, hnd, hall⟩ := ih (mapSet d nb (mapGetD d nb 0 - 1))
        (sortByPriority g (q ++ [nb])) H1
      have hnbNot : nb ∉ pushed := by
        intro hc
        have := (hall nb hc).2.2
        rw [mapGetD_mapSet_self] at this
        exact this h0
      have hrest0 : rest.count nb = 0 := by
        have := H1 nb
        rw [mapGetD_mapSet_self, h0] at this
        omega
      rw [hdef]
      refine ⟨nb :: pushed, ?_, List.nodup_cons.2 ⟨hnbNot, hnd⟩, ?_⟩
      · refine hperm.trans ?_
        refine ((sortByPriority_perm g (q ++ [nb])).append_right pushed).trans ?_
        simp
      · intro y hy
        rcases List.mem_cons.1 hy with hy | hy
        · subst hy
          refine ⟨List.mem_cons_self _ _, ?_, by omega⟩
          rw [relaxNeighbors_get, mapGetD_mapSet_self, h0, hrest0]
          simp
        · obtain ⟨h1, h2, h3⟩ := hall y hy
          refine ⟨List.mem_cons_of_mem _ h1, h2, ?_⟩
          have hyn : y ≠ nb := fun e => hnbNot (e ▸ hy)
          rw [mapGetD_mapSet_ne _ _ _ _ _ hyn] at h3
          exact h3
    · have hdef : relaxNeighbors g (nb :: rest) d q
          = relaxNeighbors g rest (mapSet d nb (mapGetD d nb 0 - 1)) q := by
        rw [relaxNeighbors, if_neg h0]
      obtain ⟨pushed, hperm, hnd, hall⟩ := ih (mapSet d nb (mapGetD d nb 0 - 1)) q H1
      rw [hdef]
      refine ⟨pushed, hperm, hnd, ?_⟩
      intro y hy
      obtain ⟨h1, h2, h3⟩ := hall y hy
      refine ⟨List.mem_cons_of_mem _ h1, h2, ?_⟩
      by_cases hyn : y = nb
      · subst hyn
        omega
      · rw [mapGetD_mapSet_ne _ _ _ _ _ hyn] at h3
        exact h3

theorem mem_mapGetD_edges (E : List (String × List String)) (k y : String)
    (h : y ∈ mapGetD E k []) : (k, mapGetD E k []) ∈ E := by
  cases hk : mapGet E k with
  | none => simp [mapGetD, hk] at h
  | some l =>
    have : mapGetD E k [] = l := by simp [mapGetD, hk]
    rw [this]
    exact mapGet_some_mem E k l hk

/-! ## Lemmas: the invariant of the main loop of `TopologicalSort` -/

theorem SortInv.step {g : DependencyGraph} {S : List String} {d : List (String × Int)}
    {node : String} {q res : List String}
    (hE : (mapKeys g.Edges).Nodup) (hS : ∀ e ∈ g.Edges, ∀ x ∈ e.2, x ∈ S)
    (inv : SortInv g S d (node :: q) res) :
    SortInv g S (relaxNeighbors g (mapGetD g.Edges node []) d q).1
      (relaxNeighbors g (mapGetD g.Edges node []) d q).2 (res ++ [node]) := by
  have hnd := inv.nodup
  have hnodeRes : node ∉ res := by
    intro hc
    exact (List.nodup_append.1 hnd).2.2 hc (List.mem_cons_self _ _)
  have hsnoc := fun x => pending_snoc g.Edges res node x hE hnodeRes
  have H : ∀ x, ((mapGetD g.Edges node []).count x : Int) ≤ mapGetD d x 0 := by
    intro x
    rw [inv.deg x]
    have := hsnoc x
    omega
  obtain ⟨pushed, hperm, hpnd, hall⟩ := relaxNeighbors_queue g _ d q H
  have hdeg : ∀ x, mapGetD (relaxNeighbors g (mapGetD g.Edges node []) d q).1 x 0
      = (pending g.Edges (res ++ [node]) x : Int) := by
    intro x
    rw [relaxNeighbors_get, inv.deg x]
    have := hsnoc x
    omega
  have hmemq : ∀ x, x ∈ (relaxNeighbors g (mapGetD g.Edges node []) d q).2
      ↔ x ∈ q ∨ x ∈ pushed := by
    intro x
    rw [hperm.mem_iff, List.mem_append]
  have hpushedNew : ∀ y ∈ pushed, y ∉ res ++ node :: q := by
    intro y hy hc
    obtain ⟨hyl, _, hy0⟩ := hall y hy
    rw [inv.deg y] at hy0
    rcases List.mem_append.1 hc with hc | hc
    · have he := mem_mapGetD_edges g.Edges node y hyl
      have hlt : res.indexOf node < res.indexOf y := inv.ordered _ he y hyl hc
      have hle : res.indexOf y ≤ res.length := List.indexOf_le_length
      exact hnodeRes (List.indexOf_lt_length.1 (by omega))
    · have := inv.ready y hc
      rw [this] at hy0
      exact hy0 rfl
  refine ⟨?_, hdeg, ?_, ?_, ?_⟩
  · have hp : List.Perm (res ++ [node] ++ (relaxNeighbors g (mapGetD g.Edges node []) d q).2)
        ((res ++ node :: q) ++ pushed) := by
      refine (hperm.append_left (res ++ [node])).trans ?_
      simp
    rw [hp.nodup_iff, List.nodup_append]
    refine ⟨hnd, hpnd, ?_⟩
    intro y hy1 hy2
    exact hpushedNew y hy2 hy1
  · intro x hx
    rcases (hmemq x).1 hx with hx | hx
    · have h0 := inv.ready x (List.mem_cons_of_mem _ hx)
      have := pending_le_of_subset g.Edges res (res ++ [node]) x (List.subset_append_left _ _)
      omega
    · have := (hall x hx).2.1
      rw [hdeg x] at this
      exact_mod_cast this
  · intro e he x hx hxr
    by_cases hxres : x ∈ res
    · have hlt := inv.ordered e he x hx hxres
      have hle : res.indexOf x ≤ res.length := List.indexOf_le_length
      have he1 : e.1 ∈ res := List.indexOf_lt_length.1 (by omega)
      rw [List.indexOf_append_of_mem he1, List.indexOf_append_of_mem hxres]
      exact hlt
    · have hxn : x = node := by
        rcases List.mem_append.1 hxr with h | h
        · exact absurd h hxres
        · simpa using h
      subst hxn
      have h0 := inv.ready x (List.mem_cons_self _ _)
      have he1 : e.1 ∈ res := pending_eq_zero_mem g.Edges res x h0 e he hx
      rw [List.indexOf_append_of_mem he1, List.indexOf_append_of_not_mem hxres]
      have : res.indexOf e.1 < res.length := List.indexOf_lt_length.2 he1
      omega
  · intro x hx
    rcases List.mem_append.1 hx with hx | hx
    · rcases List.mem_append.1 hx with hx | hx
      · exact inv.sub x (List.mem_append_left _ hx)
      · have : x = node := by simpa using hx
        subst this
        exact inv.sub x (List.mem_append_right _ (List.mem_cons_self _ _))
    · rcases (hmemq x).1 hx with hx | hx
      · exact inv.sub x (List.mem_append_right _ (List.mem_cons_of_mem _ hx))
      · have hyl := (hall x hx).1
        exact hS _ (mem_mapGetD_edges g.Edges node x hyl) x hyl

/-- What the main loop returns when it starts from a state that satisfies the invariant. -/
theorem sortLoop_inv {g : DependencyGraph} {S : List String}
    (hE : (mapKeys g.Edges).Nodup) (hS : ∀ e ∈ g.Edges, ∀ x ∈ e.2, x ∈ S)
    (fuel : Nat) (d : List (String × Int)) (q res result : List String)
    (inv : SortInv g S d q res) (h : sortLoop g fuel d q res = some result) :
    ∃ d', SortInv g S d' [] result := by
  induction fuel generalizing d q res with
  | zero => simp [sortLoop] at h
  | succ fuel ih =>
    cases q with
    | nil =>
      simp only [sortLoop, Option.some.injEq] at h
      subst h
      exact ⟨d, inv⟩
    | cons node q =>
      simp only [sortLoop] at h
      exact ih _ _ _ (inv.step hE hS) h

theorem SortInv.init (g : DependencyGraph) (order : List String)
    (hnd : order.Nodup) (hsub : ∀ x ∈ order, x ∈ mapKeys (inDegreeInit g)) :
    SortInv g (mapKeys (inDegreeInit g)) (inDegreeInit g)
      (sortByPriority g (initialQueue (inDegreeInit g) order)) [] := by
  have hmem : ∀ x, x ∈ sortByPriority g (initialQueue (inDegreeInit g) order)
      ↔ x ∈ order ∧ mapGet (inDegreeInit g) x = some 0 := by
    intro x
    rw [(sortByPriority_perm g _).mem_iff]
    simp [initialQueue]
  refine ⟨?_, inDegreeInit_get g, ?_, ?_, ?_⟩
  · rw [List.nil_append, (sortByPriority_perm g _).nodup_iff]
    exact hnd.filter _
  · intro x hx
    have h0 := ((hmem x).1 hx).2
    have := inDegreeInit_get g x
    simp only [mapGetD, h0, Option.getD_some] at this
    exact_mod_cast this.symm
  · intro e _ x _ hx
    cases hx
  · intro x hx
    rw [List.nil_append] at hx
    exact hsub x ((hmem x).1 hx).1

/-! ## Lemmas: the main loop never runs out of fuel -/

theorem posCount_le_length (d : List (String × Int)) : posCount d ≤ d.length := by
  induction d with
  | nil => simp [posCount]
  | cons e rest ih =>
    simp only [posCount, List.length_cons]
    split <;> omega

theorem posCount_mapSet (d : List (String × Int)) (k : String) (v : Int) :
    posCount (mapSet d k v) + (if 0 < mapGetD d k 0 then 1 else 0)
      = posCount d + (if 0 < v then 1 else 0) := by
  induction d with
  | nil => simp [mapSet, posCount, mapGetD, mapGet]
  | cons e rest ih =>
    obtain ⟨k', v'⟩ := e
    by_cases h : k' = k
    · simp only [mapSet, h, if_true, posCount, mapGetD, mapGet, Option.getD_some]
      omega
    · simp only [mapGetD, mapGet, h, if_false] at ih ⊢
      simp only [mapSet, h, if_false, posCount]
      omega

theorem sortByPriority_length (g : DependencyGraph) (nodes : List String) :
    (sortByPriority g nodes).length = nodes.length :=
  (sortByPriority_perm g nodes).length_eq

theorem relaxNeighbors_measure (g : DependencyGraph) (l : List String) (d : List (String × Int))
    (q : List String) :
    (relaxNeighbors g l d q).2.length + posCount (relaxNeighbors g l d q).1
      = q.length + posCount d := by
  induction l generalizing d q with
  | nil => simp [relaxNeighbors]
  | cons nb rest ih =>
    have hset := posCount_mapSet d nb (mapGetD d nb 0 - 1)
    by_cases h0 : mapGetD d nb 0 - 1 = 0
    · rw [relaxNeighbors, if_pos h0, ih, sortByPriority_length, List.length_append]
      have h1 : (0 : Int) < mapGetD d nb 0 := by omega
      have h2 : ¬ (0 : Int) < mapGetD d nb 0 - 1 := by omega
      simp only [h1, h2, if_true, if_false] at hset
      simp only [List.length_singleton]
      omega
    · rw [relaxNeighbors, if_neg h0, ih]
      by_cases h1 : (0 : Int) < mapGetD d nb 0
      · have h2 : (0 : Int) < mapGetD d nb 0 - 1 := by omega
        simp only [h1, h2, if_true] at hset
        omega
      · have h2 : ¬ (0 : Int) < mapGetD d nb 0 - 1 := by omega
        simp only [h1, h2, if_false] at hset
        omega

theorem sortLoop_isSome (g : DependencyGraph) (fuel : Nat) (d : List (String × Int))
    (q res : List String) (h : q.length + posCount d < fuel) :
    (sortLoop g fuel d q res).isSome = true := by
  induction fuel generalizing d q res with
  | zero => omega
  | succ fuel ih =>
    cases q with
    | nil => simp [sortLoop]
    | cons node q =>
      simp only [sortLoop]
      apply ih
      rw [relaxNeighbors_measure]
      simp only [List.length_cons] at h
      omega

/-- The fuel that `TopologicalSort` gives its main loop is enough: the method returns, for
every graph and every visiting order. -/
theorem TopologicalSort_isSome (g : DependencyGraph) (order : List String) :
    (g.TopologicalSort order).isSome = true := by
  have hq : (sortByPriority g (initialQueue (inDegreeInit g) order)).length ≤ order.length := by
    rw [sortByPriority_length]
    exact List.length_filter_le _ _
  have hp := posCount_le_length (inDegreeInit g)
  have h := sortLoop_isSome g (order.length + (inDegreeInit g).length + 1) (inDegreeInit g)
    (sortByPriority g (initialQueue (inDegreeInit g) order)) [] (by omega)
  unfold DependencyGraph.TopologicalSort
  cases hs : sortLoop g (order.length + (inDegreeInit g).length + 1) (inDegreeInit g)
      (sortByPriority g (initialQueue (inDegreeInit g) order)) [] with
  | none => rw [hs] at h; cases h
  | some result =>
    simp only
    split <;> rfl

/-! ## Lemmas: what a successful `TopologicalSort` returns -/

theorem TopologicalSort_ok_inv (g : DependencyGraph) (order result : List String)
    (hE : (mapKeys g.Edges).Nodup)
    (hnd : order.Nodup) (hsub : ∀ x ∈ order, x ∈ mapKeys (inDegreeInit g))
    (hres : g.TopologicalSort order = some (.ok result)) :
    result.length = g.Nodes.length ∧
      ∃ d', SortInv g (mapKeys (inDegreeInit g)) d' [] result := by
  unfold DependencyGraph.TopologicalSort at hres
  cases hs : sortLoop g (order.length + (inDegreeInit g).length + 1) (inDegreeInit g)
      (sortByPriority g (initialQueue (inDegreeInit g) order)) [] with
  | none => rw [hs] at hres; cases hres
  | some r =>
    rw [hs] at hres
    simp only at hres
    by_cases hlen : r.length ≠ g.Nodes.length
    · rw [if_pos hlen] at hres
      cases hres
    · rw [if_neg hlen] at hres
      have hr : r = result := by
        injection hres with h1
        injection h1
      subst hr
      refine ⟨not_not.1 hlen, ?_⟩
      refine sortLoop_inv hE ?_ _ _ _ _ _ (SortInv.init g order hnd hsub) hs
      intro e he x hx
      exact (mem_keys_inDegreeInit g x).2 (Or.inr ⟨e, he, hx⟩)

/-- In a graph whose listed dependents are all nodes, a successful result holds every node,
once, and every dependent after its target. -/
theorem TopologicalSort_ok_order (g : DependencyGraph) (order result : List String)
    (hE : (mapKeys g.Edges).Nodup)
    (hdep : ∀ e ∈ g.Edges, ∀ x ∈ e.2, x ∈ mapKeys g.Nodes)
    (horder : List.Perm order (mapKeys (inDegreeInit g)))
    (hres : g.TopologicalSort order = some (.ok result)) :
    result.Nodup ∧ (∀ x, x ∈ result ↔ x ∈ mapKeys g.Nodes) ∧
      ∀ dependent target, dependent ∈ mapGetD g.Edges target [] →
        dependent ∈ result ∧ target ∈ result ∧
        result.indexOf target < result.indexOf dependent := by
  have hkeysnd : (mapKeys (inDegreeInit g)).Nodup := by
    unfold inDegreeInit
    have h1 : ∀ (N : List (String × DependencyNode)) (d : List (String × Int)),
        (mapKeys d).Nodup → (mapKeys (N.foldl (fun d e => mapSet d e.1 0) d)).Nodup := by
      intro N
      induction N with
      | nil => intro d hd; simpa using hd
      | cons e rest ih => intro d hd; exact ih _ (mapKeys_mapSet_nodup d _ _ hd)
    have h2 : ∀ (l : List String) (d : List (String × Int)), (mapKeys d).Nodup →
        (mapKeys (l.foldl (fun d' dependent =>
          mapSet d' dependent (mapGetD d' dependent 0 + 1)) d)).Nodup := by
      intro l
      induction l with
      | nil => intro d hd; simpa using hd
      | cons e rest ih => intro d hd; exact ih _ (mapKeys_mapSet_nodup d _ _ hd)
    have h3 : ∀ (E : List (String × List String)) (d : List (String × Int)), (mapKeys d).Nodup →
        (mapKeys (E.foldl (fun d e => e.2.foldl (fun d' dependent =>
          mapSet d' dependent (mapGetD d' dependent 0 + 1)) d) d)).Nodup := by
      intro E
      induction E with
      | nil => intro d hd; simpa using hd
      | cons e rest ih => intro d hd; exact ih _ (h2 _ d hd)
    exact h3 _ _ (h1 _ _ (by simp [mapKeys]))
  obtain ⟨hlen, d', inv⟩ := TopologicalSort_ok_inv g order result hE
    (horder.nodup_iff.2 hkeysnd) (fun x hx => horder.mem_iff.1 hx) hres
  have hnd : result.Nodup := by simpa using inv.nodup
  have hsubN : result ⊆ mapKeys g.Nodes := by
    intro x hx
    have := inv.sub x (by simpa using hx)
    rcases (mem_keys_inDegreeInit g x).1 this with h | ⟨e, he, hxe⟩
    · exact h
    · exact hdep e he x hxe
  have hperm : List.Perm result (mapKeys g.Nodes) :=
    (List.subperm_of_subset hnd hsubN).perm_of_length_le (by simp [mapKeys, hlen])
  refine ⟨hnd, fun x => hperm.mem_iff, ?_⟩
  intro dependent target hmem
  have he := mem_mapGetD_edges g.Edges target dependent hmem
  have hdn : dependent ∈ result := hperm.mem_iff.2 (hdep _ he dependent hmem)
  have hlt : result.indexOf target < result.indexOf dependent :=
    inv.ordered _ he dependent hmem hdn
  have hle : result.indexOf dependent ≤ result.length := List.indexOf_le_length
  exact ⟨hdn, List.indexOf_lt_length.1 (by omega), hlt⟩

/-! ## Lemmas: the graph that `BuildDependencyGraph` builds -/

theorem contains_iff (l : List String) (x : String) : contains l x = true ↔ x ∈ l := by
  induction l with
  | nil => simp [contains]
  | cons y ys ih =>
    by_cases h : y = x
    · simp [contains, h]
    · have h' : ¬ x = y := fun e => h e.symm
      simp [contains, h, h', ih]

theorem mem_mapSet {V : Type} (m : List (String × V)) (k : String) (v : V) (e : String × V)
    (h : e ∈ mapSet m k v) : e ∈ m ∨ e = (k, v) := by
  induction m with
  | nil => simpa [mapSet] using h
  | cons e' rest ih =>
    obtain ⟨k', v'⟩ := e'
    by_cases hk : k' = k
    · subst hk
      simp only [mapSet, if_true, List.mem_cons] at h
      rcases h with h | h
      · exact Or.inr h
      · exact Or.inl (List.mem_cons_of_mem _ h)
    · simp only [mapSet, hk, if_false, List.mem_cons] at h
      rcases h with h | h
      · exact Or.inl (h ▸ List.mem_cons_self _ _)
      · rcases ih h with h | h
        · exact Or.inl (List.mem_cons_of_mem _ h)
        · exact Or.inr h

theorem GraphLe.le_refl (P : String → Prop) (g : DependencyGraph) : GraphLe P g g :=
  ⟨rfl, id, fun _ _ h => h⟩

theorem GraphLe.le_trans {P : String → Prop} {g1 g2 g3 : DependencyGraph}
    (h12 : GraphLe P g1 g2) (h23 : GraphLe P g2 g3) : GraphLe P g1 g3 :=
  ⟨h23.1.trans h12.1, fun h => h23.2.1 (h12.2.1 h), fun k x h => h23.2.2 k x (h12.2.2 k x h)⟩

theorem AddEdge_mem (g : DependencyGraph) (a b : String) :
    a ∈ mapGetD (g.AddEdge a b).Edges b [] := by
  unfold DependencyGraph.AddEdge
  by_cases h : contains (mapGetD g.Edges b []) a = true
  · rw [if_pos h]
    exact (contains_iff _ _).1 h
  · rw [if_neg h]
    simp [mapGetD_mapSet_self]

theorem AddEdge_le (P : String → Prop) (g : DependencyGraph) (a b : String) (ha : P a) :
    GraphLe P g (g.AddEdge a b) := by
  unfold DependencyGraph.AddEdge
  by_cases h : contains (mapGetD g.Edges b []) a = true
  · rw [if_pos h]
    exact GraphLe.le_refl P g
  · rw [if_neg h]
    refine ⟨rfl, ?_, ?_⟩
    · intro hok
      refine ⟨mapKeys_mapSet_nodup _ _ _ hok.1, ?_⟩
      intro e he x hx
      rcases mem_mapSet _ _ _ _ he with he | he
      · exact hok.2 e he x hx
      · subst he
        rcases List.mem_append.1 hx with hx | hx
        · exact hok.2 _ (mem_mapGetD_edges g.Edges b x hx) x hx
        · have : x = a := by simpa using hx
          exact this ▸ ha
    · intro k x hx
      by_cases hk : k = b
      · subst hk
        simp only []
        rw [mapGetD_mapSet_self]
        exact List.mem_append_left _ hx
      · simp only []
        rw [mapGetD_mapSet_ne _ _ _ _ _ hk]
        exact hx

theorem foldl_graphLe {α : Type} (P : String → Prop) (f : DependencyGraph → α → DependencyGraph)
    (hstep : ∀ g a, GraphLe P g (f g a)) (l : List α) (g : DependencyGraph) :
    GraphLe P g (l.foldl f g) := by
  induction l generalizing g with
  | nil => exact GraphLe.le_refl P g
  | cons a rest ih => exact (hstep g a).le_trans (ih (f g a))

theorem foldl_graph_mem {α : Type} (P : String → Prop)
    (f : DependencyGraph → α → DependencyGraph)
    (hstep : ∀ g a, GraphLe P g (f g a)) (l : List α) (g : DependencyGraph) (a : α) (ha : a ∈ l)
    (k x : String) (hadd : ∀ g', g'.Nodes = g.Nodes → x ∈ mapGetD (f g' a).Edges k []) :
    x ∈ mapGetD (l.foldl f g).Edges k [] := by
  induction l generalizing g with
  | nil => cases ha
  | cons b rest ih =>
    rcases List.mem_cons.1 ha with h | h
    · subst h
      exact (foldl_graphLe P f hstep rest (f g a)).2.2 k x (hadd g rfl)
    · exact ih (f g b) h (fun g' hg' => hadd g' (hg'.trans (hstep g b).1))

theorem tableEdges_le (P : String → Prop) (acc : DependencyGraph × DatabaseState)
    (tableName : String) (table : Table) (hP : P tableName) :
    GraphLe P acc.1 (tableEdges acc tableName table).1 := by
  have h1 : GraphLe P acc.1 (table.ForeignKeys.foldl
      (fun g fk => if fk.ReferencedTable ≠ tableName then g.AddEdge tableName fk.ReferencedTable
        else g) acc.1) := by
    apply foldl_graphLe
    intro g fk
    by_cases h : fk.ReferencedTable ≠ tableName
    · rw [if_pos h]; exact AddEdge_le P g _ _ hP
    · rw [if_neg h]; exact GraphLe.le_refl P g
  have h2 : ∀ (l : List String) (r : DependencyGraph × DatabaseState),
      GraphLe P r.1 (l.foldl (fun (r : DependencyGraph × DatabaseState) enumName =>
        (r.1.AddEdge tableName enumName, trackEnumUsage r.2 enumName tableName)) r).1 := by
    intro l
    induction l with
    | nil => intro r; exact GraphLe.le_refl P _
    | cons a rest ih => intro r; exact (AddEdge_le P r.1 _ _ hP).le_trans (ih _)
  have h3 : ∀ (l : List String) (g : DependencyGraph),
      GraphLe P g (l.foldl (fun g domainName => g.AddEdge tableName domainName) g) := by
    intro l g
    exact foldl_graphLe P _ (fun g a => AddEdge_le P g _ _ hP) l g
  unfold tableEdges
  exact (h1.le_trans (h2 _ _)).le_trans (h3 _ _)

theorem tableEdges_fk (P : String → Prop) (acc : DependencyGraph × DatabaseState)
    (tableName : String) (table : Table) (hP : P tableName) (fk : ForeignKey)
    (hfk : fk ∈ table.ForeignKeys) (hne : fk.ReferencedTable ≠ tableName) :
    tableName ∈ mapGetD (tableEdges acc tableName table).1.Edges fk.ReferencedTable [] := by
  have h1 : tableName ∈ mapGetD (table.ForeignKeys.foldl
      (fun g fk => if fk.ReferencedTable ≠ tableName then g.AddEdge tableName fk.ReferencedTable
        else g) acc.1).Edges fk.ReferencedTable [] := by
    refine foldl_graph_mem P _ ?_ _ _ fk hfk _ _ ?_
    · intro g fk
      by_cases h : fk.ReferencedTable ≠ tableName
      · rw [if_pos h]; exact AddEdge_le P g _ _ hP
      · rw [if_neg h]; exact GraphLe.le_refl P g
    · intro g' _
      rw [if_pos hne]
      exact AddEdge_mem g' _ _
  have h2 : ∀ (l : List String) (r : DependencyGraph × DatabaseState),
      GraphLe P r.1 (l.foldl (fun (r : DependencyGraph × DatabaseState) enumName =>
        (r.1.AddEdge tableName enumName, trackEnumUsage r.2 enumName tableName)) r).1 := by
    intro l
    induction l with
    | nil => intro r; exact GraphLe.le_refl P _
    | cons a rest ih => intro r; exact (AddEdge_le P r.1 _ _ hP).le_trans (ih _)
  have h3 : ∀ (l : List String) (g : DependencyGraph),
      GraphLe P g (l.foldl (fun g domainName => g.AddEdge tableName domainName) g) := by
    intro l g
    exact foldl_graphLe P _ (fun g a => AddEdge_le P g _ _ hP) l g
  unfold tableEdges
  exact ((h2 _ _).le_trans (h3 _ _)).2.2 _ _ h1

theorem tableLoop_le (P : String → Prop) (tables : List (String × Table))
    (hP : ∀ e ∈ tables, P e.1) (acc : DependencyGraph × DatabaseState) :
    GraphLe P acc.1 (tables.foldl (fun acc e => tableEdges acc e.1 e.2) acc).1 := by
  induction tables generalizing acc with
  | nil => exact GraphLe.le_refl P _
  | cons e rest ih =>
    exact (tableEdges_le P acc e.1 e.2 (hP e (List.mem_cons_self _ _))).le_trans
      (ih (fun e' he' => hP e' (List.mem_cons_of_mem _ he')) _)

theorem tableLoop_fk (P : String → Prop) (tables : List (String × Table))
    (hP : ∀ e ∈ tables, P e.1) (acc : DependencyGraph × DatabaseState)
    (e : String × Table) (he : e ∈ tables) (fk : ForeignKey) (hfk : fk ∈ e.2.ForeignKeys)
    (hne : fk.ReferencedTable ≠ e.1) :
    e.1 ∈ mapGetD (tables.foldl (fun acc e => tableEdges acc e.1 e.2) acc).1.Edges
      fk.ReferencedTable [] := by
  induction tables generalizing acc with
  | nil => cases he
  | cons e' rest ih =>
    have hrest : ∀ e'' ∈ rest, P e''.1 := fun e'' h => hP e'' (List.mem_cons_of_mem _ h)
    rcases List.mem_cons.1 he with h | h
    · subst h
      exact (tableLoop_le P rest hrest _).2.2 _ _
        (tableEdges_fk P acc e.1 e.2 (hP e (List.mem_cons_self _ _)) fk hfk hne)
    · exact ih hrest _ h

theorem viewEdges_le (P : String → Prop) (g : DependencyGraph) (viewName : String) (view : View)
    (hP : P viewName) : GraphLe P g (viewEdges g viewName view) := by
  unfold viewEdges
  apply foldl_graphLe
  intro g dep
  by_cases h1 : dep ≠ viewName
  · rw [if_pos h1]
    by_cases h2 : (mapGet g.Nodes dep).isSome = true
    · rw [if_pos h2]; exact AddEdge_le P g _ _ hP
    · rw [if_neg h2]; exact GraphLe.le_refl P g
  · rw [if_neg h1]; exact GraphLe.le_refl P g

theorem viewEdges_dep (P : String → Prop) (g : DependencyGraph) (viewName : String) (view : View)
    (hP : P viewName) (dep : String) (hdep : dep ∈ view.DependsOn) (hne : dep ≠ viewName)
    (hnode : (mapGet g.Nodes dep).isSome = true) :
    viewName ∈ mapGetD (viewEdges g viewName view).Edges dep [] := by
  unfold viewEdges
  refine foldl_graph_mem P _ ?_ _ _ dep hdep _ _ ?_
  · intro g dep
    by_cases h1 : dep ≠ viewName
    · rw [if_pos h1]
      by_cases h2 : (mapGet g.Nodes dep).isSome = true
      · rw [if_pos h2]; exact AddEdge_le P g _ _ hP
      · rw [if_neg h2]; exact GraphLe.le_refl P g
    · rw [if_neg h1]; exact GraphLe.le_refl P g
  · intro g' hg'
    rw [if_pos hne, hg', if_pos hnode]
    exact AddEdge_mem g' _ _

theorem viewLoop_le (P : String → Prop) (views : List (String × View))
    (hP : ∀ e ∈ views, P e.1) (g : DependencyGraph) :
    GraphLe P g (views.foldl (fun g e => viewEdges g e.1 e.2) g) := by
  induction views generalizing g with
  | nil => exact GraphLe.le_refl P _
  | cons e rest ih =>
    exact (viewEdges_le P g e.1 e.2 (hP e (List.mem_cons_self _ _))).le_trans
      (ih (fun e' he' => hP e' (List.mem_cons_of_mem _ he')) _)

theorem viewLoop_dep (P : String → Prop) (views : List (String × View))
    (hP : ∀ e ∈ views, P e.1) (g : DependencyGraph)
    (e : String × View) (he : e ∈ views) (dep : String) (hdep : dep ∈ e.2.DependsOn)
    (hne : dep ≠ e.1) (hnode : (mapGet g.Nodes dep).isSome = true) :
    e.1 ∈ mapGetD (views.foldl (fun g e => viewEdges g e.1 e.2) g).Edges dep [] := by
  induction views generalizing g with
  | nil => cases he
  | cons e' rest ih =>
    have hrest : ∀ e'' ∈ rest, P e''.1 := fun e'' h => hP e'' (List.mem_cons_of_mem _ h)
    rcases List.mem_cons.1 he with h | h
    · subst h
      exact (viewLoop_le P rest hrest _).2.2 _ _
        (viewEdges_dep P g e.1 e.2 (hP e (List.mem_cons_self _ _)) dep hdep hne hnode)
    · refine ih hrest _ h ?_
      rw [(viewEdges_le P g e'.1 e'.2 (hP e' (List.mem_cons_self _ _))).1]
      exact hnode

theorem AddNode_fold_edges {V : Type} (t : ObjectType) (c : V → Int) (l : List (String × V))
    (g : DependencyGraph) :
    (l.foldl (fun g e => g.AddNode t e.1 (c e.2)) g).Edges = g.Edges := by
  induction l generalizing g with
  | nil => rfl
  | cons e rest ih => rw [List.foldl_cons, ih]; rfl

theorem mem_keys_AddNode_fold {V : Type} (t : ObjectType) (c : V → Int) (l : List (String × V))
    (g : DependencyGraph) (x : String) :
    x ∈ mapKeys (l.foldl (fun g e => g.AddNode t e.1 (c e.2)) g).Nodes
      ↔ x ∈ mapKeys g.Nodes ∨ x ∈ mapKeys l := by
  induction l generalizing g with
  | nil => simp [mapKeys]
  | cons e rest ih =>
    rw [List.foldl_cons, ih]
    simp only [DependencyGraph.AddNode, mem_mapKeys_mapSet]
    simp only [mapKeys, List.map_cons, List.mem_cons]
    tauto

/-- The nodes of the graph are the names of the catalog's domains, enums, tables and views. -/
theorem mem_keys_buildNodes (dbState : DatabaseState) (x : String) :
    x ∈ mapKeys (buildNodes dbState).Nodes ↔
      x ∈ mapKeys dbState.Domains ∨ x ∈ mapKeys dbState.Enums ∨
      x ∈ mapKeys dbState.Tables ∨ x ∈ mapKeys dbState.Views := by
  unfold buildNodes
  simp only [mem_keys_AddNode_fold]
  simp only [NewDependencyGraph, mapKeys, List.map_nil, List.not_mem_nil, false_or]
  tauto

theorem buildNodes_edges (dbState : DatabaseState) : (buildNodes dbState).Edges = [] := by
  unfold buildNodes
  simp only [AddNode_fold_edges]
  rfl

theorem BuildDependencyGraph_le (dbState : DatabaseState) :
    GraphLe (fun x => x ∈ mapKeys (buildNodes dbState).Nodes) (buildNodes dbState)
      (BuildDependencyGraph dbState).1 := by
  have hT : ∀ e ∈ dbState.Tables, e.1 ∈ mapKeys (buildNodes dbState).Nodes := by
    intro e he
    rw [mem_keys_buildNodes]
    exact Or.inr (Or.inr (Or.inl (List.mem_map_of_mem _ he)))
  have hV : ∀ e ∈ dbState.Views, e.1 ∈ mapKeys (buildNodes dbState).Nodes := by
    intro e he
    rw [mem_keys_buildNodes]
    exact Or.inr (Or.inr (Or.inr (List.mem_map_of_mem _ he)))
  unfold BuildDependencyGraph
  exact (tableLoop_le _ dbState.Tables hT (buildNodes dbState, dbState)).le_trans
    (viewLoop_le _ dbState.Views hV _)

theorem BuildDependencyGraph_nodes (dbState : DatabaseState) :
    (BuildDependencyGraph dbState).1.Nodes = (buildNodes dbState).Nodes :=
  (BuildDependencyGraph_le dbState).1

/-- The graph of a catalog has one edge list per key, and every listed dependent is a node. -/
theorem BuildDependencyGraph_ok (dbState : DatabaseState) :
    (mapKeys (BuildDependencyGraph dbState).1.Edges).Nodup ∧
      ∀ e ∈ (BuildDependencyGraph dbState).1.Edges, ∀ x ∈ e.2,
        x ∈ mapKeys (BuildDependencyGraph dbState).1.Nodes := by
  rw [BuildDependencyGraph_nodes]
  apply (BuildDependencyGraph_le dbState).2.1
  rw [GraphOK, buildNodes_edges]
  simp [mapKeys]

theorem BuildDependencyGraph_fk (dbState : DatabaseState) (e : String × Table)
    (he : e ∈ dbState.Tables) (fk : ForeignKey) (hfk : fk ∈ e.2.ForeignKeys)
    (hne : fk.ReferencedTable ≠ e.1) :
    e.1 ∈ mapGetD (BuildDependencyGraph dbState).1.Edges fk.ReferencedTable [] := by
  have hT : ∀ e ∈ dbState.Tables, e.1 ∈ mapKeys (buildNodes dbState).Nodes := by
    intro e he
    rw [mem_keys_buildNodes]
    exact Or.inr (Or.inr (Or.inl (List.mem_map_of_mem _ he)))
  have hV : ∀ e ∈ dbState.Views, e.1 ∈ mapKeys (buildNodes dbState).Nodes := by
    intro e he
    rw [mem_keys_buildNodes]
    exact Or.inr (Or.inr (Or.inr (List.mem_map_of_mem _ he)))
  unfold BuildDependencyGraph
  exact (viewLoop_le _ dbState.Views hV _).2.2 _ _
    (tableLoop_fk _ dbState.Tables hT (buildNodes dbState, dbState) e he fk hfk hne)

theorem BuildDependencyGraph_view (dbState : DatabaseState) (e : String × View)
    (he : e ∈ dbState.Views) (dep : String) (hdep : dep ∈ e.2.DependsOn) (hne : dep ≠ e.1)
    (hnode : dep ∈ mapKeys (buildNodes dbState).Nodes) :
    e.1 ∈ mapGetD (BuildDependencyGraph dbState).1.Edges dep [] := by
  have hT : ∀ e ∈ dbState.Tables, e.1 ∈ mapKeys (buildNodes dbState).Nodes := by
    intro e he
    rw [mem_keys_buildNodes]
    exact Or.inr (Or.inr (Or.inl (List.mem_map_of_mem _ he)))
  have hV : ∀ e ∈ dbState.Views, e.1 ∈ mapKeys (buildNodes dbState).Nodes := by
    intro e he
    rw [mem_keys_buildNodes]
    exact Or.inr (Or.inr (Or.inr (List.mem_map_of_mem _ he)))
  unfold BuildDependencyGraph
  refine viewLoop_dep _ dbState.Views hV _ e he dep hdep hne ?_
  rw [(tableLoop_le _ dbState.Tables hT (buildNodes dbState, dbState)).1]
  cases h : mapGet (buildNodes dbState).Nodes dep with
  | none => exact absurd hnode ((mapGet_eq_none_iff _ _).1 h)
  | some v => rfl

/-! ## Theorems: the dependency resolver -/

/-- C1 (as amended).  In a dependency graph whose listed dependents (the `from` of every
`AddEdge(from, to)`) are all nodes, every successful result of `TopologicalSort`, for every
order in which `range` may visit the in-degree map, lists `to` at a strictly smaller index
than `from`, for every edge (the edge map has one list per key, as every Go map has).  Every
graph that `BuildDependencyGraph` builds is such a graph; so for every catalog and successful
result, a table `T` with a foreign key to `R ≠ T` comes after `R`, and a view `V` with an
extracted dependency `D ≠ V` that names a surviving object comes after `D`. -/
theorem TopologicalSort_dependencies_first :
    (∀ (g : DependencyGraph) (order result : List String),
      (mapKeys g.Edges).Nodup →
      (∀ e ∈ g.Edges, ∀ x ∈ e.2, x ∈ mapKeys g.Nodes) →
      List.Perm order (mapKeys (inDegreeInit g)) →
      g.TopologicalSort order = some (.ok result) →
      ∀ dependent target, dependent ∈ mapGetD g.Edges target [] →
        dependent ∈ result ∧ target ∈ result ∧
        result.indexOf target < result.indexOf dependent) ∧
    (∀ (dbState : DatabaseState) (order result : List String),
      List.Perm order (mapKeys (inDegreeInit (BuildDependencyGraph dbState).1)) →
      (BuildDependencyGraph dbState).1.TopologicalSort order = some (.ok result) →
      (∀ e ∈ dbState.Tables, ∀ fk ∈ e.2.ForeignKeys, fk.ReferencedTable ≠ e.1 →
        e.1 ∈ result ∧ fk.ReferencedTable ∈ result ∧
        result.indexOf fk.ReferencedTable < result.indexOf e.1) ∧
      (∀ e ∈ dbState.Views, ∀ dep ∈ e.2.DependsOn, dep ≠ e.1 →
        (dep ∈ mapKeys dbState.Domains ∨ dep ∈ mapKeys dbState.Enums ∨
          dep ∈ mapKeys dbState.Tables ∨ dep ∈ mapKeys dbState.Views) →
        e.1 ∈ result ∧ dep ∈ result ∧ result.indexOf dep < result.indexOf e.1)) := by
  refine ⟨?_, ?_⟩
  · intro g order result hE hdep horder hres
    exact (TopologicalSort_ok_order g order result hE hdep horder hres).2.2
  · intro dbState order result horder hres
    have hok := BuildDependencyGraph_ok dbState
    have h := (TopologicalSort_ok_order _ order result hok.1 hok.2 horder hres).2.2
    refine ⟨?_, ?_⟩
    · intro e he fk hfk hne
      exact h _ _ (BuildDependencyGraph_fk dbState e he fk hfk hne)
    · intro e he dep hdep hne hsurv
      exact h _ _ (BuildDependencyGraph_view dbState e he dep hdep hne
        ((mem_keys_buildNodes dbState dep).2 hsurv))

/-- C1, witness: in the catalog of scenario 4 the sort succeeds and puts `b` before `a`. -/
theorem TopologicalSort_dependencies_first_witness :
    (BuildDependencyGraph fkCatalog).1.TopologicalSort ["b", "a"] = some (.ok ["b", "a"]) ∧
      List.indexOf "b" ["b", "a"] < List.indexOf "a" ["b", "a"] :=
  ⟨rfl, ((TopologicalSort_dependencies_first.2 fkCatalog ["b", "a"] ["b", "a"]
    (List.Perm.refl _) rfl).1 ("a", tableWith "a" 2 [fkTo "bid" "b"])
    (by simp [fkCatalog, NewDatabaseState]) (fkTo "bid" "b") (by simp [tableWith])
    (by decide)).2.2⟩

/-- C1, counterexample to the claim as stated (for every dependency graph): `strayGraph` is
built with `AddNode` and `AddEdge`, `TopologicalSort` succeeds on it, the edge
`AddEdge("b", "c")` has both names in the node set, and neither name is in the result, so
`c` is at no smaller index than `b`. -/
theorem TopologicalSort_stray_dependents :
    strayGraph.TopologicalSort (mapKeys (inDegreeInit strayGraph)) = some (.ok ["a", "x", "y"]) ∧
      "b" ∈ mapGetD strayGraph.Edges "c" [] ∧
      "b" ∈ mapKeys strayGraph.Nodes ∧ "c" ∈ mapKeys strayGraph.Nodes ∧
      ¬ (List.indexOf "c" ["a", "x", "y"] < List.indexOf "b" ["a", "x", "y"]) :=
  ⟨rfl, by decide, by decide, by decide, by decide⟩

/-- C2, the code at the failing input: the only table of `danglingCatalog` has a foreign
key to a table that is not in the catalog; no surviving object depends on a surviving
object, and `TopologicalSort` reports a circular dependency. -/
theorem TopologicalSort_dangling_reference :
    (BuildDependencyGraph danglingCatalog).1.TopologicalSort
        (mapKeys (inDegreeInit (BuildDependencyGraph danglingCatalog).1))
      = some (.error "circular dependency detected") ∧
    mapKeys (BuildDependencyGraph danglingCatalog).1.Nodes = ["orders"] ∧
    (BuildDependencyGraph danglingCatalog).1.Edges = [("customers", ["orders"])] :=
  ⟨rfl, rfl, rfl⟩

/-- C6, the code at the failing input: for two tables without dependencies created in the
same migration, the result follows the order in which `range` visits the in-degree map. -/
theorem TopologicalSort_follows_map_order :
    List.Perm ["a", "b"] (mapKeys (inDegreeInit twinGraph)) ∧
    List.Perm ["b", "a"] (mapKeys (inDegreeInit twinGraph)) ∧
    twinGraph.TopologicalSort ["a", "b"] = some (.ok ["a", "b"]) ∧
    twinGraph.TopologicalSort ["b", "a"] = some (.ok ["b", "a"]) :=
  ⟨by decide, by decide, rfl, rfl⟩

/-! ## Lemmas: the numbering of the migrations -/

theorem range_map_shift (n : Int) (k : Nat) :
    (List.range (k + 1)).map (fun (i : Nat) => n + (i : Int))
      = n :: (List.range k).map (fun (i : Nat) => (n + 1) + (i : Int)) := by
  rw [List.range_succ_eq_map, List.map_cons, List.map_map]
  simp only [Nat.cast_zero, add_zero, List.cons.injEq, true_and]
  apply List.map_congr_left
  intro i _
  simp only [Function.comp, Nat.succ_eq_add_one, Nat.cast_add, Nat.cast_one]
  ring

theorem generateLoop_numbers (g : Generator) (n : Int) (objs : List String) :
    (generateLoop g n objs).map (fun p => p.1.Number)
      = (List.range (objs.countP (emitsMigration g.graph g.state))).map
          (fun (i : Nat) => n + (i : Int)) := by
  induction objs generalizing g n with
  | nil => simp [generateLoop]
  | cons objName rest ih =>
    rw [generateLoop, List.countP_cons]
    cases hnode : mapGet g.graph.Nodes objName with
    | none => simp only [emitsMigration, hnode]; simpa using ih g n
    | some node =>
      cases ht : node.Typ with
      | ObjectDomain =>
        cases hd : mapGet g.state.Domains objName with
        | none => simp only [emitsMigration, hnode, ht, hd]; simpa using ih g n
        | some domain =>
          simp only [emitsMigration, hnode, ht, hd, Option.isSome_some, if_true, List.map_cons]
          rw [range_map_shift, ih g (n + 1)]
      | ObjectEnum => simp only [emitsMigration, hnode, ht]; simpa using ih g n
      | ObjectTable =>
        cases hd : mapGet g.state.Tables objName with
        | none => simp only [emitsMigration, hnode, ht, hd]; simpa using ih g n
        | some table =>
          simp only [emitsMigration, hnode, ht, hd, Option.isSome_some, if_true, List.map_cons]
          rw [range_map_shift, ih _ (n + 1)]
          rfl
      | ObjectView =>
        cases hd : mapGet g.state.Views objName with
        | none => simp only [emitsMigration, hnode, ht, hd]; simpa using ih g n
        | some view =>
          simp only [emitsMigration, hnode, ht, hd, Option.isSome_some, if_true, List.map_cons]
          rw [range_map_shift, ih g (n + 1)]

/-! ## Lemmas: which enum blocks `GenerateRequiredEnums` writes -/

theorem concatAll_append (a b : List String) :
    concatAll (a ++ b) = concatAll a ++ concatAll b := by
  induction a with
  | nil => simp [concatAll]
  | cons x rest ih =>
    rw [List.cons_append, concatAll, concatAll, ih, String.append_assoc]

theorem enumBlocks_append (state : DatabaseState) (a b : List String) :
    enumBlocks state (a ++ b) = enumBlocks state a ++ enumBlocks state b := by
  rw [enumBlocks, List.map_append, concatAll_append]
  rfl

theorem requiredEnumsLoop_eq (state : DatabaseState) (l : List String) (sql : String)
    (used : List (String × Bool)) (written : List String) :
    requiredEnumsLoop state l sql used written
      = (sql ++ enumBlocks state (toWrite state l used), usedAfter state l used,
          written ++ toWrite state l used) := by
  induction l generalizing sql used written with
  | nil => simp [requiredEnumsLoop, toWrite, usedAfter, enumBlocks, concatAll]
  | cons n rest ih =>
    by_cases hu : mapGetD used n false = true
    · rw [requiredEnumsLoop, toWrite, usedAfter, if_pos hu, if_pos hu, if_pos hu, ih]
    · rw [requiredEnumsLoop, toWrite, usedAfter, if_neg hu, if_neg hu, if_neg hu]
      cases he : mapGet state.Enums n with
      | none => simp only []; rw [ih]
      | some enum =>
        simp only []
        rw [ih]
        have hb : enumBlocks state (n :: toWrite state rest (mapSet used n true))
            = GenerateEnumSQL enum ++ "\n\n"
                ++ enumBlocks state (toWrite state rest (mapSet used n true)) := by
          simp only [enumBlocks, List.map_cons, concatAll, he]
        rw [hb]
        simp only [String.append_assoc, List.append_assoc, List.singleton_append]

theorem writtenEnums_eq (g : Generator) (table : Table) :
    writtenEnums g table = toWrite g.state table.RequiredEnums g.enumsUsed := by
  rw [writtenEnums, requiredEnumsLoop_eq]
  simp

theorem GenerateRequiredEnums_eq (g : Generator) (table : Table) :
    GenerateRequiredEnums g table
      = (TrimSpace (enumBlocks g.state (writtenEnums g table)),
          { g with enumsUsed := usedAfter g.state table.RequiredEnums g.enumsUsed }) := by
  rw [writtenEnums_eq, GenerateRequiredEnums, requiredEnumsLoop_eq]
  simp

theorem mem_toWrite (state : DatabaseState) (l : List String) (used : List (String × Bool))
    (E : String) :
    E ∈ toWrite state l used ↔
      mapGetD used E false = false ∧ E ∈ l ∧ (mapGet state.Enums E).isSome = true := by
  induction l generalizing used with
  | nil => simp [toWrite]
  | cons n rest ih =>
    by_cases hu : mapGetD used n false = true
    · rw [toWrite, if_pos hu, ih]
      constructor
      · rintro ⟨h1, h2, h3⟩
        exact ⟨h1, List.mem_cons_of_mem _ h2, h3⟩
      · rintro ⟨h1, h2, h3⟩
        refine ⟨h1, ?_, h3⟩
        rcases List.mem_cons.1 h2 with h | h
        · subst h
          rw [h1] at hu
          cases hu
        · exact h
    · rw [toWrite, if_neg hu]
      have hu' : mapGetD used n false = false := by simpa using hu
      cases he : mapGet state.Enums n with
      | none =>
        simp only []
        rw [ih]
        constructor
        · rintro ⟨h1, h2, h3⟩
          exact ⟨h1, List.mem_cons_of_mem _ h2, h3⟩
        · rintro ⟨h1, h2, h3⟩
          refine ⟨h1, ?_, h3⟩
          rcases List.mem_cons.1 h2 with h | h
          · subst h
            rw [he] at h3
            cases h3
          · exact h
      | some enum =>
        simp only [List.mem_cons]
        rw [ih]
        by_cases hEn : E = n
        · subst hEn
          simp [hu', he, mapGetD_mapSet_self]
        · rw [mapGetD_mapSet_ne _ _ _ _ _ hEn]
          simp [hEn]

theorem toWrite_nodup (state : DatabaseState) (l : List String) (used : List (String × Bool)) :
    (toWrite state l used).Nodup := by
  induction l generalizing used with
  | nil => simp [toWrite]
  | cons n rest ih =>
    by_cases hu : mapGetD used n false = true
    · rw [toWrite, if_pos hu]; exact ih used
    · rw [toWrite, if_neg hu]
      cases he : mapGet state.Enums n with
      | none => exact ih used
      | some enum =>
        simp only [List.nodup_cons]
        refine ⟨?_, ih _⟩
        rw [mem_toWrite, mapGetD_mapSet_self]
        simp

theorem usedAfter_get (state : DatabaseState) (l : List String) (used : List (String × Bool))
    (E : String) :
    mapGetD (usedAfter state l used) E false
      = (mapGetD used E false || (decide (E ∈ l) && (mapGet state.Enums E).isSome)) := by
  induction l generalizing used with
  | nil => simp [usedAfter]
  | cons n rest ih =>
    by_cases hu : mapGetD used n false = true
    · rw [usedAfter, if_pos hu, ih]
      by_cases hEn : E = n
      · subst hEn; simp [hu]
      · simp [hEn]
    · rw [usedAfter, if_neg hu]
      have hu' : mapGetD used n false = false := by simpa using hu
      cases he : mapGet state.Enums n with
      | none =>
        simp only []
        rw [ih]
        by_cases hEn : E = n
        · subst hEn; simp [he]
        · simp [hEn]
      | some enum =>
        simp only []
        rw [ih]
        by_cases hEn : E = n
        · subst hEn; simp [he, mapGetD_mapSet_self]
        · rw [mapGetD_mapSet_ne _ _ _ _ _ hEn]
          simp [hEn]

theorem GenerateTableMigration_gen (g : Generator) (table : Table) :
    (GenerateTableMigration g table).2.2
      = { g with enumsUsed := usedAfter g.state table.RequiredEnums g.enumsUsed } := by
  rw [GenerateTableMigration, GenerateRequiredEnums_eq]

theorem generatorAfter_state (g : Generator) (objs : List String) :
    (generatorAfter g objs).state = g.state ∧ (generatorAfter g objs).graph = g.graph := by
  induction objs generalizing g with
  | nil => exact ⟨rfl, rfl⟩
  | cons objName rest ih =>
    rw [generatorAfter]
    cases hnode : mapGet g.graph.Nodes objName with
    | none => exact ih g
    | some node =>
      cases ht : node.Typ with
      | ObjectDomain => simp only [ht]; exact ih g
      | ObjectEnum => simp only [ht]; exact ih g
      | ObjectView => simp only [ht]; exact ih g
      | ObjectTable =>
        cases hd : mapGet g.state.Tables objName with
        | none => simp only [ht, hd]; exact ih g
        | some table =>
          simp only [ht, hd]
          have h := ih (GenerateTableMigration g table).2.2
          rw [GenerateTableMigration_gen] at h ⊢
          exact h

theorem generatorAfter_used (g : Generator) (objs : List String) (E : String) :
    mapGetD (generatorAfter g objs).enumsUsed E false
      = (mapGetD g.enumsUsed E false || objs.any (tableRequires g.graph g.state E)) := by
  induction objs generalizing g with
  | nil => simp [generatorAfter]
  | cons objName rest ih =>
    rw [generatorAfter, List.any_cons]
    cases hnode : mapGet g.graph.Nodes objName with
    | none => simp only [tableRequires, hnode, Bool.false_or]; exact ih g
    | some node =>
      cases ht : node.Typ with
      | ObjectDomain => simp only [tableRequires, hnode, ht, Bool.false_or]; exact ih g
      | ObjectEnum => simp only [tableRequires, hnode, ht, Bool.false_or]; exact ih g
      | ObjectView => simp only [tableRequires, hnode, ht, Bool.false_or]; exact ih g
      | ObjectTable =>
        cases hd : mapGet g.state.Tables objName with
        | none => simp only [tableRequires, hnode, ht, hd, Bool.false_or]; exact ih g
        | some table =>
          simp only [tableRequires, hnode, ht, hd]
          rw [ih, GenerateTableMigration_gen]
          simp only [usedAfter_get, Bool.or_assoc]

theorem generateLoop_append (g : Generator) (n : Int) (pre post : List String) :
    generateLoop g n (pre ++ post)
      = generateLoop g n pre
          ++ generateLoop (generatorAfter g pre)
              (n + (pre.countP (emitsMigration g.graph g.state) : Int)) post := by
  induction pre generalizing g n with
  | nil => simp [generateLoop, generatorAfter]
  | cons objName rest ih =>
    rw [List.cons_append, generateLoop, generateLoop, generatorAfter, List.countP_cons]
    cases hnode : mapGet g.graph.Nodes objName with
    | none => simp only [emitsMigration, hnode]; simpa using ih g n
    | some node =>
      cases ht : node.Typ with
      | ObjectDomain =>
        cases hd : mapGet g.state.Domains objName with
        | none => simp only [emitsMigration, hnode, ht, hd]; simpa using ih g n
        | some domain =>
          simp only [emitsMigration, hnode, ht, hd, Option.isSome_some, if_true,
            List.cons_append, List.cons.injEq, true_and]
          rw [ih g (n + 1)]
          congr 2
          push_cast
          ring
      | ObjectEnum => simp only [emitsMigration, hnode, ht]; simpa using ih g n
      | ObjectView =>
        cases hd : mapGet g.state.Views objName with
        | none => simp only [emitsMigration, hnode, ht, hd]; simpa using ih g n
        | some view =>
          simp only [emitsMigration, hnode, ht, hd, Option.isSome_some, if_true,
            List.cons_append, List.cons.injEq, true_and]
          rw [ih g (n + 1)]
          congr 2
          push_cast
          ring
      | ObjectTable =>
        cases hd : mapGet g.state.Tables objName with
        | none => simp only [emitsMigration, hnode, ht, hd]; simpa using ih g n
        | some table =>
          simp only [emitsMigration, hnode, ht, hd, Option.isSome_some, if_true,
            List.cons_append, List.cons.injEq, true_and]
          rw [ih _ (n + 1)]
          have hs : (GenerateTableMigration g table).2.2.state = g.state := by
            rw [GenerateTableMigration_gen]
          have hg : (GenerateTableMigration g table).2.2.graph = g.graph := by
            rw [GenerateTableMigration_gen]
          rw [hs, hg]
          congr 2
          push_cast
          ring

/-- The number of migrations whose up-SQL holds the block of `E`. -/
theorem generateLoop_count (g : Generator) (n : Int) (objs : List String) (E : String) :
    (generateLoop g n objs).countP (fun p => decide (E ∈ p.2))
      = if mapGetD g.enumsUsed E false = true then 0
        else if objs.any (tableRequires g.graph g.state E) = true then 1 else 0 := by
  induction objs generalizing g n with
  | nil => simp [generateLoop]
  | cons objName rest ih =>
    rw [generateLoop, List.any_cons]
    cases hnode : mapGet g.graph.Nodes objName with
    | none => simp only [tableRequires, hnode, Bool.false_or]; exact ih g n
    | some node =>
      cases ht : node.Typ with
      | ObjectDomain =>
        cases hd : mapGet g.state.Domains objName with
        | none => simp only [tableRequires, hnode, ht, Bool.false_or]; exact ih g n
        | some domain =>
          simp only [tableRequires, hnode, ht, Bool.false_or]
          rw [List.countP_cons_of_neg _ _ (by simp)]
          exact ih g (n + 1)
      | ObjectEnum => simp only [tableRequires, hnode, ht, Bool.false_or]; exact ih g n
      | ObjectView =>
        cases hd : mapGet g.state.Views objName with
        | none => simp only [tableRequires, hnode, ht, Bool.false_or]; exact ih g n
        | some view =>
          simp only [tableRequires, hnode, ht, Bool.false_or]
          rw [List.countP_cons_of_neg _ _ (by simp)]
          exact ih g (n + 1)
      | ObjectTable =>
        cases hd : mapGet g.state.Tables objName with
        | none => simp only [tableRequires, hnode, ht, hd, Bool.false_or]; exact ih g n
        | some table =>
          simp only [tableRequires, hnode, ht, hd]
          rw [List.countP_cons, ih, GenerateTableMigration_gen]
          simp only [usedAfter_get, writtenEnums_eq, mem_toWrite]
          by_cases hu : mapGetD g.enumsUsed E false = true
          · simp [hu]
          · have hu' : mapGetD g.enumsUsed E false = false := by simpa using hu
            by_cases hr : E ∈ table.RequiredEnums
            · cases hen : (mapGet g.state.Enums E).isSome <;> simp [hu', hr, hen]
            · simp [hu', hr]

/-! ## Lemmas: the up-SQL of a migration is its enum blocks, then the object's own text -/

theorem dropWhile_snoc_ne_nil (p : Char → Bool) (l : List Char) (c : Char) (hc : p c = false) :
    (l ++ [c]).dropWhile p ≠ [] := by
  induction l with
  | nil => simp [List.dropWhile, hc]
  | cons x rest ih =>
    rw [List.cons_append, List.dropWhile_cons]
    split
    · exact ih
    · simp

theorem trimSpaceChars_ne_nil (c : Char) (rest : List Char) (hc : isSpace c = false) :
    trimSpaceChars (c :: rest) ≠ [] := by
  unfold trimSpaceChars
  rw [List.dropWhile_cons, hc]
  simp only [Bool.false_eq_true, if_false, List.reverse_cons, ne_eq, List.reverse_eq_nil_iff]
  exact dropWhile_snoc_ne_nil isSpace _ c hc

theorem GenerateEnumSQL_data (enum : Enum) :
    ∃ tail, (GenerateEnumSQL enum).data = 'D' :: tail := by
  unfold GenerateEnumSQL
  simp only [String.data_append]
  exact ⟨_, rfl⟩

theorem enumBlocks_trim_ne (state : DatabaseState) (w : List String) (hw : w ≠ [])
    (hall : ∀ n ∈ w, (mapGet state.Enums n).isSome = true) :
    TrimSpace (enumBlocks state w) ≠ "" := by
  cases w with
  | nil => exact absurd rfl hw
  | cons n rest =>
    have hn := hall n (List.mem_cons_self _ _)
    cases he : mapGet state.Enums n with
    | none => rw [he] at hn; cases hn
    | some enum =>
      obtain ⟨tail, ht⟩ := GenerateEnumSQL_data enum
      have hd : ∃ tail', (enumBlocks state (n :: rest)).data = 'D' :: tail' := by
        simp only [enumBlocks, List.map_cons, concatAll, he, String.data_append, ht,
          List.cons_append]
        exact ⟨_, rfl⟩
      obtain ⟨tail', ht'⟩ := hd
      intro hc
      have h1 : (TrimSpace (enumBlocks state (n :: rest))).data = [] := by rw [hc]
      simp only [TrimSpace, ht'] at h1
      exact trimSpaceChars_ne_nil 'D' tail' (by decide) h1

theorem GenerateTableMigration_upSQL (g : Generator) (table : Table) :
    (GenerateTableMigration g table).1
      = (if writtenEnums g table = [] then ""
          else TrimSpace (enumBlocks g.state (writtenEnums g table)) ++ "\n")
        ++ GenerateTableSQL table := by
  rw [GenerateTableMigration, GenerateRequiredEnums_eq]
  simp only []
  by_cases hw : writtenEnums g table = []
  · rw [hw]
    have : TrimSpace (enumBlocks g.state []) = "" := by rfl
    rw [this]
    simp
  · have hne : TrimSpace (enumBlocks g.state (writtenEnums g table)) ≠ "" := by
      apply enumBlocks_trim_ne _ _ hw
      intro n hn
      rw [writtenEnums_eq, mem_toWrite] at hn
      exact hn.2.2
    rw [if_pos hne, if_neg hw]

theorem generateLoop_upSQL (g : Generator) (n : Int) (objs : List String) :
    ∀ p ∈ generateLoop g n objs, UpSQLFromBlocks g.state p := by
  induction objs generalizing g n with
  | nil => simp [generateLoop]
  | cons objName rest ih =>
    rw [generateLoop]
    cases hnode : mapGet g.graph.Nodes objName with
    | none => exact ih g n
    | some node =>
      cases ht : node.Typ with
      | ObjectDomain =>
        cases hd : mapGet g.state.Domains objName with
        | none => simp only [ht]; exact ih g n
        | some domain =>
          simp only [ht]
          intro p hp
          rcases List.mem_cons.1 hp with h | h
          · subst h
            exact Or.inl ⟨rfl, Or.inl ⟨domain, rfl⟩⟩
          · exact ih g (n + 1) p h
      | ObjectEnum => simp only [ht]; exact ih g n
      | ObjectView =>
        cases hd : mapGet g.state.Views objName with
        | none => simp only [ht]; exact ih g n
        | some view =>
          simp only [ht]
          intro p hp
          rcases List.mem_cons.1 hp with h | h
          · subst h
            exact Or.inl ⟨rfl, Or.inr (Or.inr ⟨view, rfl⟩)⟩
          · exact ih g (n + 1) p h
      | ObjectTable =>
        cases hd : mapGet g.state.Tables objName with
        | none => simp only [ht]; exact ih g n
        | some table =>
          simp only [ht]
          intro p hp
          rcases List.mem_cons.1 hp with h | h
          · subst h
            simp only [UpSQLFromBlocks]
            by_cases hw : writtenEnums g table = []
            · refine Or.inl ⟨hw, Or.inr (Or.inl ⟨table, ?_⟩)⟩
              rw [GenerateTableMigration_upSQL, if_pos hw]
              simp
            · refine Or.inr ⟨hw, table, ?_⟩
              rw [GenerateTableMigration_upSQL, if_neg hw]
          · have h1 := ih (GenerateTableMigration g table).2.2 (n + 1) p h
            rw [GenerateTableMigration_gen] at h1
            exact h1

/-! ## Lemmas: what `AnalyzeEnumUsage` and `BuildDependencyGraph` leave in the catalog -/

theorem mapGet_isSome_mapSet {V : Type} (m : List (String × V)) (k x : String) (v : V)
    (hk : (mapGet m k).isSome = true) :
    (mapGet (mapSet m k v) x).isSome = (mapGet m x).isSome := by
  by_cases hx : x = k
  · subst hx
    rw [mapGet_mapSet_self, hk]
    rfl
  · rw [mapGet_mapSet_ne _ _ _ _ hx]

theorem mapKeys_mapSet_of_isSome {V : Type} (m : List (String × V)) (k : String) (v : V)
    (hk : (mapGet m k).isSome = true) : mapKeys (mapSet m k v) = mapKeys m := by
  induction m with
  | nil => simp [mapGet] at hk
  | cons e rest ih =>
    obtain ⟨k', v'⟩ := e
    by_cases h : k' = k
    · simp [mapSet, mapKeys, h]
    · simp only [mapGet, h, if_false] at hk
      have := ih hk
      simp only [mapKeys] at this
      simp [mapSet, mapKeys, h, this]

theorem mapGet_isSome_of_mem_keys {V : Type} (m : List (String × V)) (k : String)
    (h : k ∈ mapKeys m) : (mapGet m k).isSome = true := by
  cases hg : mapGet m k with
  | none => exact absurd h ((mapGet_eq_none_iff m k).1 hg)
  | some v => rfl

theorem EnumsKept.kept_refl (s : DatabaseState) : EnumsKept s s := ⟨rfl, rfl, fun _ => rfl⟩

theorem EnumsKept.kept_trans {s1 s2 s3 : DatabaseState} (h12 : EnumsKept s1 s2)
    (h23 : EnumsKept s2 s3) : EnumsKept s1 s3 :=
  ⟨h23.1.trans h12.1, h23.2.1.trans h12.2.1, fun x => (h23.2.2 x).trans (h12.2.2 x)⟩

theorem contains_AddRequiredEnum (t : Table) (E x : String) :
    x ∈ (t.AddRequiredEnum E).RequiredEnums ↔ x ∈ t.RequiredEnums ∨ x = E := by
  unfold Table.AddRequiredEnum
  by_cases h : contains t.RequiredEnums E = true
  · rw [if_pos h]
    have := (contains_iff _ _).1 h
    constructor
    · exact Or.inl
    · rintro (h1 | h1)
      · exact h1
      · exact h1 ▸ this
  · rw [if_neg h]
    simp

theorem AddRequiredEnum_columns (t : Table) (E : String) :
    (t.AddRequiredEnum E).Columns = t.Columns := by
  unfold Table.AddRequiredEnum
  split <;> rfl

theorem analyzeColumn_skip (acc : DatabaseState × Table) (tableName colName : String)
    (h : mapGet acc.2.Columns colName = none) : analyzeColumn acc tableName colName = acc := by
  simp only [analyzeColumn, h]

theorem analyzeColumn_other (acc : DatabaseState × Table) (tableName colName : String)
    (col : Column) (h : mapGet acc.2.Columns colName = some col)
    (he : mapGet acc.1.Enums (firstWord (TrimSpace col.Typ)) = none) :
    analyzeColumn acc tableName colName = acc := by
  simp only [analyzeColumn, h, he]

theorem analyzeColumn_enum (acc : DatabaseState × Table) (tableName colName : String)
    (col : Column) (enum : Enum) (h : mapGet acc.2.Columns colName = some col)
    (he : mapGet acc.1.Enums (firstWord (TrimSpace col.Typ)) = some enum) :
    analyzeColumn acc tableName colName
      = ({ acc.1 with
            Enums := mapSet acc.1.Enums (firstWord (TrimSpace col.Typ))
              (enum.AddUsedBy tableName) },
          acc.2.AddRequiredEnum (firstWord (TrimSpace col.Typ))) := by
  simp only [analyzeColumn, h, he]

/-- One column of `AnalyzeEnumUsage`: what changes and what does not. -/
theorem analyzeColumn_inv (acc : DatabaseState × Table) (tableName colName : String) :
    EnumsKept acc.1 (analyzeColumn acc tableName colName).1 ∧
    (analyzeColumn acc tableName colName).1.Tables = acc.1.Tables ∧
    (analyzeColumn acc tableName colName).2.Columns = acc.2.Columns ∧
    (∀ x ∈ acc.2.RequiredEnums, x ∈ (analyzeColumn acc tableName colName).2.RequiredEnums) ∧
    (∀ col, mapGet acc.2.Columns colName = some col →
      (mapGet acc.1.Enums (firstWord (TrimSpace col.Typ))).isSome = true →
      firstWord (TrimSpace col.Typ) ∈ (analyzeColumn acc tableName colName).2.RequiredEnums) := by
  cases hc : mapGet acc.2.Columns colName with
  | none =>
    rw [analyzeColumn_skip acc tableName colName hc]
    refine ⟨EnumsKept.kept_refl _, rfl, rfl, fun x hx => hx, ?_⟩
    intro col h
    cases h
  | some col =>
    cases he : mapGet acc.1.Enums (firstWord (TrimSpace col.Typ)) with
    | none =>
      rw [analyzeColumn_other acc tableName colName col hc he]
      refine ⟨EnumsKept.kept_refl _, rfl, rfl, fun x hx => hx, ?_⟩
      intro col' h h2
      injection h with h
      subst h
      rw [he] at h2
      cases h2
    | some enum =>
      rw [analyzeColumn_enum acc tableName colName col enum hc he]
      refine ⟨⟨rfl, rfl, ?_⟩, rfl, AddRequiredEnum_columns _ _, ?_, ?_⟩
      · intro x
        exact mapGet_isSome_mapSet _ _ _ _ (by rw [he]; rfl)
      · intro x hx
        exact (contains_AddRequiredEnum _ _ _).2 (Or.inl hx)
      · intro col' h _
        injection h with h
        subst h
        exact (contains_AddRequiredEnum _ _ _).2 (Or.inr rfl)

theorem analyzeColumns_inv (tableName : String) (cols : List String)
    (acc : DatabaseState × Table) :
    EnumsKept acc.1 (cols.foldl (fun acc colName => analyzeColumn acc tableName colName) acc).1 ∧
    (cols.foldl (fun acc colName => analyzeColumn acc tableName colName) acc).1.Tables
      = acc.1.Tables ∧
    (cols.foldl (fun acc colName => analyzeColumn acc tableName colName) acc).2.Columns
      = acc.2.Columns ∧
    (∀ x ∈ acc.2.RequiredEnums,
      x ∈ (cols.foldl (fun acc colName => analyzeColumn acc tableName colName) acc).2.RequiredEnums)
    ∧
    (∀ colName ∈ cols, ∀ col, mapGet acc.2.Columns colName = some col →
      (mapGet acc.1.Enums (firstWord (TrimSpace col.Typ))).isSome = true →
      firstWord (TrimSpace col.Typ) ∈
        (cols.foldl (fun acc colName => analyzeColumn acc tableName colName) acc).2.RequiredEnums)
    := by
  induction cols generalizing acc with
  | nil => exact ⟨EnumsKept.kept_refl _, rfl, rfl, fun x hx => hx, fun c hc => by cases hc⟩
  | cons c rest ih =>
    obtain ⟨h1, h2, h3, h4, h5⟩ := analyzeColumn_inv acc tableName c
    obtain ⟨i1, i2, i3, i4, i5⟩ := ih (analyzeColumn acc tableName c)
    rw [List.foldl_cons]
    refine ⟨h1.kept_trans i1, i2.trans h2, i3.trans h3, fun x hx => i4 x (h4 x hx), ?_⟩
    intro colName hmem col hcol hen
    rcases List.mem_cons.1 hmem with h | h
    · subst h
      exact i4 _ (h5 col hcol hen)
    · apply i5 colName h col
      · rw [h3]; exact hcol
      · rw [h1.2.2]; exact hen

theorem AnalyzeEnumUsage_eq (dbState : DatabaseState) :
    AnalyzeEnumUsage dbState = dbState.Tables.foldl analyzeTable dbState := rfl

theorem analyzeTable_inv (st : DatabaseState) (e : String × Table) :
    EnumsKept st (analyzeTable st e) ∧
    (analyzeTable st e).Tables = mapSet st.Tables e.1
      (e.2.ColumnOrder.foldl (fun acc colName => analyzeColumn acc e.1 colName) (st, e.2)).2 := by
  obtain ⟨h1, h2, _, _, _⟩ := analyzeColumns_inv e.1 e.2.ColumnOrder (st, e.2)
  refine ⟨⟨h1.1, h1.2.1, h1.2.2⟩, ?_⟩
  simp only [analyzeTable]
  rw [h2]

theorem analyzeTables_inv (l : List (String × Table)) (st : DatabaseState)
    (hl : ∀ e ∈ l, (mapGet st.Tables e.1).isSome = true) :
    EnumsKept st (l.foldl analyzeTable st) ∧
    mapKeys (l.foldl analyzeTable st).Tables = mapKeys st.Tables ∧
    ∀ T, T ∉ mapKeys l → mapGet (l.foldl analyzeTable st).Tables T = mapGet st.Tables T := by
  induction l generalizing st with
  | nil => exact ⟨EnumsKept.kept_refl _, rfl, fun _ _ => rfl⟩
  | cons e rest ih =>
    obtain ⟨h1, h2⟩ := analyzeTable_inv st e
    have hk : mapKeys (analyzeTable st e).Tables = mapKeys st.Tables := by
      rw [h2]
      exact mapKeys_mapSet_of_isSome _ _ _ (hl e (List.mem_cons_self _ _))
    have hl' : ∀ e' ∈ rest, (mapGet (analyzeTable st e).Tables e'.1).isSome = true := by
      intro e' he'
      apply mapGet_isSome_of_mem_keys
      rw [hk]
      by_contra hc
      have := hl e' (List.mem_cons_of_mem _ he')
      rw [(mapGet_eq_none_iff _ _).2 hc] at this
      cases this
    obtain ⟨i1, i2, i3⟩ := ih (analyzeTable st e) hl'
    rw [List.foldl_cons]
    refine ⟨h1.kept_trans i1, i2.trans hk, ?_⟩
    intro T hT
    simp only [mapKeys, List.map_cons, List.mem_cons, not_or] at hT
    rw [i3 T (by simpa [mapKeys] using hT.2), h2, mapGet_mapSet_ne _ _ _ _ hT.1]

theorem analyzeTables_required (l : List (String × Table)) (st : DatabaseState)
    (hl : ∀ e ∈ l, (mapGet st.Tables e.1).isSome = true) (hnd : (mapKeys l).Nodup)
    (T : String) (table : Table) (hT : (T, table) ∈ l) (colName : String) (col : Column)
    (hcol : colName ∈ table.ColumnOrder) (hc : mapGet table.Columns colName = some col)
    (hen : (mapGet st.Enums (firstWord (TrimSpace col.Typ))).isSome = true) :
    ∃ t1, mapGet (l.foldl analyzeTable st).Tables T = some t1 ∧
      firstWord (TrimSpace col.Typ) ∈ t1.RequiredEnums := by
  induction l generalizing st with
  | nil => cases hT
  | cons e rest ih =>
    obtain ⟨h1, h2⟩ := analyzeTable_inv st e
    have hk : mapKeys (analyzeTable st e).Tables = mapKeys st.Tables := by
      rw [h2]
      exact mapKeys_mapSet_of_isSome _ _ _ (hl e (List.mem_cons_self _ _))
    have hl' : ∀ e' ∈ rest, (mapGet (analyzeTable st e).Tables e'.1).isSome = true := by
      intro e' he'
      apply mapGet_isSome_of_mem_keys
      rw [hk]
      by_contra hc
      have := hl e' (List.mem_cons_of_mem _ he')
      rw [(mapGet_eq_none_iff _ _).2 hc] at this
      cases this
    simp only [mapKeys, List.map_cons, List.nodup_cons] at hnd
    rw [List.foldl_cons]
    rcases List.mem_cons.1 hT with h | h
    · subst h
      obtain ⟨_, _, i3⟩ := analyzeTables_inv rest (analyzeTable st (T, table)) hl'
      rw [i3 T hnd.1, h2, mapGet_mapSet_self]
      refine ⟨_, rfl, ?_⟩
      exact (analyzeColumns_inv T table.ColumnOrder (st, table)).2.2.2.2 colName hcol col hc hen
    · apply ih (analyzeTable st e) hl' (by simpa [mapKeys] using hnd.2) h
      rw [h1.2.2]
      exact hen

theorem trackEnumUsage_kept (s : DatabaseState) (enumName tableName : String) :
    EnumsKept s (trackEnumUsage s enumName tableName) ∧
      (trackEnumUsage s enumName tableName).Tables = s.Tables := by
  cases he : mapGet s.Enums enumName with
  | none =>
    have : trackEnumUsage s enumName tableName = s := by simp only [trackEnumUsage, he]
    rw [this]
    exact ⟨EnumsKept.kept_refl _, rfl⟩
  | some enum =>
    have : trackEnumUsage s enumName tableName
        = { s with Enums := mapSet s.Enums enumName (enum.AddUsedBy tableName) } := by
      simp only [trackEnumUsage, he]
    rw [this]
    refine ⟨⟨rfl, rfl, ?_⟩, rfl⟩
    intro x
    exact mapGet_isSome_mapSet _ _ _ _ (by rw [he]; rfl)

theorem tableEdges_kept (acc : DependencyGraph × DatabaseState) (tableName : String)
    (table : Table) :
    EnumsKept acc.2 (tableEdges acc tableName table).2 ∧
      (tableEdges acc tableName table).2.Tables = acc.2.Tables := by
  have h2 : ∀ (l : List String) (r : DependencyGraph × DatabaseState),
      EnumsKept r.2 (l.foldl (fun (r : DependencyGraph × DatabaseState) enumName =>
        (r.1.AddEdge tableName enumName, trackEnumUsage r.2 enumName tableName)) r).2 ∧
      (l.foldl (fun (r : DependencyGraph × DatabaseState) enumName =>
        (r.1.AddEdge tableName enumName, trackEnumUsage r.2 enumName tableName)) r).2.Tables
        = r.2.Tables := by
    intro l
    induction l with
    | nil => intro r; exact ⟨EnumsKept.kept_refl _, rfl⟩
    | cons a rest ih =>
      intro r
      rw [List.foldl_cons]
      obtain ⟨i1, i2⟩ := ih (r.1.AddEdge tableName a, trackEnumUsage r.2 a tableName)
      obtain ⟨t1, t2⟩ := trackEnumUsage_kept r.2 a tableName
      exact ⟨t1.kept_trans i1, i2.trans t2⟩
  unfold tableEdges
  exact h2 _ _

theorem BuildDependencyGraph_kept (dbState : DatabaseState) :
    EnumsKept dbState (BuildDependencyGraph dbState).2 ∧
      (BuildDependencyGraph dbState).2.Tables = dbState.Tables := by
  have h : ∀ (l : List (String × Table)) (acc : DependencyGraph × DatabaseState),
      EnumsKept acc.2 (l.foldl (fun acc e => tableEdges acc e.1 e.2) acc).2 ∧
      (l.foldl (fun acc e => tableEdges acc e.1 e.2) acc).2.Tables = acc.2.Tables := by
    intro l
    induction l with
    | nil => intro acc; exact ⟨EnumsKept.kept_refl _, rfl⟩
    | cons e rest ih =>
      intro acc
      rw [List.foldl_cons]
      obtain ⟨i1, i2⟩ := ih (tableEdges acc e.1 e.2)
      obtain ⟨t1, t2⟩ := tableEdges_kept acc e.1 e.2
      exact ⟨t1.kept_trans i1, i2.trans t2⟩
  unfold BuildDependencyGraph
  exact h _ _

theorem AddNode_fold_get {V : Type} (t : ObjectType) (c : V → Int) (l : List (String × V))
    (g : DependencyGraph) (x : String) :
    (x ∈ mapKeys l → ∃ node, mapGet (l.foldl (fun g e => g.AddNode t e.1 (c e.2)) g).Nodes x
        = some node ∧ node.Typ = t) ∧
    (x ∉ mapKeys l → mapGet (l.foldl (fun g e => g.AddNode t e.1 (c e.2)) g).Nodes x
        = mapGet g.Nodes x) := by
  induction l generalizing g with
  | nil => exact ⟨fun h => by simp [mapKeys] at h, fun _ => rfl⟩
  | cons e rest ih =>
    rw [List.foldl_cons]
    obtain ⟨i1, i2⟩ := ih (g.AddNode t e.1 (c e.2))
    constructor
    · intro hx
      by_cases hr : x ∈ mapKeys rest
      · exact i1 hr
      · have hxe : x = e.1 := by
          simp only [mapKeys, List.map_cons, List.mem_cons] at hx hr
          rcases hx with h | h
          · exact h
          · exact absurd h hr
        rw [i2 hr, hxe]
        exact ⟨_, mapGet_mapSet_self _ _ _, rfl⟩
    · intro hx
      simp only [mapKeys, List.map_cons, List.mem_cons, not_or] at hx
      rw [i2 (by simpa [mapKeys] using hx.2)]
      exact mapGet_mapSet_ne _ _ _ _ hx.1

/-- A table whose name no view shares is a table node of the graph. -/
theorem BuildDependencyGraph_table_node (dbState : DatabaseState) (T : String)
    (hT : T ∈ mapKeys dbState.Tables) (hV : T ∉ mapKeys dbState.Views) :
    ∃ node, mapGet (BuildDependencyGraph dbState).1.Nodes T = some node ∧
      node.Typ = .ObjectTable := by
  rw [BuildDependencyGraph_nodes]
  unfold buildNodes
  simp only []
  rw [(AddNode_fold_get .ObjectView (fun v : View => v.CreatedIn) dbState.Views _ T).2 hV]
  exact (AddNode_fold_get .ObjectTable (fun v : Table => v.CreatedIn) dbState.Tables _ T).1 hT

theorem any_split {α : Type} (p : α → Bool) (l : List α) (h : l.any p = true) :
    ∃ pre x post, l = pre ++ x :: post ∧ p x = true ∧ ∀ y ∈ pre, p y = false := by
  induction l with
  | nil => simp at h
  | cons a rest ih =>
    by_cases ha : p a = true
    · exact ⟨[], a, rest, rfl, ha, fun y hy => by cases hy⟩
    · have ha' : p a = false := by simpa using ha
      rw [List.any_cons, ha', Bool.false_or] at h
      obtain ⟨pre, x, post, h1, h2, h3⟩ := ih h
      refine ⟨a :: pre, x, post, by rw [h1]; rfl, h2, ?_⟩
      intro y hy
      rcases List.mem_cons.1 hy with hy | hy
      · exact hy ▸ ha'
      · exact h3 y hy

theorem tableRequires_true (graph : DependencyGraph) (state : DatabaseState) (E name : String)
    (h : tableRequires graph state E name = true) :
    ∃ node table enum, mapGet graph.Nodes name = some node ∧ node.Typ = .ObjectTable ∧
      mapGet state.Tables name = some table ∧ E ∈ table.RequiredEnums ∧
      mapGet state.Enums E = some enum := by
  unfold tableRequires at h
  cases hnode : mapGet graph.Nodes name with
  | none => simp [hnode] at h
  | some node =>
    cases ht : node.Typ with
    | ObjectTable =>
      cases hd : mapGet state.Tables name with
      | none => simp [hnode, ht, hd] at h
      | some table =>
        simp only [hnode, ht, hd, Bool.and_eq_true, decide_eq_true_eq] at h
        cases he : mapGet state.Enums E with
        | none => rw [he] at h; exact absurd h.2 (by simp)
        | some enum => exact ⟨node, table, enum, rfl, ht, rfl, h.1, rfl⟩
    | ObjectDomain => simp [hnode, ht] at h
    | ObjectEnum => simp [hnode, ht] at h
    | ObjectView => simp [hnode, ht] at h

theorem tableRequires_eq (graph : DependencyGraph) (state : DatabaseState) (E name : String)
    (node : DependencyNode) (table : Table) (hnode : mapGet graph.Nodes name = some node)
    (ht : node.Typ = .ObjectTable) (hd : mapGet state.Tables name = some table) :
    tableRequires graph state E name
      = (decide (E ∈ table.RequiredEnums) && (mapGet state.Enums E).isSome) := by
  simp only [tableRequires, hnode, ht, hd]

theorem generateLoop_table (g : Generator) (n : Int) (objName : String) (rest : List String)
    (node : DependencyNode) (table : Table) (hnode : mapGet g.graph.Nodes objName = some node)
    (ht : node.Typ = .ObjectTable) (hd : mapGet g.state.Tables objName = some table) :
    generateLoop g n (objName :: rest)
      = ({ Number := n, Name := "create-" ++ table.Name,
           UpSQL := (GenerateTableMigration g table).1,
           DownSQL := (GenerateTableMigration g table).2.1 }, writtenEnums g table) ::
        generateLoop (GenerateTableMigration g table).2.2 (n + 1) rest := by
  rw [generateLoop]
  simp only [hnode, ht, hd]

/-- The first table of the list that requires `E` gets the block of `E`; no migration
before it and none after it does. -/
theorem generateLoop_first (g : Generator) (n : Int) (pre post : List String) (T0 E : String)
    (hu : mapGetD g.enumsUsed E false = false)
    (hpre : ∀ name ∈ pre, tableRequires g.graph g.state E name = false)
    (hT0 : tableRequires g.graph g.state E T0 = true) :
    ∃ (table0 : Table) (enum : Enum) (m0 : ConsolidatedMigration) (before after : List String)
      (later : List (ConsolidatedMigration × List String)),
      mapGet g.state.Tables T0 = some table0 ∧ E ∈ table0.RequiredEnums ∧
      mapGet g.state.Enums E = some enum ∧
      generateLoop g n (pre ++ T0 :: post)
        = generateLoop g n pre ++ (m0, before ++ E :: after) :: later ∧
      (∀ p ∈ generateLoop g n pre, E ∉ p.2) ∧ E ∉ before ∧ E ∉ after ∧
      (∀ p ∈ later, E ∉ p.2) ∧
      m0.Name = "create-" ++ table0.Name ∧
      m0.UpSQL = TrimSpace (enumBlocks g.state before ++ GenerateEnumSQL enum ++ "\n\n"
          ++ enumBlocks g.state after) ++ "\n" ++ GenerateTableSQL table0 := by
  obtain ⟨node, table0, enum, hnode, ht, hd, hreq, hen⟩ := tableRequires_true _ _ _ _ hT0
  obtain ⟨hs, hg⟩ := generatorAfter_state g pre
  have hany : pre.any (tableRequires g.graph g.state E) = false := by
    rw [List.any_eq_false]
    intro x hx
    rw [hpre x hx]
    simp
  have humid : mapGetD (generatorAfter g pre).enumsUsed E false = false := by
    rw [generatorAfter_used, hu, hany]
    rfl
  have hmem : E ∈ writtenEnums (generatorAfter g pre) table0 := by
    rw [writtenEnums_eq, mem_toWrite, hs]
    exact ⟨humid, hreq, by rw [hen]; rfl⟩
  have hnd : (writtenEnums (generatorAfter g pre) table0).Nodup := by
    rw [writtenEnums_eq]
    exact toWrite_nodup _ _ _
  obtain ⟨before, after, hw⟩ := List.append_of_mem hmem
  rw [hw] at hnd
  have hnb : E ∉ before := by
    intro hc
    have := (List.nodup_append.1 hnd).2.2 hc (List.mem_cons_self _ _)
    exact this
  have hna : E ∉ after := by
    have := (List.nodup_append.1 hnd).2.1
    exact (List.nodup_cons.1 this).1
  refine ⟨table0, enum,
    { Number := n + (pre.countP (emitsMigration g.graph g.state) : Int),
      Name := "create-" ++ table0.Name,
      UpSQL := (GenerateTableMigration (generatorAfter g pre) table0).1,
      DownSQL := (GenerateTableMigration (generatorAfter g pre) table0).2.1 },
    before, after,
    generateLoop (GenerateTableMigration (generatorAfter g pre) table0).2.2
      (n + (pre.countP (emitsMigration g.graph g.state) : Int) + 1) post,
    hd, hreq, hen, ?_, ?_, hnb, hna, ?_, rfl, ?_⟩
  · rw [generateLoop_append, generateLoop_table (generatorAfter g pre) _ T0 post node table0
      (by rw [hg]; exact hnode) ht (by rw [hs]; exact hd), hw]
  · have hc := generateLoop_count g n pre E
    rw [hu, hany] at hc
    simp only [Bool.false_eq_true, if_false] at hc
    intro p hp hE
    have := (List.countP_eq_zero.1 hc) p hp
    simp [hE] at this
  · have hc := generateLoop_count (GenerateTableMigration (generatorAfter g pre) table0).2.2
      (n + (pre.countP (emitsMigration g.graph g.state) : Int) + 1) post E
    have hused : mapGetD (GenerateTableMigration (generatorAfter g pre) table0).2.2.enumsUsed
        E false = true := by
      rw [GenerateTableMigration_gen]
      simp only [usedAfter_get, hs, hen, Option.isSome_some, Bool.and_true, Bool.or_eq_true,
        decide_eq_true_eq]
      exact Or.inr hreq
    rw [hused] at hc
    simp only [if_true] at hc
    intro p hp hE
    have := (List.countP_eq_zero.1 hc) p hp
    simp [hE] at this
  · simp only []
    rw [GenerateTableMigration_upSQL, hw, hs]
    have hne : before ++ E :: after ≠ [] := by simp
    rw [if_neg hne, enumBlocks_append]
    have hb : enumBlocks g.state (E :: after)
        = GenerateEnumSQL enum ++ "\n\n" ++ enumBlocks g.state after := by
      simp only [enumBlocks, List.map_cons, concatAll, hen]
    rw [hb]
    simp only [String.append_assoc]

/-! ## Theorems: the emitter -/

/-- C5.  For every generator and every ordered object list, the numbers of the migrations
that `Generate` returns are 1, 2, ..., N in this order, where N is the number of names in the
list that are domain, table or view nodes present in the catalog; enum nodes and names that
are not nodes take no number. -/
theorem Generate_numbers_sequential (g : Generator) (orderedObjects : List String) :
    (Generate g orderedObjects).map (fun m => m.Number)
      = (List.range (orderedObjects.countP (emitsMigration g.graph g.state))).map
          (fun (i : Nat) => (i : Int) + 1) := by
  unfold Generate
  rw [List.map_map]
  have h := generateLoop_numbers g 1 orderedObjects
  have hc : ((fun m : ConsolidatedMigration => m.Number) ∘ Prod.fst)
      = (fun p : ConsolidatedMigration × List String => p.1.Number) := rfl
  rw [hc, h]
  apply List.map_congr_left
  intro i _
  ring

/-- C4 (as amended).  For every catalog and graph, every ordered object list and every
enum name `E`: at most one of the migrations that `Generate` returns has the block of `E`
in its up-SQL; exactly one when some name of the list is a table that `Generate` emits and
that requires `E`, none otherwise (an enum that no emitted table requires is created by no
migration).  The migrations are those of `Generate`, and the up-SQL of each is the blocks of
its enums followed by the text of its table, domain or view. -/
theorem Generate_enum_block_count (state : DatabaseState) (graph : DependencyGraph)
    (orderedObjects : List String) (E : String) :
    (generateLoop (NewGenerator state graph) 1 orderedObjects).map Prod.fst
        = Generate (NewGenerator state graph) orderedObjects ∧
    (∀ p ∈ generateLoop (NewGenerator state graph) 1 orderedObjects, UpSQLFromBlocks state p) ∧
    (generateLoop (NewGenerator state graph) 1 orderedObjects).countP
        (fun p => decide (E ∈ p.2))
      = (if orderedObjects.any (tableRequires graph state E) = true then 1 else 0) := by
  refine ⟨rfl, generateLoop_upSQL _ 1 orderedObjects, ?_⟩
  rw [generateLoop_count]
  simp [NewGenerator, mapGetD, mapGet]

/-- C4, counterexample to the claim as stated: `mood` is an enum of the final catalog, the
sort succeeds, and the only migration that `Generate` returns creates the table `t`; no
migration creates `mood`. -/
theorem Generate_drops_unused_enum :
    (mapGet (generatorOf unusedEnumCatalog).state.Enums "mood").isSome = true ∧
    (generatorOf unusedEnumCatalog).graph.TopologicalSort ["mood", "t"]
      = some (.ok ["mood", "t"]) ∧
    Generate (generatorOf unusedEnumCatalog) ["mood", "t"]
      = [{ Number := 1, Name := "create-t", UpSQL := "CREATE TABLE t (\n    id int\n);\n",
           DownSQL := "DROP TABLE IF EXISTS t CASCADE;\n" }] :=
  ⟨rfl, rfl, rfl⟩

/-- C3 (as amended).  For every catalog in which no view has the name of a table (and the
map of tables has one entry per name, as every Go map has), taken through
`AnalyzeEnumUsage`, `BuildDependencyGraph` and `NewGenerator`, every enum `E` of the
catalog and every ordered object list that names a table `T` with a column whose type has
`E` as its first word: the list splits at the first table `T0` that requires `E`; the
migration of `T0` is the only one whose up-SQL gets the block of `E`, once (the migrations
before it and after it get none); that up-SQL is the blocks of its enums, the block
`GenerateEnumSQL E` among them, then a newline, then the `CREATE TABLE` text of `T0`; and no
table named before `T0` requires `E`, so every table that requires `E` is created by this
migration or a later one.  Which blocks an up-SQL gets is the second component of
`generateLoop`; the last part says that every up-SQL is made of exactly these blocks and
the text of its own table, domain or view. -/
theorem Generate_enum_before_first_table (dbState : DatabaseState) (order : List String)
    (E T colName : String) (table : Table) (col : Column)
    (hkeys : (mapKeys dbState.Tables).Nodup)
    (hviews : ∀ t ∈ mapKeys dbState.Tables, t ∉ mapKeys dbState.Views)
    (hE : E ∈ mapKeys dbState.Enums)
    (hT : (T, table) ∈ dbState.Tables)
    (hcol : colName ∈ table.ColumnOrder) (hc : mapGet table.Columns colName = some col)
    (htype : firstWord (TrimSpace col.Typ) = E)
    (hord : T ∈ order) :
    ∃ (pre post : List String) (T0 : String) (table0 : Table) (enum : Enum)
      (m0 : ConsolidatedMigration) (before after : List String)
      (later : List (ConsolidatedMigration × List String)),
      order = pre ++ T0 :: post ∧
      mapGet (generatorOf dbState).state.Tables T0 = some table0 ∧
      E ∈ table0.RequiredEnums ∧
      (∀ name ∈ pre, ∀ tb, mapGet (generatorOf dbState).state.Tables name = some tb →
        E ∉ tb.RequiredEnums) ∧
      mapGet (generatorOf dbState).state.Enums E = some enum ∧
      generateLoop (generatorOf dbState) 1 order
        = generateLoop (generatorOf dbState) 1 pre ++ (m0, before ++ E :: after) :: later ∧
      Generate (generatorOf dbState) order
        = Generate (generatorOf dbState) pre ++ m0 :: later.map Prod.fst ∧
      (∀ p ∈ generateLoop (generatorOf dbState) 1 pre, E ∉ p.2) ∧
      E ∉ before ∧ E ∉ after ∧ (∀ p ∈ later, E ∉ p.2) ∧
      m0.Name = "create-" ++ table0.Name ∧
      m0.UpSQL = TrimSpace (enumBlocks (generatorOf dbState).state before
          ++ GenerateEnumSQL enum ++ "\n\n" ++ enumBlocks (generatorOf dbState).state after)
        ++ "\n" ++ GenerateTableSQL table0 ∧
      (∀ p ∈ generateLoop (generatorOf dbState) 1 order,
        UpSQLFromBlocks (generatorOf dbState).state p) := by
  have hl : ∀ e ∈ dbState.Tables, (mapGet dbState.Tables e.1).isSome = true :=
    fun e he => mapGet_isSome_of_mem_keys _ _ (List.mem_map_of_mem _ he)
  obtain ⟨a1, a2, _⟩ := analyzeTables_inv dbState.Tables dbState hl
  rw [← AnalyzeEnumUsage_eq] at a1 a2
  obtain ⟨b1, b2⟩ := BuildDependencyGraph_kept (AnalyzeEnumUsage dbState)
  have hkept := a1.kept_trans b1
  have hEsome : (mapGet (generatorOf dbState).state.Enums E).isSome = true := by
    show (mapGet (BuildDependencyGraph (AnalyzeEnumUsage dbState)).2.Enums E).isSome = true
    rw [hkept.2.2]
    exact mapGet_isSome_of_mem_keys _ _ hE
  have hnodeOf : ∀ name, name ∈ mapKeys dbState.Tables →
      ∃ node, mapGet (generatorOf dbState).graph.Nodes name = some node ∧
        node.Typ = .ObjectTable := by
    intro name hname
    apply BuildDependencyGraph_table_node
    · rw [a2]; exact hname
    · rw [a1.1]; exact hviews name hname
  have hTables : (generatorOf dbState).state.Tables = (AnalyzeEnumUsage dbState).Tables := b2
  have hreqT : tableRequires (generatorOf dbState).graph (generatorOf dbState).state E T
      = true := by
    obtain ⟨t1, ht1, hmem⟩ := analyzeTables_required dbState.Tables dbState hl hkeys T table hT
      colName col hcol hc (by rw [htype]; exact mapGet_isSome_of_mem_keys _ _ hE)
    rw [← AnalyzeEnumUsage_eq] at ht1
    rw [htype] at hmem
    obtain ⟨node, hnode, hty⟩ := hnodeOf T (List.mem_map_of_mem _ hT)
    rw [tableRequires_eq _ _ _ _ node t1 hnode hty (by rw [hTables]; exact ht1), hEsome]
    simpa using hmem
  have hany : order.any (tableRequires (generatorOf dbState).graph (generatorOf dbState).state E)
      = true := List.any_eq_true.2 ⟨T, hord, hreqT⟩
  obtain ⟨pre, T0, post, hsplit, hT0, hpre⟩ := any_split _ _ hany
  obtain ⟨table0, enum, m0, before, after, later, h1, h2, h3, h4, h5, h6, h7, h8, h9, h10⟩ :=
    generateLoop_first (generatorOf dbState) 1 pre post T0 E rfl hpre hT0
  refine ⟨pre, post, T0, table0, enum, m0, before, after, later, hsplit, h1, h2, ?_, h3,
    by rw [hsplit]; exact h4, ?_, h5, h6, h7, h8, h9, h10, generateLoop_upSQL _ 1 order⟩
  · intro name hname tb htb
    have hkey : name ∈ mapKeys dbState.Tables := by
      rw [← a2, ← hTables]
      exact mapGet_some_key _ _ _ htb
    obtain ⟨node, hnode, hty⟩ := hnodeOf name hkey
    have := hpre name hname
    rw [tableRequires_eq _ _ _ _ node tb hnode hty htb, hEsome] at this
    simpa using this
  · unfold Generate
    rw [hsplit, h4, List.map_append, List.map_cons]

/-- C3, witness: scenario 3 of the specification. -/
theorem Generate_enum_before_first_table_witness :
    ∃ (pre post : List String) (T0 : String) (table0 : Table) (enum : Enum)
      (m0 : ConsolidatedMigration) (before after : List String)
      (later : List (ConsolidatedMigration × List String)),
      ["status", "t"] = pre ++ T0 :: post ∧
      mapGet (generatorOf enumCatalog).state.Tables T0 = some table0 ∧
      "status" ∈ table0.RequiredEnums ∧
      (∀ name ∈ pre, ∀ tb, mapGet (generatorOf enumCatalog).state.Tables name = some tb →
        "status" ∉ tb.RequiredEnums) ∧
      mapGet (generatorOf enumCatalog).state.Enums "status" = some enum ∧
      generateLoop (generatorOf enumCatalog) 1 ["status", "t"]
        = generateLoop (generatorOf enumCatalog) 1 pre ++ (m0, before ++ "status" :: after) :: later ∧
      Generate (generatorOf enumCatalog) ["status", "t"]
        = Generate (generatorOf enumCatalog) pre ++ m0 :: later.map Prod.fst ∧
      (∀ p ∈ generateLoop (generatorOf enumCatalog) 1 pre, "status" ∉ p.2) ∧
      "status" ∉ before ∧ "status" ∉ after ∧ (∀ p ∈ later, "status" ∉ p.2) ∧
      m0.Name = "create-" ++ table0.Name ∧
      m0.UpSQL = TrimSpace (enumBlocks (generatorOf enumCatalog).state before
          ++ GenerateEnumSQL enum ++ "\n\n" ++ enumBlocks (generatorOf enumCatalog).state after)
        ++ "\n" ++ GenerateTableSQL table0 ∧
      (∀ p ∈ generateLoop (generatorOf enumCatalog) 1 ["status", "t"],
        UpSQLFromBlocks (generatorOf enumCatalog).state p) :=
  Generate_enum_before_first_table enumCatalog ["status", "t"] "status" "t" "s"
    { (NewTable "t").AddColumn (plainColumn "s" "status") with CreatedIn := 2 }
    (plainColumn "s" "status") (by decide) (by decide) (by decide)
    (by simp [enumCatalog, NewDatabaseState]) (by decide) rfl rfl (by decide)

/-- C3, counterexample to the claim as stated (for every catalog): in `sameNameCatalog` the
table `t` has a column of the enum type `status`, the list names every object once, and the
only migration that `Generate` returns creates the view `t`: the node map is keyed by name,
the view took the place of the table, and no up-SQL holds `CREATE TYPE status`. -/
theorem Generate_same_name_view :
    (mapGet sameNameCatalog.Tables "t").map (fun t => t.ColumnOrder.map (fun c =>
        firstWord (TrimSpace (columnOf t c).Typ))) = some ["status"] ∧
    (mapGet sameNameCatalog.Enums "status").isSome = true ∧
    (generatorOf sameNameCatalog).graph.TopologicalSort ["status", "t"]
      = some (.ok ["status", "t"]) ∧
    Generate (generatorOf sameNameCatalog) ["status", "t"]
      = [{ Number := 1, Name := "create-t-view", UpSQL := "CREATE VIEW t AS SELECT 1;\n",
           DownSQL := "DROP VIEW IF EXISTS t CASCADE;\n" }] :=
  ⟨rfl, rfl, rfl, rfl⟩

/-- C7, the code at the failing input: the two tables have the same columns and the same
map of column comments (`a` to `first`, `b` to `second`); only the order in which `range`
visits that map differs, and the emitted text follows it. -/
theorem GenerateTableSQL_follows_map_order :
    List.Perm [("a", "first"), ("b", "second")] [("b", "second"), ("a", "first")] ∧
    GenerateTableSQL (commentedTable [("a", "first"), ("b", "second")])
      = "CREATE TABLE t (\n    a int,\n    b int\n);\n" ++
        "COMMENT ON COLUMN t.a IS 'first';\nCOMMENT ON COLUMN t.b IS 'second';\n" ∧
    GenerateTableSQL (commentedTable [("b", "second"), ("a", "first")])
      = "CREATE TABLE t (\n    a int,\n    b int\n);\n" ++
        "COMMENT ON COLUMN t.b IS 'second';\nCOMMENT ON COLUMN t.a IS 'first';\n" ∧
    GenerateTableSQL (commentedTable [("a", "first"), ("b", "second")])
      ≠ GenerateTableSQL (commentedTable [("b", "second"), ("a", "first")]) :=
  ⟨by decide, by decide, by decide, by decide⟩

/-! ## Theorems: the recognizer and the applier -/

/-- C8, the code at the failing input: `ALTER TABLE t ADD COLUMN c int NOT NULL DEFAULT 0`
is recognised as one `AddColumn` operation whose `Details` is the matched text
`ADD COLUMN c int` only, so `applyAddColumn` sees neither `NOT NULL` nor `DEFAULT`: the
column `c` is nullable and has no default. -/
theorem AddColumn_loses_modifiers :
    (Parse "ALTER TABLE t ADD COLUMN c int NOT NULL DEFAULT 0;").toOption
      = some [{ Typ := .AlterTable, Original := "ALTER TABLE t ADD COLUMN c int NOT NULL DEFAULT 0",
                ObjectName := "t",
                Details := .AlterTableDetails "t"
                  [{ Typ := .AddColumn, ColumnName := "c", DataType := "int",
                     Details := "ADD COLUMN c int" }] }] ∧
    columnIn (applyMigration (NewApplier NewDatabaseState) 1
        "ALTER TABLE t ADD COLUMN c int NOT NULL DEFAULT 0;") "t" "c"
      = some { Name := "c", Typ := "int", Nullable := true, Default := "", Generated := "",
               Comment := "" } := by
  constructor
  · decide
  · decide

/-- C9, the code at the failing input: the column definition is cut into fields at white
space, so the type of `price numeric(10, 2) NOT NULL` is stored as `numeric(10,`. -/
theorem parseColumnDefinition_cuts_type :
    (mapGet (parseColumnDefinition (NewTable "t") "price numeric(10, 2) NOT NULL").Columns
        "price").map (fun col => col.Typ) = some "numeric(10," := by
  decide

/-- C10, the code at the failing input: the parts `unique_id int` and `checksum text` start
with `UNIQUE` and `CHECK` in upper case, go to `parseUnique` and `parseCheck`, match neither
pattern and are dropped; only `id` becomes a column. -/
theorem parseTableDefinition_drops_columns :
    (parseTableDefinition (NewTable "t") "id int, unique_id int, checksum text").ColumnOrder
      = ["id"] ∧
    (parseTableDefinition (NewTable "t") "id int, unique_id int, checksum text").Uniques = [] ∧
    (parseTableDefinition (NewTable "t") "id int, unique_id int, checksum text").Checks = [] := by
  refine ⟨?_, ?_, ?_⟩ <;> decide

/-! ## Lemmas: what the applier leaves of `CreatedIn` -/

theorem mapDelete_cons {V : Type} (e : String × V) (rest : List (String × V)) (k : String) :
    mapDelete (e :: rest) k = if e.1 = k then mapDelete rest k else e :: mapDelete rest k := by
  by_cases h : e.1 = k
  · simp [mapDelete, List.filter_cons, h]
  · simp [mapDelete, List.filter_cons, h]

theorem mapGet_mapDelete_ne {V : Type} (m : List (String × V)) (k k' : String) (h : k' ≠ k) :
    mapGet (mapDelete m k) k' = mapGet m k' := by
  induction m with
  | nil => rfl
  | cons e rest ih =>
    obtain ⟨k0, v0⟩ := e
    rw [mapDelete_cons]
    by_cases h0 : k0 = k
    · subst h0
      have h1 : ¬ k0 = k' := fun e => h e.symm
      simp only [if_true, mapGet, h1, if_false]
      exact ih
    · simp only [h0, if_false, mapGet, ih]

theorem mapGet_mapDelete_self {V : Type} (m : List (String × V)) (k : String) :
    mapGet (mapDelete m k) k = none := by
  induction m with
  | nil => rfl
  | cons e rest ih =>
    obtain ⟨k0, v0⟩ := e
    rw [mapDelete_cons]
    by_cases h0 : k0 = k
    · simp only [h0, if_true, ih]
    · simp only [h0, if_false, mapGet, ih]

theorem parseColumnDefinition_keeps (table : Table) (part : String) :
    (parseColumnDefinition table part).Name = table.Name ∧
      (parseColumnDefinition table part).CreatedIn = table.CreatedIn := by
  unfold parseColumnDefinition
  simp only
  split_ifs <;> exact ⟨rfl, rfl⟩

theorem parseTablePart_keeps (table : Table) (part : String) :
    (parseTablePart table part).Name = table.Name ∧
      (parseTablePart table part).CreatedIn = table.CreatedIn := by
  unfold parseTablePart
  simp only
  split_ifs
  · exact ⟨rfl, rfl⟩
  · unfold parsePrimaryKey; split_ifs <;> exact ⟨rfl, rfl⟩
  · unfold parseForeignKey; split_ifs <;> exact ⟨rfl, rfl⟩
  · unfold parseUnique; split_ifs <;> exact ⟨rfl, rfl⟩
  · unfold parseCheck; split_ifs <;> exact ⟨rfl, rfl⟩
  · exact parseColumnDefinition_keeps _ _

theorem parseTableDefinition_keeps (table : Table) (definition : String) :
    (parseTableDefinition table definition).Name = table.Name ∧
      (parseTableDefinition table definition).CreatedIn = table.CreatedIn := by
  unfold parseTableDefinition
  generalize splitTopLevel definition ',' = parts
  induction parts generalizing table with
  | nil => exact ⟨rfl, rfl⟩
  | cons p rest ih =>
    rw [List.foldl_cons]
    have h1 := ih (parseTablePart table p)
    have h2 := parseTablePart_keeps table p
    exact ⟨h1.1.trans h2.1, h1.2.trans h2.2⟩

theorem AlterColumn_createdIn (t : Table) (name : String) (f : Column → Column) :
    (t.AlterColumn name f).CreatedIn = t.CreatedIn := by
  unfold Table.AlterColumn
  split <;> rfl

theorem applyAlterOperation_keeps (acc : DatabaseState × Table) (op : AlterOperation) :
    (applyAlterOperation acc op).1.Tables = acc.1.Tables ∧
      (applyAlterOperation acc op).1.Enums = acc.1.Enums ∧
      (applyAlterOperation acc op).2.CreatedIn = acc.2.CreatedIn := by
  have hfold : ∀ (l : List Index) (st : DatabaseState),
      (l.foldl (fun st idx =>
          if indexReferencesColumn idx op.ColumnName then st.DropIndex idx.Name else st) st).Tables
        = st.Tables ∧
      (l.foldl (fun st idx =>
          if indexReferencesColumn idx op.ColumnName then st.DropIndex idx.Name else st) st).Enums
        = st.Enums := by
    intro l
    induction l with
    | nil => intro st; exact ⟨rfl, rfl⟩
    | cons i rest ih =>
      intro st
      rw [List.foldl_cons]
      by_cases hc : indexReferencesColumn i op.ColumnName = true
      · rw [if_pos hc]; exact ih _
      · rw [if_neg hc]; exact ih _
  unfold applyAlterOperation
  cases op.Typ with
  | AddColumn => exact ⟨rfl, rfl, rfl⟩
  | DropColumn => exact ⟨(hfold _ _).1, (hfold _ _).2, rfl⟩
  | AlterColumn =>
    refine ⟨rfl, rfl, ?_⟩
    simp only [applyAlterColumn]
    split_ifs <;> simp only [AlterColumn_createdIn]
  | AddConstraint => exact ⟨rfl, rfl, rfl⟩
  | DropConstraint => exact ⟨rfl, rfl, rfl⟩

theorem applyAlterOperations_keeps (ops : List AlterOperation) (acc : DatabaseState × Table) :
    (ops.foldl applyAlterOperation acc).1.Tables = acc.1.Tables ∧
      (ops.foldl applyAlterOperation acc).1.Enums = acc.1.Enums ∧
      (ops.foldl applyAlterOperation acc).2.CreatedIn = acc.2.CreatedIn := by
  induction ops generalizing acc with
  | nil => exact ⟨rfl, rfl, rfl⟩
  | cons op rest ih =>
    rw [List.foldl_cons]
    have h1 := ih (applyAlterOperation acc op)
    have h2 := applyAlterOperation_keeps acc op
    exact ⟨h1.1.trans h2.1, h1.2.1.trans h2.2.1, h1.2.2.trans h2.2.2⟩

theorem stamp_mapSet {V : Type} (f : V → Int) (m : List (String × V)) (k name : String) (v : V)
    (n : Int) (h : (mapGet m name).map f = some n) (hv : k = name → f v = n) :
    (mapGet (mapSet m k v) name).map f = some n := by
  by_cases hk : name = k
  · subst hk
    rw [mapGet_mapSet_self, Option.map_some', hv rfl]
  · rw [mapGet_mapSet_ne _ _ _ _ hk]
    exact h

theorem stamp_mapDelete {V : Type} (f : V → Int) (m : List (String × V)) (k name : String)
    (n : Int) (h : (mapGet m name).map f = some n) (hne : k ≠ name) :
    (mapGet (mapDelete m k) name).map f = some n := by
  rw [mapGet_mapDelete_ne _ _ _ (Ne.symm hne)]
  exact h

theorem stamp_get {V : Type} (f : V → Int) (m : List (String × V)) (name : String) (v : V)
    (n : Int) (h : (mapGet m name).map f = some n) (hv : mapGet m name = some v) : f v = n := by
  rw [hv] at h
  simpa using h

theorem applyCreateTable_keeps (a a' : Applier) (s : Statement) (name : String) (n : Int)
    (h : (mapGet a.state.Tables name).map Table.CreatedIn = some n)
    (hc : ∀ d, s.Details ≠ .CreateTableDetails name d)
    (hok : a.applyCreateTable s = .ok a') :
    (mapGet a'.state.Tables name).map Table.CreatedIn = some n := by
  unfold Applier.applyCreateTable at hok
  split at hok
  · rename_i tn d hd
    injection hok with hok
    subst hok
    have hk := (parseTableDefinition_keeps { NewTable tn with CreatedIn := a.currentMigration } d).1
    refine stamp_mapSet _ _ _ _ _ _ h (fun e => ?_)
    rw [hk] at e
    exact absurd (e ▸ hd) (hc d)
  · cases hok

theorem applyCreateTable_enums (a a' : Applier) (s : Statement)
    (hok : a.applyCreateTable s = .ok a') : a'.state.Enums = a.state.Enums := by
  unfold Applier.applyCreateTable at hok
  split at hok
  · injection hok with hok
    subst hok
    rfl
  · cases hok

theorem applyAlterTable_keeps (a a' : Applier) (s : Statement) (name : String) (n : Int)
    (h : (mapGet a.state.Tables name).map Table.CreatedIn = some n)
    (hok : a.applyAlterTable s = .ok a') :
    (mapGet a'.state.Tables name).map Table.CreatedIn = some n := by
  unfold Applier.applyAlterTable at hok
  split at hok
  · rename_i tn ops hd
    cases hg : a.state.GetTable tn with
    | some t =>
      rw [hg] at hok
      injection hok with hok
      subst hok
      have hkeep := applyAlterOperations_keeps ops (a.state, t)
      show Option.map Table.CreatedIn (mapGet (mapSet
        (ops.foldl applyAlterOperation (a.state, t)).1.Tables
        tn (ops.foldl applyAlterOperation (a.state, t)).2) name) = some n
      rw [hkeep.1]
      refine stamp_mapSet _ _ _ _ _ _ h (fun e => ?_)
      rw [hkeep.2.2]
      exact stamp_get _ _ _ _ _ h (e ▸ hg)
    | none =>
      rw [hg] at hok
      injection hok with hok
      subst hok
      have hkeep := applyAlterOperations_keeps ops
        (a.state.AddOrUpdateTable (NewTable tn), NewTable tn)
      have hne : tn ≠ name := by
        intro e
        rw [e] at hg
        simp only [DatabaseState.GetTable] at hg
        rw [hg] at h
        cases h
      show Option.map Table.CreatedIn (mapGet (mapSet
        (ops.foldl applyAlterOperation (a.state.AddOrUpdateTable (NewTable tn), NewTable tn)).1.Tables
        tn (ops.foldl applyAlterOperation
          (a.state.AddOrUpdateTable (NewTable tn), NewTable tn)).2) name) = some n
      rw [hkeep.1]
      refine stamp_mapSet _ _ _ _ _ _ ?_ (fun e => absurd e hne)
      exact stamp_mapSet _ _ _ _ _ _ h (fun e => absurd e hne)
  · cases hok

theorem applyAlterTable_enums (a a' : Applier) (s : Statement)
    (hok : a.applyAlterTable s = .ok a') : a'.state.Enums = a.state.Enums := by
  unfold Applier.applyAlterTable at hok
  split at hok
  · rename_i tn ops hd
    cases hg : a.state.GetTable tn with
    | some t =>
      rw [hg] at hok
      injection hok with hok
      subst hok
      exact (applyAlterOperations_keeps ops (a.state, t)).2.1
    | none =>
      rw [hg] at hok
      injection hok with hok
      subst hok
      exact (applyAlterOperations_keeps ops
        (a.state.AddOrUpdateTable (NewTable tn), NewTable tn)).2.1
  · cases hok

theorem foldl_AddValue_keeps (values : List String) (e : Enum) :
    (values.foldl Enum.AddValue e).Name = e.Name ∧
      (values.foldl Enum.AddValue e).CreatedIn = e.CreatedIn := by
  induction values generalizing e with
  | nil => exact ⟨rfl, rfl⟩
  | cons v rest ih =>
    rw [List.foldl_cons]
    have h1 := ih (e.AddValue v)
    have h2 : (e.AddValue v).Name = e.Name ∧ (e.AddValue v).CreatedIn = e.CreatedIn := by
      unfold Enum.AddValue
      split <;> exact ⟨rfl, rfl⟩
    exact ⟨h1.1.trans h2.1, h1.2.trans h2.2⟩

theorem AddValue_createdIn (e : Enum) (v : String) : (e.AddValue v).CreatedIn = e.CreatedIn := by
  unfold Enum.AddValue
  split <;> rfl

theorem applyCreateType_keeps (a a' : Applier) (s : Statement) (name : String) (n : Int)
    (h : (mapGet a.state.Enums name).map Enum.CreatedIn = some n)
    (hc : ∀ vs, s.Details ≠ .CreateTypeDetails name vs)
    (hok : a.applyCreateType s = .ok a') :
    (mapGet a'.state.Enums name).map Enum.CreatedIn = some n := by
  unfold Applier.applyCreateType at hok
  split at hok
  · rename_i tn vs hd
    injection hok with hok
    subst hok
    have hk := (foldl_AddValue_keeps vs { NewEnum tn with CreatedIn := a.currentMigration }).1
    refine stamp_mapSet _ _ _ _ _ _ h (fun e => ?_)
    rw [hk] at e
    exact absurd (e ▸ hd) (hc vs)
  · cases hok

theorem applyCreateType_tables (a a' : Applier) (s : Statement)
    (hok : a.applyCreateType s = .ok a') : a'.state.Tables = a.state.Tables := by
  unfold Applier.applyCreateType at hok
  split at hok
  · injection hok with hok
    subst hok
    rfl
  · cases hok

theorem addEnumValue_tables (a : Applier) (typeName value : String) :
    (addEnumValue a typeName value).state.Tables = a.state.Tables := by
  unfold addEnumValue
  split <;> rfl

theorem addEnumValue_keeps (a : Applier) (typeName value name : String) (n : Int)
    (h : (mapGet a.state.Enums name).map Enum.CreatedIn = some n) :
    (mapGet (addEnumValue a typeName value).state.Enums name).map Enum.CreatedIn = some n := by
  unfold addEnumValue
  split
  · rename_i enum hg
    refine stamp_mapSet _ _ _ _ _ _ h (fun e => ?_)
    rw [AddValue_createdIn]
    exact stamp_get _ _ _ _ _ h (e ▸ hg)
  · rename_i hg
    have hne : typeName ≠ name := by
      intro e
      rw [e] at hg
      simp only [DatabaseState.GetEnum] at hg
      rw [hg] at h
      cases h
    refine stamp_mapSet _ _ _ _ _ _ ?_ (fun e => absurd e hne)
    exact stamp_mapSet _ _ _ _ _ _ h (fun e => absurd e hne)

theorem ensureEnum_tables (a : Applier) (typeName : String) :
    (ensureEnum a typeName).state.Tables = a.state.Tables := by
  unfold ensureEnum
  split <;> rfl

theorem ensureEnum_keeps (a : Applier) (typeName name : String) (n : Int)
    (h : (mapGet a.state.Enums name).map Enum.CreatedIn = some n) :
    (mapGet (ensureEnum a typeName).state.Enums name).map Enum.CreatedIn = some n := by
  unfold ensureEnum
  split
  · exact h
  · rename_i hg
    have hne : typeName ≠ name := by
      intro e
      rw [e] at hg
      simp only [DatabaseState.GetEnum] at hg
      rw [hg] at h
      cases h
    exact stamp_mapSet _ _ _ _ _ _ h (fun e => absurd e hne)

theorem applyAlterType_keeps (a a' : Applier) (s : Statement) (name : String) (n : Int)
    (h : (mapGet a.state.Enums name).map Enum.CreatedIn = some n)
    (hok : a.applyAlterType s = .ok a') :
    (mapGet a'.state.Enums name).map Enum.CreatedIn = some n := by
  unfold Applier.applyAlterType at hok
  split at hok
  · split at hok
    · injection hok with hok
      subst hok
      exact addEnumValue_keeps _ _ _ _ _ h
    · injection hok with hok
      subst hok
      exact ensureEnum_keeps _ _ _ _ h
  · cases hok

theorem applyAlterType_tables (a a' : Applier) (s : Statement)
    (hok : a.applyAlterType s = .ok a') : a'.state.Tables = a.state.Tables := by
  unfold Applier.applyAlterType at hok
  split at hok
  · split at hok
    · injection hok with hok
      subst hok
      exact addEnumValue_tables _ _ _
    · injection hok with hok
      subst hok
      exact ensureEnum_tables _ _
  · cases hok

theorem applyDoBlock_keeps (a a' : Applier) (s : Statement) (name : String) (n : Int)
    (h : (mapGet a.state.Enums name).map Enum.CreatedIn = some n)
    (hok : a.applyDoBlock s = .ok a') :
    (mapGet a'.state.Enums name).map Enum.CreatedIn = some n := by
  unfold Applier.applyDoBlock at hok
  split at hok
  · split at hok
    · injection hok with hok
      subst hok
      exact addEnumValue_keeps _ _ _ _ _ h
    · injection hok with hok
      subst hok
      exact h
  · cases hok

theorem applyDoBlock_tables (a a' : Applier) (s : Statement)
    (hok : a.applyDoBlock s = .ok a') : a'.state.Tables = a.state.Tables := by
  unfold Applier.applyDoBlock at hok
  split at hok
  · split at hok
    · injection hok with hok
      subst hok
      exact addEnumValue_tables _ _ _
    · injection hok with hok
      subst hok
      rfl
  · cases hok

theorem applyCreateDomain_same (a a' : Applier) (s : Statement)
    (hok : a.applyCreateDomain s = .ok a') :
    a'.state.Tables = a.state.Tables ∧ a'.state.Enums = a.state.Enums := by
  unfold Applier.applyCreateDomain at hok
  split at hok
  · injection hok with hok
    subst hok
    exact ⟨rfl, rfl⟩
  · cases hok

theorem applyCreateView_same (a a' : Applier) (s : Statement)
    (hok : a.applyCreateView s = .ok a') :
    a'.state.Tables = a.state.Tables ∧ a'.state.Enums = a.state.Enums := by
  unfold Applier.applyCreateView at hok
  split at hok
  · injection hok with hok
    subst hok
    exact ⟨rfl, rfl⟩
  · cases hok

theorem applyCreateIndex_keeps (a a' : Applier) (s : Statement) (name : String) (n : Int)
    (h : (mapGet a.state.Tables name).map Table.CreatedIn = some n)
    (hok : a.applyCreateIndex s = .ok a') :
    (mapGet a'.state.Tables name).map Table.CreatedIn = some n := by
  unfold Applier.applyCreateIndex at hok
  split at hok
  · rename_i indexName tableName columns unique whereClause hd
    simp only at hok
    split at hok
    · rename_i table hg
      injection hok with hok
      subst hok
      refine stamp_mapSet _ _ _ _ _ _ h (fun e => ?_)
      exact stamp_get Table.CreatedIn _ _ table _ h (e ▸ hg)
    · injection hok with hok
      subst hok
      exact h
  · cases hok

theorem applyCreateIndex_enums (a a' : Applier) (s : Statement)
    (hok : a.applyCreateIndex s = .ok a') : a'.state.Enums = a.state.Enums := by
  unfold Applier.applyCreateIndex at hok
  split at hok
  · simp only at hok
    split at hok
    · injection hok with hok
      subst hok
      rfl
    · injection hok with hok
      subst hok
      rfl
  · cases hok

theorem applyComment_keeps (a a' : Applier) (s : Statement) (name : String) (n : Int)
    (hok : a.applyComment s = .ok a') :
    ((mapGet a.state.Tables name).map Table.CreatedIn = some n →
      (mapGet a'.state.Tables name).map Table.CreatedIn = some n) ∧
    ((mapGet a.state.Enums name).map Enum.CreatedIn = some n →
      (mapGet a'.state.Enums name).map Enum.CreatedIn = some n) := by
  unfold Applier.applyComment at hok
  split at hok
  · rename_i objectType objectName comment hd
    split_ifs at hok
    · split at hok
      · rename_i table hg
        injection hok with hok
        subst hok
        refine ⟨fun h => ?_, fun h => h⟩
        refine stamp_mapSet _ _ _ _ _ _ h (fun e => ?_)
        exact stamp_get Table.CreatedIn _ _ table _ h (e ▸ hg)
      · injection hok with hok
        subst hok
        exact ⟨fun h => h, fun h => h⟩
    · split at hok
      · rename_i tableName colName hsp
        split at hok
        · rename_i table hg
          injection hok with hok
          subst hok
          refine ⟨fun h => ?_, fun h => h⟩
          refine stamp_mapSet _ _ _ _ _ _ h (fun e => ?_)
          exact stamp_get Table.CreatedIn _ _ table _ h (e ▸ hg)
        · injection hok with hok
          subst hok
          exact ⟨fun h => h, fun h => h⟩
      · injection hok with hok
        subst hok
        exact ⟨fun h => h, fun h => h⟩
    · split at hok
      · rename_i enum hg
        injection hok with hok
        subst hok
        refine ⟨fun h => h, fun h => ?_⟩
        refine stamp_mapSet _ _ _ _ _ _ h (fun e => ?_)
        exact stamp_get Enum.CreatedIn _ _ enum _ h (e ▸ hg)
      · injection hok with hok
        subst hok
        exact ⟨fun h => h, fun h => h⟩
    · split at hok
      · injection hok with hok
        subst hok
        exact ⟨fun h => h, fun h => h⟩
      · injection hok with hok
        subst hok
        exact ⟨fun h => h, fun h => h⟩
    · injection hok with hok
      subst hok
      exact ⟨fun h => h, fun h => h⟩
  · cases hok

theorem Apply_keeps_table (a a' : Applier) (s : Statement) (name : String) (n : Int)
    (h : (mapGet a.state.Tables name).map Table.CreatedIn = some n)
    (hc : s.createsTable name = false) (hd : s.dropsTable name = false)
    (hok : a.Apply s = .ok a') :
    (mapGet a'.state.Tables name).map Table.CreatedIn = some n := by
  unfold Applier.Apply at hok
  split at hok
  · rename_i htyp
    refine applyCreateTable_keeps a a' s name n h (fun d hdet => ?_) hok
    simp [Statement.createsTable, htyp, hdet] at hc
  · exact applyAlterTable_keeps a a' s name n h hok
  · rename_i htyp
    injection hok with hok
    subst hok
    refine stamp_mapDelete _ _ _ _ _ h (fun e => ?_)
    simp [Statement.dropsTable, htyp, e] at hd
  · rw [applyCreateType_tables a a' s hok]; exact h
  · rw [applyAlterType_tables a a' s hok]; exact h
  · injection hok with hok; subst hok; exact h
  · rw [(applyCreateDomain_same a a' s hok).1]; exact h
  · injection hok with hok; subst hok; exact h
  · rw [(applyCreateView_same a a' s hok).1]; exact h
  · injection hok with hok; subst hok; exact h
  · exact applyCreateIndex_keeps a a' s name n h hok
  · injection hok with hok; subst hok; exact h
  · exact (applyComment_keeps a a' s name n hok).1 h
  · rw [applyDoBlock_tables a a' s hok]; exact h
  · injection hok with hok; subst hok; exact h

theorem Apply_keeps_enum (a a' : Applier) (s : Statement) (name : String) (n : Int)
    (h : (mapGet a.state.Enums name).map Enum.CreatedIn = some n)
    (hc : s.createsEnum name = false) (hd : s.dropsEnum name = false)
    (hok : a.Apply s = .ok a') :
    (mapGet a'.state.Enums name).map Enum.CreatedIn = some n := by
  unfold Applier.Apply at hok
  split at hok
  · rw [applyCreateTable_enums a a' s hok]; exact h
  · rw [applyAlterTable_enums a a' s hok]; exact h
  · injection hok with hok; subst hok; exact h
  · rename_i htyp
    refine applyCreateType_keeps a a' s name n h (fun d hdet => ?_) hok
    simp [Statement.createsEnum, htyp, hdet] at hc
  · exact applyAlterType_keeps a a' s name n h hok
  · rename_i htyp
    injection hok with hok
    subst hok
    refine stamp_mapDelete _ _ _ _ _ h (fun e => ?_)
    simp [Statement.dropsEnum, htyp, e] at hd
  · rw [(applyCreateDomain_same a a' s hok).2]; exact h
  · injection hok with hok; subst hok; exact h
  · rw [(applyCreateView_same a a' s hok).2]; exact h
  · injection hok with hok; subst hok; exact h
  · rw [applyCreateIndex_enums a a' s hok]; exact h
  · injection hok with hok; subst hok; exact h
  · exact (applyComment_keeps a a' s name n hok).2 h
  · exact applyDoBlock_keeps a a' s name n h hok
  · injection hok with hok; subst hok; exact h

theorem applyNumbered_append (a : Applier) (l1 l2 : List (Int × Statement)) :
    applyNumbered a (l1 ++ l2) =
      match applyNumbered a l1 with
      | .error err => .error err
      | .ok a1 => applyNumbered a1 l2 := by
  induction l1 generalizing a with
  | nil => rfl
  | cons p rest ih =>
    obtain ⟨number, stmt⟩ := p
    rw [List.cons_append, applyNumbered, applyNumbered]
    cases (a.SetCurrentMigration number).Apply stmt with
    | error err => rfl
    | ok a' => exact ih a'

theorem applyNumbered_keeps_table (post : List (Int × Statement)) (a a' : Applier)
    (name : String) (n : Int)
    (h : (mapGet a.state.Tables name).map Table.CreatedIn = some n)
    (hpost : ∀ p ∈ post, p.2.createsTable name = false ∧ p.2.dropsTable name = false)
    (hok : applyNumbered a post = .ok a') :
    (mapGet a'.state.Tables name).map Table.CreatedIn = some n := by
  induction post generalizing a with
  | nil =>
    injection hok with hok
    subst hok
    exact h
  | cons p rest ih =>
    obtain ⟨number, stmt⟩ := p
    rw [applyNumbered] at hok
    cases hstep : (a.SetCurrentMigration number).Apply stmt with
    | error err => rw [hstep] at hok; cases hok
    | ok a1 =>
      rw [hstep] at hok
      have hp := hpost (number, stmt) (List.mem_cons_self _ _)
      exact ih a1 (Apply_keeps_table (a.SetCurrentMigration number) a1 stmt name n h hp.1 hp.2 hstep)
        (fun p hp => hpost p (List.mem_cons_of_mem _ hp)) hok

theorem applyNumbered_keeps_enum (post : List (Int × Statement)) (a a' : Applier)
    (name : String) (n : Int)
    (h : (mapGet a.state.Enums name).map Enum.CreatedIn = some n)
    (hpost : ∀ p ∈ post, p.2.createsEnum name = false ∧ p.2.dropsEnum name = false)
    (hok : applyNumbered a post = .ok a') :
    (mapGet a'.state.Enums name).map Enum.CreatedIn = some n := by
  induction post generalizing a with
  | nil =>
    injection hok with hok
    subst hok
    exact h
  | cons p rest ih =>
    obtain ⟨number, stmt⟩ := p
    rw [applyNumbered] at hok
    cases hstep : (a.SetCurrentMigration number).Apply stmt with
    | error err => rw [hstep] at hok; cases hok
    | ok a1 =>
      rw [hstep] at hok
      have hp := hpost (number, stmt) (List.mem_cons_self _ _)
      exact ih a1 (Apply_keeps_enum (a.SetCurrentMigration number) a1 stmt name n h hp.1 hp.2 hstep)
        (fun p hp => hpost p (List.mem_cons_of_mem _ hp)) hok

theorem toOption_isSome_ok {α : Type} (r : Except String α) (h : r.toOption.isSome = true) :
    ∃ x, r = .ok x := by
  cases r with
  | error e => cases h
  | ok x => exact ⟨x, rfl⟩


/-! ## Lemmas: the bookkeeping of the columns of a table -/

theorem mem_removeFirst (c x : String) (l : List String) (h : l.Nodup) :
    x ∈ removeFirst c l ↔ x ∈ l ∧ x ≠ c := by
  induction l with
  | nil => simp [removeFirst]
  | cons y rest ih =>
    rw [List.nodup_cons] at h
    by_cases hy : y = c
    · subst hy
      simp only [removeFirst, if_true, List.mem_cons]
      constructor
      · intro hx
        exact ⟨Or.inr hx, fun e => h.1 (e ▸ hx)⟩
      · rintro ⟨hx | hx, hne⟩
        · exact absurd hx hne
        · exact hx
    · simp only [removeFirst, hy, if_false, List.mem_cons, ih h.2]
      constructor
      · rintro (hx | ⟨hx, hne⟩)
        · exact ⟨Or.inl hx, fun e => hy (hx ▸ e)⟩
        · exact ⟨Or.inr hx, hne⟩
      · rintro ⟨hx | hx, hne⟩
        · exact Or.inl hx
        · exact Or.inr ⟨hx, hne⟩

theorem removeFirst_sublist (c : String) (l : List String) : (removeFirst c l).Sublist l := by
  induction l with
  | nil => exact List.Sublist.refl _
  | cons y rest ih =>
    by_cases hy : y = c
    · simp only [removeFirst, hy, if_true]
      exact List.sublist_cons_self _ _
    · simp only [removeFirst, hy, if_false]
      exact ih.cons₂ _

theorem mem_mapKeys_mapDelete {V : Type} (m : List (String × V)) (k x : String) :
    x ∈ mapKeys (mapDelete m k) ↔ x ∈ mapKeys m ∧ x ≠ k := by
  simp only [mapKeys, mapDelete, List.mem_map, List.mem_filter, Bool.not_eq_true',
    decide_eq_false_iff_not]
  constructor
  · rintro ⟨e, ⟨he, hne⟩, rfl⟩
    exact ⟨⟨e, he, rfl⟩, hne⟩
  · rintro ⟨⟨e, he, rfl⟩, hne⟩
    exact ⟨e, ⟨he, hne⟩, rfl⟩

theorem ColumnsOK.ofNew (name : String) : ColumnsOK (NewTable name) :=
  ⟨List.nodup_nil, fun _ => Iff.rfl⟩

theorem ColumnsOK.ofAddColumn {t : Table} (h : ColumnsOK t) (col : Column) :
    ColumnsOK (t.AddColumn col) := by
  by_cases hc : (mapGet t.Columns col.Name).isSome = true
  · have hmem : col.Name ∈ mapKeys t.Columns := by
      by_contra hn
      rw [← mapGet_eq_none_iff] at hn
      rw [hn] at hc
      cases hc
    refine ⟨?_, fun name => ?_⟩
    · simp only [Table.AddColumn, hc, if_true]
      exact h.nodup
    · simp only [Table.AddColumn, hc, if_true, mem_mapKeys_mapSet, h.live]
      constructor
      · exact Or.inl
      · rintro (hx | hx)
        · exact hx
        · exact hx ▸ hmem
  · have hnot : col.Name ∉ mapKeys t.Columns := by
      intro hm
      exact hc (mapGet_isSome_of_mem_keys _ _ hm)
    refine ⟨?_, fun name => ?_⟩
    · have hc' : (mapGet t.Columns col.Name).isSome = false := by simpa using hc
      simp only [Table.AddColumn, hc', Bool.false_eq_true, if_false]
      rw [List.nodup_append]
      refine ⟨h.nodup, List.nodup_singleton _, ?_⟩
      intro x hx hx'
      rw [List.mem_singleton] at hx'
      subst hx'
      exact hnot ((h.live _).1 hx)
    · have hc' : (mapGet t.Columns col.Name).isSome = false := by simpa using hc
      simp only [Table.AddColumn, hc', Bool.false_eq_true, if_false, mem_mapKeys_mapSet,
        List.mem_append, List.mem_singleton, h.live]

theorem ColumnsOK.ofDropColumn {t : Table} (h : ColumnsOK t) (name : String) :
    ColumnsOK (t.DropColumn name) := by
  refine ⟨?_, fun x => ?_⟩
  · exact h.nodup.sublist (removeFirst_sublist name t.ColumnOrder)
  · show x ∈ removeFirst name t.ColumnOrder ↔ x ∈ mapKeys (mapDelete t.Columns name)
    rw [mem_removeFirst _ _ _ h.nodup, mem_mapKeys_mapDelete, h.live]

theorem ColumnsOK.ofAlterColumn {t : Table} (h : ColumnsOK t) (name : String)
    (updates : Column → Column) : ColumnsOK (t.AlterColumn name updates) := by
  unfold Table.AlterColumn
  split
  · rename_i col hg
    refine ⟨h.nodup, fun x => ?_⟩
    show x ∈ t.ColumnOrder ↔ x ∈ mapKeys (mapSet t.Columns name (updates col))
    rw [mapKeys_mapSet_of_isSome _ _ _ (by rw [hg]; rfl)]
    exact h.live x
  · exact h

theorem ColumnsOK.ofReachable {t : Table} (h : t.Reachable) : ColumnsOK t := by
  induction h with
  | new name => exact ColumnsOK.ofNew name
  | addColumn col _ ih => exact ih.ofAddColumn col
  | dropColumn name _ ih => exact ih.ofDropColumn name
  | alterColumn name updates _ ih => exact ih.ofAlterColumn name updates
  | addIndex idx _ ih => exact ⟨ih.nodup, ih.live⟩
  | addForeignKey fk _ ih => exact ⟨ih.nodup, ih.live⟩
  | addCheck check _ ih => exact ⟨ih.nodup, ih.live⟩
  | addUnique unique _ ih => exact ⟨ih.nodup, ih.live⟩
  | setColumnComment colName comment _ ih => exact ⟨ih.nodup, ih.live⟩
  | @addRequiredEnum t enumName _ ih =>
    unfold Table.AddRequiredEnum
    split
    · exact ih
    · exact ⟨ih.nodup, ih.live⟩
  | createdIn number _ ih => exact ⟨ih.nodup, ih.live⟩
  | primaryKey pk _ ih => exact ⟨ih.nodup, ih.live⟩
  | tableComment comment _ ih => exact ⟨ih.nodup, ih.live⟩

theorem ColumnsOK.ofCalls (calls : List ColumnCall) (t : Table) (h : ColumnsOK t) :
    ColumnsOK (calls.foldl ColumnCall.run t) := by
  induction calls generalizing t with
  | nil => exact h
  | cons c rest ih =>
    rw [List.foldl_cons]
    apply ih
    cases c with
    | AddColumn col => exact h.ofAddColumn col
    | DropColumn name => exact h.ofDropColumn name
    | AlterColumn name updates => exact h.ofAlterColumn name updates

theorem any_eq_mem (l : List String) (c : String) :
    l.any (fun col => decide (col = c)) = decide (c ∈ l) := by
  induction l with
  | nil => simp
  | cons x rest ih =>
    simp only [List.any_cons, ih, List.mem_cons, Bool.decide_or]
    congr 1
    exact decide_eq_decide.2 eq_comm


/-! ## Lemmas: `Parse` returns no error -/

theorem FindStringSubmatch_length (r : Regexp) (s : String) (h : r.MatchString s = true) :
    (r.FindStringSubmatch s).length = r.groups + 1 := by
  unfold Regexp.MatchString at h
  unfold Regexp.FindStringSubmatch
  cases hs : searchFrom r.re none s.data with
  | none => rw [hs] at h; cases h
  | some p => simp [submatches]

theorem parseDrop_ok (re : Regexp) (typ : StatementType) (what sql : String)
    (hg : 1 ≤ re.groups) (h : re.MatchString sql = true) :
    ∃ r, (parseDrop re typ what sql).map some = .ok r := by
  have hl := FindStringSubmatch_length re sql h
  unfold parseDrop
  rw [if_neg (by omega)]
  exact ⟨_, rfl⟩

theorem parseCreateTable_ok (sql : String) (h : reCREATE_TABLE.MatchString sql = true) :
    ∃ r, (parseCreateTable sql).map some = .ok r := by
  have hl := FindStringSubmatch_length _ sql h
  have hg : reCREATE_TABLE.groups = 1 := rfl
  unfold parseCreateTable
  rw [if_neg (by omega)]
  exact ⟨_, rfl⟩

theorem parseAlterTable_ok (sql : String) (h : reALTER_TABLE.MatchString sql = true) :
    ∃ r, (parseAlterTable sql).map some = .ok r := by
  have hl := FindStringSubmatch_length _ sql h
  have hg : reALTER_TABLE.groups = 1 := rfl
  unfold parseAlterTable
  rw [if_neg (by omega)]
  exact ⟨_, rfl⟩

theorem parseCreateType_ok (sql : String) (h : reCREATE_TYPE.MatchString sql = true) :
    ∃ r, (parseCreateType sql).map some = .ok r := by
  have hl := FindStringSubmatch_length _ sql h
  have hg : reCREATE_TYPE.groups = 1 := rfl
  unfold parseCreateType
  rw [if_neg (by omega)]
  exact ⟨_, rfl⟩

theorem parseAlterType_ok (sql : String) (h : reALTER_TYPE.MatchString sql = true) :
    ∃ r, (parseAlterType sql).map some = .ok r := by
  have hl := FindStringSubmatch_length _ sql h
  have hg : reALTER_TYPE.groups = 1 := rfl
  unfold parseAlterType
  rw [if_neg (by omega)]
  exact ⟨_, rfl⟩

theorem parseCreateDomain_ok (sql : String) (h : reCREATE_DOMAIN.MatchString sql = true) :
    ∃ r, (parseCreateDomain sql).map some = .ok r := by
  have hl := FindStringSubmatch_length _ sql h
  have hg : reCREATE_DOMAIN.groups = 1 := rfl
  unfold parseCreateDomain
  rw [if_neg (by omega)]
  exact ⟨_, rfl⟩

theorem parseCreateView_ok (sql : String) (h : reCREATE_VIEW.MatchString sql = true) :
    ∃ r, (parseCreateView sql).map some = .ok r := by
  have hl := FindStringSubmatch_length _ sql h
  have hg : reCREATE_VIEW.groups = 1 := rfl
  unfold parseCreateView
  rw [if_neg (by omega)]
  exact ⟨_, rfl⟩

theorem parseCreateIndex_ok (sql : String) (h : reCREATE_INDEX.MatchString sql = true) :
    ∃ r, (parseCreateIndex sql).map some = .ok r := by
  have hl := FindStringSubmatch_length _ sql h
  have hg : reCREATE_INDEX.groups = 2 := rfl
  unfold parseCreateIndex
  rw [if_neg (by omega)]
  exact ⟨_, rfl⟩

theorem parseComment_ok (sql : String) (h : reCOMMENT_ON.MatchString sql = true) :
    ∃ r, (parseComment sql).map some = .ok r := by
  have hl := FindStringSubmatch_length _ sql h
  have hg : reCOMMENT_ON.groups = 2 := rfl
  unfold parseComment
  rw [if_neg (by omega)]
  exact ⟨_, rfl⟩

theorem classify_ok (sql : String) : ∃ r, classify sql = .ok r := by
  unfold classify
  by_cases h1 : reCREATE_TABLE.MatchString sql = true
  · rw [if_pos h1]; exact parseCreateTable_ok sql h1
  rw [if_neg h1]
  by_cases h2 : reALTER_TABLE.MatchString sql = true
  · rw [if_pos h2]; exact parseAlterTable_ok sql h2
  rw [if_neg h2]
  by_cases h3 : reDROP_TABLE.MatchString sql = true
  · rw [if_pos h3]
    exact parseDrop_ok reDROP_TABLE .DropTable "DROP TABLE" sql (by decide) h3
  rw [if_neg h3]
  by_cases h4 : reCREATE_TYPE.MatchString sql = true
  · rw [if_pos h4]; exact parseCreateType_ok sql h4
  rw [if_neg h4]
  by_cases h5 : reALTER_TYPE.MatchString sql = true
  · rw [if_pos h5]; exact parseAlterType_ok sql h5
  rw [if_neg h5]
  by_cases h6 : reDROP_TYPE.MatchString sql = true
  · rw [if_pos h6]
    exact parseDrop_ok reDROP_TYPE .DropType "DROP TYPE" sql (by decide) h6
  rw [if_neg h6]
  by_cases h7 : reCREATE_DOMAIN.MatchString sql = true
  · rw [if_pos h7]; exact parseCreateDomain_ok sql h7
  rw [if_neg h7]
  by_cases h8 : reDROP_DOMAIN.MatchString sql = true
  · rw [if_pos h8]
    exact parseDrop_ok reDROP_DOMAIN .DropDomain "DROP DOMAIN" sql (by decide) h8
  rw [if_neg h8]
  by_cases h9 : reCREATE_VIEW.MatchString sql = true
  · rw [if_pos h9]; exact parseCreateView_ok sql h9
  rw [if_neg h9]
  by_cases h10 : reDROP_VIEW.MatchString sql = true
  · rw [if_pos h10]
    exact parseDrop_ok reDROP_VIEW .DropView "DROP VIEW" sql (by decide) h10
  rw [if_neg h10]
  by_cases h11 : reCREATE_INDEX.MatchString sql = true
  · rw [if_pos h11]; exact parseCreateIndex_ok sql h11
  rw [if_neg h11]
  by_cases h12 : reDROP_INDEX.MatchString sql = true
  · rw [if_pos h12]
    exact parseDrop_ok reDROP_INDEX .DropIndex "DROP INDEX" sql (by decide) h12
  rw [if_neg h12]
  by_cases h13 : reCOMMENT_ON.MatchString sql = true
  · rw [if_pos h13]; exact parseComment_ok sql h13
  rw [if_neg h13]
  by_cases h14 : reDO_BLOCK.MatchString sql = true
  · rw [if_pos h14]; exact ⟨_, rfl⟩
  rw [if_neg h14]
  exact ⟨_, rfl⟩

theorem parseStatement_ok (sql : String) : ∃ r, parseStatement sql = .ok r := by
  unfold parseStatement
  split_ifs
  · exact ⟨_, rfl⟩
  · exact classify_ok _

theorem parseAll_ok (raw : List String) (acc : List Statement) :
    ∃ stmts, parseAll raw acc = .ok stmts := by
  induction raw generalizing acc with
  | nil => exact ⟨_, rfl⟩
  | cons r rest ih =>
    obtain ⟨x, hx⟩ := parseStatement_ok r
    rw [parseAll, hx]
    cases x with
    | none => exact ih _
    | some stmt => exact ih _


/-! ## Theorems: the applier and the catalog -/

/-- C11, the code at the failing input: the action pattern `\w+(?:\s+\w+)?` takes a second
word whenever one follows, so after the one-word action `CASCADE` it takes the `ON` of
`ON UPDATE`.  Inline, `OnDelete` is `CASCADE ON` and `OnUpdate` stays empty; in the
table-level clause `OnDelete` is `CASCADE ON` and `OnUpdate` is `CASCADE`. -/
theorem ForeignKey_action_takes_next_word :
    (parseColumnDefinition (NewTable "t")
        "a int REFERENCES r(k) ON DELETE CASCADE ON UPDATE CASCADE").ForeignKeys
      = [{ Name := "", Columns := ["a"], ReferencedTable := "r", ReferencedColumns := ["k"],
           OnDelete := "CASCADE ON", OnUpdate := "" }] ∧
    (parseForeignKey (NewTable "t")
        "FOREIGN KEY (c) REFERENCES r (k) ON DELETE CASCADE ON UPDATE CASCADE").ForeignKeys
      = [{ Name := "", Columns := ["c"], ReferencedTable := "r", ReferencedColumns := ["k"],
           OnDelete := "CASCADE ON", OnUpdate := "CASCADE" }] := by
  constructor <;> decide

/-- C12 (as amended).  For every catalog that holds a view `v` with `Version = k`, and every
current migration number `m'`, applying a CreateView statement for `v` succeeds and leaves a
view `v` whose `Version` is `k + 1` and whose `CreatedIn` is `m'`, the current migration
number. -/
theorem applyCreateView_stamps_current (a : Applier) (stmt : Statement)
    (name definition : String) (v : View) (htyp : stmt.Typ = .CreateView)
    (hdet : stmt.Details = .CreateViewDetails name definition)
    (hv : mapGet a.state.Views name = some v) :
    ∃ a' v', a.Apply stmt = .ok a' ∧ mapGet a'.state.Views name = some v' ∧
      v'.Version = v.Version + 1 ∧ v'.CreatedIn = a.currentMigration := by
  have hn : (View.ExtractDependencies
      { NewView name with CreatedIn := a.currentMigration, Definition := definition }).Name
        = name := rfl
  have happly : a.Apply stmt = .ok { a with
      state := a.state.AddOrUpdateView (View.ExtractDependencies
        { NewView name with CreatedIn := a.currentMigration, Definition := definition }) } := by
    rw [Applier.Apply, htyp]
    simp only [Applier.applyCreateView, hdet]
  refine ⟨_, { View.ExtractDependencies
      { NewView name with CreatedIn := a.currentMigration, Definition := definition } with
      Version := v.Version + 1 }, happly, ?_, rfl, rfl⟩
  simp only [DatabaseState.AddOrUpdateView, hn, hv]
  exact mapGet_mapSet_self _ _ _

/-- C12, the amended claim at a concrete input: the view `v` of migration 1, re-created
while the applier reads migration 2. -/
theorem applyCreateView_stamps_current_witness :
    ∃ a' v', viewApplier.Apply recreateView = .ok a' ∧ mapGet a'.state.Views "v" = some v' ∧
      v'.Version = (0 : Int) + 1 ∧ v'.CreatedIn = 2 :=
  applyCreateView_stamps_current viewApplier recreateView "v"
    "CREATE OR REPLACE VIEW v AS SELECT 2"
    { NewView "v" with Definition := "CREATE VIEW v AS SELECT 1", CreatedIn := 1 } rfl rfl
    (by decide)

/-- C12, counterexample to the claim as stated: after migration 1 the view `v` has
`CreatedIn = 1` and `Version = 0`; after `CREATE OR REPLACE VIEW v` in migration 2 its
`Version` is 1 and its `CreatedIn` is 2, not 1. -/
theorem applyCreateView_loses_first_migration :
    (viewIn (applyMigrations (NewApplier NewDatabaseState)
        [(1, "CREATE VIEW v AS SELECT 1;")]) "v").map (fun v => (v.CreatedIn, v.Version))
      = some (1, 0) ∧
    (viewIn (applyMigrations (NewApplier NewDatabaseState)
        [(1, "CREATE VIEW v AS SELECT 1;"),
         (2, "CREATE OR REPLACE VIEW v AS SELECT 2;")]) "v").map
        (fun v => (v.CreatedIn, v.Version))
      = some (2, 1) := by
  constructor <;> decide

/-- C13 (as amended).  Fold any sequence of numbered statements (`SetCurrentMigration`, then
`Apply`, for each) that goes through without error.  When the statement applied in migration
`n` is a CREATE TABLE for `name` and no later statement is a CREATE TABLE or a DROP TABLE
for `name`, the table `name` survives with `CreatedIn = n`: the number of the latest CREATE,
which later statements (ALTER TABLE, CREATE INDEX, COMMENT, any statement for another name)
never advance.  The same holds for an enum with CREATE TYPE and DROP TYPE. -/
theorem CreatedIn_is_latest_create (a : Applier) (pre post : List (Int × Statement)) (n : Int)
    (s : Statement) (name : String)
    (hrun : (applyNumbered a (pre ++ (n, s) :: post)).toOption.isSome = true) :
    (s.createsTable name = true →
      (∀ p ∈ post, p.2.createsTable name = false ∧ p.2.dropsTable name = false) →
      (tableIn (applyNumbered a (pre ++ (n, s) :: post)) name).map Table.CreatedIn = some n) ∧
    (s.createsEnum name = true →
      (∀ p ∈ post, p.2.createsEnum name = false ∧ p.2.dropsEnum name = false) →
      (enumIn (applyNumbered a (pre ++ (n, s) :: post)) name).map Enum.CreatedIn = some n) := by
  obtain ⟨a', hok⟩ := toOption_isSome_ok _ hrun
  rw [hok]
  rw [applyNumbered_append] at hok
  cases hpre : applyNumbered a pre with
  | error err => rw [hpre] at hok; cases hok
  | ok a1 =>
    rw [hpre] at hok
    simp only [applyNumbered] at hok
    cases hstep : (a1.SetCurrentMigration n).Apply s with
    | error err => rw [hstep] at hok; cases hok
    | ok a2 =>
      rw [hstep] at hok
      simp only at hok
      constructor
      · intro hc hpost
        refine applyNumbered_keeps_table post a2 a' name n ?_ hpost hok
        obtain ⟨typ, orig, oname, det⟩ := s
        cases typ <;> cases det <;> simp [Statement.createsTable] at hc
        subst hc
        simp only [Applier.Apply, Applier.applyCreateTable, Except.ok.injEq] at hstep
        subst hstep
        rename_i tn d
        have hk := parseTableDefinition_keeps
          { NewTable tn with CreatedIn := (a1.SetCurrentMigration n).currentMigration } d
        show Option.map Table.CreatedIn (mapGet (mapSet a1.state.Tables _ _) tn) = some n
        rw [hk.1]
        show Option.map Table.CreatedIn (mapGet (mapSet a1.state.Tables tn _) tn) = some n
        rw [mapGet_mapSet_self, Option.map_some', hk.2]
        rfl
      · intro hc hpost
        refine applyNumbered_keeps_enum post a2 a' name n ?_ hpost hok
        obtain ⟨typ, orig, oname, det⟩ := s
        cases typ <;> cases det <;> simp [Statement.createsEnum] at hc
        subst hc
        simp only [Applier.Apply, Applier.applyCreateType, Except.ok.injEq] at hstep
        subst hstep
        rename_i tn vs
        have hk := foldl_AddValue_keeps vs
          { NewEnum tn with CreatedIn := (a1.SetCurrentMigration n).currentMigration }
        show Option.map Enum.CreatedIn (mapGet (mapSet a1.state.Enums _ _) tn) = some n
        rw [hk.1]
        show Option.map Enum.CreatedIn (mapGet (mapSet a1.state.Enums tn _) tn) = some n
        rw [mapGet_mapSet_self, Option.map_some', hk.2]
        rfl

/-- C13, the amended claim at concrete inputs: `t` created in 1, dropped in 2, created again
in 3 and altered in 4 has `CreatedIn = 3`; so has the enum `e` with the same history. -/
theorem CreatedIn_is_latest_create_witness :
    (tableIn (applyNumbered (NewApplier NewDatabaseState)
        ([(1, createTableT), (2, dropTableT)] ++ (3, createTableT) :: [(4, addColumnT)])) "t").map
        Table.CreatedIn = some 3 ∧
    (enumIn (applyNumbered (NewApplier NewDatabaseState)
        ([(1, createTypeE), (2, dropTypeE)] ++ (3, createTypeE) :: [(4, addValueE)])) "e").map
        Enum.CreatedIn = some 3 :=
  ⟨(CreatedIn_is_latest_create (NewApplier NewDatabaseState) [(1, createTableT), (2, dropTableT)]
      [(4, addColumnT)] 3 createTableT "t" (by decide)).1 (by decide) (by decide),
   (CreatedIn_is_latest_create (NewApplier NewDatabaseState) [(1, createTypeE), (2, dropTypeE)]
      [(4, addValueE)] 3 createTypeE "e" (by decide)).2 (by decide) (by decide)⟩

/-- C13, counterexample to the claim as stated, at its own example: with CREATE TABLE `t`
in migration 1, DROP TABLE `t` in 2 and CREATE TABLE `t` in 3, the surviving table has
`CreatedIn = 3`, while the smallest number at which a CREATE for `t` was applied is 1.
Without the DROP the second CREATE replaces the record all the same; so it is for an enum. -/
theorem CreatedIn_after_recreate :
    (tableIn (applyMigrations (NewApplier NewDatabaseState)
        [(1, "CREATE TABLE t (id int);"), (2, "DROP TABLE t;"), (3, "CREATE TABLE t (id int);")])
        "t").map Table.CreatedIn = some 3 ∧
    (tableIn (applyMigrations (NewApplier NewDatabaseState)
        [(1, "CREATE TABLE t (id int);"), (3, "CREATE TABLE IF NOT EXISTS t (id int);")])
        "t").map Table.CreatedIn = some 3 ∧
    (enumIn (applyMigrations (NewApplier NewDatabaseState)
        [(1, "CREATE TYPE e AS ENUM ('a');"), (2, "DROP TYPE e;"),
         (3, "CREATE TYPE e AS ENUM ('a');")])
        "e").map Enum.CreatedIn = some 3 := by
  refine ⟨?_, ?_, ?_⟩ <;> decide

/-- C14.  For every table whose `ColumnOrder` holds no name twice and every column name `c`,
after `DropColumn(c)`: `c` is not in `ColumnOrder`, not a key of `Columns` and not a key of
`ColumnComments`; `Indexes` is the list before with the indexes whose column list holds `c`
filtered out, the others in their order; `Uniques` likewise.  Every table that the program
makes from `NewTable`, by the methods of `Table` and by the writes of the applier to
`CreatedIn`, `PrimaryKey` and `TableComment`, is such a table (`ColumnsOK.ofReachable`). -/
theorem DropColumn_removes_column (t : Table) (c : String) (h : t.ColumnOrder.Nodup) :
    c ∉ (t.DropColumn c).ColumnOrder ∧ c ∉ mapKeys (t.DropColumn c).Columns ∧
    c ∉ mapKeys (t.DropColumn c).ColumnComments ∧
    (t.DropColumn c).Indexes = t.Indexes.filter (fun idx => decide (c ∉ idx.Columns)) ∧
    (t.DropColumn c).Uniques = t.Uniques.filter (fun u => decide (c ∉ u.Columns)) := by
  refine ⟨?_, ?_, ?_, ?_, ?_⟩
  · show c ∉ removeFirst c t.ColumnOrder
    rw [mem_removeFirst _ _ _ h]
    exact fun hc => hc.2 rfl
  · show c ∉ mapKeys (mapDelete t.Columns c)
    rw [mem_mapKeys_mapDelete]
    exact fun hc => hc.2 rfl
  · show c ∉ mapKeys (mapDelete t.ColumnComments c)
    rw [mem_mapKeys_mapDelete]
    exact fun hc => hc.2 rfl
  · show t.Indexes.filter (fun idx => !indexReferencesColumn idx c) = _
    congr 1
    funext idx
    simp [indexReferencesColumn, any_eq_mem]
  · show t.Uniques.filter (fun u => !containsColumn u.Columns c) = _
    congr 1
    funext u
    simp [containsColumn, any_eq_mem]

/-- C14 at concrete inputs: dropping `email` from the table `users (id int, email text)`
with the primary key `(id)`, a unique index and a unique constraint on `email`, a table
comment and a comment on `email`, created in migration 1, which the applier makes from
`NewTable` with the methods of `Table` and its three field writes; and dropping `a` from
the table `t (a int, b int)` with indexes on `a` and on `b`, a unique constraint on
`(a, b)` and a comment on `a`. -/
theorem DropColumn_removes_column_witness :
    (accountsTable.Reachable ∧ accountsTable.ColumnOrder.Nodup ∧
      accountsTable.PrimaryKey = some { Name := "", Columns := ["id"] } ∧
      accountsTable.CreatedIn = 1 ∧
      "email" ∉ (accountsTable.DropColumn "email").ColumnOrder ∧
      "email" ∉ mapKeys (accountsTable.DropColumn "email").Columns ∧
      "email" ∉ mapKeys (accountsTable.DropColumn "email").ColumnComments ∧
      (accountsTable.DropColumn "email").Indexes
        = accountsTable.Indexes.filter (fun idx => decide ("email" ∉ idx.Columns)) ∧
      (accountsTable.DropColumn "email").Uniques
        = accountsTable.Uniques.filter (fun u => decide ("email" ∉ u.Columns))) ∧
    (indexedTable.ColumnOrder.Nodup ∧
      "a" ∉ (indexedTable.DropColumn "a").ColumnOrder ∧
      "a" ∉ mapKeys (indexedTable.DropColumn "a").Columns ∧
      "a" ∉ mapKeys (indexedTable.DropColumn "a").ColumnComments ∧
      (indexedTable.DropColumn "a").Indexes
        = indexedTable.Indexes.filter (fun idx => decide ("a" ∉ idx.Columns)) ∧
      (indexedTable.DropColumn "a").Uniques
        = indexedTable.Uniques.filter (fun u => decide ("a" ∉ u.Columns))) := by
  have h : accountsTable.Reachable :=
    .tableComment _ (.primaryKey _ (.createdIn _ (.setColumnComment _ _ (.addUnique _
      (.addIndex _ (.addColumn _ (.addColumn _ (.new "users"))))))))
  exact ⟨⟨h, (ColumnsOK.ofReachable h).nodup, rfl, rfl,
      DropColumn_removes_column accountsTable "email" (ColumnsOK.ofReachable h).nodup⟩,
    by decide, DropColumn_removes_column indexedTable "a" (by decide)⟩

/-- C15.  For every table made from `NewTable` by any sequence of `AddColumn`, `DropColumn`
and `AlterColumn` calls: `ColumnOrder` has no name twice; a name is in `ColumnOrder` if and
only if it is a key of `Columns`; and `AddColumn` of a column whose name is a key already
leaves `ColumnOrder` as it is and puts the new record under the name. -/
theorem ColumnOrder_lists_live_columns (name : String) (calls : List ColumnCall) :
    (calls.foldl ColumnCall.run (NewTable name)).ColumnOrder.Nodup ∧
    (∀ c, c ∈ (calls.foldl ColumnCall.run (NewTable name)).ColumnOrder ↔
      c ∈ mapKeys (calls.foldl ColumnCall.run (NewTable name)).Columns) ∧
    (∀ col : Column, col.Name ∈ mapKeys (calls.foldl ColumnCall.run (NewTable name)).Columns →
      ((calls.foldl ColumnCall.run (NewTable name)).AddColumn col).ColumnOrder
          = (calls.foldl ColumnCall.run (NewTable name)).ColumnOrder ∧
        mapGet ((calls.foldl ColumnCall.run (NewTable name)).AddColumn col).Columns col.Name
          = some col) := by
  have hok := ColumnsOK.ofCalls calls (NewTable name) (ColumnsOK.ofNew name)
  refine ⟨hok.nodup, hok.live, fun col hc => ⟨?_, ?_⟩⟩
  · simp only [Table.AddColumn, mapGet_isSome_of_mem_keys _ _ hc, if_true]
  · exact mapGet_mapSet_self _ _ _

/-! ## Theorems: the lexer and the recognizer -/

/-- C17, the code at the failing input: `StripComments` cuts the line at the first `--`
wherever it stands, so the line `COMMENT ON TABLE t IS 'a--b';`, whose only `--` is inside
the quoted literal, comes back as `COMMENT ON TABLE t IS 'a` and a newline. -/
theorem StripComments_cuts_inside_quotes :
    StripComments "COMMENT ON TABLE t IS 'a--b';" = "COMMENT ON TABLE t IS 'a\n" := by
  decide

/-- C19, the code at the failing inputs: inside the block opened by `$a$`, a `$` that does
not start the closing tag is written twice (once in the dollar branch, once by the write
at the end of the loop body), so `$b$` comes back as `$$b$$` and a lone `$` as `$$`. -/
theorem SplitStatements_doubles_inner_dollar :
    SplitStatements "DO $a$ x $b$ y $a$;" = ["DO $a$ x $$b$$ y $a$"] ∧
    SplitStatements "DO $a$ x $ y $a$;" = ["DO $a$ x $$ y $a$"] := by
  constructor <;> decide

/-- C20, the code at the failing inputs: `Parse` returns no error for any text, because each
sub-parser only repeats the match of the pattern that has just matched.  `CREATE TABLE t`
without a body, `CREATE TYPE e AS ENUM` without values and `ALTER TYPE e ADD VALUE` without
a value come back as statements with an empty payload. -/
theorem Parse_accepts_malformed :
    (∀ sql, ∃ stmts, Parse sql = .ok stmts) ∧
    Parse "CREATE TABLE t;"
      = .ok [{ Typ := .CreateTable, Original := "CREATE TABLE t", ObjectName := "t",
               Details := .CreateTableDetails "t" "" }] ∧
    Parse "CREATE TYPE e AS ENUM;"
      = .ok [{ Typ := .CreateType, Original := "CREATE TYPE e AS ENUM", ObjectName := "e",
               Details := .CreateTypeDetails "e" [] }] ∧
    Parse "ALTER TYPE e ADD VALUE;"
      = .ok [{ Typ := .AlterType, Original := "ALTER TYPE e ADD VALUE", ObjectName := "e",
               Details := .AlterTypeDetails "e" "" }] :=
  ⟨fun _ => parseAll_ok _ _, rfl, rfl, rfl⟩

/-! ## Lemmas: the loop of `SplitStatements` -/

theorem findDollar_length (l acc : List Char) (b after : List Char)
    (h : findDollar l acc = some (b, after)) : after.length < l.length := by
  induction l generalizing acc with
  | nil => simp [findDollar] at h
  | cons c cs ih =>
    rw [findDollar] at h
    by_cases hc : c = '$'
    · rw [if_pos hc] at h
      injection h with h
      injection h with h1 h2
      subst h2
      simp
    · rw [if_neg hc] at h
      have := ih _ h
      simp only [List.length_cons]
      omega

theorem findDollar_tag (t rest acc : List Char) (ht : '$' ∉ t) :
    findDollar (t ++ '$' :: rest) acc = some (acc.reverse ++ t, rest) := by
  induction t generalizing acc with
  | nil => simp [findDollar]
  | cons c cs ih =>
    have hc : c ≠ '$' := fun e => ht (e ▸ List.mem_cons_self _ _)
    have hcs : '$' ∉ cs := fun h => ht (List.mem_cons_of_mem _ h)
    rw [List.cons_append, findDollar, if_neg hc, ih _ hcs]
    simp

theorem splitPlain_length (ch : Char) (rest : List Char) (st : SplitState) :
    (splitPlain ch rest st).1.length ≤ rest.length := by
  unfold splitPlain
  split_ifs
  · split
    · split_ifs
      · simp
      · exact le_refl _
    · exact le_refl _
  · exact le_refl _
  · exact le_refl _
  · exact le_refl _

theorem splitStep_length (ch : Char) (rest : List Char) (st : SplitState) :
    (splitStep ch rest st).1.length ≤ rest.length := by
  unfold splitStep
  by_cases hc : (ch = '$' && !st.inSingleQuote && !st.inDoubleQuote) = true
  · rw [if_pos hc]
    cases hf : findDollar rest [] with
    | none => exact splitPlain_length _ _ _
    | some r =>
      obtain ⟨body, after⟩ := r
      have := findDollar_length _ _ _ _ hf
      simp only
      split_ifs
      · exact le_of_lt this
      · exact splitPlain_length _ _ _
      · exact le_of_lt this
  · rw [if_neg hc]
    exact splitPlain_length _ _ _

theorem splitLoop_fuel (n : Nat) : ∀ (l : List Char) (st : SplitState), l.length ≤ n →
    splitLoop n l st = splitLoop l.length l st := by
  induction n using Nat.strong_induction_on with
  | _ n ih =>
    intro l st hl
    cases l with
    | nil =>
      cases n with
      | zero => rfl
      | succ m => rfl
    | cons ch rest =>
      cases n with
      | zero => simp at hl
      | succ m =>
        have hr : rest.length ≤ m := by simpa using hl
        have hs := splitStep_length ch rest st
        show splitLoop m (splitStep ch rest st).1 (splitStep ch rest st).2
          = splitLoop rest.length (splitStep ch rest st).1 (splitStep ch rest st).2
        rw [ih m (Nat.lt_succ_self m) _ _ (le_trans hs hr)]
        by_cases hm : rest.length = m
        · rw [hm, ih m (Nat.lt_succ_self m) _ _ (le_trans hs hr)]
        · rw [ih rest.length (by omega) _ _ hs]

theorem splitLoop_cons (ch : Char) (rest rest' : List Char) (st st' : SplitState)
    (h : splitStep ch rest st = (rest', st')) :
    splitLoop (ch :: rest).length (ch :: rest) st = splitLoop rest'.length rest' st' := by
  have hl := splitStep_length ch rest st
  show splitLoop rest.length (splitStep ch rest st).1 (splitStep ch rest st).2 = _
  rw [h] at hl ⊢
  exact splitLoop_fuel _ _ _ hl

theorem splitStep_write (ch : Char) (rest : List Char) (st : SplitState) (hd : ch ≠ '$')
    (h : st.inDollarQuote = true ∨ (ch ≠ ';' ∧ ch ≠ apostrophe ∧ ch ≠ '"')) :
    splitStep ch rest st = (rest, { st with current := st.current ++ [ch] }) := by
  unfold splitStep
  rw [if_neg (by simp [hd])]
  unfold splitPlain
  rcases h with h | ⟨h1, h2, h3⟩
  · simp [h]
  · simp [h1, h2, h3]

theorem splitLoop_write (p rest : List Char) (st : SplitState) (hd : '$' ∉ p)
    (h : st.inDollarQuote = true ∨ ∀ c ∈ p, c ≠ ';' ∧ c ≠ apostrophe ∧ c ≠ '"') :
    splitLoop (p ++ rest).length (p ++ rest) st
      = splitLoop rest.length rest { st with current := st.current ++ p } := by
  induction p generalizing st with
  | nil => simp
  | cons c cs ih =>
    have hc : c ≠ '$' := fun e => hd (e ▸ List.mem_cons_self _ _)
    have hcs : '$' ∉ cs := fun h => hd (List.mem_cons_of_mem _ h)
    rw [List.cons_append, splitLoop_cons c _ _ st _ (splitStep_write c _ st hc
      (h.imp id (fun h => h c (List.mem_cons_self _ _))))]
    rw [ih { st with current := st.current ++ [c] } hcs
      (h.imp id (fun h c hc => h c (List.mem_cons_of_mem _ hc)))]
    simp

theorem mem_dropWhile_of_false (p : Char → Bool) (l : List Char) (c : Char) (hc : c ∈ l)
    (hp : p c = false) : c ∈ l.dropWhile p := by
  induction l with
  | nil => cases hc
  | cons x rest ih =>
    rw [List.dropWhile_cons]
    by_cases hx : p x = true
    · rw [if_pos hx]
      rcases List.mem_cons.1 hc with e | hm
      · rw [e, hx] at hp; cases hp
      · exact ih hm
    · rw [if_neg hx]
      exact hc

theorem trimSpaceChars_ne_nil_of_mem (l : List Char) (c : Char) (hc : c ∈ l)
    (hs : isSpace c = false) : trimSpaceChars l ≠ [] := by
  unfold trimSpaceChars
  have h1 := mem_dropWhile_of_false isSpace l c hc hs
  have h2 := mem_dropWhile_of_false isSpace _ c (List.mem_reverse.2 h1) hs
  intro h
  rw [List.reverse_eq_nil_iff] at h
  rw [h] at h2
  cases h2

theorem TrimSpace_ne_empty (l : List Char) (c : Char) (hc : c ∈ l) (hs : isSpace c = false) :
    TrimSpace (String.mk l) ≠ "" := by
  intro h
  have h1 : (TrimSpace (String.mk l)).data = [] := by rw [h]
  exact trimSpaceChars_ne_nil_of_mem l c hc hs h1

theorem splitStep_open (t rest : List Char) (st : SplitState) (ht : '$' ∉ t)
    (h1 : st.inSingleQuote = false) (h2 : st.inDoubleQuote = false)
    (h3 : st.inDollarQuote = false) :
    splitStep '$' (t ++ '$' :: rest) st
      = (rest, { st with current := st.current ++ '$' :: (t ++ ['$']),
                         inDollarQuote := true, dollarTag := '$' :: (t ++ ['$']) }) := by
  unfold splitStep
  simp only [findDollar_tag _ _ _ ht, h1, h2, h3]
  rfl

theorem splitStep_close (t rest : List Char) (st : SplitState) (ht : '$' ∉ t)
    (h1 : st.inSingleQuote = false) (h2 : st.inDoubleQuote = false)
    (h3 : st.inDollarQuote = true) (h4 : st.dollarTag = '$' :: (t ++ ['$'])) :
    splitStep '$' (t ++ '$' :: rest) st
      = (rest, { st with current := st.current ++ ['$'] ++ t ++ ['$'],
                         inDollarQuote := false, dollarTag := [] }) := by
  unfold splitStep
  simp [findDollar_tag _ _ _ ht, h1, h2, h3, h4]

theorem splitStep_semicolon (rest : List Char) (st : SplitState)
    (h1 : st.inSingleQuote = false) (h2 : st.inDoubleQuote = false)
    (h3 : st.inDollarQuote = false) :
    splitStep ';' rest st = (rest, { st with statements := flushStatement st, current := [] }) := by
  have ha : (';' : Char) ≠ apostrophe := by decide
  unfold splitStep splitPlain
  simp [h1, h2, h3, ha]


/-! ## Lemmas: the matcher on the text of a comment statement -/

theorem run_char (p : Char → Bool) (pv : Option Char) (c : Char) (cs : List Char)
    (caps : List (Nat × String)) (k : MatchState → Option MatchState) :
    (Re.char p).run ⟨pv, c :: cs, caps⟩ k = if p c then k ⟨some c, cs, caps⟩ else none := rfl

theorem run_seq (a b : Re) (st : MatchState) (k : MatchState → Option MatchState) :
    (Re.seq a b).run st k = a.run st (fun st' => b.run st' k) := rfl

theorem run_star (g : Bool) (a : Re) (st : MatchState) (k : MatchState → Option MatchState) :
    (Re.star g a).run st k
      = starLoop (fun s k' => a.run s k') g (st.rest.length + 1) st k := rfl

theorem run_group (i : Nat) (a : Re) (st : MatchState) (k : MatchState → Option MatchState) :
    (Re.group i a).run st k
      = a.run st (fun st' =>
          k { st' with
              caps := setCap st'.caps i
                (String.mk (st.rest.take (st.rest.length - st'.rest.length))) }) := rfl

/-- A greedy loop over a class takes all the characters of the class that stand first. -/
theorem starLoop_class (p : Char → Bool) (xs tail : List Char) (caps : List (Nat × String))
    (k : MatchState → Option MatchState)
    (hxs : ∀ x ∈ xs, p x = true) (htail : ∀ y ∈ tail.head?, p y = false)
    (hk : ∀ pv, (k ⟨pv, tail, caps⟩).isSome = true) :
    ∀ (n : Nat) (prev : Option Char), xs.length ≤ n →
      ∃ pv, starLoop (fun s k' => (Re.char p).run s k') true n ⟨prev, xs ++ tail, caps⟩ k
        = k ⟨pv, tail, caps⟩ := by
  induction xs with
  | nil =>
    intro n prev _
    cases n with
    | zero => exact ⟨prev, rfl⟩
    | succ m =>
      refine ⟨prev, ?_⟩
      cases tail with
      | nil => rfl
      | cons y ys =>
        have hy : p y = false := htail y rfl
        simp only [starLoop, List.nil_append, run_char, hy, if_true, Bool.false_eq_true, if_false]
  | cons x xs' ih =>
    intro n prev hn
    cases n with
    | zero => simp at hn
    | succ m =>
      have hx : p x = true := hxs x (List.mem_cons_self _ _)
      obtain ⟨pv, hpv⟩ := ih (fun y hy => hxs y (List.mem_cons_of_mem _ hy)) m (some x)
        (by simpa using hn)
      refine ⟨pv, ?_⟩
      have hlt : (xs' ++ tail).length < (x :: (xs' ++ tail)).length := by simp
      simp only [starLoop, if_true, List.cons_append, run_char, hx, hlt]
      rw [hpv]
      cases hr : k ⟨pv, tail, caps⟩ with
      | none => have := hk pv; rw [hr] at this; cases this
      | some r => rfl

/-- One character of the comment, escaped. -/
theorem escape_cons (x : Char) (cs : List Char) :
    (escapeComment (String.mk (x :: cs))).data
      = (if x = apostrophe then [apostrophe, apostrophe] else [x])
        ++ (escapeComment (String.mk cs)).data := by
  simp [escapeComment, List.flatMap_cons]

theorem unescape_escape (cs : List Char) :
    unescapeQuotes (escapeComment (String.mk cs)).data = cs := by
  induction cs with
  | nil => rfl
  | cons x rest ih =>
    rw [escape_cons]
    by_cases hx : x = apostrophe
    · subst hx
      simp only [if_true, List.cons_append, List.nil_append]
      show apostrophe :: unescapeQuotes (escapeComment (String.mk rest)).data = _
      rw [ih]
    · simp only [hx, if_false, List.cons_append, List.nil_append]
      cases he : (escapeComment (String.mk rest)).data with
      | nil =>
        rw [he] at ih
        rw [← ih]
        rfl
      | cons d more =>
        rw [he] at ih
        simp only [unescapeQuotes, hx, decide_False, Bool.false_and, Bool.false_eq_true,
          if_false, ih]

/-- The alternation `[^']|''` takes one character of the comment, escaped. -/
theorem run_escaped_char (x : Char) (cs tail : List Char) (pv : Option Char)
    (caps : List (Nat × String)) (k : MatchState → Option MatchState)
    (hk : (k ⟨some x, (escapeComment (String.mk cs)).data ++ tail, caps⟩).isSome = true) :
    (alts [noneOf false [apostrophe], lit true "''"]).run
        ⟨pv, (escapeComment (String.mk (x :: cs))).data ++ tail, caps⟩ k
      = k ⟨some x, (escapeComment (String.mk cs)).data ++ tail, caps⟩ := by
  rw [escape_cons]
  by_cases hx : x = apostrophe
  · subst hx
    simp +decide [alts, noneOf, lit, litChars, Re.run]
  · have hne : (x == apostrophe) = false := by simpa using hx
    simp only [hx, if_false, List.cons_append, List.nil_append, alts, noneOf, Re.run,
      List.contains_cons, hne, List.contains_nil, Bool.false_and, Bool.or_false, Bool.not_false,
      if_true]
    cases hr : k ⟨some x, (escapeComment (String.mk cs)).data ++ tail, caps⟩ with
    | none => rw [hr] at hk; cases hk
    | some r => rfl

theorem escape_length (x : Char) (cs : List Char) :
    (escapeComment (String.mk cs)).data.length
      < (escapeComment (String.mk (x :: cs))).data.length := by
  rw [escape_cons]
  by_cases hx : x = apostrophe
  · simp only [hx, if_true, List.length_append, List.length_cons, List.length_nil]
    omega
  · simp only [hx, if_false, List.length_append, List.length_cons, List.length_nil]
    omega

/-- The greedy loop over `[^']|''` takes the whole escaped comment when the closing
apostrophe follows and the rest of the pattern matches there. -/
theorem starLoop_escaped (cs : List Char) (caps : List (Nat × String))
    (k : MatchState → Option MatchState) (r : MatchState)
    (hk : ∀ pv, k ⟨pv, [apostrophe], caps⟩ = some r) :
    ∀ (n : Nat) (pv : Option Char), (escapeComment (String.mk cs)).data.length ≤ n →
      starLoop (fun s k' => (alts [noneOf false [apostrophe], lit true "''"]).run s k') true n
        ⟨pv, (escapeComment (String.mk cs)).data ++ [apostrophe], caps⟩ k = some r := by
  induction cs with
  | nil =>
    intro n pv _
    cases n with
    | zero => exact hk pv
    | succ m =>
      have he : (escapeComment (String.mk [])).data = [] := rfl
      rw [he]
      simp +decide [starLoop, alts, noneOf, lit, litChars, Re.run, hk]
  | cons x rest ih =>
    intro n pv hn
    have hlen := escape_length x rest
    cases n with
    | zero => omega
    | succ m =>
      have hlt : ((escapeComment (String.mk rest)).data ++ [apostrophe]).length
          < ((escapeComment (String.mk (x :: rest))).data ++ [apostrophe]).length := by
        simp only [List.length_append, List.length_singleton]
        omega
      have hih := ih m (some x) (by omega)
      rw [starLoop]
      simp only [if_true]
      rw [run_escaped_char x rest [apostrophe] pv caps _ (by
        simp only [hlt, if_true, hih]
        rfl)]
      simp only [hlt, if_true, hih]

/-- The group `((?:[^']|'')+)` takes the whole escaped comment, when it is not empty, the
closing apostrophe follows and the rest of the pattern matches there. -/
theorem run_escaped_group (cs : List Char) (hcs : cs ≠ []) (pv : Option Char)
    (caps : List (Nat × String)) (K : MatchState → Option MatchState)
    (hK : ∀ pv' caps', K ⟨pv', [apostrophe], caps'⟩ = some ⟨some apostrophe, [], caps'⟩) :
    (Re.group 1 (plus (alts [noneOf false [apostrophe], lit true "''"]))).run
        ⟨pv, (escapeComment (String.mk cs)).data ++ [apostrophe], caps⟩ K
      = some ⟨some apostrophe, [], setCap caps 1 (escapeComment (String.mk cs))⟩ := by
  cases cs with
  | nil => exact absurd rfl hcs
  | cons x rest =>
    have htake : ∀ e : List Char, List.take ((e ++ [apostrophe]).length - [apostrophe].length)
        (e ++ [apostrophe]) = e := by
      intro e
      simp
    have hk2 : ∀ pv', (fun (st' : MatchState) => K { st' with
        caps := setCap st'.caps 1 (String.mk
          (List.take (((escapeComment (String.mk (x :: rest))).data ++ [apostrophe]).length
            - st'.rest.length) ((escapeComment (String.mk (x :: rest))).data ++ [apostrophe]))) })
        ⟨pv', [apostrophe], caps⟩
          = some ⟨some apostrophe, [], setCap caps 1 (escapeComment (String.mk (x :: rest)))⟩ := by
      intro pv'
      simp only [htake]
      exact hK _ _
    have hloop := starLoop_escaped rest caps (fun (st' : MatchState) => K { st' with
        caps := setCap st'.caps 1 (String.mk
          (List.take (((escapeComment (String.mk (x :: rest))).data ++ [apostrophe]).length
            - st'.rest.length) ((escapeComment (String.mk (x :: rest))).data ++ [apostrophe]))) })
      _ hk2
      (((escapeComment (String.mk rest)).data ++ [apostrophe]).length + 1) (some x) (by simp; omega)
    rw [run_group, plus, run_seq]
    rw [run_escaped_char x rest [apostrophe] pv caps _ (by rw [run_star]; simp only; rw [hloop]; rfl)]
    rw [run_star]
    exact hloop

theorem reCommentText_match (cs : List Char) (hcs : cs ≠ []) (pv : Option Char) :
    reCommentText.re.run
        ⟨pv, 'I' :: 'S' :: ' ' :: apostrophe ::
          ((escapeComment (String.mk cs)).data ++ [apostrophe]), []⟩ some
      = some ⟨some apostrophe, [], [(1, escapeComment (String.mk cs))]⟩ := by
  have hre : reCommentText.re = .seq (lit true "IS") (.seq (plus ws) (.seq (lit true "'")
      (.seq (Re.group 1 (plus (alts [noneOf false [apostrophe], lit true "''"])))
        (lit true "'")))) := rfl
  have hgroup := run_escaped_group cs hcs (some apostrophe) []
    (fun st' => (lit true "'").run st' some) (by
      intro pv' caps'
      simp +decide [lit, litChars, Re.run])
  rw [hre]
  generalize Re.group 1 (plus (alts [noneOf false [apostrophe], lit true "''"])) = G at hgroup ⊢
  simp +decide [lit, litChars, plus, ws, Re.run, starLoop]
  exact hgroup

/-- No match of `IS\s+'...` starts where the text does not go on with `I`, `S`, white space
and then more white space or an apostrophe. -/
theorem reCommentText_no_match (pv : Option Char) (a b c d : Char) (tail : List Char)
    (h : charIs true 'I' a = false ∨ charIs true 'S' b = false ∨ isReSpace c = false ∨
      (isReSpace d = false ∧ charIs true apostrophe d = false)) :
    reCommentText.re.run ⟨pv, a :: b :: c :: d :: tail, []⟩ some = none := by
  have hre : reCommentText.re = .seq (lit true "IS") (.seq (plus ws) (.seq (lit true "'")
      (.seq (Re.group 1 (plus (alts [noneOf false [apostrophe], lit true "''"])))
        (lit true "'")))) := rfl
  have hq : ("'" : String).data = [apostrophe] := rfl
  rw [hre]
  generalize Re.group 1 (plus (alts [noneOf false [apostrophe], lit true "''"])) = G
  rcases h with h | h | h | ⟨h1, h2⟩
  · simp [lit, litChars, Re.run, h]
  · simp [lit, litChars, Re.run, h]
  · simp [lit, litChars, plus, ws, Re.run, h]
  · simp only [lit, litChars, plus, ws, Re.run, starLoop, h1, hq, List.length_cons]
    simp only [Bool.false_eq_true, if_false, if_true]
    split_ifs with h3 h4 h5 h6
    · have h6' : charIs true apostrophe d = true := h6
      rw [h2] at h6'
      cases h6'
    all_goals rfl

/-- The search goes past the characters at which no match starts. -/
theorem searchFrom_skip (re : Re) (P R : List Char)
    (h : ∀ (pv : Option Char) (p1 : List Char) (x : Char) (p2 : List Char), P = p1 ++ x :: p2 →
      re.run ⟨pv, x :: (p2 ++ R), []⟩ some = none) :
    ∀ pv, ∃ pv', searchFrom re pv (P ++ R) = searchFrom re pv' R := by
  induction P with
  | nil => intro pv; exact ⟨pv, rfl⟩
  | cons c P' ih =>
    intro pv
    obtain ⟨pv', hpv'⟩ := ih (fun pv p1 x p2 hp => h pv (c :: p1) x p2 (by rw [hp]; rfl)) (some c)
    refine ⟨pv', ?_⟩
    rw [← hpv']
    show (match re.run ⟨pv, c :: (P' ++ R), []⟩ some with
      | some st => some (c :: (P' ++ R), st)
      | none => searchFrom re (some c) (P' ++ R)) = _
    rw [h pv [] c P' rfl]

theorem reCommentText_no_match_first (pv : Option Char) (a : Char) (tail : List Char)
    (h : charIs true 'I' a = false) :
    reCommentText.re.run ⟨pv, a :: tail, []⟩ some = none := by
  have hre : reCommentText.re = .seq (lit true "IS") (.seq (plus ws) (.seq (lit true "'")
      (.seq (Re.group 1 (plus (alts [noneOf false [apostrophe], lit true "''"])))
        (lit true "'")))) := rfl
  rw [hre]
  generalize Re.group 1 (plus (alts [noneOf false [apostrophe], lit true "''"])) = G
  simp [lit, litChars, Re.run, h]

/-- The leftmost match of `IS\s+'((?:[^']|'')+)'` in `COMMENT ON TABLE t IS 'e'`. -/
theorem reCommentText_search (t cs : List Char) (hcs : cs ≠ [])
    (ht : ∀ x ∈ t, isReSpace x = false) :
    searchFrom reCommentText.re none
        ("COMMENT ON TABLE ".data ++ (t ++ (' ' :: ('I' :: 'S' :: ' ' :: apostrophe ::
          ((escapeComment (String.mk cs)).data ++ [apostrophe])))))
      = some ('I' :: 'S' :: ' ' :: apostrophe ::
          ((escapeComment (String.mk cs)).data ++ [apostrophe]),
          ⟨some apostrophe, [], [(1, escapeComment (String.mk cs))]⟩) := by
  generalize hQ : ('I' :: 'S' :: ' ' :: apostrophe ::
          ((escapeComment (String.mk cs)).data ++ [apostrophe])) = Q
  have hQ4 : ∃ tail, Q = 'I' :: 'S' :: ' ' :: apostrophe :: tail := ⟨_, hQ.symm⟩
  obtain ⟨tail, htail⟩ := hQ4
  -- the head of the statement
  obtain ⟨pv1, h1⟩ := searchFrom_skip reCommentText.re "COMMENT ON TABLE ".data (t ++ ' ' :: Q)
    (fun pv p1 x p2 hp => reCommentText_no_match_first pv x _ (by
      have hx : x ∈ "COMMENT ON TABLE ".data := by rw [hp]; simp
      have hall : ∀ y ∈ "COMMENT ON TABLE ".data, charIs true 'I' y = false := by decide
      exact hall x hx)) none
  -- the name
  obtain ⟨pv2, h2⟩ := searchFrom_skip reCommentText.re t (' ' :: Q)
    (fun pv p1 x p2 hp => by
      have hmem : ∀ y ∈ p2, isReSpace y = false := fun y hy => ht y (by rw [hp]; simp [hy])
      rw [htail]
      cases p2 with
      | nil =>
        exact reCommentText_no_match pv x ' ' 'I' _ _ (Or.inr (Or.inl (by decide)))
      | cons y p3 =>
        cases p3 with
        | nil =>
          exact reCommentText_no_match pv x y ' ' 'I' _
            (Or.inr (Or.inr (Or.inr ⟨by decide, by decide⟩)))
        | cons z p4 =>
          have hz : isReSpace z = false := hmem z (by simp)
          cases p4 with
          | nil => exact reCommentText_no_match pv x y z ' ' _ (Or.inr (Or.inr (Or.inl hz)))
          | cons w p5 =>
            exact reCommentText_no_match pv x y z w _ (Or.inr (Or.inr (Or.inl hz)))) pv1
  -- the blank before IS
  obtain ⟨pv3, h3⟩ := searchFrom_skip reCommentText.re [' '] Q
    (fun pv p1 x p2 hp => reCommentText_no_match_first pv x _ (by
      have hx : x ∈ [' '] := by rw [hp]; simp
      rw [List.mem_singleton] at hx
      rw [hx]
      decide)) pv2
  rw [h1, h2]
  show searchFrom reCommentText.re pv2 ([' '] ++ Q) = _
  rw [h3, ← hQ]
  show (match reCommentText.re.run ⟨pv3, 'I' :: 'S' :: ' ' :: apostrophe ::
      ((escapeComment (String.mk cs)).data ++ [apostrophe]), []⟩ some with
    | some st => some (_, st)
    | none => _) = _
  rw [reCommentText_match cs hcs pv3]

/-- The group `(\S+)` takes the name up to the white space after it. -/
theorem run_name_group (x : Char) (xs rest : List Char) (pv0 : Option Char)
    (caps : List (Nat × String)) (hx : isReSpace x = false)
    (hxs : ∀ y ∈ xs, isReSpace y = false) :
    ∃ pv, (Re.group 2 (plus nonWs)).run ⟨pv0, x :: (xs ++ ' ' :: rest), caps⟩ some
      = some ⟨pv, ' ' :: rest, setCap caps 2 (String.mk (x :: xs))⟩ := by
  have htake : List.take ((x :: (xs ++ ' ' :: rest)).length - (' ' :: rest).length)
      (x :: (xs ++ ' ' :: rest)) = x :: xs := by
    have : (x :: (xs ++ ' ' :: rest)).length - (' ' :: rest).length = (x :: xs).length := by
      simp only [List.length_cons, List.length_append]
      omega
    rw [this, ← List.cons_append, List.take_left']
    rfl
  obtain ⟨pv, hpv⟩ := starLoop_class (fun c => !isReSpace c) xs (' ' :: rest) caps
    (fun (st' : MatchState) => some { st' with
        caps := setCap st'.caps 2 (String.mk
          (List.take ((x :: (xs ++ ' ' :: rest)).length - st'.rest.length)
            (x :: (xs ++ ' ' :: rest)))) })
    (fun y hy => by simp [hxs y hy]) (fun y hy => by
      simp only [List.head?_cons, Option.mem_def, Option.some.injEq] at hy
      rw [← hy]
      decide) (fun _ => rfl)
    ((xs ++ ' ' :: rest).length + 1) (some x) (by simp; omega)
  refine ⟨pv, ?_⟩
  rw [run_group, plus, run_seq, nonWs, run_char]
  simp only [hx, Bool.not_false, if_true]
  rw [run_star, hpv]
  simp only [htake]

theorem reCOMMENT_ON_match (x : Char) (xs rest : List Char) (hx : isReSpace x = false)
    (hxs : ∀ y ∈ xs, isReSpace y = false) :
    ∃ pv, reCOMMENT_ON.re.run
        ⟨none, "COMMENT ON TABLE ".data ++ (x :: (xs ++ ' ' :: rest)), []⟩ some
      = some ⟨pv, ' ' :: rest, [(1, "TABLE"), (2, String.mk (x :: xs))]⟩ := by
  have hre : reCOMMENT_ON.re = .seq .bol (.seq (.star true ws) (.seq (words ["COMMENT", "ON"])
      (.seq (plus ws) (.seq
        (.group 1 (alts [lit true "TABLE", lit true "COLUMN", lit true "TYPE", lit true "VIEW"]))
        (.seq (plus ws) (.group 2 (plus nonWs))))))) := rfl
  have hP : "COMMENT ON TABLE ".data = ['C', 'O', 'M', 'M', 'E', 'N', 'T', ' ', 'O', 'N', ' ',
      'T', 'A', 'B', 'L', 'E', ' '] := rfl
  obtain ⟨pv, hpv⟩ := run_name_group x xs rest (some ' ') [(1, "TABLE")] hx hxs
  refine ⟨pv, ?_⟩
  rw [hre, hP]
  generalize Re.group 2 (plus nonWs) = G at hpv ⊢
  simp +decide [words, lit, litChars, plus, ws, alts, Re.run, starLoop, hx, setCap]
  rw [hpv]
  rfl

theorem searchFrom_bol (r : Re) (cs : List Char) (c : Char) :
    searchFrom (.seq .bol r) (some c) cs = none := by
  induction cs generalizing c with
  | nil => rfl
  | cons x xs ih =>
    show (match (Re.seq Re.bol r).run ⟨some c, x :: xs, []⟩ some with
      | some st => some (x :: xs, st)
      | none => searchFrom (.seq .bol r) (some x) xs) = none
    have : (Re.seq Re.bol r).run ⟨some c, x :: xs, []⟩ some = none := rfl
    rw [this]
    exact ih x

/-- A pattern anchored at the start of the text that does not match there matches nowhere. -/
theorem MatchString_anchored (r : Regexp) (tail : Re) (hre : r.re = .seq .bol tail)
    (c : Char) (cs : List Char) (s : String) (hs : s.data = c :: cs)
    (h0 : r.re.run ⟨none, c :: cs, []⟩ some = none) : r.MatchString s = false := by
  unfold Regexp.MatchString
  rw [hs]
  show (match r.re.run ⟨none, c :: cs, []⟩ some with
    | some st => some (c :: cs, st)
    | none => searchFrom r.re (some c) cs).isSome = false
  rw [h0, hre, searchFrom_bol]
  rfl

/-- None of the twelve patterns that `parseStatement` tries before `COMMENT_ON` matches a
text that starts with `CO`. -/
theorem no_match_before_comment (s : String) (rest : List Char) (hs : s.data = 'C' :: 'O' :: rest) :
    reCREATE_TABLE.MatchString s = false ∧ reALTER_TABLE.MatchString s = false ∧
    reDROP_TABLE.MatchString s = false ∧ reCREATE_TYPE.MatchString s = false ∧
    reALTER_TYPE.MatchString s = false ∧ reDROP_TYPE.MatchString s = false ∧
    reCREATE_DOMAIN.MatchString s = false ∧ reDROP_DOMAIN.MatchString s = false ∧
    reCREATE_VIEW.MatchString s = false ∧ reDROP_VIEW.MatchString s = false ∧
    reCREATE_INDEX.MatchString s = false ∧ reDROP_INDEX.MatchString s = false := by
  refine ⟨?_, ?_, ?_, ?_, ?_, ?_, ?_, ?_, ?_, ?_, ?_, ?_⟩
  · exact MatchString_anchored _ _ rfl _ _ s hs (by
      simp +decide [reCREATE_TABLE, seqs, words, lit, litChars, Re.run, starLoop, ws])
  · exact MatchString_anchored _ _ rfl _ _ s hs (by
      simp +decide [reALTER_TABLE, seqs, words, lit, litChars, Re.run, starLoop, ws])
  · exact MatchString_anchored _ _ rfl _ _ s hs (by
      simp +decide [reDROP_TABLE, seqs, words, lit, litChars, Re.run, starLoop, ws])
  · exact MatchString_anchored _ _ rfl _ _ s hs (by
      simp +decide [reCREATE_TYPE, seqs, words, lit, litChars, Re.run, starLoop, ws])
  · exact MatchString_anchored _ _ rfl _ _ s hs (by
      simp +decide [reALTER_TYPE, seqs, words, lit, litChars, Re.run, starLoop, ws])
  · exact MatchString_anchored _ _ rfl _ _ s hs (by
      simp +decide [reDROP_TYPE, seqs, words, lit, litChars, Re.run, starLoop, ws])
  · exact MatchString_anchored _ _ rfl _ _ s hs (by
      simp +decide [reCREATE_DOMAIN, seqs, words, lit, litChars, Re.run, starLoop, ws])
  · exact MatchString_anchored _ _ rfl _ _ s hs (by
      simp +decide [reDROP_DOMAIN, seqs, words, lit, litChars, Re.run, starLoop, ws])
  · exact MatchString_anchored _ _ rfl _ _ s hs (by
      simp +decide [reCREATE_VIEW, seqs, words, lit, litChars, Re.run, starLoop, ws])
  · exact MatchString_anchored _ _ rfl _ _ s hs (by
      simp +decide [reDROP_VIEW, seqs, words, lit, litChars, Re.run, starLoop, ws])
  · exact MatchString_anchored _ _ rfl _ _ s hs (by
      simp +decide [reCREATE_INDEX, seqs, words, lit, litChars, Re.run, starLoop, ws])
  · exact MatchString_anchored _ _ rfl _ _ s hs (by
      simp +decide [reDROP_INDEX, seqs, words, lit, litChars, Re.run, starLoop, ws])

theorem dropWhile_cons_false (p : Char → Bool) (c : Char) (l : List Char) (h : p c = false) :
    (c :: l).dropWhile p = c :: l := by
  rw [List.dropWhile_cons, h]
  rfl

/-- Text that neither starts nor ends with white space is its own trimmed text. -/
theorem TrimSpace_id (c d : Char) (mid : List Char) (hc : isSpace c = false)
    (hd : isSpace d = false) : trimSpaceChars (c :: (mid ++ [d])) = c :: (mid ++ [d]) := by
  unfold trimSpaceChars
  rw [dropWhile_cons_false _ _ _ hc]
  have hrev : (c :: (mid ++ [d])).reverse = d :: (mid.reverse ++ [c]) := by simp
  rw [hrev, dropWhile_cons_false _ _ _ hd, ← hrev, List.reverse_reverse]

theorem commentSQL_data (t c : String) :
    ("COMMENT ON TABLE " ++ t ++ " IS '" ++ escapeComment c ++ "'").data
      = "COMMENT ON TABLE ".data ++ (t.data ++ (' ' :: ('I' :: 'S' :: ' ' :: apostrophe ::
          ((escapeComment (String.mk c.data)).data ++ [apostrophe])))) := by
  have h1 : " IS '".data = [' ', 'I', 'S', ' ', apostrophe] := rfl
  have h2 : "'".data = [apostrophe] := rfl
  simp only [String.data_append, h1, h2, List.append_assoc, List.cons_append, List.nil_append]
  rfl


/-! ## Theorems: dollar quoting and the text of a comment -/

/-- C16.  For every comment text `c` that is not empty and every name `t` that is not empty
and holds no white space of the class `\s`, the statement `COMMENT ON TABLE t IS '<e>'` with
`e = escapeComment(c)` is recognised, by `parseComment` and by `parseStatement`, as the
Comment statement on the table `t` whose text is `c` itself, character for character; and
`escapeComment` of the text of the statement returned is `e` again. -/
theorem parseComment_round_trip (t c e : String) (hc : c ≠ "") (ht : t ≠ "")
    (hts : ∀ x ∈ t.data, isReSpace x = false) (he : e = escapeComment c) :
    parseComment ("COMMENT ON TABLE " ++ t ++ " IS '" ++ e ++ "'")
      = .ok { Typ := .Comment,
              Original := "COMMENT ON TABLE " ++ t ++ " IS '" ++ e ++ "'",
              ObjectName := t, Details := .CommentDetails "TABLE" t c } ∧
    parseStatement ("COMMENT ON TABLE " ++ t ++ " IS '" ++ e ++ "'")
      = .ok (some
          { Typ := .Comment,
            Original := "COMMENT ON TABLE " ++ t ++ " IS '" ++ e ++ "'",
            ObjectName := t, Details := .CommentDetails "TABLE" t c }) ∧
    (commentText (parseStatement ("COMMENT ON TABLE " ++ t ++ " IS '" ++ e ++ "'"))).map
        escapeComment = some e := by
  subst he
  generalize hsql : "COMMENT ON TABLE " ++ t ++ " IS '" ++ escapeComment c ++ "'" = sql
  have hdata : sql.data = "COMMENT ON TABLE ".data ++ (t.data ++ (' ' :: ('I' :: 'S' :: ' ' ::
      apostrophe :: ((escapeComment (String.mk c.data)).data ++ [apostrophe])))) := by
    rw [← hsql]; exact commentSQL_data t c
  have hcs : c.data ≠ [] := fun h => hc (String.ext h)
  obtain ⟨x, xs, htx⟩ : ∃ x xs, t.data = x :: xs := by
    cases h : t.data with
    | nil => exact absurd (String.ext h) ht
    | cons x xs => exact ⟨x, xs, rfl⟩
  have hx : isReSpace x = false := hts x (by rw [htx]; simp)
  have hxs : ∀ y ∈ xs, isReSpace y = false := fun y hy => hts y (by rw [htx]; simp [hy])
  -- the text is trimmed already
  have htrim : TrimSpace sql = sql := by
    apply String.ext
    show trimSpaceChars sql.data = sql.data
    rw [hdata]
    have hP : "COMMENT ON TABLE ".data = 'C' :: "OMMENT ON TABLE ".data := rfl
    rw [hP, List.cons_append]
    have := TrimSpace_id 'C' apostrophe ("OMMENT ON TABLE ".data ++ (t.data ++ (' ' :: ('I' :: 'S' ::
      ' ' :: apostrophe :: (escapeComment (String.mk c.data)).data)))) (by decide) (by decide)
    simpa using this
  have hne : sql ≠ "" := by
    intro h
    rw [h] at hdata
    simp at hdata
  -- the twelve patterns before
  have hCO : sql.data = 'C' :: 'O' :: ("MMENT ON TABLE ".data ++ (t.data ++ (' ' :: ('I' :: 'S' ::
      ' ' :: apostrophe :: ((escapeComment (String.mk c.data)).data ++ [apostrophe]))))) := by
    rw [hdata]; rfl
  obtain ⟨n1, n2, n3, n4, n5, n6, n7, n8, n9, n10, n11, n12⟩ := no_match_before_comment sql _ hCO
  -- the two patterns of `parseComment`
  obtain ⟨pv, hpv⟩ := reCOMMENT_ON_match x xs ('I' :: 'S' :: ' ' :: apostrophe ::
    ((escapeComment (String.mk c.data)).data ++ [apostrophe])) hx hxs
  have hsearch : ∃ w st, searchFrom reCOMMENT_ON.re none sql.data = some (w, st) ∧
      st.caps = [(1, "TABLE"), (2, t)] := by
    refine ⟨"COMMENT ON TABLE ".data ++ (x :: (xs ++ ' ' :: ('I' :: 'S' :: ' ' :: apostrophe ::
        ((escapeComment (String.mk c.data)).data ++ [apostrophe])))),
      ⟨pv, ' ' :: ('I' :: 'S' :: ' ' :: apostrophe ::
        ((escapeComment (String.mk c.data)).data ++ [apostrophe])),
        [(1, "TABLE"), (2, String.mk (x :: xs))]⟩, ?_, ?_⟩
    · rw [hdata, htx]
      show (match reCOMMENT_ON.re.run ⟨none, "COMMENT ON TABLE ".data ++ (x :: (xs ++ ' ' ::
          ('I' :: 'S' :: ' ' :: apostrophe ::
            ((escapeComment (String.mk c.data)).data ++ [apostrophe])))), []⟩ some with
        | some st => some (_, st)
        | none => _) = _
      rw [hpv]
      rfl
    · show [(1, "TABLE"), (2, String.mk (x :: xs))] = [(1, "TABLE"), (2, t)]
      rw [← htx]
  obtain ⟨w, st, hw, hcaps⟩ := hsearch
  have hfind : reCOMMENT_ON.FindStringSubmatch sql
      = [String.mk (w.take (w.length - st.rest.length)), "TABLE", t] := by
    unfold Regexp.FindStringSubmatch
    rw [hw]
    simp only [submatches, hcaps]
    rfl
  have hmatch : reCOMMENT_ON.MatchString sql = true := by
    unfold Regexp.MatchString
    rw [hw]
    rfl
  have htext : ∃ whole, reCommentText.FindStringSubmatch sql = [whole, escapeComment c] := by
    unfold Regexp.FindStringSubmatch
    rw [hdata, reCommentText_search t.data c.data hcs hts]
    exact ⟨_, rfl⟩
  obtain ⟨whole, htext⟩ := htext
  have hcomment : parseComment sql = .ok
      { Typ := .Comment, Original := sql, ObjectName := t,
        Details := .CommentDetails "TABLE" t c } := by
    unfold parseComment
    rw [hfind, htext]
    have hu : unescapeQuotes (escapeComment c).data = c.data := unescape_escape c.data
    have hup : ToUpper "TABLE" = "TABLE" := by decide
    simp [nth, hu, hup]
  have hstmt : parseStatement sql = .ok (some
      { Typ := .Comment, Original := sql, ObjectName := t,
        Details := .CommentDetails "TABLE" t c }) := by
    unfold parseStatement
    rw [htrim, if_neg hne]
    unfold classify
    simp only [n1, n2, n3, n4, n5, n6, n7, n8, n9, n10, n11, n12, hmatch, Bool.false_eq_true,
      if_false, if_true, hcomment]
    rfl
  refine ⟨hcomment, hstmt, ?_⟩
  rw [hstmt]
  rfl

/-- C16 at a concrete input: the comment `it's a 'test'` on the table `users`. -/
theorem parseComment_round_trip_witness :
    parseComment ("COMMENT ON TABLE " ++ "users" ++ " IS '" ++ "it''s a ''test''" ++ "'")
      = .ok { Typ := .Comment,
              Original := "COMMENT ON TABLE " ++ "users" ++ " IS '" ++ "it''s a ''test''" ++ "'",
              ObjectName := "users",
              Details := .CommentDetails "TABLE" "users" "it's a 'test'" } ∧
    parseStatement ("COMMENT ON TABLE " ++ "users" ++ " IS '" ++ "it''s a ''test''" ++ "'")
      = .ok (some
          { Typ := .Comment,
            Original := "COMMENT ON TABLE " ++ "users" ++ " IS '" ++ "it''s a ''test''" ++ "'",
            ObjectName := "users",
            Details := .CommentDetails "TABLE" "users" "it's a 'test'" }) ∧
    (commentText (parseStatement
        ("COMMENT ON TABLE " ++ "users" ++ " IS '" ++ "it''s a ''test''" ++ "'"))).map
        escapeComment = some "it''s a ''test''" :=
  parseComment_round_trip "users" "it's a 'test'" "it''s a ''test''" (by decide) (by decide)
    (by decide) (by decide)

/-- C18.  For every tag `t` without `$`, every body without `$` and every prefix `p` without
`;`, apostrophe, double quote and `$`, `SplitStatements` of `p $t$ body $t$ ;` returns exactly
one statement, the trimmed text `p $t$ body $t$`: a `;` (or a quote) inside the block does
not split. -/
theorem SplitStatements_dollar_block (p t body : String)
    (hp : ∀ c ∈ p.data, c ≠ ';' ∧ c ≠ apostrophe ∧ c ≠ '"' ∧ c ≠ '$')
    (ht : '$' ∉ t.data) (hbody : '$' ∉ body.data) :
    SplitStatements (p ++ "$" ++ t ++ "$" ++ body ++ "$" ++ t ++ "$" ++ ";")
      = [TrimSpace (p ++ "$" ++ t ++ "$" ++ body ++ "$" ++ t ++ "$")] := by
  have hdata : (p ++ "$" ++ t ++ "$" ++ body ++ "$" ++ t ++ "$" ++ ";").data
      = p.data ++ '$' :: (t.data ++ '$' :: (body.data ++ '$' :: (t.data ++ '$' :: [';']))) := by
    simp [String.data_append]
  have hcur : (p ++ "$" ++ t ++ "$" ++ body ++ "$" ++ t ++ "$")
      = String.mk (p.data ++ '$' :: (t.data ++ ['$']) ++ body.data ++ ['$'] ++ t.data
          ++ ['$']) := by
    apply String.ext
    simp [String.data_append]
  have hne : TrimSpace (String.mk (p.data ++ '$' :: (t.data ++ ['$']) ++ body.data ++ ['$']
      ++ t.data ++ ['$'])) ≠ "" :=
    TrimSpace_ne_empty _ '$' (by simp) (by decide)
  unfold SplitStatements
  rw [splitLoop_fuel _ _ _ (Nat.le_succ _), hdata, hcur]
  rw [splitLoop_write p.data _ _ (fun h => (hp _ h).2.2.2 rfl)
    (Or.inr (fun c hc => ⟨(hp c hc).1, (hp c hc).2.1, (hp c hc).2.2.1⟩))]
  rw [splitLoop_cons '$' _ _ _ _ (splitStep_open t.data _ _ ht rfl rfl rfl)]
  rw [splitLoop_write body.data _ _ hbody (Or.inl rfl)]
  rw [splitLoop_cons '$' _ _ _ _ (splitStep_close t.data _ _ ht rfl rfl rfl rfl)]
  rw [splitLoop_cons ';' _ _ _ _ (splitStep_semicolon _ _ rfl rfl rfl)]
  have hempty : ¬ TrimSpace (String.mk []) ≠ "" := by decide
  simp only [List.length_nil, splitLoop, flushStatement, if_pos hne, if_neg hempty,
    List.nil_append]

/-- C18 at a concrete input: a block with the tag `fn` whose body holds two `;` and a quoted
word. -/
theorem SplitStatements_dollar_block_witness :
    SplitStatements ("DO " ++ "$" ++ "fn" ++ "$" ++ " BEGIN a; 'b'; END " ++ "$" ++ "fn" ++ "$" ++ ";")
      = [TrimSpace ("DO " ++ "$" ++ "fn" ++ "$" ++ " BEGIN a; 'b'; END " ++ "$" ++ "fn" ++ "$")] ∧
    SplitStatements "DO $fn$ BEGIN a; 'b'; END $fn$;" = ["DO $fn$ BEGIN a; 'b'; END $fn$"] :=
  ⟨SplitStatements_dollar_block "DO " "fn" " BEGIN a; 'b'; END " (by decide) (by decide)
    (by decide), by decide⟩

/-! ## DO blocks and ALTER TYPE -/

theorem addEnumValue_get (a : Applier) (T v : String) :
    mapGet (addEnumValue a T v).state.Enums T
      = some (((mapGet a.state.Enums T).getD
          { NewEnum T with CreatedIn := a.currentMigration }).AddValue v) ∧
    (addEnumValue a T v).currentMigration = a.currentMigration ∧
    (addEnumValue a T v).state.Tables = a.state.Tables := by
  unfold addEnumValue
  cases h : a.state.GetEnum T with
  | some enum =>
    have h' : mapGet a.state.Enums T = some enum := h
    simp only [h', Option.getD_some]
    refine ⟨mapGet_mapSet_self _ _ _, ?_, ?_⟩ <;> first | rfl | trivial
  | none =>
    have h' : mapGet a.state.Enums T = none := h
    simp only [h', Option.getD_none]
    refine ⟨mapGet_mapSet_self _ _ _, ?_, ?_⟩ <;> first | rfl | trivial

/-- C21.  For every applier (catalog and current migration number), every type name `T` and
value `v`, a DoBlock statement with `(TypeName, Value) = (T, v)` and an AlterType statement
with `(TypeName, NewValue) = (T, v)`: when `T` and `v` are not empty, `Apply` returns the
same applier for both, without error, and the enum `T` of its catalog is the enum that was
there (or a new one stamped with the current migration) after `AddValue(v)`; when `T` or
`v` is empty, `Apply` of the DoBlock returns the applier as it was. -/
theorem applyDoBlock_like_applyAlterType (a : Applier) (doBlock alterType : Statement)
    (body T v : String)
    (hd : doBlock.Typ = .DoBlock) (hdd : doBlock.Details = .DoBlockDetails body T v)
    (ha : alterType.Typ = .AlterType) (had : alterType.Details = .AlterTypeDetails T v) :
    (T ≠ "" → v ≠ "" →
      a.Apply doBlock = a.Apply alterType ∧
      ∃ a', a.Apply doBlock = .ok a' ∧
        mapGet a'.state.Enums T
          = some (((mapGet a.state.Enums T).getD
              { NewEnum T with CreatedIn := a.currentMigration }).AddValue v)) ∧
    (T = "" ∨ v = "" → a.Apply doBlock = .ok a) := by
  have h1 : a.Apply doBlock = a.applyDoBlock doBlock := by
    unfold Applier.Apply
    rw [hd]
  have h2 : a.Apply alterType = a.applyAlterType alterType := by
    unfold Applier.Apply
    rw [ha]
  rw [h1, h2]
  unfold Applier.applyDoBlock Applier.applyAlterType
  rw [hdd, had]
  constructor
  · intro hT hv
    have hc : (T ≠ "" && v ≠ "") = true := by simp [hT, hv]
    simp only [hc, if_true, if_pos hv]
    exact ⟨trivial, _, rfl, (addEnumValue_get a T v).1⟩
  · intro h
    have hc : (T ≠ "" && v ≠ "") = false := by
      rcases h with h | h <;> simp [h]
    simp only [hc, Bool.false_eq_true, if_false]

/-- C21 at a concrete input: the enum `mood` with the value `ok`, and the value `sad` added
by a DO block and by ALTER TYPE. -/
theorem applyDoBlock_like_applyAlterType_witness :
    moodApplier.Apply doBlockMood = moodApplier.Apply alterTypeMood ∧
    (enumIn (moodApplier.Apply doBlockMood) "mood").map Enum.Values = some ["ok", "sad"] ∧
    (enumIn (moodApplier.Apply alterTypeMood) "mood").map Enum.Values = some ["ok", "sad"] :=
  ⟨((applyDoBlock_like_applyAlterType moodApplier doBlockMood alterTypeMood
      "DO $$ BEGIN ALTER TYPE mood ADD VALUE 'sad'; END $$" "mood" "sad" rfl rfl rfl rfl).1
      (by decide) (by decide)).1, by decide, by decide⟩

/-! ## The text of a list of strings -/

theorem foldl_append_concatAll (l : List String) (acc : String) :
    l.foldl (fun r s => r ++ s) acc = acc ++ concatAll l := by
  induction l generalizing acc with
  | nil => simp [concatAll]
  | cons x rest ih => rw [List.foldl_cons, ih, concatAll, String.append_assoc]

theorem join_eq_concatAll (l : List String) : String.join l = concatAll l := by
  unfold String.join
  rw [foldl_append_concatAll]
  simp

theorem join_append (a b : List String) : String.join (a ++ b) = String.join a ++ String.join b := by
  rw [join_eq_concatAll, join_eq_concatAll, join_eq_concatAll, concatAll_append]

theorem join_singleton (x : String) : String.join [x] = x := by
  rw [join_eq_concatAll]
  simp [concatAll]

/-! ## DROP INDEX -/

/-- The text of a table whose index list ends with `idx` holds the text of `idx`. -/
theorem GenerateTableSQL_last_index (table : Table) (old : List Index) (idx : Index)
    (h : table.Indexes = old ++ [idx]) :
    ∃ pre post, GenerateTableSQL table = pre ++ GenerateIndexSQL idx table.Name ++ post := by
  unfold GenerateTableSQL
  rw [h, List.map_append, join_append, List.map_cons, List.map_nil, join_singleton]
  have key : ∀ X J G C1 C2 : String,
      ∃ pre post, X ++ (J ++ ("\n" ++ G)) ++ C1 ++ C2 = pre ++ G ++ post :=
    fun X J G C1 C2 => ⟨X ++ J ++ "\n", C1 ++ C2, by simp only [String.append_assoc]⟩
  exact key _ _ _ _ _

/-- C25.  For every applier and every DropIndex statement, `Apply` returns without error an
applier whose global `Indexes` map is the map before with the entry of the named index
deleted, and whose `Tables` map is the map before: every table is as it was, its `Indexes`
list included.  So when the applier before the drop came from a CreateIndex statement for
that index on a table that existed, the table still ends its index list with the index
after the drop, and `GenerateTableSQL` of the table still writes the CREATE INDEX text. -/
theorem applyDropIndex_keeps_tables (a : Applier) (drop : Statement)
    (hdrop : drop.Typ = .DropIndex) :
    ∃ a', a.Apply drop = .ok a' ∧
      a'.state.Indexes = mapDelete a.state.Indexes drop.ObjectName ∧
      mapGet a'.state.Indexes drop.ObjectName = none ∧
      a'.state.Tables = a.state.Tables ∧
      ∀ (before : Applier) (create : Statement) (tableName : String) (columns : List String)
        (unique : Bool) (whereClause : String) (table : Table),
        create.Typ = .CreateIndex →
        create.Details
          = .CreateIndexDetails drop.ObjectName tableName columns unique whereClause →
        before.state.GetTable tableName = some table →
        before.Apply create = .ok a →
        ∃ table', a'.state.GetTable tableName = some table' ∧
          table'.Indexes = table.Indexes ++
            [{ Name := drop.ObjectName, Columns := columns, Unique := unique,
               Where := whereClause, Method := "" }] ∧
          ∃ pre post, GenerateTableSQL table'
            = pre ++ GenerateIndexSQL
                { Name := drop.ObjectName, Columns := columns, Unique := unique,
                  Where := whereClause, Method := "" } table'.Name ++ post := by
  refine ⟨{ a with state := a.state.DropIndex drop.ObjectName }, ?_, rfl, ?_, rfl, ?_⟩
  · unfold Applier.Apply
    rw [hdrop]
  · exact mapGet_mapDelete_self _ _
  · intro before create tableName columns unique whereClause table hc hcd hget hap
    have h1 : before.Apply create = before.applyCreateIndex create := by
      unfold Applier.Apply
      rw [hc]
    rw [h1] at hap
    unfold Applier.applyCreateIndex at hap
    rw [hcd] at hap
    have hget' : (before.state.AddIndex
        { Name := drop.ObjectName, Columns := columns, Unique := unique,
          Where := whereClause, Method := "" }).GetTable tableName = some table := hget
    simp only [hget'] at hap
    injection hap with hap
    subst hap
    refine ⟨table.AddIndex
      { Name := drop.ObjectName, Columns := columns, Unique := unique,
          Where := whereClause, Method := "" }, ?_, rfl, ?_⟩
    · exact mapGet_mapSet_self _ _ _
    · exact GenerateTableSQL_last_index _ table.Indexes _ rfl

/-- C25 at a concrete input: `CREATE INDEX i ON t (email)` on the table
`t (id int, email text)`, then `DROP INDEX i`. -/
theorem applyDropIndex_keeps_tables_witness :
    ∃ a, emailApplier.Apply createIndexI = .ok a ∧
      (mapGet a.state.Indexes "i").isSome = true ∧
      ∃ a', a.Apply dropIndexI = .ok a' ∧
        a'.state.Indexes = mapDelete a.state.Indexes "i" ∧
        mapGet a'.state.Indexes "i" = none ∧
        a'.state.Tables = a.state.Tables ∧
        (mapGet a'.state.Tables "t").map GenerateTableSQL
          = some "CREATE TABLE t (\n    id int,\n    email text\n);\n\nCREATE INDEX i ON t (email);\n" := by
  refine ⟨_, rfl, by decide, ?_⟩
  obtain ⟨a', h1, h2, h3, h4, _⟩ :=
    applyDropIndex_keeps_tables
      { emailApplier with
        state := { emailApplier.state.AddIndex
            { Name := "i", Columns := ["email"], Unique := false, Where := "", Method := "" } with
          Tables := mapSet emailApplier.state.Tables "t"
            ((((NewTable "t").AddColumn (plainColumn "id" "int")).AddColumn
              (plainColumn "email" "text")).AddIndex
              { Name := "i", Columns := ["email"], Unique := false, Where := "", Method := "" }) } }
      dropIndexI rfl
  refine ⟨a', h1, h2, h3, h4, ?_⟩
  rw [h4]
  decide

/-! ## Comments on missing objects -/

/-- C26, the code at the failing input: a comment on a missing table, enum or view, or on
`t.c` with `t` missing, leaves the applier as it is, as the claim says; a comment on `t.c`
where the table `t` exists and has no column `c` is stored in `ColumnComments` of `t`:
after `CREATE TABLE t (id int)` and `COMMENT ON COLUMN t.c IS 'x'` the table has the keys
`[id]`, the column comments `[(c, x)]`, and its text ends with a COMMENT ON COLUMN
statement for the column `t.c`. -/
theorem applyComment_missing_column :
    (∀ (a : Applier) (stmt : Statement) (objectType objectName comment : String),
      stmt.Typ = .Comment → stmt.Details = .CommentDetails objectType objectName comment →
      (objectType = "TABLE" → a.state.GetTable objectName = none → a.Apply stmt = .ok a) ∧
      (objectType = "TYPE" → a.state.GetEnum objectName = none → a.Apply stmt = .ok a) ∧
      (objectType = "VIEW" → a.state.GetView objectName = none → a.Apply stmt = .ok a) ∧
      (objectType = "COLUMN" → ∀ t c, Split objectName '.' = [t, c] →
        a.state.GetTable t = none → a.Apply stmt = .ok a)) ∧
    Parse "COMMENT ON COLUMN t.c IS 'x';" = .ok [commentOnMissingColumn] ∧
    (tableIn (applyMigrations (NewApplier NewDatabaseState)
        [(1, "CREATE TABLE t (id int);")]) "t").map (fun t => mapKeys t.Columns)
      = some ["id"] ∧
    (tableIn (applyMigrations (NewApplier NewDatabaseState)
        [(1, "CREATE TABLE t (id int);"), (2, "COMMENT ON COLUMN t.c IS 'x';")]) "t").map
        (fun t => (mapKeys t.Columns, t.ColumnComments))
      = some (["id"], [("c", "x")]) ∧
    (tableIn (applyMigrations (NewApplier NewDatabaseState)
        [(1, "CREATE TABLE t (id int);"), (2, "COMMENT ON COLUMN t.c IS 'x';")]) "t").map
        GenerateTableSQL
      = some "CREATE TABLE t (\n    id int\n);\nCOMMENT ON COLUMN t.c IS 'x';\n" := by
  refine ⟨?_, rfl, by decide, by decide, by decide⟩
  intro a stmt objectType objectName comment ht hd
  have h1 : a.Apply stmt = a.applyComment stmt := by
    unfold Applier.Apply
    rw [ht]
  rw [h1]
  unfold Applier.applyComment
  rw [hd]
  refine ⟨?_, ?_, ?_, ?_⟩
  · intro ho hg
    subst ho
    simp only [if_true, hg]
  · intro ho hg
    subst ho
    simp +decide only [if_true, if_false, hg]
  · intro ho hg
    subst ho
    simp +decide only [if_true, if_false, hg]
  · intro ho t c hs hg
    subst ho
    simp +decide only [if_true, if_false, hs, hg]

/-! ## ALTER TABLE with several clauses -/

/-- C27, the code at the failing input: for `ALTER TABLE t ADD COLUMN a int, ALTER COLUMN b
TYPE text` the list of operations holds the AlterColumn operation alone, and for `ALTER
TABLE t DROP COLUMN c, ALTER COLUMN b SET NOT NULL` likewise; without
the ALTER COLUMN clause both other clauses are in the list.  After `CREATE TABLE t (id
int)` and `ALTER TABLE t ADD COLUMN a int, ALTER COLUMN id TYPE bigint` the table has the
column `id` alone. -/
theorem parseAlterOperations_drops_clauses :
    parseAlterOperations "ALTER TABLE t ADD COLUMN a int, ALTER COLUMN b TYPE text"
      = [{ Typ := .AlterColumn, ColumnName := "b", DataType := "text",
           Details := "ADD COLUMN a int, ALTER COLUMN b TYPE text" }] ∧
    parseAlterOperations "ALTER TABLE t DROP COLUMN c, ALTER COLUMN b SET NOT NULL"
      = [{ Typ := .AlterColumn, ColumnName := "b", DataType := "",
           Details := "DROP COLUMN c, ALTER COLUMN b SET NOT NULL" }] ∧
    parseAlterOperations "ALTER TABLE t ADD COLUMN a int, DROP COLUMN c"
      = [{ Typ := .AddColumn, ColumnName := "a", DataType := "int",
           Details := "ADD COLUMN a int" },
         { Typ := .DropColumn, ColumnName := "c", DataType := "", Details := "DROP COLUMN c" }] ∧
    (tableIn (applyMigrations (NewApplier NewDatabaseState)
        [(1, "CREATE TABLE t (id int);"),
         (2, "ALTER TABLE t ADD COLUMN a int, ALTER COLUMN id TYPE bigint;")]) "t").map
        (fun t => (t.ColumnOrder, GenerateTableSQL t))
      = some (["id"], "CREATE TABLE t (\n    id bigint\n);\n") := by
  refine ⟨rfl, rfl, rfl, ?_⟩
  decide

/-! ## The unique flag of an index -/

/-- C28, the code at the failing input: `CREATE INDEX idx_unique_email ON users (email)` has
no keyword UNIQUE between CREATE and INDEX, and `parseCreateIndex` returns `Unique = true`
for it, because the name of the index holds the letters; for `CREATE INDEX idx_email ON
users (email)` it returns `false` and for `CREATE UNIQUE INDEX idx_email ON users (email)`
it returns `true`. -/
theorem parseCreateIndex_unique_in_name :
    parseCreateIndex "CREATE INDEX idx_unique_email ON users (email)"
      = .ok { Typ := .CreateIndex, Original := "CREATE INDEX idx_unique_email ON users (email)",
              ObjectName := "idx_unique_email",
              Details := .CreateIndexDetails "idx_unique_email" "users" ["email"] true "" } ∧
    parseCreateIndex "CREATE INDEX idx_email ON users (email)"
      = .ok { Typ := .CreateIndex, Original := "CREATE INDEX idx_email ON users (email)",
              ObjectName := "idx_email",
              Details := .CreateIndexDetails "idx_email" "users" ["email"] false "" } ∧
    parseCreateIndex "CREATE UNIQUE INDEX idx_email ON users (email)"
      = .ok { Typ := .CreateIndex, Original := "CREATE UNIQUE INDEX idx_email ON users (email)",
              ObjectName := "idx_email",
              Details := .CreateIndexDetails "idx_email" "users" ["email"] true "" } :=
  ⟨rfl, rfl, rfl⟩

/-! ## The values of an enum -/

theorem AddValue_values (e : Enum) (v : String) :
    (e.AddValue v).Values = if v ∈ e.Values then e.Values else e.Values ++ [v] := by
  unfold Enum.AddValue
  by_cases h : v ∈ e.Values
  · rw [if_pos ((contains_iff _ _).2 h), if_pos h]
  · rw [if_neg (fun hc => h ((contains_iff _ _).1 hc)), if_neg h]

theorem AddValue_fold_values (vals : List String) (e : Enum) :
    (vals.foldl Enum.AddValue e).Values
      = e.Values ++ (firstAdditions vals).filter (fun w => decide (w ∉ e.Values)) := by
  induction vals generalizing e with
  | nil => simp [firstAdditions]
  | cons v rest ih =>
    rw [List.foldl_cons, ih, AddValue_values, firstAdditions]
    by_cases h : v ∈ e.Values
    · rw [if_pos h]
      congr 1
      rw [List.filter_cons, if_neg (by simpa using h), List.filter_filter]
      apply List.filter_congr
      intro w _
      by_cases hw : w ∈ e.Values
      · simp [hw]
      · have : w ≠ v := fun hc => hw (hc ▸ h)
        simp [hw, this]
    · rw [if_neg h, List.append_assoc]
      congr 1
      rw [List.filter_cons, if_pos (by simpa using h), List.filter_filter]
      simp only [List.singleton_append, List.cons.injEq, true_and]
      apply List.filter_congr
      intro w _
      by_cases hw : w ∈ e.Values
      · simp [hw]
      · by_cases hv : w = v
        · simp [hv]
        · simp [hw, hv]

theorem mem_firstAdditions (vals : List String) (v : String) :
    v ∈ firstAdditions vals ↔ v ∈ vals := by
  induction vals with
  | nil => simp [firstAdditions]
  | cons x rest ih =>
    simp only [firstAdditions, List.mem_cons, List.mem_filter, ih, decide_eq_true_eq]
    by_cases h : v = x
    · simp [h]
    · simp [h]

theorem firstAdditions_nodup (vals : List String) : (firstAdditions vals).Nodup := by
  induction vals with
  | nil => simp [firstAdditions]
  | cons x rest ih =>
    rw [firstAdditions, List.nodup_cons]
    refine ⟨?_, ih.filter _⟩
    simp [List.mem_filter]

/-- C29.  For every name and every sequence `vals` of `AddValue` calls on `NewEnum(name)`:
`Values` is the list of the distinct values of `vals` in the order of their first
occurrence (`firstAdditions`), it has no value twice and holds exactly the added values;
one more call puts a new value at the end and changes nothing for a value already there;
and for every enum, `AddValue(v)` on an enum that holds `v` returns the enum unchanged. -/
theorem AddValue_ordered_set (name : String) (vals : List String) :
    (vals.foldl Enum.AddValue (NewEnum name)).Values = firstAdditions vals ∧
    (vals.foldl Enum.AddValue (NewEnum name)).Values.Nodup ∧
    (∀ v, v ∈ (vals.foldl Enum.AddValue (NewEnum name)).Values ↔ v ∈ vals) ∧
    (∀ v, ((vals ++ [v]).foldl Enum.AddValue (NewEnum name)).Values
      = if v ∈ vals then firstAdditions vals else firstAdditions vals ++ [v]) ∧
    (∀ (e : Enum) (v : String), v ∈ e.Values → e.AddValue v = e) := by
  have h : (vals.foldl Enum.AddValue (NewEnum name)).Values = firstAdditions vals := by
    rw [AddValue_fold_values]
    simp [NewEnum]
  refine ⟨h, ?_, ?_, ?_, ?_⟩
  · rw [h]
    exact firstAdditions_nodup vals
  · intro v
    rw [h]
    exact mem_firstAdditions vals v
  · intro v
    rw [List.foldl_append, List.foldl_cons, List.foldl_nil, AddValue_values, h]
    simp only [mem_firstAdditions]
  · intro e v hv
    unfold Enum.AddValue
    rw [if_pos ((contains_iff _ _).2 hv)]

/-! ## The lines of a table -/

theorem writeLines_commaLines (A B : List String) (more : Bool)
    (hmore : A ≠ [] → (more = true ↔ B ≠ [])) :
    concatAll ((commaLines (A ++ B)).map (fun line => line ++ "\n"))
      = writeLines A more ++ concatAll ((commaLines B).map (fun line => line ++ "\n")) := by
  induction A with
  | nil => simp [writeLines]
  | cons x rest ih =>
    have hmore' := hmore (by simp)
    cases rest with
    | nil =>
      cases B with
      | nil =>
        have hm : more = false := by
          cases more
          · rfl
          · exact absurd rfl (hmore'.1 rfl)
        subst hm
        simp [writeLines, commaLines, concatAll, String.append_assoc]
      | cons y B' =>
        have hm : more = true := hmore'.2 (by simp)
        subst hm
        simp [writeLines, commaLines, concatAll, String.append_assoc]
    | cons y rest' =>
      have e1 : commaLines (x :: y :: rest' ++ B)
          = ("    " ++ x ++ ",") :: commaLines (y :: rest' ++ B) := rfl
      rw [e1, List.map_cons, concatAll, ih (fun _ => hmore')]
      simp [writeLines, String.append_assoc]

theorem length_pos_iff_map {α : Type} (l : List α) (f : α → String) :
    decide (l.length > 0) = true ↔ l.map f ≠ [] := by
  cases l <;> simp

theorem writeLines_five (cols pk U C F : List String) (f0 f1 f2 f3 : Bool)
    (h0 : f0 = true ↔ pk ++ (U ++ (C ++ F)) ≠ [])
    (h1 : pk ≠ [] → (f1 = true ↔ U ++ (C ++ F) ≠ []))
    (h2 : f2 = true ↔ C ++ F ≠ []) (h3 : f3 = true ↔ F ≠ []) :
    concatAll ((commaLines (cols ++ (pk ++ (U ++ (C ++ F))))).map (fun line => line ++ "\n"))
      = writeLines cols f0 ++ (writeLines pk f1 ++ (writeLines U f2 ++
          (writeLines C f3 ++ writeLines F false))) := by
  have h4 := writeLines_commaLines F [] false (by simp)
  rw [List.append_nil] at h4
  rw [writeLines_commaLines cols _ f0 (fun _ => h0), writeLines_commaLines pk _ f1 h1,
    writeLines_commaLines U _ f2 (fun _ => h2), writeLines_commaLines C _ f3 (fun _ => h3), h4]
  simp [commaLines, concatAll]

/-- The text of a table is the opening line, the lines of the clauses with the commas as
`commaLines` places them, the closing line, and the tail. -/
theorem GenerateTableSQL_lines (table : Table) :
    GenerateTableSQL table
      = "CREATE TABLE " ++ table.Name ++ " (\n" ++
        concatAll ((commaLines (columnClauses table ++ constraintClauses table)).map
          (fun line => line ++ "\n")) ++
        ");\n" ++ tableTail table := by
  have hU := length_pos_iff_map table.Uniques
    (fun unique => "UNIQUE (" ++ Join unique.Columns ", " ++ ")")
  have hC := length_pos_iff_map table.Checks (fun check => "CHECK (" ++ check.Expression ++ ")")
  have hF := length_pos_iff_map table.ForeignKeys foreignKeyClause
  unfold GenerateTableSQL tableTail constraintClauses columnClauses
  cases hpk : table.PrimaryKey with
  | none =>
    rw [writeLines_five _ [] _ _ _
      ((none : Option PrimaryKey).isSome || decide (table.Checks.length > 0) ||
        decide (table.Uniques.length > 0) || decide (table.ForeignKeys.length > 0))
      false
      (decide (table.Checks.length > 0) || decide (table.ForeignKeys.length > 0))
      (decide (table.ForeignKeys.length > 0))
      (by
        simp only [Option.isSome_none, Bool.false_or, Bool.or_eq_true, hC, hU, hF, ne_eq,
          List.nil_append, List.append_eq_nil, not_and_or]
        tauto)
      (fun h => (h rfl).elim)
      (by rw [Bool.or_eq_true, hC, hF]; simp only [ne_eq, List.append_eq_nil, not_and_or])
      hF]
    simp only [writeLines, String.append_assoc, String.empty_append]
  | some pk =>
    rw [writeLines_five _ ["PRIMARY KEY (" ++ Join pk.Columns ", " ++ ")"] _ _ _
      ((some pk).isSome || decide (table.Checks.length > 0) ||
        decide (table.Uniques.length > 0) || decide (table.ForeignKeys.length > 0))
      (decide (table.Checks.length > 0) || decide (table.Uniques.length > 0) ||
        decide (table.ForeignKeys.length > 0))
      (decide (table.Checks.length > 0) || decide (table.ForeignKeys.length > 0))
      (decide (table.ForeignKeys.length > 0))
      (by simp)
      (fun _ => by
        simp only [Bool.or_eq_true, hC, hU, hF, ne_eq, List.append_eq_nil, not_and_or]
        tauto)
      (by rw [Bool.or_eq_true, hC, hF]; simp only [ne_eq, List.append_eq_nil, not_and_or])
      hF]
    simp only [String.append_assoc]

theorem commaLines_getElem (clauses : List String) (i : Nat) :
    (commaLines clauses)[i]?
      = (clauses[i]?).map (fun clause =>
          "    " ++ clause ++ (if i + 1 < clauses.length then "," else "")) := by
  induction clauses generalizing i with
  | nil => simp [commaLines]
  | cons x rest ih =>
    cases rest with
    | nil =>
      cases i with
      | zero => simp [commaLines]
      | succ i => simp [commaLines]
    | cons y rest' =>
      have e1 : commaLines (x :: y :: rest') = ("    " ++ x ++ ",") :: commaLines (y :: rest') := rfl
      rw [e1]
      cases i with
      | zero => simp
      | succ i =>
        rw [List.getElem?_cons_succ, List.getElem?_cons_succ, ih]
        simp

theorem commaLines_length (clauses : List String) :
    (commaLines clauses).length = clauses.length := by
  induction clauses with
  | nil => rfl
  | cons x rest ih =>
    cases rest with
    | nil => rfl
    | cons y rest' =>
      have e1 : commaLines (x :: y :: rest') = ("    " ++ x ++ ",") :: commaLines (y :: rest') := rfl
      rw [e1, List.length_cons, ih]
      rfl

theorem line_ends (clause : String) :
    ("    " ++ clause ++ ",").data.getLast? = some ',' ∧
    (clause.data.getLast? ≠ some ',' → ("    " ++ clause).data.getLast? ≠ some ',') := by
  constructor
  · have e : ("    " ++ clause ++ ",").data = ("    " ++ clause).data ++ [','] := by
      simp [String.data_append]
    rw [e, List.getLast?_append_of_ne_nil _ (by simp)]
    rfl
  · intro h
    simp only [String.data_append]
    cases hc : clause.data with
    | nil => simp
    | cons c rest =>
      rw [hc] at h
      rw [List.getLast?_append_of_ne_nil _ (by simp)]
      exact h

theorem commaLines_ends (clauses : List String) :
    (∀ i line, i + 1 < clauses.length → (commaLines clauses)[i]? = some line →
      line.data.getLast? = some ',') ∧
    (∀ clause line, clauses.getLast? = some clause → (commaLines clauses).getLast? = some line →
      line = "    " ++ clause ∧
      (clause.data.getLast? ≠ some ',' → line.data.getLast? ≠ some ',')) := by
  constructor
  · intro i line hi hline
    rw [commaLines_getElem] at hline
    have hi' : i < clauses.length := by omega
    rw [List.getElem?_eq_getElem hi', Option.map_some', if_pos hi] at hline
    injection hline with hline
    rw [← hline]
    exact (line_ends _).1
  · intro clause line hc hl
    rw [List.getLast?_eq_getElem?, commaLines_length, commaLines_getElem] at hl
    rw [List.getLast?_eq_getElem?] at hc
    rw [hc, Option.map_some'] at hl
    have hlen : ¬ (clauses.length - 1 + 1 < clauses.length) := by omega
    rw [if_neg hlen] at hl
    injection hl with hl
    have hl' : line = "    " ++ clause := by
      rw [← hl]
      simp
    exact ⟨hl', hl' ▸ (line_ends clause).2⟩

/-! ## A column added and dropped -/

theorem removeFirst_append_self (k : String) (l : List String) (h : k ∉ l) :
    removeFirst k (l ++ [k]) = l := by
  induction l with
  | nil => simp [removeFirst]
  | cons x rest ih =>
    have hx : x ≠ k := fun e => h (e ▸ List.mem_cons_self _ _)
    have hr : k ∉ rest := fun e => h (List.mem_cons_of_mem _ e)
    rw [List.cons_append, removeFirst, if_neg hx, ih hr]

theorem mapDelete_mapSet_absent {V : Type} (m : List (String × V)) (k : String) (v : V)
    (h : k ∉ mapKeys m) : mapDelete (mapSet m k v) k = m := by
  induction m with
  | nil => simp [mapSet, mapDelete]
  | cons e rest ih =>
    obtain ⟨k', v'⟩ := e
    have hk : k' ≠ k := fun e => h (by simp [mapKeys, e])
    have hr : k ∉ mapKeys rest := fun e => h (by
      simp only [mapKeys, List.map_cons, List.mem_cons]
      exact Or.inr e)
    rw [mapSet, if_neg hk, mapDelete_cons, if_neg hk, ih hr]

/-- C30.  For every table whose `ColumnOrder` has no name twice and holds exactly the keys
of `Columns`, and every column `c` whose name is not a key of `Columns`: `AddColumn(c)`
followed by `DropColumn(c.Name)` gives `ColumnOrder` and `Columns` as they were; the name
of `c` is not in `ColumnOrder`; and the column lines of the text of `GenerateTableSQL` are
the lines of the columns of the table before, in their order. -/
theorem AddColumn_DropColumn_restores (t : Table) (c : Column) (hok : ColumnsOK t)
    (hc : c.Name ∉ mapKeys t.Columns) :
    ((t.AddColumn c).DropColumn c.Name).ColumnOrder = t.ColumnOrder ∧
    ((t.AddColumn c).DropColumn c.Name).Columns = t.Columns ∧
    c.Name ∉ ((t.AddColumn c).DropColumn c.Name).ColumnOrder ∧
    columnClauses ((t.AddColumn c).DropColumn c.Name) = columnClauses t ∧
    GenerateTableSQL ((t.AddColumn c).DropColumn c.Name)
      = "CREATE TABLE " ++ t.Name ++ " (\n" ++
        concatAll ((commaLines (columnClauses t ++
          constraintClauses ((t.AddColumn c).DropColumn c.Name))).map
          (fun line => line ++ "\n")) ++
        ");\n" ++ tableTail ((t.AddColumn c).DropColumn c.Name) := by
  have hord : c.Name ∉ t.ColumnOrder := fun h => hc ((hok.live _).1 h)
  have hnone : (mapGet t.Columns c.Name).isSome = false := by
    rw [(mapGet_eq_none_iff _ _).2 hc]
    rfl
  have h1 : ((t.AddColumn c).DropColumn c.Name).ColumnOrder = t.ColumnOrder := by
    show removeFirst c.Name
      (if (mapGet t.Columns c.Name).isSome then t.ColumnOrder else t.ColumnOrder ++ [c.Name])
      = t.ColumnOrder
    rw [hnone]
    exact removeFirst_append_self _ _ hord
  have h2 : ((t.AddColumn c).DropColumn c.Name).Columns = t.Columns :=
    mapDelete_mapSet_absent _ _ _ hc
  have h3 : columnClauses ((t.AddColumn c).DropColumn c.Name) = columnClauses t := by
    unfold columnClauses columnOf
    rw [h1, h2]
  refine ⟨h1, h2, ?_, h3, ?_⟩
  · rw [h1]
    exact hord
  · rw [GenerateTableSQL_lines, h3]
    rfl

/-- C30 at a concrete input: the column `email text` added to the table `t (id int)` and
dropped again. -/
theorem AddColumn_DropColumn_restores_witness :
    ColumnsOK idTable ∧ "email" ∉ mapKeys idTable.Columns ∧
    ((idTable.AddColumn (plainColumn "email" "text")).DropColumn "email").ColumnOrder = ["id"] ∧
    ((idTable.AddColumn (plainColumn "email" "text")).DropColumn "email").Columns
      = idTable.Columns ∧
    GenerateTableSQL ((idTable.AddColumn (plainColumn "email" "text")).DropColumn "email")
      = "CREATE TABLE t (\n    id int\n);\n" := by
  have hok : ColumnsOK idTable := ColumnsOK.ofAddColumn (ColumnsOK.ofNew "t") _
  have h := AddColumn_DropColumn_restores idTable (plainColumn "email" "text") hok (by decide)
  refine ⟨hok, by decide, h.1, h.2.1, ?_⟩
  decide

/-! ## Lemmas: `sortByPriority` puts the names in the order of the priorities -/

theorem shouldSwap_true_ge (g : DependencyGraph) (a b : String)
    (h : shouldSwap g a b = true) : priorityOf g b ≤ priorityOf g a := by
  unfold shouldSwap at h
  unfold priorityOf
  cases ha : mapGet g.Nodes a with
  | none => rw [ha] at h; simp at h
  | some nodeI =>
    cases hb : mapGet g.Nodes b with
    | none => rw [ha, hb] at h; simp at h
    | some nodeJ =>
      rw [ha, hb] at h
      simp only at h
      by_cases h1 : getPriority nodeI > getPriority nodeJ
      · exact le_of_lt h1
      · rw [if_neg h1] at h
        by_cases h2 : getPriority nodeI = getPriority nodeJ
        · exact le_of_eq h2.symm
        · rw [if_neg h2] at h
          cases h

theorem shouldSwap_false_le (g : DependencyGraph) (a b : String)
    (ha : (mapGet g.Nodes a).isSome = true) (hb : (mapGet g.Nodes b).isSome = true)
    (h : ¬ shouldSwap g a b = true) : priorityOf g a ≤ priorityOf g b := by
  unfold shouldSwap at h
  unfold priorityOf
  cases ha' : mapGet g.Nodes a with
  | none => rw [ha'] at ha; cases ha
  | some nodeI =>
    cases hb' : mapGet g.Nodes b with
    | none => rw [hb'] at hb; cases hb
    | some nodeJ =>
      rw [ha', hb'] at h
      simp only at h
      by_cases h1 : getPriority nodeI > getPriority nodeJ
      · rw [if_pos h1] at h
        exact absurd rfl h
      · exact not_lt.1 h1

theorem sortInner_min (g : DependencyGraph) (x : String) (ys : List String)
    (hn : ∀ z ∈ x :: ys, (mapGet g.Nodes z).isSome = true) :
    ∀ z ∈ x :: ys, priorityOf g (sortInner g x ys).1 ≤ priorityOf g z := by
  induction ys generalizing x with
  | nil =>
    intro z hz
    have : z = x := by simpa using hz
    subst this
    exact le_refl _
  | cons y ys ih =>
    have hx := hn x (List.mem_cons_self _ _)
    have hy := hn y (List.mem_cons_of_mem _ (List.mem_cons_self _ _))
    have hys : ∀ z ∈ ys, (mapGet g.Nodes z).isSome = true :=
      fun z hz => hn z (List.mem_cons_of_mem _ (List.mem_cons_of_mem _ hz))
    intro z hz
    by_cases h : shouldSwap g x y = true
    · simp only [sortInner, h, if_true]
      have ih' := ih y (fun w hw => by
        rcases List.mem_cons.1 hw with hw | hw
        · exact hw ▸ hy
        · exact hys w hw)
      have hxy := shouldSwap_true_ge g x y h
      rcases List.mem_cons.1 hz with hz | hz
      · subst hz
        exact le_trans (ih' y (List.mem_cons_self _ _)) hxy
      · exact ih' z hz
    · simp only [sortInner, h, if_false]
      have ih' := ih x (fun w hw => by
        rcases List.mem_cons.1 hw with hw | hw
        · exact hw ▸ hx
        · exact hys w hw)
      have hxy := shouldSwap_false_le g x y hx hy h
      rcases List.mem_cons.1 hz with hz | hz
      · subst hz
        exact ih' z (List.mem_cons_self _ _)
      · rcases List.mem_cons.1 hz with hz | hz
        · subst hz
          exact le_trans (ih' x (List.mem_cons_self _ _)) hxy
        · exact ih' z (List.mem_cons_of_mem _ hz)

theorem sortOuter_sorted (g : DependencyGraph) (n : Nat) (nodes : List String)
    (hlen : nodes.length ≤ n) (hn : ∀ z ∈ nodes, (mapGet g.Nodes z).isSome = true) :
    (sortOuter g n nodes).Pairwise (fun a b => priorityOf g a ≤ priorityOf g b) := by
  induction n generalizing nodes with
  | zero =>
    have : nodes = [] := List.length_eq_zero.1 (Nat.le_zero.1 hlen)
    subst this
    simp [sortOuter]
  | succ n ih =>
    cases nodes with
    | nil => simp [sortOuter]
    | cons x xs =>
      simp only [sortOuter]
      have hperm := sortInner_perm g x xs
      have hmin := sortInner_min g x xs hn
      have hrest : ∀ z ∈ (sortInner g x xs).2, z ∈ x :: xs :=
        fun z hz => hperm.mem_iff.1 (List.mem_cons_of_mem _ hz)
      have hl : (sortInner g x xs).2.length ≤ n := by
        have := hperm.length_eq
        simp only [List.length_cons] at this hlen
        omega
      rw [List.pairwise_cons]
      refine ⟨?_, ih _ hl (fun z hz => hn z (hrest z hz))⟩
      intro z hz
      exact hmin z (hrest z ((sortOuter_perm g n _).mem_iff.1 hz))

theorem sortByPriority_sorted (g : DependencyGraph) (nodes : List String)
    (hn : ∀ z ∈ nodes, (mapGet g.Nodes z).isSome = true) :
    (sortByPriority g nodes).Pairwise (fun a b => priorityOf g a ≤ priorityOf g b) :=
  sortOuter_sorted g _ nodes (le_refl _) hn

/-! ## Lemmas: the main loop of `TopologicalSort` keeps the order of the priorities -/

theorem relaxNeighbors_sorted (g : DependencyGraph) (l : List String) (d : List (String × Int))
    (q : List String) (hq : ∀ x ∈ q, (mapGet g.Nodes x).isSome = true)
    (hl : ∀ x ∈ l, (mapGet g.Nodes x).isSome = true)
    (hs : q.Pairwise (fun a b => priorityOf g a ≤ priorityOf g b)) :
    (∀ x ∈ (relaxNeighbors g l d q).2, x ∈ q ∨ x ∈ l) ∧
      (relaxNeighbors g l d q).2.Pairwise (fun a b => priorityOf g a ≤ priorityOf g b) := by
  induction l generalizing d q with
  | nil => exact ⟨fun x hx => Or.inl hx, hs⟩
  | cons nb rest ih =>
    have hrest : ∀ x ∈ rest, (mapGet g.Nodes x).isSome = true :=
      fun x hx => hl x (List.mem_cons_of_mem _ hx)
    simp only [relaxNeighbors]
    split
    · have hq' : ∀ x ∈ sortByPriority g (q ++ [nb]), (mapGet g.Nodes x).isSome = true := by
        intro x hx
        rcases List.mem_append.1 ((sortByPriority_perm g _).mem_iff.1 hx) with hx | hx
        · exact hq x hx
        · have : x = nb := by simpa using hx
          exact this ▸ hl nb (List.mem_cons_self _ _)
      have hsorted := sortByPriority_sorted g (q ++ [nb]) (by
        intro x hx
        rcases List.mem_append.1 hx with hx | hx
        · exact hq x hx
        · have : x = nb := by simpa using hx
          exact this ▸ hl nb (List.mem_cons_self _ _))
      obtain ⟨i1, i2⟩ := ih (mapSet d nb (mapGetD d nb 0 - 1)) _ hq' hrest hsorted
      refine ⟨?_, i2⟩
      intro x hx
      rcases i1 x hx with h | h
      · rcases List.mem_append.1 ((sortByPriority_perm g _).mem_iff.1 h) with h | h
        · exact Or.inl h
        · have : x = nb := by simpa using h
          exact Or.inr (this ▸ List.mem_cons_self _ _)
      · exact Or.inr (List.mem_cons_of_mem _ h)
    · obtain ⟨i1, i2⟩ := ih (mapSet d nb (mapGetD d nb 0 - 1)) q hq hrest hs
      refine ⟨?_, i2⟩
      intro x hx
      rcases i1 x hx with h | h
      · exact Or.inl h
      · exact Or.inr (List.mem_cons_of_mem _ h)

theorem PriorityInv.relax {g : DependencyGraph} {node : String} {q res : List String}
    (d : List (String × Int))
    (hnodes : EdgesRel (fun _ x => (mapGet g.Nodes x).isSome = true) g)
    (hmono : EdgesRel (fun target x => priorityOf g target ≤ priorityOf g x) g)
    (inv : PriorityInv g (node :: q) res) :
    PriorityInv g (relaxNeighbors g (mapGetD g.Edges node []) d q).2 (res ++ [node]) := by
  have hl : ∀ x ∈ mapGetD g.Edges node [], (mapGet g.Nodes x).isSome = true :=
    fun x hx => hnodes _ (mem_mapGetD_edges g.Edges node x hx) x hx
  have hle : ∀ x ∈ mapGetD g.Edges node [], priorityOf g node ≤ priorityOf g x :=
    fun x hx => hmono _ (mem_mapGetD_edges g.Edges node x hx) x hx
  have hq : ∀ x ∈ q, (mapGet g.Nodes x).isSome = true :=
    fun x hx => inv.nodes x (List.mem_cons_of_mem _ hx)
  have hqs := List.pairwise_cons.1 inv.queue
  obtain ⟨i1, i2⟩ := relaxNeighbors_sorted g (mapGetD g.Edges node []) d q hq hl hqs.2
  refine ⟨?_, i2, ?_, ?_⟩
  · intro x hx
    rcases i1 x hx with h | h
    · exact hq x h
    · exact hl x h
  · rw [List.pairwise_append]
    refine ⟨inv.result, List.pairwise_singleton _ _, ?_⟩
    intro r hr x hx
    have : x = node := by simpa using hx
    subst this
    exact inv.le r hr x (List.mem_cons_self _ _)
  · intro r hr x hx
    have hnx : priorityOf g node ≤ priorityOf g x := by
      rcases i1 x hx with h | h
      · exact hqs.1 x h
      · exact hle x h
    rcases List.mem_append.1 hr with hr | hr
    · exact le_trans (inv.le r hr node (List.mem_cons_self _ _)) hnx
    · have : r = node := by simpa using hr
      subst this
      exact hnx

theorem sortLoop_priority {g : DependencyGraph}
    (hnodes : EdgesRel (fun _ x => (mapGet g.Nodes x).isSome = true) g)
    (hmono : EdgesRel (fun target x => priorityOf g target ≤ priorityOf g x) g)
    (fuel : Nat) (d : List (String × Int)) (q res result : List String)
    (inv : PriorityInv g q res) (h : sortLoop g fuel d q res = some result) :
    result.Pairwise (fun a b => priorityOf g a ≤ priorityOf g b) := by
  induction fuel generalizing d q res with
  | zero => simp [sortLoop] at h
  | succ fuel ih =>
    cases q with
    | nil =>
      simp only [sortLoop, Option.some.injEq] at h
      subst h
      exact inv.result
    | cons node q =>
      simp only [sortLoop] at h
      exact ih _ _ _ (inv.relax d hnodes hmono) h

/-- In a graph whose listed dependents are nodes of a priority that is not below the
priority of their target, a successful result is in the order of the priorities. -/
theorem TopologicalSort_ok_priority (g : DependencyGraph) (order result : List String)
    (hnodes : EdgesRel (fun _ x => (mapGet g.Nodes x).isSome = true) g)
    (hmono : EdgesRel (fun target x => priorityOf g target ≤ priorityOf g x) g)
    (hsub : ∀ x ∈ order, x ∈ mapKeys (inDegreeInit g))
    (hres : g.TopologicalSort order = some (.ok result)) :
    result.Pairwise (fun a b => priorityOf g a ≤ priorityOf g b) := by
  unfold DependencyGraph.TopologicalSort at hres
  cases hs : sortLoop g (order.length + (inDegreeInit g).length + 1) (inDegreeInit g)
      (sortByPriority g (initialQueue (inDegreeInit g) order)) [] with
  | none => rw [hs] at hres; cases hres
  | some r =>
    rw [hs] at hres
    simp only at hres
    by_cases hlen : r.length ≠ g.Nodes.length
    · rw [if_pos hlen] at hres
      cases hres
    · rw [if_neg hlen] at hres
      have hr : r = result := by
        injection hres with h1
        injection h1
      subst hr
      have hq : ∀ x ∈ initialQueue (inDegreeInit g) order, (mapGet g.Nodes x).isSome = true := by
        intro x hx
        have hx' : x ∈ order := (List.mem_filter.1 hx).1
        rcases (mem_keys_inDegreeInit g x).1 (hsub x hx') with h | ⟨e, he, hxe⟩
        · exact mapGet_isSome_of_mem_keys _ _ h
        · exact hnodes e he x hxe
      refine sortLoop_priority hnodes hmono _ _ _ _ _ ⟨?_, ?_, List.Pairwise.nil, ?_⟩ hs
      · intro x hx
        exact hq x ((sortByPriority_perm g _).mem_iff.1 hx)
      · exact sortByPriority_sorted g _ hq
      · intro r hr
        cases hr

/-- In a list in the order of the priorities, a name of a smaller priority stands before a
name of a larger one. -/
theorem indexOf_lt_of_priority (g : DependencyGraph) (l : List String)
    (hs : l.Pairwise (fun a b => priorityOf g a ≤ priorityOf g b)) (a b : String)
    (ha : a ∈ l) (hb : b ∈ l) (hlt : priorityOf g a < priorityOf g b) :
    l.indexOf a < l.indexOf b := by
  induction l with
  | nil => cases ha
  | cons x rest ih =>
    rw [List.pairwise_cons] at hs
    by_cases hxa : x = a
    · subst hxa
      have hxb : x ≠ b := fun e => by
        subst e
        exact lt_irrefl _ hlt
      rw [List.indexOf_cons_self, List.indexOf_cons_ne _ hxb]
      exact Nat.succ_pos _
    · have ha' : a ∈ rest := by
        rcases List.mem_cons.1 ha with h | h
        · exact absurd h.symm hxa
        · exact h
      by_cases hxb : x = b
      · subst hxb
        exact absurd (hs.1 a ha') (not_le.2 hlt)
      · have hb' : b ∈ rest := by
          rcases List.mem_cons.1 hb with h | h
          · exact absurd h.symm hxb
          · exact h
        rw [List.indexOf_cons_ne _ hxa, List.indexOf_cons_ne _ hxb]
        exact Nat.succ_lt_succ (ih hs.2 ha' hb')

/-! ## Lemmas: the kinds of the nodes of a catalog -/

theorem priorityOf_congr (g g' : DependencyGraph) (h : g'.Nodes = g.Nodes) (x : String) :
    priorityOf g' x = priorityOf g x := by
  unfold priorityOf
  rw [h]

theorem priorityOf_le_three (g : DependencyGraph) (x : String) : priorityOf g x ≤ 3 := by
  unfold priorityOf
  cases mapGet g.Nodes x with
  | none => decide
  | some node =>
    simp only [getPriority]
    cases node.Typ <;> decide

/-- The kind of the node of a name: the last of the four loops that has the name wins. -/
theorem buildNodes_kind (dbState : DatabaseState) (x : String) :
    (x ∈ mapKeys dbState.Views →
      ∃ node, mapGet (buildNodes dbState).Nodes x = some node ∧ node.Typ = .ObjectView) ∧
    (x ∉ mapKeys dbState.Views → x ∈ mapKeys dbState.Tables →
      ∃ node, mapGet (buildNodes dbState).Nodes x = some node ∧ node.Typ = .ObjectTable) ∧
    (x ∉ mapKeys dbState.Views → x ∉ mapKeys dbState.Tables → x ∈ mapKeys dbState.Enums →
      ∃ node, mapGet (buildNodes dbState).Nodes x = some node ∧ node.Typ = .ObjectEnum) ∧
    (x ∉ mapKeys dbState.Views → x ∉ mapKeys dbState.Tables → x ∉ mapKeys dbState.Enums →
      x ∈ mapKeys dbState.Domains →
      ∃ node, mapGet (buildNodes dbState).Nodes x = some node ∧ node.Typ = .ObjectDomain) := by
  unfold buildNodes
  simp only []
  refine ⟨?_, ?_, ?_, ?_⟩
  · intro hV
    exact (AddNode_fold_get .ObjectView (fun v : View => v.CreatedIn) dbState.Views _ x).1 hV
  · intro hV hT
    rw [(AddNode_fold_get .ObjectView (fun v : View => v.CreatedIn) dbState.Views _ x).2 hV]
    exact (AddNode_fold_get .ObjectTable (fun v : Table => v.CreatedIn) dbState.Tables _ x).1 hT
  · intro hV hT hE
    rw [(AddNode_fold_get .ObjectView (fun v : View => v.CreatedIn) dbState.Views _ x).2 hV,
      (AddNode_fold_get .ObjectTable (fun v : Table => v.CreatedIn) dbState.Tables _ x).2 hT]
    exact (AddNode_fold_get .ObjectEnum (fun v : Enum => v.CreatedIn) dbState.Enums _ x).1 hE
  · intro hV hT hE hD
    rw [(AddNode_fold_get .ObjectView (fun v : View => v.CreatedIn) dbState.Views _ x).2 hV,
      (AddNode_fold_get .ObjectTable (fun v : Table => v.CreatedIn) dbState.Tables _ x).2 hT,
      (AddNode_fold_get .ObjectEnum (fun v : Enum => v.CreatedIn) dbState.Enums _ x).2 hE]
    exact (AddNode_fold_get .ObjectDomain (fun v : Domain => v.CreatedIn) dbState.Domains _ x).1 hD

theorem priorityOf_of_kind (g : DependencyGraph) (x : String) (t : ObjectType)
    (h : ∃ node, mapGet g.Nodes x = some node ∧ node.Typ = t) :
    priorityOf g x = getPriority { Typ := t, Name := "", CreatedIn := 0 } := by
  obtain ⟨node, h1, h2⟩ := h
  unfold priorityOf
  rw [h1]
  simp only [getPriority, h2]

/-- The priorities of the names of a catalog whose names are distinct across kinds. -/
theorem priorityOf_kinds (dbState : DatabaseState) (hd : KindsDistinct dbState) (x : String) :
    (x ∈ mapKeys dbState.Domains → priorityOf (buildNodes dbState) x = 0) ∧
    (x ∈ mapKeys dbState.Enums → priorityOf (buildNodes dbState) x = 1) ∧
    (x ∈ mapKeys dbState.Tables → priorityOf (buildNodes dbState) x = 2) ∧
    (x ∈ mapKeys dbState.Views → priorityOf (buildNodes dbState) x = 3) := by
  obtain ⟨k1, k2, k3, k4⟩ := buildNodes_kind dbState x
  refine ⟨?_, ?_, ?_, ?_⟩
  · intro h
    obtain ⟨a, b, c⟩ := hd.1 x h
    exact priorityOf_of_kind _ x _ (k4 c b a h)
  · intro h
    obtain ⟨b, c⟩ := hd.2.1 x h
    exact priorityOf_of_kind _ x _ (k3 c b h)
  · intro h
    exact priorityOf_of_kind _ x _ (k2 (hd.2.2 x h) h)
  · intro h
    exact priorityOf_of_kind _ x _ (k1 h)

/-- A name that no view has is of priority 2 at most. -/
theorem priorityOf_le_two (dbState : DatabaseState) (x : String)
    (hV : x ∉ mapKeys dbState.Views) : priorityOf (buildNodes dbState) x ≤ 2 := by
  obtain ⟨_, k2, k3, k4⟩ := buildNodes_kind dbState x
  by_cases hT : x ∈ mapKeys dbState.Tables
  · rw [priorityOf_of_kind _ x _ (k2 hV hT)]
    decide
  · by_cases hE : x ∈ mapKeys dbState.Enums
    · rw [priorityOf_of_kind _ x _ (k3 hV hT hE)]
      decide
    · by_cases hD : x ∈ mapKeys dbState.Domains
      · rw [priorityOf_of_kind _ x _ (k4 hV hT hE hD)]
        decide
      · have hnone : mapGet (buildNodes dbState).Nodes x = none := by
          rw [mapGet_eq_none_iff, mem_keys_buildNodes]
          tauto
        unfold priorityOf
        rw [hnone]
        decide

/-! ## Lemmas: every listing of the graph of a catalog goes up in priority -/

theorem AddEdge_rel (R : String → String → Prop) (g : DependencyGraph) (a b : String)
    (h : EdgesRel R g) (hab : R b a) : EdgesRel R (g.AddEdge a b) := by
  unfold DependencyGraph.AddEdge
  by_cases hc : contains (mapGetD g.Edges b []) a = true
  · rw [if_pos hc]
    exact h
  · rw [if_neg hc]
    intro e he x hx
    rcases mem_mapSet _ _ _ _ he with he | he
    · exact h e he x hx
    · subst he
      rcases List.mem_append.1 hx with hx | hx
      · exact h _ (mem_mapGetD_edges g.Edges b x hx) x hx
      · have : x = a := by simpa using hx
        exact this ▸ hab

theorem AddEdge_nodes (g : DependencyGraph) (a b : String) : (g.AddEdge a b).Nodes = g.Nodes := by
  unfold DependencyGraph.AddEdge
  split <;> rfl

theorem findEnumDependencies_mem (table : Table) (st : DatabaseState) (x : String)
    (h : x ∈ findEnumDependencies table st) : (mapGet st.Enums x).isSome = true := by
  unfold findEnumDependencies at h
  have key : ∀ (l : List String) (deps : List String),
      (∀ y ∈ deps, (mapGet st.Enums y).isSome = true) →
      ∀ y ∈ l.foldl (fun deps colName =>
        match mapGet table.Columns colName with
        | none => deps
        | some col =>
          if (mapGet st.Enums (firstWord (TrimSpace col.Typ))).isSome then
            if contains deps (firstWord (TrimSpace col.Typ)) then deps
            else deps ++ [firstWord (TrimSpace col.Typ)]
          else deps) deps, (mapGet st.Enums y).isSome = true := by
    intro l
    induction l with
    | nil => intro deps hdeps y hy; exact hdeps y hy
    | cons c rest ih =>
      intro deps hdeps
      rw [List.foldl_cons]
      apply ih
      cases hcol : mapGet table.Columns c with
      | none => exact hdeps
      | some col =>
        simp only
        split
        · split
          · exact hdeps
          · intro y hy
            rcases List.mem_append.1 hy with hy | hy
            · exact hdeps y hy
            · have : y = firstWord (TrimSpace col.Typ) := by simpa using hy
              rw [this]
              assumption
        · exact hdeps
  exact key _ [] (fun y hy => by cases hy) x h

theorem findDomainDependencies_mem (table : Table) (st : DatabaseState) (x : String)
    (h : x ∈ findDomainDependencies table st) : (mapGet st.Domains x).isSome = true := by
  unfold findDomainDependencies at h
  have key : ∀ (l : List String) (deps : List String),
      (∀ y ∈ deps, (mapGet st.Domains y).isSome = true) →
      ∀ y ∈ l.foldl (fun deps colName =>
        match mapGet table.Columns colName with
        | none => deps
        | some col =>
          if (mapGet st.Domains (firstWord (TrimSpace col.Typ))).isSome then
            if contains deps (firstWord (TrimSpace col.Typ)) then deps
            else deps ++ [firstWord (TrimSpace col.Typ)]
          else deps) deps, (mapGet st.Domains y).isSome = true := by
    intro l
    induction l with
    | nil => intro deps hdeps y hy; exact hdeps y hy
    | cons c rest ih =>
      intro deps hdeps
      rw [List.foldl_cons]
      apply ih
      cases hcol : mapGet table.Columns c with
      | none => exact hdeps
      | some col =>
        simp only
        split
        · split
          · exact hdeps
          · intro y hy
            rcases List.mem_append.1 hy with hy | hy
            · exact hdeps y hy
            · have : y = firstWord (TrimSpace col.Typ) := by simpa using hy
              rw [this]
              assumption
        · exact hdeps
  exact key _ [] (fun y hy => by cases hy) x h

theorem enumFold_rel (R : String → String → Prop) (tableName : String) (l : List String)
    (r : DependencyGraph × DatabaseState) (h : EdgesRel R r.1) (hl : ∀ x ∈ l, R x tableName) :
    EdgesRel R (l.foldl (fun (r : DependencyGraph × DatabaseState) enumName =>
        (r.1.AddEdge tableName enumName, trackEnumUsage r.2 enumName tableName)) r).1 ∧
      EnumsKept r.2 (l.foldl (fun (r : DependencyGraph × DatabaseState) enumName =>
        (r.1.AddEdge tableName enumName, trackEnumUsage r.2 enumName tableName)) r).2 := by
  induction l generalizing r with
  | nil => exact ⟨h, EnumsKept.kept_refl _⟩
  | cons a rest ih =>
    rw [List.foldl_cons]
    obtain ⟨i1, i2⟩ := ih (r.1.AddEdge tableName a, trackEnumUsage r.2 a tableName)
      (AddEdge_rel R r.1 _ _ h (hl a (List.mem_cons_self _ _)))
      (fun x hx => hl x (List.mem_cons_of_mem _ hx))
    exact ⟨i1, (trackEnumUsage_kept r.2 a tableName).1.kept_trans i2⟩

theorem foldl_rel {α : Type} (R : String → String → Prop)
    (f : DependencyGraph → α → DependencyGraph) (l : List α)
    (hstep : ∀ g, ∀ a ∈ l, EdgesRel R g → EdgesRel R (f g a)) (g : DependencyGraph)
    (h : EdgesRel R g) : EdgesRel R (l.foldl f g) := by
  induction l generalizing g with
  | nil => exact h
  | cons a rest ih =>
    rw [List.foldl_cons]
    exact ih (fun g' a' ha' => hstep g' a' (List.mem_cons_of_mem _ ha')) _
      (hstep g a (List.mem_cons_self _ _) h)

theorem tableEdges_rel (R : String → String → Prop) (acc : DependencyGraph × DatabaseState)
    (tableName : String) (table : Table) (h : EdgesRel R acc.1)
    (hfk : ∀ fk ∈ table.ForeignKeys, fk.ReferencedTable ≠ tableName →
      R fk.ReferencedTable tableName)
    (he : ∀ x, (mapGet acc.2.Enums x).isSome = true → R x tableName)
    (hdm : ∀ x, (mapGet acc.2.Domains x).isSome = true → R x tableName) :
    EdgesRel R (tableEdges acc tableName table).1 := by
  have h1 : EdgesRel R (table.ForeignKeys.foldl
      (fun g fk => if fk.ReferencedTable ≠ tableName then g.AddEdge tableName fk.ReferencedTable
        else g) acc.1) := by
    apply foldl_rel R _ _ _ _ h
    intro g fk hfkm hg
    by_cases hne : fk.ReferencedTable ≠ tableName
    · rw [if_pos hne]
      exact AddEdge_rel R g _ _ hg (hfk fk hfkm hne)
    · rw [if_neg hne]
      exact hg
  obtain ⟨h2, k2⟩ := enumFold_rel R tableName (findEnumDependencies table acc.2)
    (table.ForeignKeys.foldl
      (fun g fk => if fk.ReferencedTable ≠ tableName then g.AddEdge tableName fk.ReferencedTable
        else g) acc.1, acc.2) h1
    (fun x hx => he x (findEnumDependencies_mem table acc.2 x hx))
  unfold tableEdges
  simp only []
  apply foldl_rel R _ _ _ _ h2
  intro g domainName hmem hg
  refine AddEdge_rel R g _ _ hg (hdm domainName ?_)
  have := findDomainDependencies_mem table _ domainName hmem
  rw [k2.2.1] at this
  exact this

theorem tableLoop_rel (R : String → String → Prop) (dbState : DatabaseState)
    (tables : List (String × Table)) (acc : DependencyGraph × DatabaseState)
    (h : EdgesRel R acc.1) (hk : EnumsKept dbState acc.2)
    (hfk : ∀ e ∈ tables, ∀ fk ∈ e.2.ForeignKeys, fk.ReferencedTable ≠ e.1 →
      R fk.ReferencedTable e.1)
    (he : ∀ e ∈ tables, ∀ x, (mapGet dbState.Enums x).isSome = true → R x e.1)
    (hdm : ∀ e ∈ tables, ∀ x, (mapGet dbState.Domains x).isSome = true → R x e.1) :
    EdgesRel R (tables.foldl (fun acc e => tableEdges acc e.1 e.2) acc).1 := by
  induction tables generalizing acc with
  | nil => exact h
  | cons e rest ih =>
    rw [List.foldl_cons]
    have hm := List.mem_cons_self e rest
    refine ih _ ?_ (hk.kept_trans (tableEdges_kept acc e.1 e.2).1)
      (fun e' he' => hfk e' (List.mem_cons_of_mem _ he'))
      (fun e' he' => he e' (List.mem_cons_of_mem _ he'))
      (fun e' he' => hdm e' (List.mem_cons_of_mem _ he'))
    refine tableEdges_rel R acc e.1 e.2 h (hfk e hm) ?_ ?_
    · intro x hx
      rw [hk.2.2 x] at hx
      exact he e hm x hx
    · intro x hx
      rw [hk.2.1] at hx
      exact hdm e hm x hx

theorem viewEdges_rel (R : String → String → Prop) (g : DependencyGraph) (viewName : String)
    (view : View) (h : EdgesRel R g) (hv : ∀ dep, R dep viewName) :
    EdgesRel R (viewEdges g viewName view) := by
  unfold viewEdges
  apply foldl_rel R _ _ _ _ h
  intro g dep _ hg
  by_cases h1 : dep ≠ viewName
  · rw [if_pos h1]
    by_cases h2 : (mapGet g.Nodes dep).isSome = true
    · rw [if_pos h2]
      exact AddEdge_rel R g _ _ hg (hv dep)
    · rw [if_neg h2]
      exact hg
  · rw [if_neg h1]
    exact hg

/-- In the graph of a catalog whose names are distinct across kinds and whose foreign keys
reference tables of the catalog, no dependent is of a smaller priority than its target. -/
theorem BuildDependencyGraph_priority (dbState : DatabaseState) (hd : KindsDistinct dbState)
    (hfk : ForeignKeysSurvive dbState) :
    EdgesRel (fun target x => priorityOf (BuildDependencyGraph dbState).1 target
      ≤ priorityOf (BuildDependencyGraph dbState).1 x) (BuildDependencyGraph dbState).1 := by
  have hcongr : ∀ x, priorityOf (BuildDependencyGraph dbState).1 x
      = priorityOf (buildNodes dbState) x :=
    priorityOf_congr _ _ (BuildDependencyGraph_nodes dbState)
  simp only [hcongr]
  have htab : ∀ e ∈ dbState.Tables, priorityOf (buildNodes dbState) e.1 = 2 :=
    fun e he => (priorityOf_kinds dbState hd e.1).2.2.1 (List.mem_map_of_mem _ he)
  have hview : ∀ e ∈ dbState.Views, priorityOf (buildNodes dbState) e.1 = 3 :=
    fun e he => (priorityOf_kinds dbState hd e.1).2.2.2 (List.mem_map_of_mem _ he)
  unfold BuildDependencyGraph
  simp only []
  apply foldl_rel
  · intro g e he hg
    refine viewEdges_rel _ g e.1 e.2 hg ?_
    intro dep
    rw [hview e he]
    exact priorityOf_le_three _ dep
  · refine tableLoop_rel _ dbState dbState.Tables _ ?_ (EnumsKept.kept_refl _) ?_ ?_ ?_
    · intro e he
      rw [buildNodes_edges] at he
      cases he
    · intro e he fk hfkm _
      rw [htab e he, (priorityOf_kinds dbState hd _).2.2.1 (hfk e he fk hfkm)]
    · intro e he x hx
      rw [htab e he]
      have hx' : x ∈ mapKeys dbState.Enums := by
        by_contra hc
        rw [(mapGet_eq_none_iff _ _).2 hc] at hx
        cases hx
      exact priorityOf_le_two dbState x (hd.2.1 x hx').2
    · intro e he x hx
      rw [htab e he]
      have hx' : x ∈ mapKeys dbState.Domains := by
        by_contra hc
        rw [(mapGet_eq_none_iff _ _).2 hc] at hx
        cases hx
      exact priorityOf_le_two dbState x (hd.1 x hx').2.2

theorem buildNodes_nodup (dbState : DatabaseState) :
    (mapKeys (buildNodes dbState).Nodes).Nodup := by
  have key : ∀ {V : Type} (t : ObjectType) (c : V → Int) (l : List (String × V))
      (g : DependencyGraph), (mapKeys g.Nodes).Nodup →
      (mapKeys (l.foldl (fun g e => g.AddNode t e.1 (c e.2)) g).Nodes).Nodup := by
    intro V t c l
    induction l with
    | nil => intro g hg; exact hg
    | cons e rest ih =>
      intro g hg
      rw [List.foldl_cons]
      exact ih _ (mapKeys_mapSet_nodup _ _ _ hg)
  unfold buildNodes
  exact key _ (fun v : View => v.CreatedIn) _ _ (key _ (fun v : Table => v.CreatedIn) _ _
    (key _ (fun v : Enum => v.CreatedIn) _ _ (key _ (fun v : Domain => v.CreatedIn) _ _
      (by simp [NewDependencyGraph, mapKeys]))))

/-! ## The order of the kinds, and the result as a permutation of the nodes -/

/-- C23.  For every catalog whose object names are distinct across kinds and whose foreign
keys all reference tables of the catalog, every order in which the in-degree map of the
graph of the catalog is visited, and every successful result of `TopologicalSort` on that
graph: every domain, enum, table and view name of the catalog is in the result, every
domain stands before every enum, every enum before every table, and every table before
every view. -/
theorem TopologicalSort_kinds_in_order (dbState : DatabaseState) (order result : List String)
    (hd : KindsDistinct dbState) (hfk : ForeignKeysSurvive dbState)
    (horder : List.Perm order (mapKeys (inDegreeInit (BuildDependencyGraph dbState).1)))
    (hres : (BuildDependencyGraph dbState).1.TopologicalSort order = some (.ok result)) :
    (∀ d ∈ mapKeys dbState.Domains, ∀ e ∈ mapKeys dbState.Enums,
      d ∈ result ∧ e ∈ result ∧ result.indexOf d < result.indexOf e) ∧
    (∀ e ∈ mapKeys dbState.Enums, ∀ t ∈ mapKeys dbState.Tables,
      e ∈ result ∧ t ∈ result ∧ result.indexOf e < result.indexOf t) ∧
    (∀ t ∈ mapKeys dbState.Tables, ∀ v ∈ mapKeys dbState.Views,
      t ∈ result ∧ v ∈ result ∧ result.indexOf t < result.indexOf v) := by
  obtain ⟨hE, hdep⟩ := BuildDependencyGraph_ok dbState
  obtain ⟨_, hmem, _⟩ := TopologicalSort_ok_order _ order result hE hdep horder hres
  have hsorted := TopologicalSort_ok_priority _ order result
    (fun e he x hx => mapGet_isSome_of_mem_keys _ _ (hdep e he x hx))
    (BuildDependencyGraph_priority dbState hd hfk)
    (fun x hx => horder.mem_iff.1 hx) hres
  have hin : ∀ x, (x ∈ mapKeys dbState.Domains ∨ x ∈ mapKeys dbState.Enums ∨
      x ∈ mapKeys dbState.Tables ∨ x ∈ mapKeys dbState.Views) → x ∈ result := by
    intro x hx
    rw [hmem, BuildDependencyGraph_nodes, mem_keys_buildNodes]
    exact hx
  have hp : ∀ x, priorityOf (BuildDependencyGraph dbState).1 x
      = priorityOf (buildNodes dbState) x :=
    priorityOf_congr _ _ (BuildDependencyGraph_nodes dbState)
  refine ⟨?_, ?_, ?_⟩
  · intro d hdm e hen
    have h1 := hin d (Or.inl hdm)
    have h2 := hin e (Or.inr (Or.inl hen))
    refine ⟨h1, h2, indexOf_lt_of_priority _ result hsorted d e h1 h2 ?_⟩
    rw [hp, hp, (priorityOf_kinds dbState hd d).1 hdm, (priorityOf_kinds dbState hd e).2.1 hen]
    decide
  · intro e hen t htb
    have h1 := hin e (Or.inr (Or.inl hen))
    have h2 := hin t (Or.inr (Or.inr (Or.inl htb)))
    refine ⟨h1, h2, indexOf_lt_of_priority _ result hsorted e t h1 h2 ?_⟩
    rw [hp, hp, (priorityOf_kinds dbState hd e).2.1 hen,
      (priorityOf_kinds dbState hd t).2.2.1 htb]
    decide
  · intro t htb v hvw
    have h1 := hin t (Or.inr (Or.inr (Or.inl htb)))
    have h2 := hin v (Or.inr (Or.inr (Or.inr hvw)))
    refine ⟨h1, h2, indexOf_lt_of_priority _ result hsorted t v h1 h2 ?_⟩
    rw [hp, hp, (priorityOf_kinds dbState hd t).2.2.1 htb,
      (priorityOf_kinds dbState hd v).2.2.2 hvw]
    decide

/-- C23 at a concrete input: the catalog `kindsCatalog`, whose table and view are older
than its enum and domain, with the in-degree map visited in the order `v, t, e, d`; the
result is `d, e, t, v`. -/
theorem TopologicalSort_kinds_in_order_witness :
    KindsDistinct kindsCatalog ∧ ForeignKeysSurvive kindsCatalog ∧
    (BuildDependencyGraph kindsCatalog).1.TopologicalSort ["v", "t", "e", "d"]
      = some (.ok ["d", "e", "t", "v"]) ∧
    (∀ d ∈ mapKeys kindsCatalog.Domains, ∀ e ∈ mapKeys kindsCatalog.Enums,
      d ∈ ["d", "e", "t", "v"] ∧ e ∈ ["d", "e", "t", "v"] ∧
        List.indexOf d ["d", "e", "t", "v"] < List.indexOf e ["d", "e", "t", "v"]) ∧
    (∀ e ∈ mapKeys kindsCatalog.Enums, ∀ t ∈ mapKeys kindsCatalog.Tables,
      e ∈ ["d", "e", "t", "v"] ∧ t ∈ ["d", "e", "t", "v"] ∧
        List.indexOf e ["d", "e", "t", "v"] < List.indexOf t ["d", "e", "t", "v"]) ∧
    (∀ t ∈ mapKeys kindsCatalog.Tables, ∀ v ∈ mapKeys kindsCatalog.Views,
      t ∈ ["d", "e", "t", "v"] ∧ v ∈ ["d", "e", "t", "v"] ∧
        List.indexOf t ["d", "e", "t", "v"] < List.indexOf v ["d", "e", "t", "v"]) := by
  have hd : KindsDistinct kindsCatalog := by
    unfold KindsDistinct
    decide
  have hfk : ForeignKeysSurvive kindsCatalog := by
    unfold ForeignKeysSurvive
    decide
  have hperm : List.Perm ["v", "t", "e", "d"]
      (mapKeys (inDegreeInit (BuildDependencyGraph kindsCatalog).1)) := by
    decide
  exact ⟨hd, hfk, rfl,
    TopologicalSort_kinds_in_order kindsCatalog ["v", "t", "e", "d"] ["d", "e", "t", "v"]
      hd hfk hperm rfl⟩

/-- C24.  For every catalog, every order in which the in-degree map of its graph is
visited, and every successful result of `TopologicalSort` on that graph: the result is a
permutation of the node names of the graph; it has no name twice; a name is in the result
if and only if it is the name of a domain, an enum, a table or a view of the catalog; and
each such name occurs in the result once. -/
theorem TopologicalSort_permutation (dbState : DatabaseState) (order result : List String)
    (horder : List.Perm order (mapKeys (inDegreeInit (BuildDependencyGraph dbState).1)))
    (hres : (BuildDependencyGraph dbState).1.TopologicalSort order = some (.ok result)) :
    List.Perm result (mapKeys (BuildDependencyGraph dbState).1.Nodes) ∧
    result.Nodup ∧
    (∀ x, x ∈ result ↔
      (x ∈ mapKeys dbState.Domains ∨ x ∈ mapKeys dbState.Enums ∨
        x ∈ mapKeys dbState.Tables ∨ x ∈ mapKeys dbState.Views)) ∧
    (∀ x, (x ∈ mapKeys dbState.Domains ∨ x ∈ mapKeys dbState.Enums ∨
        x ∈ mapKeys dbState.Tables ∨ x ∈ mapKeys dbState.Views) → result.count x = 1) := by
  obtain ⟨hE, hdep⟩ := BuildDependencyGraph_ok dbState
  obtain ⟨hnd, hmem, _⟩ := TopologicalSort_ok_order _ order result hE hdep horder hres
  have hmem' : ∀ x, x ∈ result ↔
      (x ∈ mapKeys dbState.Domains ∨ x ∈ mapKeys dbState.Enums ∨
        x ∈ mapKeys dbState.Tables ∨ x ∈ mapKeys dbState.Views) := by
    intro x
    rw [hmem, BuildDependencyGraph_nodes, mem_keys_buildNodes]
  refine ⟨?_, hnd, hmem', ?_⟩
  · rw [List.perm_ext_iff_of_nodup hnd
      (by rw [BuildDependencyGraph_nodes]; exact buildNodes_nodup dbState)]
    exact hmem
  · intro x hx
    exact List.count_eq_one_of_mem hnd ((hmem' x).2 hx)

/-- C24 at a concrete input: the catalog of scenario 4, table `b` and table `a` with a
foreign key to `b`, with the in-degree map visited in the order `a, b`. -/
theorem TopologicalSort_permutation_witness :
    (BuildDependencyGraph fkCatalog).1.TopologicalSort ["a", "b"] = some (.ok ["b", "a"]) ∧
    List.Perm ["b", "a"] (mapKeys (BuildDependencyGraph fkCatalog).1.Nodes) ∧
    ["b", "a"].Nodup ∧
    (∀ x, x ∈ ["b", "a"] ↔
      (x ∈ mapKeys fkCatalog.Domains ∨ x ∈ mapKeys fkCatalog.Enums ∨
        x ∈ mapKeys fkCatalog.Tables ∨ x ∈ mapKeys fkCatalog.Views)) ∧
    (∀ x, (x ∈ mapKeys fkCatalog.Domains ∨ x ∈ mapKeys fkCatalog.Enums ∨
        x ∈ mapKeys fkCatalog.Tables ∨ x ∈ mapKeys fkCatalog.Views) →
      List.count x ["b", "a"] = 1) :=
  ⟨rfl, TopologicalSort_permutation fkCatalog ["a", "b"] ["b", "a"] (by decide) rfl⟩

/-! ## The CHECK expression of a domain -/

/-- C31, the code at the failing input: for `CREATE DOMAIN d AS text CHECK (length(VALUE) >
0)` the constraint that `parseCreateDomain` stores is `length(VALUE`, the text up to the
first closing parenthesis, and `GenerateDomainSQL` writes `CHECK (length(VALUE)`; an
expression without parentheses, `VALUE > 0`, is stored whole. -/
theorem parseCreateDomain_cuts_check :
    parseCreateDomain "CREATE DOMAIN d AS text CHECK (length(VALUE) > 0)"
      = .ok { Typ := .CreateDomain,
              Original := "CREATE DOMAIN d AS text CHECK (length(VALUE) > 0)",
              ObjectName := "d",
              Details := .CreateDomainDetails "d" "text" "" "length(VALUE" } ∧
    parseCreateDomain "CREATE DOMAIN d AS text CHECK (VALUE > 0)"
      = .ok { Typ := .CreateDomain, Original := "CREATE DOMAIN d AS text CHECK (VALUE > 0)",
              ObjectName := "d",
              Details := .CreateDomainDetails "d" "text" "" "VALUE > 0" } ∧
    ((applyMigrations (NewApplier NewDatabaseState)
        [(1, "CREATE DOMAIN d AS text CHECK (length(VALUE) > 0);")]).toOption.map
        (fun a => a.state.Domains.map (fun e => GenerateDomainSQL e.2)))
      = some ["DROP DOMAIN IF EXISTS d;\nCREATE DOMAIN d AS text CHECK (length(VALUE);\n"] := by
  refine ⟨rfl, rfl, ?_⟩
  decide

/-! ## Table constraints in lower case -/

/-- C33, the code at the failing input: the parts `primary key (id)`, `foreign key (r)
references u (id)`, `unique (r)` and `check (r > 0)` in lower case are classified as
constraints and then dropped, because the patterns of the four constraint parsers match
upper case only; the same parts in upper case set the primary key and add the foreign key,
the unique constraint and the check. -/
theorem parseTableDefinition_drops_lower_case :
    (parseTableDefinition (NewTable "t") "id int, primary key (id)").PrimaryKey = none ∧
    (parseTableDefinition (NewTable "t") "id int, PRIMARY KEY (id)").PrimaryKey
      = some { Name := "", Columns := ["id"] } ∧
    (parseTableDefinition (NewTable "t") "id int, Primary Key (id)").PrimaryKey = none ∧
    (fun t : Table => (t.ColumnOrder, t.ForeignKeys, t.Uniques, t.Checks))
      (parseTableDefinition (NewTable "t")
        "r int, foreign key (r) references u (id), unique (r), check (r > 0)")
      = (["r"], [], [], []) ∧
    (fun t : Table => (t.ColumnOrder, t.ForeignKeys, t.Uniques, t.Checks))
      (parseTableDefinition (NewTable "t")
        "r int, FOREIGN KEY (r) REFERENCES u (id), UNIQUE (r), CHECK (r > 0)")
      = (["r"], [fkTo "r" "u"], [{ Name := "", Columns := ["r"] }],
          [{ Name := "", Expression := "r > 0" }]) ∧
    (tableIn (applyMigrations (NewApplier NewDatabaseState)
        [(1, "CREATE TABLE t (id int, primary key (id));")]) "t").map GenerateTableSQL
      = some "CREATE TABLE t (\n    id int\n);\n" := by
  refine ⟨by decide, by decide, by decide, by decide, by decide, by decide⟩

/-! ## The constraints of a dropped column -/

/-- C34, the code at the failing input: for every table and column name, `DropColumn`
leaves the primary key and the foreign keys as they are, while no index and no unique
constraint that it keeps names the column.  For the table `t (id int, c int)` with the
primary key `(c)` and a foreign key from `c`, all the constraint columns are live before
`DropColumn(c)`; afterwards `c` is not a column, the primary key is still `(c)`, the
foreign key still starts at `c`, and the text of the table has `PRIMARY KEY (c)` and
`FOREIGN KEY (c)`. -/
theorem DropColumn_keeps_keys :
    (∀ (t : Table) (c : String),
      (t.DropColumn c).PrimaryKey = t.PrimaryKey ∧
      (t.DropColumn c).ForeignKeys = t.ForeignKeys ∧
      (∀ idx ∈ (t.DropColumn c).Indexes, c ∉ idx.Columns) ∧
      (∀ u ∈ (t.DropColumn c).Uniques, c ∉ u.Columns)) ∧
    (∀ x ∈ ["c"] ++ keyedTable.ForeignKeys.flatMap ForeignKey.Columns
        ++ keyedTable.Uniques.flatMap UniqueConstraint.Columns
        ++ keyedTable.Indexes.flatMap Index.Columns, x ∈ mapKeys keyedTable.Columns) ∧
    keyedTable.PrimaryKey = some { Name := "", Columns := ["c"] } ∧
    mapKeys (keyedTable.DropColumn "c").Columns = ["id"] ∧
    (keyedTable.DropColumn "c").PrimaryKey = some { Name := "", Columns := ["c"] } ∧
    (keyedTable.DropColumn "c").ForeignKeys = [fkTo "c" "u"] ∧
    (keyedTable.DropColumn "c").Indexes = [] ∧
    (keyedTable.DropColumn "c").Uniques = [] ∧
    GenerateTableSQL (keyedTable.DropColumn "c")
      = "CREATE TABLE t (\n    id int,\n    PRIMARY KEY (c),\n    FOREIGN KEY (c) REFERENCES u (id)\n);\n" ∧
    (tableIn (applyMigrations (NewApplier NewDatabaseState)
        [(1, "CREATE TABLE t (id int, c int, PRIMARY KEY (c));"),
         (2, "ALTER TABLE t DROP COLUMN c;")]) "t").map GenerateTableSQL
      = some "CREATE TABLE t (\n    id int,\n    PRIMARY KEY (c)\n);\n" := by
  refine ⟨?_, by decide, by decide, by decide, by decide, by decide, by decide, by decide,
    by decide, by decide⟩
  intro t c
  refine ⟨rfl, rfl, ?_, ?_⟩
  · intro idx hidx
    have h := (List.mem_filter.1 hidx).2
    simpa [indexReferencesColumn, any_eq_mem] using h
  · intro u hu
    have h := (List.mem_filter.1 hu).2
    simpa [containsColumn, any_eq_mem] using h

/-! ## ALTER COLUMN TYPE beside another clause -/

/-- C35, the code at the failing input: for `ALTER TABLE t ALTER COLUMN a TYPE text, ALTER
COLUMN b SET NOT NULL` the recognizer returns one AlterColumn operation for `a` whose
`Details` is the whole list of clauses; `applyAlterColumn` finds `SET NOT NULL` in it and
clears the Nullable flag of `a`.  After `CREATE TABLE t (a int, b int)` and that statement
the column `a` is `text NOT NULL` and the column `b` is as it was. -/
theorem applyAlterColumn_reads_other_clause :
    parseAlterOperations "ALTER TABLE t ALTER COLUMN a TYPE text, ALTER COLUMN b SET NOT NULL"
      = [{ Typ := .AlterColumn, ColumnName := "a", DataType := "text",
           Details := "ALTER COLUMN a TYPE text, ALTER COLUMN b SET NOT NULL" }] ∧
    (columnIn (applyMigrations (NewApplier NewDatabaseState)
        [(1, "CREATE TABLE t (a int, b int);")]) "t" "a")
      = some { Name := "a", Typ := "int", Nullable := true, Default := "", Generated := "",
               Comment := "" } ∧
    (columnIn (applyMigrations (NewApplier NewDatabaseState)
        [(1, "CREATE TABLE t (a int, b int);"),
         (2, "ALTER TABLE t ALTER COLUMN a TYPE text, ALTER COLUMN b SET NOT NULL;")]) "t" "a")
      = some { Name := "a", Typ := "text", Nullable := false, Default := "", Generated := "",
               Comment := "" } ∧
    (columnIn (applyMigrations (NewApplier NewDatabaseState)
        [(1, "CREATE TABLE t (a int, b int);"),
         (2, "ALTER TABLE t ALTER COLUMN a TYPE text, ALTER COLUMN b SET NOT NULL;")]) "t" "b")
      = some { Name := "b", Typ := "int", Nullable := true, Default := "", Generated := "",
               Comment := "" } ∧
    (columnIn (applyMigrations (NewApplier NewDatabaseState)
        [(1, "CREATE TABLE t (a int, b int);"),
         (2, "ALTER TABLE t ALTER COLUMN a TYPE text;")]) "t" "a")
      = some { Name := "a", Typ := "text", Nullable := true, Default := "", Generated := "",
               Comment := "" } := by
  refine ⟨rfl, by decide, by decide, by decide, by decide⟩

/-! ## Lemmas: the statements of `Parse` have the details of their type -/

theorem parseDrop_shaped (re : Regexp) (typ : StatementType) (what sql : String)
    (htyp : typ = .DropTable ∨ typ = .DropType ∨ typ = .DropDomain ∨ typ = .DropView ∨
      typ = .DropIndex) (s : Statement)
    (h : (parseDrop re typ what sql).map some = .ok (some s)) : s.wellShaped = true := by
  unfold parseDrop at h
  split at h
  · cases h
  · simp only [Except.map, Except.ok.injEq, Option.some.injEq] at h
    subst h
    rcases htyp with h | h | h | h | h <;> subst h <;> rfl

theorem parseCreateTable_shaped (sql : String) (s : Statement)
    (h : (parseCreateTable sql).map some = .ok (some s)) : s.wellShaped = true := by
  unfold parseCreateTable at h
  split at h
  · cases h
  · simp only [Except.map, Except.ok.injEq, Option.some.injEq] at h
    subst h
    rfl

theorem parseAlterTable_shaped (sql : String) (s : Statement)
    (h : (parseAlterTable sql).map some = .ok (some s)) : s.wellShaped = true := by
  unfold parseAlterTable at h
  split at h
  · cases h
  · simp only [Except.map, Except.ok.injEq, Option.some.injEq] at h
    subst h
    rfl

theorem parseCreateType_shaped (sql : String) (s : Statement)
    (h : (parseCreateType sql).map some = .ok (some s)) : s.wellShaped = true := by
  unfold parseCreateType at h
  split at h
  · cases h
  · simp only [Except.map, Except.ok.injEq, Option.some.injEq] at h
    subst h
    rfl

theorem parseAlterType_shaped (sql : String) (s : Statement)
    (h : (parseAlterType sql).map some = .ok (some s)) : s.wellShaped = true := by
  unfold parseAlterType at h
  split at h
  · cases h
  · simp only [Except.map, Except.ok.injEq, Option.some.injEq] at h
    subst h
    rfl

theorem parseCreateDomain_shaped (sql : String) (s : Statement)
    (h : (parseCreateDomain sql).map some = .ok (some s)) : s.wellShaped = true := by
  unfold parseCreateDomain at h
  split at h
  · cases h
  · simp only [Except.map, Except.ok.injEq, Option.some.injEq] at h
    subst h
    rfl

theorem parseCreateView_shaped (sql : String) (s : Statement)
    (h : (parseCreateView sql).map some = .ok (some s)) : s.wellShaped = true := by
  unfold parseCreateView at h
  split at h
  · cases h
  · simp only [Except.map, Except.ok.injEq, Option.some.injEq] at h
    subst h
    rfl

theorem parseCreateIndex_shaped (sql : String) (s : Statement)
    (h : (parseCreateIndex sql).map some = .ok (some s)) : s.wellShaped = true := by
  unfold parseCreateIndex at h
  split at h
  · cases h
  · simp only [Except.map, Except.ok.injEq, Option.some.injEq] at h
    subst h
    rfl

theorem parseComment_shaped (sql : String) (s : Statement)
    (h : (parseComment sql).map some = .ok (some s)) : s.wellShaped = true := by
  unfold parseComment at h
  split at h
  · cases h
  · simp only [Except.map, Except.ok.injEq, Option.some.injEq] at h
    subst h
    rfl

theorem parseDoBlock_shaped (sql : String) (s : Statement)
    (h : (parseDoBlock sql).map some = .ok (some s)) : s.wellShaped = true := by
  unfold parseDoBlock at h
  simp only [Except.map, Except.ok.injEq, Option.some.injEq] at h
  subst h
  rfl

theorem classify_shaped (sql : String) (s : Statement) (h : classify sql = .ok (some s)) :
    s.wellShaped = true := by
  unfold classify at h
  by_cases h1 : reCREATE_TABLE.MatchString sql = true
  · rw [if_pos h1] at h; exact parseCreateTable_shaped sql s h
  rw [if_neg h1] at h
  by_cases h2 : reALTER_TABLE.MatchString sql = true
  · rw [if_pos h2] at h; exact parseAlterTable_shaped sql s h
  rw [if_neg h2] at h
  by_cases h3 : reDROP_TABLE.MatchString sql = true
  · rw [if_pos h3] at h
    exact parseDrop_shaped _ _ _ sql (Or.inl rfl) s h
  rw [if_neg h3] at h
  by_cases h4 : reCREATE_TYPE.MatchString sql = true
  · rw [if_pos h4] at h; exact parseCreateType_shaped sql s h
  rw [if_neg h4] at h
  by_cases h5 : reALTER_TYPE.MatchString sql = true
  · rw [if_pos h5] at h; exact parseAlterType_shaped sql s h
  rw [if_neg h5] at h
  by_cases h6 : reDROP_TYPE.MatchString sql = true
  · rw [if_pos h6] at h
    exact parseDrop_shaped _ _ _ sql (Or.inr (Or.inl rfl)) s h
  rw [if_neg h6] at h
  by_cases h7 : reCREATE_DOMAIN.MatchString sql = true
  · rw [if_pos h7] at h; exact parseCreateDomain_shaped sql s h
  rw [if_neg h7] at h
  by_cases h8 : reDROP_DOMAIN.MatchString sql = true
  · rw [if_pos h8] at h
    exact parseDrop_shaped _ _ _ sql (Or.inr (Or.inr (Or.inl rfl))) s h
  rw [if_neg h8] at h
  by_cases h9 : reCREATE_VIEW.MatchString sql = true
  · rw [if_pos h9] at h; exact parseCreateView_shaped sql s h
  rw [if_neg h9] at h
  by_cases h10 : reDROP_VIEW.MatchString sql = true
  · rw [if_pos h10] at h
    exact parseDrop_shaped _ _ _ sql (Or.inr (Or.inr (Or.inr (Or.inl rfl)))) s h
  rw [if_neg h10] at h
  by_cases h11 : reCREATE_INDEX.MatchString sql = true
  · rw [if_pos h11] at h; exact parseCreateIndex_shaped sql s h
  rw [if_neg h11] at h
  by_cases h12 : reDROP_INDEX.MatchString sql = true
  · rw [if_pos h12] at h
    exact parseDrop_shaped _ _ _ sql (Or.inr (Or.inr (Or.inr (Or.inr rfl)))) s h
  rw [if_neg h12] at h
  by_cases h13 : reCOMMENT_ON.MatchString sql = true
  · rw [if_pos h13] at h; exact parseComment_shaped sql s h
  rw [if_neg h13] at h
  by_cases h14 : reDO_BLOCK.MatchString sql = true
  · rw [if_pos h14] at h; exact parseDoBlock_shaped sql s h
  rw [if_neg h14] at h
  cases h

theorem parseStatement_shaped (sql : String) (s : Statement)
    (h : parseStatement sql = .ok (some s)) : s.wellShaped = true := by
  unfold parseStatement at h
  split at h
  · cases h
  · exact classify_shaped _ s h

theorem parseAll_shaped (raw : List String) (acc stmts : List Statement)
    (hacc : ∀ s ∈ acc, s.wellShaped = true) (h : parseAll raw acc = .ok stmts) :
    ∀ s ∈ stmts, s.wellShaped = true := by
  induction raw generalizing acc with
  | nil =>
    simp only [parseAll, Except.ok.injEq] at h
    subst h
    exact hacc
  | cons r rest ih =>
    rw [parseAll] at h
    cases hr : parseStatement r with
    | error e => rw [hr] at h; cases h
    | ok x =>
      rw [hr] at h
      cases x with
      | none => exact ih acc hacc h
      | some stmt =>
        refine ih _ ?_ h
        intro s hs
        rcases List.mem_append.1 hs with hs | hs
        · exact hacc s hs
        · have : s = stmt := by simpa using hs
          rw [this]
          exact parseStatement_shaped r stmt hr

theorem Apply_ok_of_wellShaped (a : Applier) (s : Statement) (h : s.wellShaped = true) :
    ∃ a', a.Apply s = .ok a' := by
  obtain ⟨typ, orig, name, details⟩ := s
  unfold Applier.Apply
  cases typ <;> cases details <;>
    first
    | exact ⟨_, rfl⟩
    | (exfalso; exact Bool.false_ne_true h)
    | (simp only [Applier.applyAlterType]; split <;> exact ⟨_, rfl⟩)
    | (simp only [Applier.applyCreateIndex]; split <;> exact ⟨_, rfl⟩)
    | (simp only [Applier.applyDoBlock]; split <;> exact ⟨_, rfl⟩)
    | (simp only [Applier.applyComment]; repeat' split) <;> exact ⟨_, rfl⟩

/-- C36.  For every SQL text, `Parse` returns a list of statements, each with the details
struct that its type requires, and for every applier (every catalog and migration number)
`Apply` returns no error for any of them. -/
theorem Apply_accepts_parsed (sql : String) :
    ∃ stmts, Parse sql = .ok stmts ∧
      ∀ s ∈ stmts, s.wellShaped = true ∧ ∀ a : Applier, ∃ a', a.Apply s = .ok a' := by
  obtain ⟨stmts, hs⟩ := parseAll_ok (SplitStatements (StripComments sql)) []
  refine ⟨stmts, hs, fun s hmem => ?_⟩
  have hshape := parseAll_shaped _ [] stmts (fun s hs => by cases hs) hs s hmem
  exact ⟨hshape, fun a => Apply_ok_of_wellShaped a s hshape⟩

/-! ## Lemmas: `sortByPriority` with names that are not nodes in the list -/

theorem shouldSwap_nodes (g : DependencyGraph) (a b : String) (h : shouldSwap g a b = true) :
    ∃ na nb, mapGet g.Nodes a = some na ∧ mapGet g.Nodes b = some nb ∧
      (getPriority nb < getPriority na ∨
        (getPriority na = getPriority nb ∧ nb.CreatedIn < na.CreatedIn)) := by
  unfold shouldSwap at h
  cases ha : mapGet g.Nodes a with
  | none => rw [ha] at h; simp at h
  | some na =>
    cases hb : mapGet g.Nodes b with
    | none => rw [ha, hb] at h; simp at h
    | some nb =>
      rw [ha, hb] at h
      simp only at h
      refine ⟨na, nb, rfl, rfl, ?_⟩
      by_cases h1 : getPriority na > getPriority nb
      · exact Or.inl h1
      · rw [if_neg h1] at h
        by_cases h2 : getPriority na = getPriority nb
        · rw [if_pos h2] at h
          exact Or.inr ⟨h2, by simpa using h⟩
        · rw [if_neg h2] at h
          cases h

theorem shouldSwap_of_nodes (g : DependencyGraph) (a b : String) (na nb : DependencyNode)
    (ha : mapGet g.Nodes a = some na) (hb : mapGet g.Nodes b = some nb) :
    shouldSwap g a b = true ↔
      (getPriority nb < getPriority na ∨
        (getPriority na = getPriority nb ∧ nb.CreatedIn < na.CreatedIn)) := by
  constructor
  · intro h
    obtain ⟨na', nb', ha', hb', hk⟩ := shouldSwap_nodes g a b h
    rw [ha] at ha'
    rw [hb] at hb'
    injection ha' with ha'
    injection hb' with hb'
    subst ha'
    subst hb'
    exact hk
  · intro h
    unfold shouldSwap
    rw [ha, hb]
    simp only
    by_cases h1 : getPriority na > getPriority nb
    · rw [if_pos h1]
    · rw [if_neg h1]
      rcases h with h | h
      · exact absurd h h1
      · rw [if_pos h.1]
        simpa using h.2

theorem shouldSwap_false_trans (g : DependencyGraph) (a b c : String)
    (hb : (mapGet g.Nodes b).isSome = true)
    (hab : ¬ shouldSwap g a b = true) (hbc : ¬ shouldSwap g b c = true) :
    ¬ shouldSwap g a c = true := by
  intro hac
  obtain ⟨na, nc, hna, hnc, hk⟩ := shouldSwap_nodes g a c hac
  cases hnb : mapGet g.Nodes b with
  | none => rw [hnb] at hb; cases hb
  | some nb =>
    rw [shouldSwap_of_nodes g a b na nb hna hnb] at hab
    rw [shouldSwap_of_nodes g b c nb nc hnb hnc] at hbc
    omega

theorem shouldSwap_asymm (g : DependencyGraph) (a b : String) (h : shouldSwap g a b = true) :
    ¬ shouldSwap g b a = true := by
  intro hba
  obtain ⟨na, nb, hna, hnb, hk⟩ := shouldSwap_nodes g a b h
  rw [shouldSwap_of_nodes g b a nb na hnb hna] at hba
  omega

theorem sortInner_first (g : DependencyGraph) (x : String) (ys : List String)
    (hx : (mapGet g.Nodes x).isSome = true) :
    (mapGet g.Nodes (sortInner g x ys).1).isSome = true ∧
      ∀ z ∈ x :: ys, ¬ shouldSwap g (sortInner g x ys).1 z = true := by
  induction ys generalizing x with
  | nil =>
    refine ⟨hx, ?_⟩
    intro z hz
    have : z = x := by simpa using hz
    subst this
    exact fun h => shouldSwap_asymm g z z h h
  | cons y ys ih =>
    by_cases h : shouldSwap g x y = true
    · simp only [sortInner, h, if_true]
      obtain ⟨nx, ny, _, hny, _⟩ := shouldSwap_nodes g x y h
      have hy : (mapGet g.Nodes y).isSome = true := by rw [hny]; rfl
      obtain ⟨i1, i2⟩ := ih y hy
      refine ⟨i1, ?_⟩
      intro z hz
      rcases List.mem_cons.1 hz with hz | hz
      · subst hz
        exact shouldSwap_false_trans g _ y z hy (i2 y (List.mem_cons_self _ _))
          (shouldSwap_asymm g z y h)
      · exact i2 z hz
    · simp only [sortInner, h, if_false]
      obtain ⟨i1, i2⟩ := ih x hx
      refine ⟨i1, ?_⟩
      intro z hz
      rcases List.mem_cons.1 hz with hz | hz
      · subst hz
        exact i2 z (List.mem_cons_self _ _)
      · rcases List.mem_cons.1 hz with hz | hz
        · subst hz
          exact shouldSwap_false_trans g _ x z hx (i2 x (List.mem_cons_self _ _)) h
        · exact i2 z (List.mem_cons_of_mem _ hz)

theorem sortInner_stray (g : DependencyGraph) (x : String) (ys : List String)
    (hx : mapGet g.Nodes x = none) : sortInner g x ys = (x, ys) := by
  induction ys with
  | nil => rfl
  | cons y ys ih =>
    have h : ¬ shouldSwap g x y = true := by
      intro hc
      obtain ⟨nx, _, hnx, _, _⟩ := shouldSwap_nodes g x y hc
      rw [hx] at hnx
      cases hnx
    have h' : shouldSwap g x y = false := by simpa using h
    simp only [sortInner, h', Bool.false_eq_true, if_false, ih]

theorem sortInner_least (g : DependencyGraph) (x : String) (ys : List String) :
    ∀ z ∈ x :: ys, ¬ shouldSwap g (sortInner g x ys).1 z = true := by
  cases hx : mapGet g.Nodes x with
  | some nx => exact (sortInner_first g x ys (by rw [hx]; rfl)).2
  | none =>
    rw [sortInner_stray g x ys hx]
    intro z _ hc
    obtain ⟨nx, _, hnx, _, _⟩ := shouldSwap_nodes g x z hc
    rw [hx] at hnx
    cases hnx

theorem sortOuter_ordered (g : DependencyGraph) (n : Nat) (nodes : List String)
    (hlen : nodes.length ≤ n) :
    (sortOuter g n nodes).Pairwise (fun a b => ¬ shouldSwap g a b = true) := by
  induction n generalizing nodes with
  | zero =>
    have : nodes = [] := List.length_eq_zero.1 (Nat.le_zero.1 hlen)
    subst this
    simp [sortOuter]
  | succ n ih =>
    cases nodes with
    | nil => simp [sortOuter]
    | cons x xs =>
      simp only [sortOuter]
      have hperm := sortInner_perm g x xs
      have hmin := sortInner_least g x xs
      have hrest : ∀ z ∈ (sortInner g x xs).2, z ∈ x :: xs :=
        fun z hz => hperm.mem_iff.1 (List.mem_cons_of_mem _ hz)
      have hl : (sortInner g x xs).2.length ≤ n := by
        have := hperm.length_eq
        simp only [List.length_cons] at this hlen
        omega
      rw [List.pairwise_cons]
      refine ⟨?_, ih _ hl⟩
      intro z hz
      exact hmin z (hrest z ((sortOuter_perm g n _).mem_iff.1 hz))

/-- After `sortByPriority` no name stands before a name that it should be swapped with,
whatever the list holds. -/
theorem sortByPriority_ordered (g : DependencyGraph) (nodes : List String) :
    (sortByPriority g nodes).Pairwise (fun a b => ¬ shouldSwap g a b = true) :=
  sortOuter_ordered g _ nodes (le_refl _)

/-! ## Lemmas: two queued names leave the queue in the order of `sortByPriority` -/

theorem relaxNeighbors_ordered (g : DependencyGraph) (l : List String) (d : List (String × Int))
    (q : List String) (hs : q.Pairwise (fun a b => ¬ shouldSwap g a b = true)) :
    (∀ x ∈ q, x ∈ (relaxNeighbors g l d q).2) ∧
      (relaxNeighbors g l d q).2.Pairwise (fun a b => ¬ shouldSwap g a b = true) := by
  induction l generalizing d q with
  | nil => exact ⟨fun x hx => hx, hs⟩
  | cons nb rest ih =>
    simp only [relaxNeighbors]
    split
    · obtain ⟨i1, i2⟩ := ih (mapSet d nb (mapGetD d nb 0 - 1)) _
        (sortByPriority_ordered g (q ++ [nb]))
      refine ⟨?_, i2⟩
      intro x hx
      exact i1 x ((sortByPriority_perm g _).mem_iff.2 (List.mem_append_left _ hx))
    · exact ih (mapSet d nb (mapGetD d nb 0 - 1)) q hs

theorem indexOf_append_of_mem (l : List String) (a b : String) (h : a ∈ l) :
    (l ++ [b]).indexOf a = l.indexOf a := by
  induction l with
  | nil => cases h
  | cons x rest ih =>
    by_cases hx : x = a
    · subst hx
      simp [List.indexOf_cons_self]
    · have ha : a ∈ rest := by
        rcases List.mem_cons.1 h with h | h
        · exact absurd h.symm hx
        · exact h
      rw [List.cons_append, List.indexOf_cons_ne _ hx, List.indexOf_cons_ne _ hx, ih ha]

theorem indexOf_append_of_not_mem (l : List String) (b : String) (h : b ∉ l) :
    (l ++ [b]).indexOf b = l.length := by
  induction l with
  | nil => simp [List.indexOf_cons_self]
  | cons x rest ih =>
    have hx : x ≠ b := fun e => h (e ▸ List.mem_cons_self _ _)
    have hr : b ∉ rest := fun e => h (List.mem_cons_of_mem _ e)
    rw [List.cons_append, List.indexOf_cons_ne _ hx, ih hr, List.length_cons]

theorem sortLoop_keeps_order (g : DependencyGraph) (x y : String)
    (hxy : shouldSwap g y x = true)
    (fuel : Nat) (d : List (String × Int)) (q res result : List String)
    (hq : q.Pairwise (fun a b => ¬ shouldSwap g a b = true))
    (hx : x ∈ res ∨ x ∈ q) (hy : y ∈ res ∨ y ∈ q)
    (hord : y ∈ res → x ∈ res ∧ res.indexOf x < res.indexOf y)
    (h : sortLoop g fuel d q res = some result) :
    x ∈ result ∧ y ∈ result ∧ result.indexOf x < result.indexOf y := by
  induction fuel generalizing d q res with
  | zero => simp [sortLoop] at h
  | succ fuel ih =>
    cases q with
    | nil =>
      simp only [sortLoop, Option.some.injEq] at h
      subst h
      have hy' : y ∈ res := by
        rcases hy with hy | hy
        · exact hy
        · cases hy
      exact ⟨(hord hy').1, hy', (hord hy').2⟩
    | cons node q =>
      simp only [sortLoop] at h
      have hqs := List.pairwise_cons.1 hq
      obtain ⟨i1, i2⟩ := relaxNeighbors_ordered g (mapGetD g.Edges node []) d q hqs.2
      have hne : x ≠ y := by
        intro e
        subst e
        exact shouldSwap_asymm g x x hxy hxy
      refine ih _ _ _ i2 ?_ ?_ ?_ h
      · rcases hx with hx | hx
        · exact Or.inl (List.mem_append_left _ hx)
        · rcases List.mem_cons.1 hx with hx | hx
          · exact Or.inl (by rw [hx]; simp)
          · exact Or.inr (i1 x hx)
      · rcases hy with hy | hy
        · exact Or.inl (List.mem_append_left _ hy)
        · rcases List.mem_cons.1 hy with hy | hy
          · exact Or.inl (by rw [hy]; simp)
          · exact Or.inr (i1 y hy)
      · intro hyr
        by_cases hyres : y ∈ res
        · obtain ⟨hxr, hlt⟩ := hord hyres
          refine ⟨List.mem_append_left _ hxr, ?_⟩
          rw [indexOf_append_of_mem _ _ _ hxr, indexOf_append_of_mem _ _ _ hyres]
          exact hlt
        · have hnode : y = node := by
            rcases List.mem_append.1 hyr with h1 | h1
            · exact absurd h1 hyres
            · simpa using h1
          subst hnode
          have hxr : x ∈ res := by
            rcases hx with hx | hx
            · exact hx
            · rcases List.mem_cons.1 hx with hx | hx
              · exact absurd hx hne
              · exact absurd hxy (hqs.1 x hx)
          refine ⟨List.mem_append_left _ hxr, ?_⟩
          rw [indexOf_append_of_mem _ _ _ hxr, indexOf_append_of_not_mem _ _ hyres]
          exact List.indexOf_lt_length.2 hxr

theorem mapGet_inDegreeInit_zero (g : DependencyGraph) (x : String)
    (hx : x ∈ mapKeys g.Nodes) (hd : ∀ e ∈ g.Edges, x ∉ e.2) :
    mapGet (inDegreeInit g) x = some 0 := by
  have hkey : x ∈ mapKeys (inDegreeInit g) := (mem_keys_inDegreeInit g x).2 (Or.inl hx)
  have hp : pending g.Edges [] x = 0 := by
    by_contra hc
    have hall : ∀ (E : List (String × List String)), (∀ e ∈ E, x ∉ e.2) → pending E [] x = 0 := by
      intro E
      induction E with
      | nil => intro _; rfl
      | cons e rest ih =>
        intro hE
        simp only [pending, List.not_mem_nil, if_false]
        rw [ih (fun e' he' => hE e' (List.mem_cons_of_mem _ he'))]
        simp [List.count_eq_zero_of_not_mem (hE e (List.mem_cons_self _ _))]
    exact hc (hall _ hd)
  have hget := inDegreeInit_get g x
  rw [hp] at hget
  cases hm : mapGet (inDegreeInit g) x with
  | none => exact absurd hkey ((mapGet_eq_none_iff _ _).1 hm)
  | some v =>
    have : v = 0 := by simpa [mapGetD, hm] using hget
    rw [this]

/-- C32.  For every dependency graph, every order in which the in-degree map is visited
and every successful result of `TopologicalSort`: when `x` and `y` are nodes that no edge
lists as a dependent, and the pair (priority, `CreatedIn`) of `x` is smaller than the pair
of `y` in the lexicographic order, both are in the result and `x` stands before `y`. -/
theorem TopologicalSort_creation_order (g : DependencyGraph) (order result : List String)
    (x y : String) (nx ny : DependencyNode)
    (horder : List.Perm order (mapKeys (inDegreeInit g)))
    (hx : mapGet g.Nodes x = some nx) (hy : mapGet g.Nodes y = some ny)
    (hdx : ∀ e ∈ g.Edges, x ∉ e.2) (hdy : ∀ e ∈ g.Edges, y ∉ e.2)
    (hlt : getPriority nx < getPriority ny ∨
      (getPriority nx = getPriority ny ∧ nx.CreatedIn < ny.CreatedIn))
    (hres : g.TopologicalSort order = some (.ok result)) :
    x ∈ result ∧ y ∈ result ∧ result.indexOf x < result.indexOf y := by
  unfold DependencyGraph.TopologicalSort at hres
  cases hs : sortLoop g (order.length + (inDegreeInit g).length + 1) (inDegreeInit g)
      (sortByPriority g (initialQueue (inDegreeInit g) order)) [] with
  | none => rw [hs] at hres; cases hres
  | some r =>
    rw [hs] at hres
    simp only at hres
    by_cases hlen : r.length ≠ g.Nodes.length
    · rw [if_pos hlen] at hres
      cases hres
    · rw [if_neg hlen] at hres
      have hr : r = result := by
        injection hres with h1
        injection h1
      subst hr
      have hkx : x ∈ mapKeys g.Nodes := by
        by_contra hc
        rw [(mapGet_eq_none_iff _ _).2 hc] at hx
        cases hx
      have hky : y ∈ mapKeys g.Nodes := by
        by_contra hc
        rw [(mapGet_eq_none_iff _ _).2 hc] at hy
        cases hy
      have hqx : x ∈ sortByPriority g (initialQueue (inDegreeInit g) order) := by
        rw [(sortByPriority_perm g _).mem_iff]
        refine List.mem_filter.2 ⟨horder.mem_iff.2 ((mem_keys_inDegreeInit g x).2 (Or.inl hkx)), ?_⟩
        simp [mapGet_inDegreeInit_zero g x hkx hdx]
      have hqy : y ∈ sortByPriority g (initialQueue (inDegreeInit g) order) := by
        rw [(sortByPriority_perm g _).mem_iff]
        refine List.mem_filter.2 ⟨horder.mem_iff.2 ((mem_keys_inDegreeInit g y).2 (Or.inl hky)), ?_⟩
        simp [mapGet_inDegreeInit_zero g y hky hdy]
      exact sortLoop_keeps_order g x y ((shouldSwap_of_nodes g y x ny nx hy hx).2
          (hlt.imp id (fun h => ⟨h.1.symm, h.2⟩))) _ _ _ _ _
        (sortByPriority_ordered g _) (Or.inr hqx) (Or.inr hqy) (fun h => by cases h) hs

/-- C32 at a concrete input: in `tieGraph` the tables `a` (migration 2) and `b` (migration
1) have no dependencies; `b` comes out before `a`, after the enum `e`. -/
theorem TopologicalSort_creation_order_witness :
    tieGraph.TopologicalSort ["a", "b", "e"] = some (.ok ["e", "b", "a"]) ∧
    "b" ∈ ["e", "b", "a"] ∧ "a" ∈ ["e", "b", "a"] ∧
    List.indexOf "b" ["e", "b", "a"] < List.indexOf "a" ["e", "b", "a"] :=
  ⟨rfl, TopologicalSort_creation_order tieGraph ["a", "b", "e"] ["e", "b", "a"] "b" "a"
    { Typ := .ObjectTable, Name := "b", CreatedIn := 1 }
    { Typ := .ObjectTable, Name := "a", CreatedIn := 2 }
    (by decide) rfl rfl (by decide) (by decide) (by decide) rfl⟩

/-! ## Lemmas: the loop of `splitTopLevel` -/

theorem splitTopLevelLoop_parts (d : Char) (text current : List Char) (depth : Int)
    (parts : List String) :
    splitTopLevelLoop d text current depth parts
      = parts ++ splitTopLevelLoop d text current depth [] := by
  induction text generalizing current depth parts with
  | nil =>
    simp only [splitTopLevelLoop]
    split <;> simp
  | cons ch rest ih =>
    simp only [splitTopLevelLoop]
    split
    · exact ih _ _ _
    · split
      · exact ih _ _ _
      · split
        · rw [ih _ _ (parts ++ [String.mk current]), ih _ _ ([] ++ [String.mk current])]
          simp
        · exact ih _ _ _

theorem Join_cons_cons (x y : String) (rest : List String) (sep : String) :
    Join (x :: y :: rest) sep = x ++ sep ++ Join (y :: rest) sep := rfl

theorem Join_append (pre post : List String) (sep : String) (h1 : pre ≠ []) (h2 : post ≠ []) :
    Join (pre ++ post) sep = Join pre sep ++ sep ++ Join post sep := by
  induction pre with
  | nil => exact absurd rfl h1
  | cons x rest ih =>
    cases rest with
    | nil =>
      cases post with
      | nil => exact absurd rfl h2
      | cons y post' => rfl
    | cons z rest' =>
      rw [List.cons_append, List.cons_append, Join_cons_cons, ← List.cons_append,
        ih (by simp), Join_cons_cons]
      simp only [String.append_assoc]

/-- The parts joined with the delimiter give back the text, when the text does not end
with the delimiter. -/
theorem splitTopLevelLoop_join (d : Char) (text current : List Char) (depth : Int)
    (hne : current ≠ [] ∨ text ≠ []) (hlast : text ≠ [] → text.getLast? ≠ some d) :
    (Join (splitTopLevelLoop d text current depth []) (String.singleton d)).data
      = current ++ text := by
  induction text generalizing current depth with
  | nil =>
    have hc : current ≠ [] := by
      rcases hne with h | h
      · exact h
      · exact absurd rfl h
    have hl : current.length > 0 := List.length_pos.2 hc
    simp [splitTopLevelLoop, hl, Join]
  | cons ch rest ih =>
    have hrest : rest ≠ [] → rest.getLast? ≠ some d := by
      intro hr
      have := hlast (by simp)
      obtain ⟨y, ys, hy⟩ := List.exists_cons_of_ne_nil hr
      rw [hy] at this ⊢
      simpa [List.getLast?_cons_cons] using this
    simp only [splitTopLevelLoop]
    split
    · rw [ih _ _ (Or.inl (by simp)) hrest]
      simp
    · split
      · rw [ih _ _ (Or.inl (by simp)) hrest]
        simp
      · split
        · rename_i hsplit
          have hd : ch = d := by
            simp only [Bool.and_eq_true, decide_eq_true_eq] at hsplit
            exact hsplit.1
          have hr : rest ≠ [] := by
            intro hr
            subst hr
            have := hlast (by simp)
            simp [hd] at this
          have key := ih [] depth (Or.inr hr) hrest
          have hnonempty : splitTopLevelLoop d rest [] depth [] ≠ [] := by
            intro hc
            rw [hc] at key
            have key' : ("" : String).data = rest := key
            exact hr key'.symm
          rw [splitTopLevelLoop_parts]
          obtain ⟨y, ys, hy⟩ := List.exists_cons_of_ne_nil hnonempty
          rw [hy] at key ⊢
          simp only [List.nil_append, List.singleton_append, Join_cons_cons, String.data_append,
            key]
          simp [String.singleton, hd]
        · rw [ih _ _ (Or.inl (by simp)) hrest]
          simp

theorem parenDepth_append (a b : List Char) : parenDepth (a ++ b) = parenDepth a + parenDepth b := by
  unfold parenDepth
  simp only [List.count_append, Nat.cast_add]
  omega

/-- Every cut of the loop is at depth zero: the text before a cut has as many closing as
opening parentheses, counted from the depth the loop starts with. -/
theorem splitTopLevelLoop_depth (d : Char) (text current : List Char) (depth : Int)
    (pre post : List String)
    (h : splitTopLevelLoop d text current depth [] = pre ++ post)
    (hpre : pre ≠ []) (hpost : post ≠ []) :
    d ≠ '(' ∧ d ≠ ')' ∧
      parenDepth (Join pre (String.singleton d)).data = parenDepth current - depth := by
  induction text generalizing current depth pre with
  | nil =>
    exfalso
    simp only [splitTopLevelLoop] at h
    have hlen : (pre ++ post).length ≥ 2 := by
      have h1 := List.length_pos.2 hpre
      have h2 := List.length_pos.2 hpost
      rw [List.length_append]
      omega
    rw [← h] at hlen
    split at hlen <;> simp at hlen
  | cons ch rest ih =>
    simp only [splitTopLevelLoop] at h
    split at h
    · rename_i hch
      obtain ⟨i1, i2, i3⟩ := ih _ _ pre h hpre
      refine ⟨i1, i2, ?_⟩
      rw [i3, parenDepth_append, hch]
      simp [parenDepth]
    · split at h
      · rename_i hch1 hch
        obtain ⟨i1, i2, i3⟩ := ih _ _ pre h hpre
        refine ⟨i1, i2, ?_⟩
        rw [i3, parenDepth_append, hch]
        simp [parenDepth]
        omega
      · split at h
        · rename_i hch1 hch2 hsplit
          simp only [Bool.and_eq_true, decide_eq_true_eq] at hsplit
          obtain ⟨hd, hdepth⟩ := hsplit
          have hd1 : d ≠ '(' := fun e => hch1 (hd.trans e)
          have hd2 : d ≠ ')' := fun e => hch2 (hd.trans e)
          refine ⟨hd1, hd2, ?_⟩
          rw [splitTopLevelLoop_parts] at h
          simp only [List.nil_append, List.singleton_append] at h
          cases pre with
          | nil => exact absurd rfl hpre
          | cons p pre' =>
            rw [List.cons_append] at h
            injection h with h1 h2
            subst h1
            cases pre' with
            | nil =>
              simp [Join, hdepth]
            | cons p2 pre'' =>
              obtain ⟨_, _, i3⟩ := ih [] depth (p2 :: pre'') h2 (by simp)
              rw [Join_cons_cons]
              simp only [String.data_append, parenDepth_append, i3]
              have hsep : parenDepth (String.singleton d).data = 0 := by
                simp [String.singleton, parenDepth, List.count_cons, hd1.symm, hd2.symm]
              rw [hsep]
              simp [parenDepth, hdepth]
        · rename_i hch1 hch2 hsplit
          obtain ⟨i1, i2, i3⟩ := ih _ _ pre h hpre
          refine ⟨i1, i2, ?_⟩
          rw [i3, parenDepth_append]
          simp [parenDepth, List.count_cons, hch1, hch2]

/-- C40.  For every string `s` and delimiter `d` such that `s` does not end with `d`: the
parts of `splitTopLevel(s, d)` joined with `d` are `s`; and wherever the list of parts is
cut in two, `d` is not a parenthesis, the parts before the cut joined with `d` have as many
closing as opening parentheses, and `s` is these parts, the delimiter, and the parts after
the cut. -/
theorem splitTopLevel_loses_nothing (s : String) (d : Char) (h : s.data.getLast? ≠ some d) :
    Join (splitTopLevel s d) (String.singleton d) = s ∧
    ∀ pre post, splitTopLevel s d = pre ++ post → pre ≠ [] → post ≠ [] →
      d ≠ '(' ∧ d ≠ ')' ∧
      parenDepth (Join pre (String.singleton d)).data = 0 ∧
      s = Join pre (String.singleton d) ++ String.singleton d ++ Join post (String.singleton d) := by
  have hjoin : Join (splitTopLevel s d) (String.singleton d) = s := by
    unfold splitTopLevel
    by_cases hs : s.data = []
    · apply String.ext
      rw [hs]
      simp [splitTopLevelLoop, Join]
    · apply String.ext
      rw [splitTopLevelLoop_join d s.data [] 0 (Or.inr hs) (fun _ => h)]
      simp
  refine ⟨hjoin, ?_⟩
  intro pre post hsplit hpre hpost
  obtain ⟨h1, h2, h3⟩ := splitTopLevelLoop_depth d s.data [] 0 pre post hsplit hpre hpost
  refine ⟨h1, h2, by simpa [parenDepth] using h3, ?_⟩
  rw [← Join_append pre post _ hpre hpost, ← hsplit, hjoin]

/-- C40 at a concrete input: `a int, b numeric(10, 2), c text` is cut at the two commas
outside the parentheses. -/
theorem splitTopLevel_loses_nothing_witness :
    splitTopLevel "a int, b numeric(10, 2), c text" ','
      = ["a int", " b numeric(10, 2)", " c text"] ∧
    Join (splitTopLevel "a int, b numeric(10, 2), c text" ',') (String.singleton ',')
      = "a int, b numeric(10, 2), c text" ∧
    parenDepth (Join ["a int", " b numeric(10, 2)"] (String.singleton ',')).data = 0 :=
  ⟨by decide,
    (splitTopLevel_loses_nothing "a int, b numeric(10, 2), c text" ',' (by decide)).1,
    ((splitTopLevel_loses_nothing "a int, b numeric(10, 2), c text" ',' (by decide)).2
      ["a int", " b numeric(10, 2)"] [" c text"] (by decide) (by decide) (by decide)).2.2.1⟩

/-! ## Lemmas: the lines of `StripComments` -/

theorem cutAtDashes_mem : ∀ (l : List Char) (x : Char), x ∈ cutAtDashes l → x ∈ l
  | [], _, h => h
  | [_], _, h => h
  | c :: d :: rest, x, h => by
    unfold cutAtDashes at h
    split at h
    · cases h
    · rcases List.mem_cons.1 h with h | h
      · exact h ▸ List.mem_cons_self _ _
      · exact List.mem_cons_of_mem _ (cutAtDashes_mem (d :: rest) x h)

theorem containsDashes_cons_cons (c d : Char) (rest : List Char) :
    containsChars ['-', '-'] (c :: d :: rest)
      = ((decide (c = '-') && decide (d = '-')) || containsChars ['-', '-'] (d :: rest)) := by
  simp only [containsChars, startsWithChars]
  cases rest <;> simp [startsWithChars, eq_comm]

theorem cutAtDashes_head : ∀ (l : List Char) (c : Char), (cutAtDashes l).head? = some c →
    l.head? = some c
  | [], _, h => h
  | [_], _, h => h
  | a :: d :: rest, c, h => by
    unfold cutAtDashes at h
    split at h
    · cases h
    · exact h

theorem cutAtDashes_clean : ∀ (l : List Char), containsChars ['-', '-'] (cutAtDashes l) = false
  | [] => by simp [cutAtDashes, containsChars]
  | [c] => by simp [cutAtDashes, containsChars, startsWithChars]
  | c :: d :: rest => by
    unfold cutAtDashes
    split
    · simp [containsChars]
    · rename_i hcd
      have ih := cutAtDashes_clean (d :: rest)
      cases hcut : cutAtDashes (d :: rest) with
      | nil => simp [containsChars, startsWithChars]
      | cons e rest' =>
        rw [hcut] at ih
        rw [containsDashes_cons_cons, ih, Bool.or_false]
        have he : e = d := by
          have := cutAtDashes_head (d :: rest) e (by rw [hcut]; rfl)
          simpa using this.symm
        subst he
        simpa using hcd

theorem cutAtDashes_of_clean : ∀ (l : List Char), containsChars ['-', '-'] l = false →
    cutAtDashes l = l
  | [], _ => rfl
  | [_], _ => rfl
  | c :: d :: rest, h => by
    rw [containsDashes_cons_cons, Bool.or_eq_false_iff] at h
    unfold cutAtDashes
    rw [if_neg (by simpa using h.1), cutAtDashes_of_clean (d :: rest) h.2]

theorem splitChars_line (sep : Char) (c rest cur : List Char) (h : sep ∉ c) :
    splitChars sep (c ++ sep :: rest) cur = (cur.reverse ++ c) :: splitChars sep rest [] := by
  induction c generalizing cur with
  | nil => simp [splitChars]
  | cons x xs ih =>
    have hx : x ≠ sep := fun e => h (e ▸ List.mem_cons_self _ _)
    have hxs : sep ∉ xs := fun e => h (List.mem_cons_of_mem _ e)
    rw [List.cons_append, splitChars, if_neg hx, ih _ hxs]
    simp

theorem splitChars_lines (sep : Char) (lines : List (List Char)) (h : ∀ l ∈ lines, sep ∉ l) :
    splitChars sep (lines.flatMap (fun l => l ++ [sep])) [] = lines ++ [[]] := by
  induction lines with
  | nil => simp [splitChars]
  | cons l rest ih =>
    rw [List.flatMap_cons, List.append_assoc, List.singleton_append,
      splitChars_line sep l _ [] (h l (List.mem_cons_self _ _)),
      ih (fun l' hl' => h l' (List.mem_cons_of_mem _ hl'))]
    simp

theorem splitChars_no_sep (sep : Char) (text cur : List Char) (hcur : sep ∉ cur) :
    ∀ piece ∈ splitChars sep text cur, sep ∉ piece := by
  induction text generalizing cur with
  | nil =>
    intro piece hp
    simp only [splitChars, List.mem_singleton] at hp
    rw [hp]
    simpa using hcur
  | cons c rest ih =>
    intro piece hp
    unfold splitChars at hp
    split at hp
    · rcases List.mem_cons.1 hp with hp | hp
      · rw [hp]
        simpa using hcur
      · exact ih [] (by simp) piece hp
    · rename_i hc
      refine ih (c :: cur) ?_ piece hp
      intro hmem
      rcases List.mem_cons.1 hmem with hmem | hmem
      · exact hc hmem.symm
      · exact hcur hmem

theorem containsDashes_lines (lines : List (List Char))
    (h : ∀ l ∈ lines, containsChars ['-', '-'] l = false) :
    containsChars ['-', '-'] (lines.flatMap (fun l => l ++ ['\n'])) = false := by
  have key : ∀ (l rest : List Char), containsChars ['-', '-'] l = false →
      containsChars ['-', '-'] rest = false →
      containsChars ['-', '-'] (l ++ '\n' :: rest) = false := by
    intro l
    induction l with
    | nil =>
      intro rest _ hr
      cases rest with
      | nil => simp [containsChars, startsWithChars]
      | cons r rest' =>
        rw [List.nil_append, containsDashes_cons_cons, hr]
        simp
    | cons c l' ih =>
      intro rest hl hr
      cases l' with
      | nil =>
        rw [List.cons_append, List.nil_append, containsDashes_cons_cons]
        have := ih rest (by simp [containsChars]) hr
        rw [List.nil_append] at this
        rw [this]
        simp
      | cons d l'' =>
        rw [containsDashes_cons_cons, Bool.or_eq_false_iff] at hl
        rw [List.cons_append, List.cons_append, containsDashes_cons_cons, hl.1,
          ← List.cons_append, ih rest hl.2 hr]
        rfl
  induction lines with
  | nil => simp [containsChars]
  | cons l rest ih =>
    rw [List.flatMap_cons, List.append_assoc, List.singleton_append]
    exact key l _ (h l (List.mem_cons_self _ _))
      (ih (fun l' hl' => h l' (List.mem_cons_of_mem _ hl')))

/-- The lines that `StripComments` writes for the given lines: each line up to its first
`--`, when that is not blank. -/
theorem stripLines_data (lines : List (List Char)) :
    (concatAll (lines.map (fun line : List Char =>
      if TrimSpace (String.mk (cutAtDashes line)) ≠ "" then
        String.mk (cutAtDashes line) ++ "\n"
      else ""))).data
      = ((lines.map cutAtDashes).filter
          (fun c => decide (TrimSpace (String.mk c) ≠ ""))).flatMap (fun c => c ++ ['\n']) := by
  induction lines with
  | nil => simp [concatAll]
  | cons l rest ih =>
    rw [List.map_cons, concatAll, String.data_append, ih, List.map_cons, List.filter_cons]
    by_cases h : TrimSpace (String.mk (cutAtDashes l)) ≠ ""
    · rw [if_pos h, if_pos (by simpa using h)]
      simp [String.data_append]
    · rw [if_neg h, if_neg (by simpa using h)]
      simp

theorem StripComments_data (s : String) :
    (StripComments s).data
      = (((splitChars '\n' s.data []).map cutAtDashes).filter
          (fun c => decide (TrimSpace (String.mk c) ≠ ""))).flatMap (fun c => c ++ ['\n']) := by
  unfold StripComments Split
  rw [List.map_map]
  exact stripLines_data _

/-- C39.  For every input `s`: `StripComments(s)` holds no `--`; cut at its newlines it is
a list of lines, none of them blank, and the empty rest after the last newline; and
`StripComments` applied to it returns it unchanged. -/
theorem StripComments_idempotent (s : String) :
    Contains (StripComments s) "--" = false ∧
    (∃ lines : List String, Split (StripComments s) '\n' = lines ++ [""] ∧
      ∀ l ∈ lines, TrimSpace l ≠ "") ∧
    StripComments (StripComments s) = StripComments s := by
  have hdata := StripComments_data s
  have hkept : ∀ c ∈ ((splitChars '\n' s.data []).map cutAtDashes).filter
      (fun c => decide (TrimSpace (String.mk c) ≠ "")),
      '\n' ∉ c ∧ containsChars ['-', '-'] c = false ∧ TrimSpace (String.mk c) ≠ "" := by
    intro c hc
    obtain ⟨hc1, hc2⟩ := List.mem_filter.1 hc
    obtain ⟨l, hl, hcl⟩ := List.mem_map.1 hc1
    subst hcl
    refine ⟨?_, cutAtDashes_clean l, by simpa using hc2⟩
    intro hmem
    exact splitChars_no_sep '\n' s.data [] (by simp) l hl (cutAtDashes_mem l _ hmem)
  have hsplit : splitChars '\n' (StripComments s).data []
      = ((splitChars '\n' s.data []).map cutAtDashes).filter
          (fun c => decide (TrimSpace (String.mk c) ≠ "")) ++ [[]] := by
    rw [hdata]
    exact splitChars_lines '\n' _ (fun c hc => (hkept c hc).1)
  refine ⟨?_, ?_, ?_⟩
  · unfold Contains
    rw [hdata]
    exact containsDashes_lines _ (fun c hc => (hkept c hc).2.1)
  · refine ⟨(((splitChars '\n' s.data []).map cutAtDashes).filter
      (fun c => decide (TrimSpace (String.mk c) ≠ ""))).map String.mk, ?_, ?_⟩
    · unfold Split
      rw [hsplit, List.map_append]
      rfl
    · intro l hl
      obtain ⟨c, hc, hcl⟩ := List.mem_map.1 hl
      subst hcl
      exact (hkept c hc).2.2
  · apply String.ext
    rw [StripComments_data (StripComments s), hsplit, hdata]
    congr 1
    rw [List.map_append, List.filter_append]
    have h1 : (List.map cutAtDashes [[]]).filter
        (fun c => decide (TrimSpace (String.mk c) ≠ "")) = [] := by decide
    rw [h1, List.append_nil]
    have h2 : (((splitChars '\n' s.data []).map cutAtDashes).filter
        (fun c => decide (TrimSpace (String.mk c) ≠ ""))).map cutAtDashes
        = ((splitChars '\n' s.data []).map cutAtDashes).filter
          (fun c => decide (TrimSpace (String.mk c) ≠ "")) := by
      conv_rhs => rw [← List.map_id (((splitChars '\n' s.data []).map cutAtDashes).filter
        (fun c => decide (TrimSpace (String.mk c) ≠ "")))]
      apply List.map_congr_left
      intro c hc
      exact cutAtDashes_of_clean c (hkept c hc).2.1
    rw [h2, List.filter_filter]
    apply List.filter_congr
    intro c _
    simp

/-! ## Lemmas: `SplitStatements` on a text without quotes -/

theorem splitLoop_plain (l : List Char) (st : SplitState)
    (hl : ∀ c ∈ l, c ≠ apostrophe ∧ c ≠ '"' ∧ c ≠ '$')
    (h1 : st.inSingleQuote = false) (h2 : st.inDoubleQuote = false)
    (h3 : st.inDollarQuote = false) :
    splitLoop l.length l st
      = st.statements ++
        ((splitChars ';' l st.current.reverse).map (fun p => TrimSpace (String.mk p))).filter
          (fun p => decide (p ≠ "")) := by
  induction l generalizing st with
  | nil =>
    simp only [List.length_nil, splitLoop, flushStatement, splitChars, List.reverse_reverse,
      List.map_cons, List.map_nil]
    by_cases h : TrimSpace (String.mk st.current) ≠ ""
    · rw [if_pos h, List.filter_cons, if_pos (by simpa using h)]
      rfl
    · rw [if_neg h, List.filter_cons, if_neg (by simpa using h)]
      simp
  | cons c rest ih =>
    have hc := hl c (List.mem_cons_self _ _)
    have hrest : ∀ c ∈ rest, c ≠ apostrophe ∧ c ≠ '"' ∧ c ≠ '$' :=
      fun c hc => hl c (List.mem_cons_of_mem _ hc)
    by_cases hsemi : c = ';'
    · subst hsemi
      rw [splitLoop_cons ';' rest rest st _ (splitStep_semicolon rest st h1 h2 h3),
        ih { st with statements := flushStatement st, current := [] } hrest h1 h2 h3]
      simp only [flushStatement, splitChars, if_true, List.reverse_nil, List.reverse_reverse,
        List.map_cons]
      by_cases h : TrimSpace (String.mk st.current) ≠ ""
      · rw [if_pos h, List.filter_cons, if_pos (by simpa using h)]
        simp
      · rw [if_neg h, List.filter_cons, if_neg (by simpa using h)]
    · rw [splitLoop_cons c rest rest st _
          (splitStep_write c rest st hc.2.2 (Or.inr ⟨hsemi, hc.1, hc.2.1⟩)),
        ih { st with current := st.current ++ [c] } hrest h1 h2 h3]
      simp only [splitChars, if_neg hsemi, List.reverse_append, List.reverse_cons,
        List.reverse_nil, List.nil_append, List.singleton_append]

/-! ## Lemmas: the ends of a trimmed text -/

theorem dropWhile_head (p : Char → Bool) (l : List Char) (c : Char)
    (h : (l.dropWhile p).head? = some c) : p c = false := by
  induction l with
  | nil => cases h
  | cons x rest ih =>
    rw [List.dropWhile_cons] at h
    by_cases hx : p x = true
    · rw [if_pos hx] at h
      exact ih h
    · rw [if_neg hx] at h
      have : x = c := by simpa using h
      rw [← this]
      simpa using hx

theorem dropWhile_getLast (p : Char → Bool) (l : List Char) (h : l.dropWhile p ≠ []) :
    (l.dropWhile p).getLast? = l.getLast? := by
  induction l with
  | nil => rfl
  | cons x rest ih =>
    rw [List.dropWhile_cons] at h ⊢
    by_cases hx : p x = true
    · rw [if_pos hx] at h ⊢
      rw [ih h]
      cases rest with
      | nil => exact absurd rfl h
      | cons y ys => rw [List.getLast?_cons_cons]
    · rw [if_neg hx]

theorem trimSpaceChars_ends (l : List Char) :
    (∀ c, (trimSpaceChars l).head? = some c → isSpace c = false) ∧
    (∀ c, (trimSpaceChars l).getLast? = some c → isSpace c = false) := by
  unfold trimSpaceChars
  constructor
  · intro c hc
    rw [List.head?_reverse] at hc
    have hne : ((l.dropWhile isSpace).reverse.dropWhile isSpace) ≠ [] := by
      intro e
      rw [e] at hc
      cases hc
    rw [dropWhile_getLast _ _ hne, List.getLast?_reverse] at hc
    exact dropWhile_head _ _ _ hc
  · intro c hc
    rw [List.getLast?_reverse] at hc
    exact dropWhile_head _ _ _ hc

/-- The statements that the loop has put aside are trimmed and not empty. -/
theorem flushStatement_trimmed (st : SplitState)
    (h : ∀ x ∈ st.statements, ∃ t : String, x = TrimSpace t ∧ x ≠ "") :
    ∀ x ∈ flushStatement st, ∃ t : String, x = TrimSpace t ∧ x ≠ "" := by
  unfold flushStatement
  split
  · rename_i hne
    intro x hx
    rcases List.mem_append.1 hx with hx | hx
    · exact h x hx
    · have : x = TrimSpace (String.mk st.current) := by simpa using hx
      exact ⟨_, this, this ▸ hne⟩
  · exact h

theorem splitPlain_trimmed (ch : Char) (rest : List Char) (st : SplitState)
    (h : ∀ x ∈ st.statements, ∃ t : String, x = TrimSpace t ∧ x ≠ "") :
    ∀ x ∈ (splitPlain ch rest st).2.statements, ∃ t : String, x = TrimSpace t ∧ x ≠ "" := by
  unfold splitPlain
  split
  · split
    · split
      · exact h
      · exact h
    · exact h
  · split
    · exact h
    · split
      · exact flushStatement_trimmed st h
      · exact h

theorem splitStep_trimmed (ch : Char) (rest : List Char) (st : SplitState)
    (h : ∀ x ∈ st.statements, ∃ t : String, x = TrimSpace t ∧ x ≠ "") :
    ∀ x ∈ (splitStep ch rest st).2.statements, ∃ t : String, x = TrimSpace t ∧ x ≠ "" := by
  unfold splitStep
  split
  · split
    · split
      · split
        · exact h
        · exact splitPlain_trimmed ch rest _ h
      · exact h
    · exact splitPlain_trimmed ch rest st h
  · exact splitPlain_trimmed ch rest st h

theorem splitLoop_trimmed (n : Nat) (l : List Char) (st : SplitState)
    (h : ∀ x ∈ st.statements, ∃ t : String, x = TrimSpace t ∧ x ≠ "") :
    ∀ x ∈ splitLoop n l st, ∃ t : String, x = TrimSpace t ∧ x ≠ "" := by
  induction n generalizing l st with
  | zero => exact flushStatement_trimmed st h
  | succ n ih =>
    cases l with
    | nil => exact flushStatement_trimmed st h
    | cons ch rest => exact ih _ _ (splitStep_trimmed ch rest st h)

/-- C38.  For every input without apostrophe, double quote and dollar sign,
`SplitStatements` returns the pieces between the semicolons, each trimmed, the empty ones
left out; and for every input, every statement it returns is not empty and neither starts
nor ends with white space. -/
theorem SplitStatements_plain_split (input : String) :
    ((∀ c ∈ input.data, c ≠ apostrophe ∧ c ≠ '"' ∧ c ≠ '$') →
      SplitStatements input
        = ((Split input ';').map TrimSpace).filter (fun p => decide (p ≠ ""))) ∧
    ∀ stmt ∈ SplitStatements input,
      stmt ≠ "" ∧ (∀ c, stmt.data.head? = some c → isSpace c = false) ∧
      (∀ c, stmt.data.getLast? = some c → isSpace c = false) := by
  constructor
  · intro h
    unfold SplitStatements Split
    rw [splitLoop_fuel _ _ _ (Nat.le_succ _), splitLoop_plain _ _ h rfl rfl rfl]
    simp only [List.nil_append, List.reverse_nil, List.map_map]
    rfl
  · intro stmt hs
    obtain ⟨t, ht, hne⟩ := splitLoop_trimmed _ _ _ (fun x hx => by cases hx) stmt hs
    refine ⟨hne, ?_, ?_⟩
    · intro c hc
      rw [ht] at hc
      exact (trimSpaceChars_ends t.data).1 c hc
    · intro c hc
      rw [ht] at hc
      exact (trimSpaceChars_ends t.data).2 c hc

/-! ## Lemmas: the fields of a text of words -/

theorem fieldsChars_word (w rest cur : List Char) (hw : ∀ c ∈ w, isSpace c = false)
    (hne : cur.reverse ++ w ≠ []) :
    fieldsChars (w ++ ' ' :: rest) cur = (cur.reverse ++ w) :: fieldsChars rest [] := by
  induction w generalizing cur with
  | nil =>
    have hcur : cur.isEmpty = false := by
      cases cur with
      | nil => simp at hne
      | cons c cs => rfl
    have hsp : isSpace ' ' = true := by decide
    simp [fieldsChars, hsp, hcur]
  | cons x xs ih =>
    have hx : isSpace x = false := hw x (List.mem_cons_self _ _)
    rw [List.cons_append, fieldsChars]
    simp only [hx, Bool.false_eq_true, if_false]
    rw [ih (x :: cur) (fun c hc => hw c (List.mem_cons_of_mem _ hc)) (by simp)]
    simp

theorem fieldsChars_last (w cur : List Char) (hw : ∀ c ∈ w, isSpace c = false)
    (hne : cur.reverse ++ w ≠ []) :
    fieldsChars w cur = [cur.reverse ++ w] := by
  induction w generalizing cur with
  | nil =>
    have hcur : cur.isEmpty = false := by
      cases cur with
      | nil => simp at hne
      | cons c cs => rfl
    simp [fieldsChars, hcur]
  | cons x xs ih =>
    have hx : isSpace x = false := hw x (List.mem_cons_self _ _)
    rw [fieldsChars]
    simp only [hx, Bool.false_eq_true, if_false]
    rw [ih (x :: cur) (fun c hc => hw c (List.mem_cons_of_mem _ hc)) (by simp)]
    simp

/-- The fields of words joined by single blanks are the words. -/
theorem Fields_Join (toks : List String)
    (h : ∀ w ∈ toks, w.data ≠ [] ∧ ∀ c ∈ w.data, isSpace c = false) :
    Fields (Join toks " ") = toks := by
  unfold Fields
  induction toks with
  | nil => rfl
  | cons w rest ih =>
    have hw := h w (List.mem_cons_self _ _)
    cases rest with
    | nil =>
      simp only [Join]
      rw [fieldsChars_last w.data [] hw.2 (by simpa using hw.1)]
      simp
    | cons y rest' =>
      rw [Join_cons_cons]
      have e : (w ++ " " ++ Join (y :: rest') " ").data
          = w.data ++ ' ' :: (Join (y :: rest') " ").data := by
        simp [String.data_append]
      rw [e, fieldsChars_word w.data _ [] hw.2 (by simpa using hw.1), List.map_cons,
        ih (fun w' hw' => h w' (List.mem_cons_of_mem _ hw'))]
      simp

/-! ## Lemmas: a text with a blank inside a text of words -/

theorem startsWithChars_iff (sub text : List Char) :
    startsWithChars sub text = true ↔ ∃ post, text = sub ++ post := by
  induction sub generalizing text with
  | nil => simp [startsWithChars]
  | cons p ps ih =>
    cases text with
    | nil => simp [startsWithChars]
    | cons c cs =>
      simp only [startsWithChars, Bool.and_eq_true, decide_eq_true_eq, ih, List.cons_append,
        List.cons.injEq]
      constructor
      · rintro ⟨h1, post, h2⟩
        exact ⟨post, h1.symm, h2⟩
      · rintro ⟨post, h1, h2⟩
        exact ⟨h1.symm, post, h2⟩

theorem containsChars_iff (sub text : List Char) :
    containsChars sub text = true ↔ ∃ pre post, text = pre ++ sub ++ post := by
  induction text with
  | nil =>
    simp only [containsChars, List.isEmpty_iff]
    constructor
    · intro h
      exact ⟨[], [], by simp [h]⟩
    · rintro ⟨pre, post, h⟩
      have := congrArg List.length h
      simp only [List.length_nil, List.length_append] at this
      exact List.length_eq_zero.1 (by omega)
  | cons c cs ih =>
    simp only [containsChars, Bool.or_eq_true, startsWithChars_iff, ih]
    constructor
    · rintro (⟨post, h⟩ | ⟨pre, post, h⟩)
      · exact ⟨[], post, by simpa using h⟩
      · exact ⟨c :: pre, post, by simp [h]⟩
    · rintro ⟨pre, post, h⟩
      cases pre with
      | nil => exact Or.inl ⟨post, by simpa using h⟩
      | cons x pre' =>
        simp only [List.cons_append, List.cons.injEq] at h
        exact Or.inr ⟨pre', post, by simp [h.2]⟩

/-- Where a blank of a text can stand when the text starts with a word and a blank. -/
theorem split_at_blank (A X B Y : List Char) (hB : ' ' ∉ B)
    (h : A ++ ' ' :: X = B ++ ' ' :: Y) :
    (A = B ∧ X = Y) ∨ ∃ A', A = B ++ ' ' :: A' ∧ Y = A' ++ ' ' :: X := by
  induction B generalizing A with
  | nil =>
    cases A with
    | nil =>
      simp only [List.nil_append, List.cons.injEq, true_and] at h
      exact Or.inl ⟨rfl, h⟩
    | cons a A' =>
      simp only [List.cons_append, List.nil_append, List.cons.injEq] at h
      obtain ⟨ha, h⟩ := h
      subst ha
      exact Or.inr ⟨A', rfl, h.symm⟩
  | cons b B' ih =>
    have hb : b ≠ ' ' := fun e => hB (e ▸ List.mem_cons_self _ _)
    have hB' : ' ' ∉ B' := fun e => hB (List.mem_cons_of_mem _ e)
    cases A with
    | nil =>
      simp only [List.nil_append, List.cons_append, List.cons.injEq] at h
      exact absurd h.1.symm hb
    | cons a A' =>
      simp only [List.cons_append, List.cons.injEq] at h
      obtain ⟨ha, h⟩ := h
      subst ha
      rcases ih A' hB' h with ⟨h1, h2⟩ | ⟨A'', h1, h2⟩
      · exact Or.inl ⟨by rw [h1], h2⟩
      · exact Or.inr ⟨A'', by rw [h1]; rfl, h2⟩

theorem toNat_ofNat_valid (n : Nat) (h : n.isValidChar) : (Char.ofNat n).toNat = n := by
  unfold Char.ofNat
  rw [dif_pos h]
  rfl

theorem toUpperChar_blank (c : Char) (h : isSpace c = false) : toUpperChar c ≠ ' ' := by
  intro e
  unfold toUpperChar at e
  split at e
  · rename_i hc
    simp only [Bool.and_eq_true, decide_eq_true_eq] at hc
    have h1 : 97 ≤ c.toNat := hc.1
    have h2 : c.toNat ≤ 122 := hc.2
    have h3 := congrArg Char.toNat e
    have hv : (c.toNat - 32).isValidChar := by
      left
      omega
    rw [toNat_ofNat_valid _ hv] at h3
    have h4 : (' ' : Char).toNat = 32 := rfl
    rw [h4] at h3
    omega
  · split at e
    · cases e
    · split at e
      · cases e
      · rw [e] at h
        cases h

theorem upper_no_blank (D : List Char) (h : ∀ c ∈ D, isSpace c = false) :
    ' ' ∉ D.map toUpperChar := by
  intro hmem
  obtain ⟨c, hc, he⟩ := List.mem_map.1 hmem
  exact toUpperChar_blank c (h c hc) he

/-! ## Lemmas: two words in a text of words -/

theorem not_suffix_of_reverse (pre W B : List Char)
    (h : startsWithChars W.reverse B.reverse = false) : pre ++ W ≠ B := by
  intro e
  have : startsWithChars W.reverse B.reverse = true :=
    (startsWithChars_iff _ _).2 ⟨pre.reverse, by rw [← e]; simp⟩
  rw [h] at this
  cases this

theorem not_prefix_of_starts (W post N : List Char) (h : startsWithChars W N = false) :
    W ++ post ≠ N := by
  intro e
  have : startsWithChars W N = true := (startsWithChars_iff _ _).2 ⟨post, e.symm⟩
  rw [h] at this
  cases this

/-- Two words with a blank between them do not occur in a text of two words when the first
is not the end of the first word of the text. -/
theorem no_pair_short (W1 W2 B U : List Char) (hB : ' ' ∉ B) (hU : ' ' ∉ U)
    (h1 : startsWithChars W1.reverse B.reverse = false) :
    containsChars (W1 ++ ' ' :: W2) (B ++ ' ' :: U) = false := by
  cases hc : containsChars (W1 ++ ' ' :: W2) (B ++ ' ' :: U) with
  | false => rfl
  | true =>
    exfalso
    obtain ⟨pre, post, h⟩ := (containsChars_iff _ _).1 hc
    have h' : (pre ++ W1) ++ ' ' :: (W2 ++ post) = B ++ ' ' :: U := by
      rw [h]
      simp only [List.append_assoc, List.cons_append]
    rcases split_at_blank _ _ _ _ hB h' with ⟨e1, _⟩ | ⟨A1, _, e2⟩
    · exact not_suffix_of_reverse _ _ _ h1 e1
    · exact hU (by rw [e2]; simp)

/-- Two words with a blank between them do not occur in a text of four words when they are
not read from its words. -/
theorem no_pair (W1 W2 B U N1 N2 : List Char) (hB : ' ' ∉ B) (hU : ' ' ∉ U) (hN1 : ' ' ∉ N1)
    (hN2 : ' ' ∉ N2)
    (h1 : startsWithChars W1.reverse B.reverse = false)
    (h2 : startsWithChars W2 (N1 ++ ' ' :: N2) = false)
    (h3 : startsWithChars W2 N2 = false) :
    containsChars (W1 ++ ' ' :: W2) (B ++ ' ' :: (U ++ ' ' :: (N1 ++ ' ' :: N2))) = false := by
  cases hc : containsChars (W1 ++ ' ' :: W2) (B ++ ' ' :: (U ++ ' ' :: (N1 ++ ' ' :: N2))) with
  | false => rfl
  | true =>
    exfalso
    obtain ⟨pre, post, h⟩ := (containsChars_iff _ _).1 hc
    have h' : (pre ++ W1) ++ ' ' :: (W2 ++ post)
        = B ++ ' ' :: (U ++ ' ' :: (N1 ++ ' ' :: N2)) := by
      rw [h]
      simp only [List.append_assoc, List.cons_append]
    rcases split_at_blank _ _ _ _ hB h' with ⟨e1, _⟩ | ⟨A1, _, e2⟩
    · exact not_suffix_of_reverse _ _ _ h1 e1
    · rcases split_at_blank _ _ _ _ hU e2.symm with ⟨_, e3⟩ | ⟨A2, _, e4⟩
      · exact not_prefix_of_starts _ _ _ h2 e3
      · rcases split_at_blank _ _ _ _ hN1 e4.symm with ⟨_, e5⟩ | ⟨A3, _, e6⟩
        · exact not_prefix_of_starts _ _ _ h3 e5
        · exact hN2 (by rw [e6]; simp)

theorem pair_at_end (W pre : List Char) : containsChars W (pre ++ W) = true :=
  (containsChars_iff _ _).2 ⟨pre, [], by simp⟩

/-! ## Lemmas: the matcher on the text after the type of a column -/

theorem isReSpace_false (c : Char) (h : isSpace c = false) : isReSpace c = false := by
  cases hr : isReSpace c with
  | false => rfl
  | true =>
    have : isSpace c = true := by
      simp only [isReSpace, isSpace, Bool.or_eq_true, decide_eq_true_eq] at hr ⊢
      tauto
    rw [h] at this
    cases this

theorem noneOf_comma (c : Char) (h1 : isReSpace c = false) (h2 : c ≠ ',') :
    (fun c => !([','].contains c || (true && isReSpace c))) c = true := by
  simp [h1, h2]

/-- The group `([^\s,]+(?:\([^)]*\))?)` takes a word up to the blank after it, or up to the
end of the text. -/
theorem run_default_group (x : Char) (xs tail : List Char) (pv0 : Option Char)
    (caps : List (Nat × String))
    (hx : isReSpace x = false ∧ x ≠ ',') (hxs : ∀ y ∈ xs, isReSpace y = false ∧ y ≠ ',')
    (htail : ∀ y ∈ tail.head?, y = ' ') :
    ∃ pv, (Re.group 1 (seqs [plus (noneOf true [',']),
        opt (seqs [lit true "(", .star true (noneOf false [')']), lit true ")"])])).run
        ⟨pv0, x :: (xs ++ tail), caps⟩ some
      = some ⟨pv, tail, setCap caps 1 (String.mk (x :: xs))⟩ := by
  have htake : List.take ((x :: (xs ++ tail)).length - tail.length)
      (x :: (xs ++ tail)) = x :: xs := by
    have : (x :: (xs ++ tail)).length - tail.length = (x :: xs).length := by
      simp only [List.length_cons, List.length_append]
      omega
    rw [this, ← List.cons_append, List.take_left']
    rfl
  have hK : ∀ pv, (opt (seqs [lit true "(", .star true (noneOf false [')']), lit true ")"])).run
      ⟨pv, tail, caps⟩ (fun (st' : MatchState) => some { st' with
        caps := setCap st'.caps 1 (String.mk
          (List.take ((x :: (xs ++ tail)).length - st'.rest.length) (x :: (xs ++ tail)))) })
      = some ⟨pv, tail, setCap caps 1 (String.mk (x :: xs))⟩ := by
    intro pv
    cases tail with
    | nil =>
      simp only [opt, seqs, lit, litChars, Re.run]
      simp only [htake]
    | cons y ys =>
      have hy : y = ' ' := htail y rfl
      subst hy
      simp +decide only [opt, seqs, lit, litChars, Re.run]
      simp only [htake, Bool.false_eq_true, if_false]
  obtain ⟨pv, hpv⟩ := starLoop_class (fun c => !([','].contains c || (true && isReSpace c)))
    xs tail caps
    (fun st => (opt (seqs [lit true "(", .star true (noneOf false [')']), lit true ")"])).run
      st (fun (st' : MatchState) => some { st' with
        caps := setCap st'.caps 1 (String.mk
          (List.take ((x :: (xs ++ tail)).length - st'.rest.length) (x :: (xs ++ tail)))) }))
    (fun y hy => noneOf_comma y (hxs y hy).1 (hxs y hy).2)
    (fun y hy => by
      have : y = ' ' := htail y hy
      rw [this]
      decide)
    (fun pv => by
      show (Re.run _ _ _).isSome = true
      rw [hK pv]
      rfl)
    ((xs ++ tail).length + 1) (some x) (by simp; omega)
  refine ⟨pv, ?_⟩
  have hpv' := hpv.trans (hK pv)
  rw [← hpv']
  have hxp := noneOf_comma x hx.1 hx.2
  simp only [run_group, seqs, plus, run_seq, noneOf, run_char, hxp, if_true, run_star]

theorem searchFrom_found (re : Re) (pv : Option Char) (text : List Char) (st : MatchState)
    (h : re.run ⟨pv, text, []⟩ some = some st) : searchFrom re pv text = some (text, st) := by
  cases text with
  | nil => simp only [searchFrom, h]
  | cons c cs => simp only [searchFrom, h]

theorem reColumnDefault_match (x : Char) (xs tail : List Char)
    (hx : isReSpace x = false ∧ x ≠ ',') (hxs : ∀ y ∈ xs, isReSpace y = false ∧ y ≠ ',')
    (htail : ∀ y ∈ tail.head?, y = ' ') :
    ∃ pv, reColumnDefault.re.run ⟨none, "DEFAULT ".data ++ (x :: (xs ++ tail)), []⟩ some
      = some ⟨pv, tail, [(1, String.mk (x :: xs))]⟩ := by
  have hre : reColumnDefault.re = .seq (lit true "DEFAULT") (.seq (plus ws)
      (Re.group 1 (seqs [plus (noneOf true [',']),
        opt (seqs [lit true "(", .star true (noneOf false [')']), lit true ")"])]))) := rfl
  have hP : "DEFAULT ".data = ['D', 'E', 'F', 'A', 'U', 'L', 'T', ' '] := rfl
  obtain ⟨pv, hpv⟩ := run_default_group x xs tail (some ' ') [] hx hxs htail
  refine ⟨pv, ?_⟩
  rw [hre, hP]
  generalize Re.group 1 (seqs [plus (noneOf true [',']),
        opt (seqs [lit true "(", .star true (noneOf false [')']), lit true ")"])]) = G at hpv ⊢
  simp +decide [lit, litChars, plus, ws, Re.run, starLoop, hx.1]
  rw [hpv]
  rfl

/-- The pattern of the default finds the word after `DEFAULT`. -/
theorem reColumnDefault_find (x : Char) (xs tail : List Char)
    (hx : isReSpace x = false ∧ x ≠ ',') (hxs : ∀ y ∈ xs, isReSpace y = false ∧ y ≠ ',')
    (htail : ∀ y ∈ tail.head?, y = ' ') :
    reColumnDefault.FindStringSubmatch (String.mk ("DEFAULT ".data ++ (x :: (xs ++ tail))))
      = [String.mk ("DEFAULT ".data ++ (x :: xs)), String.mk (x :: xs)] := by
  obtain ⟨pv, hpv⟩ := reColumnDefault_match x xs tail hx hxs htail
  have hP : "DEFAULT ".data = ['D', 'E', 'F', 'A', 'U', 'L', 'T', ' '] := rfl
  unfold Regexp.FindStringSubmatch
  have hs : searchFrom reColumnDefault.re none ("DEFAULT ".data ++ (x :: (xs ++ tail)))
      = some ("DEFAULT ".data ++ (x :: (xs ++ tail)), ⟨pv, tail, [(1, String.mk (x :: xs))]⟩) := by
    exact searchFrom_found _ _ _ _ hpv
  show (match searchFrom reColumnDefault.re none ("DEFAULT ".data ++ (x :: (xs ++ tail))) with
    | none => []
    | some (start, st) => submatches reColumnDefault start st) = _
  rw [hs]
  have htake : List.take (("DEFAULT ".data ++ (x :: (xs ++ tail))).length - tail.length)
      ("DEFAULT ".data ++ (x :: (xs ++ tail))) = "DEFAULT ".data ++ (x :: xs) := by
    have e : "DEFAULT ".data ++ (x :: (xs ++ tail)) = ("DEFAULT ".data ++ (x :: xs)) ++ tail := by
      simp
    rw [e, List.length_append, Nat.add_sub_cancel, List.take_left']
    rfl
  simp only [submatches, htake]
  rfl

/-! ## Lemmas: no reference in the text after the type of a column -/

/-- A literal takes characters that are those of the literal, each up to its case. -/
theorem litChars_inv (fold : Bool) (w : List Char) (hw : w ≠ []) (caps : List (Nat × String))
    (k : MatchState → Option MatchState) (res : MatchState) :
    ∀ (pv : Option Char) (text : List Char),
      (litChars fold w).run ⟨pv, text, caps⟩ k = some res →
      ∃ u rest pv', text = u ++ rest ∧ (∀ x ∈ u, ∃ c ∈ w, charIs fold c x = true) ∧
        k ⟨pv', rest, caps⟩ = some res := by
  induction w with
  | nil => exact absurd rfl hw
  | cons c cs ih =>
    intro pv text h
    cases text with
    | nil =>
      cases cs with
      | nil => simp [litChars, Re.run] at h
      | cons c' cs' => simp [litChars, Re.run] at h
    | cons x t =>
      cases cs with
      | nil =>
        simp only [litChars, run_char] at h
        split at h
        · rename_i hx
          exact ⟨[x], t, some x, rfl, fun y hy => by
            rw [List.mem_singleton] at hy
            rw [hy]
            exact ⟨c, List.mem_cons_self _ _, hx⟩, h⟩
        · cases h
      | cons c' cs' =>
        simp only [litChars, run_seq, run_char] at h
        split at h
        · rename_i hx
          obtain ⟨u, rest, pv', e, hu, hk⟩ := ih (by simp) (some x) t h
          refine ⟨x :: u, rest, pv', by rw [e]; rfl, fun y hy => ?_, hk⟩
          rcases List.mem_cons.1 hy with hy | hy
          · rw [hy]
            exact ⟨c, List.mem_cons_self _ _, hx⟩
          · obtain ⟨c0, hc0, h0⟩ := hu y hy
            exact ⟨c0, List.mem_cons_of_mem _ hc0, h0⟩
        · cases h

theorem isReSpace_cases (x : Char) (h : isReSpace x = true) :
    x = '\t' ∨ x = '\n' ∨ x = Char.ofNat 12 ∨ x = '\r' ∨ x = ' ' := by
  simp only [isReSpace, Bool.or_eq_true, decide_eq_true_eq] at h
  rcases h with (((h | h) | h) | h) | h
  · exact Or.inl h
  · exact Or.inr (Or.inl h)
  · refine Or.inr (Or.inr (Or.inl ?_))
    rw [← Char.ofNat_toNat x, h]
  · exact Or.inr (Or.inr (Or.inr (Or.inl h)))
  · exact Or.inr (Or.inr (Or.inr (Or.inr h)))

/-- The first character of a class in a text. -/
theorem first_of_class (p : Char → Bool) (sp : Char) (rest tail : List Char) (hsp : p sp = true)
    (htail : ∀ y ∈ tail.head?, p y = true) :
    ∀ (u S : List Char), (∀ x ∈ u, p x = false) → (∀ x ∈ S, p x = false) →
      u ++ sp :: rest = S ++ tail → u = S ∧ sp :: rest = tail := by
  intro u
  induction u with
  | nil =>
    intro S _ hS h
    cases S with
    | nil => exact ⟨rfl, h⟩
    | cons s S' =>
      simp only [List.nil_append, List.cons_append, List.cons.injEq] at h
      have := hS s (List.mem_cons_self _ _)
      rw [← h.1, hsp] at this
      cases this
  | cons a u' ih =>
    intro S hu hS h
    cases S with
    | nil =>
      rw [List.nil_append] at h
      have := htail a (by rw [← h]; rfl)
      rw [hu a (List.mem_cons_self _ _)] at this
      cases this
    | cons s S' =>
      simp only [List.cons_append, List.cons.injEq] at h
      obtain ⟨h1, h2⟩ := ih S' (fun x hx => hu x (List.mem_cons_of_mem _ hx))
        (fun x hx => hS x (List.mem_cons_of_mem _ hx)) h.2
      exact ⟨by rw [h.1, h1], h2⟩

/-- A literal of letters followed by `\s+` does not match in a word of the text unless the
word ends the literal and what follows the blank after the word goes on. -/
theorem lit_ws_no_match (w : List Char) (hw : w ≠ [])
    (hwc : ∀ c ∈ w, ∀ x, charIs true c x = true → isReSpace x = false) (tailRe : Re)
    (S tail : List Char) (hS : ∀ x ∈ S, isReSpace x = false)
    (htail : tail = [] ∨ ∃ T, tail = ' ' :: T ∧
      (Re.star true ws).run ⟨some ' ', T, []⟩ (fun st => tailRe.run st some) = none)
    (pv : Option Char) :
    (Re.seq (litChars true w) (.seq (plus ws) tailRe)).run ⟨pv, S ++ tail, []⟩ some = none := by
  cases hr : (Re.seq (litChars true w) (.seq (plus ws) tailRe)).run ⟨pv, S ++ tail, []⟩ some with
  | none => rfl
  | some res =>
    exfalso
    rw [run_seq] at hr
    obtain ⟨u, rest, pv', e, hu, hk⟩ := litChars_inv true w hw [] _ res pv (S ++ tail) hr
    have hu' : ∀ x ∈ u, isReSpace x = false := fun x hx => by
      obtain ⟨c, hc, hcx⟩ := hu x hx
      exact hwc c hc x hcx
    cases rest with
    | nil => simp [plus, ws, Re.run] at hk
    | cons sp rest' =>
      simp only [plus, ws, run_seq, run_char] at hk
      split at hk
      · rename_i hsp
        have htl : ∀ y ∈ tail.head?, isReSpace y = true := by
          intro y hy
          rcases htail with h0 | ⟨T, h0, _⟩
          · rw [h0] at hy
            cases hy
          · rw [h0] at hy
            simp only [List.head?_cons, Option.mem_def, Option.some.injEq] at hy
            rw [← hy]
            decide
        obtain ⟨_, h2⟩ := first_of_class isReSpace sp rest' tail hsp htl u S hu' hS e.symm
        rcases htail with h0 | ⟨T, h0, hT⟩
        · rw [h0] at h2
          cases h2
        · rw [h0] at h2
          simp only [List.cons.injEq] at h2
          rw [h2.1, h2.2] at hk
          have hk' : (Re.star true (Re.char isReSpace)).run ⟨some ' ', T, []⟩
              (fun st => tailRe.run st some) = some res := hk
          rw [show Re.char isReSpace = ws from rfl, hT] at hk'
          cases hk'
      · cases hk

theorem references_letters :
    ∀ c ∈ "REFERENCES".data, ∀ x, charIs true c x = true → isReSpace x = false := by
  intro c hc x hx
  cases hr : isReSpace x with
  | false => rfl
  | true =>
    exfalso
    have h1 : ∀ c ∈ "REFERENCES".data, charIs true c '\t' = false := by decide
    have h2 : ∀ c ∈ "REFERENCES".data, charIs true c '\n' = false := by decide
    have h3 : ∀ c ∈ "REFERENCES".data, charIs true c (Char.ofNat 12) = false := by decide
    have h4 : ∀ c ∈ "REFERENCES".data, charIs true c '\r' = false := by decide
    have h5 : ∀ c ∈ "REFERENCES".data, charIs true c ' ' = false := by decide
    rcases isReSpace_cases x hr with e | e | e | e | e <;> rw [e] at hx
    · rw [h1 c hc] at hx
      cases hx
    · rw [h2 c hc] at hx
      cases hx
    · rw [h3 c hc] at hx
      cases hx
    · rw [h4 c hc] at hx
      cases hx
    · rw [h5 c hc] at hx
      cases hx

theorem reInlineReferences_shape : ∃ tailRe, reInlineReferences.re
    = .seq (litChars true "REFERENCES".data) (.seq (plus ws) tailRe) ∧
    (Re.star true ws).run ⟨some ' ', "NOT NULL".data, []⟩ (fun st => tailRe.run st some) = none :=
  ⟨_, rfl, rfl⟩

theorem reInlineReferences_no_match_first (pv : Option Char) (a : Char) (rest : List Char)
    (h : charIs true 'R' a = false) :
    reInlineReferences.re.run ⟨pv, a :: rest, []⟩ some = none := by
  obtain ⟨tailRe, hre, _⟩ := reInlineReferences_shape
  rw [hre]
  have hP : "REFERENCES".data = ['R', 'E', 'F', 'E', 'R', 'E', 'N', 'C', 'E', 'S'] := rfl
  rw [hP]
  simp [litChars, Re.run, h]

/-- The pattern of a reference finds nothing in `DEFAULT d` and in `DEFAULT d NOT NULL`,
whatever the word `d`. -/
theorem reInlineReferences_none (D tail : List Char) (hD : ∀ x ∈ D, isReSpace x = false)
    (htail : tail = [] ∨ tail = " NOT NULL".data) :
    reInlineReferences.FindStringSubmatch (String.mk ("DEFAULT ".data ++ (D ++ tail))) = [] := by
  obtain ⟨tailRe, hre, hT⟩ := reInlineReferences_shape
  -- the word DEFAULT and the blank
  obtain ⟨pv1, h1⟩ := searchFrom_skip reInlineReferences.re "DEFAULT ".data (D ++ tail)
    (fun pv p1 x p2 hp => reInlineReferences_no_match_first pv x _ (by
      have hx : x ∈ "DEFAULT ".data := by rw [hp]; simp
      have hall : ∀ y ∈ "DEFAULT ".data, charIs true 'R' y = false := by decide
      exact hall x hx)) none
  -- the word of the default
  obtain ⟨pv2, h2⟩ := searchFrom_skip reInlineReferences.re D tail
    (fun pv p1 x p2 hp => by
      have hS : ∀ y ∈ x :: p2, isReSpace y = false := fun y hy => hD y (by
        rw [hp]
        exact List.mem_append_right _ hy)
      have := lit_ws_no_match "REFERENCES".data (by decide) references_letters tailRe
        (x :: p2) tail hS (by
          rcases htail with h0 | h0
          · exact Or.inl h0
          · exact Or.inr ⟨"NOT NULL".data, h0, hT⟩) pv
      rw [hre]
      exact this) pv1
  -- what follows it
  obtain ⟨pv3, h3⟩ := searchFrom_skip reInlineReferences.re tail []
    (fun pv p1 x p2 hp => reInlineReferences_no_match_first pv x _ (by
      have hx : x ∈ tail := by rw [hp]; simp
      have hall : ∀ y ∈ " NOT NULL".data, charIs true 'R' y = false := by decide
      rcases htail with h0 | h0
      · rw [h0] at hx
        cases hx
      · rw [h0] at hx
        exact hall x hx)) pv2
  rw [List.append_nil] at h3
  unfold Regexp.FindStringSubmatch
  show (match searchFrom reInlineReferences.re none ("DEFAULT ".data ++ (D ++ tail)) with
    | none => []
    | some (start, st) => submatches reInlineReferences start st) = _
  rw [h1, h2, h3]
  rfl

/-! ## Lemmas: the definition of a column read back -/

theorem upper_remaining (D tail : List Char) (htail : tail = [] ∨ tail = " NOT NULL".data) :
    (ToUpper (String.mk ("DEFAULT ".data ++ (D ++ tail)))).data
      = "DEFAULT".data ++ ' ' :: (D.map toUpperChar ++ tail) := by
  have e1 : List.map toUpperChar "DEFAULT ".data = "DEFAULT ".data := by decide
  have e2 : tail.map toUpperChar = tail := by
    rcases htail with h | h <;> rw [h] <;> decide
  show List.map toUpperChar ("DEFAULT ".data ++ (D ++ tail)) = _
  rw [List.map_append, List.map_append, e1, e2]
  rfl

/-- What the method reads in the text `DEFAULT d` and in the text `DEFAULT d NOT NULL`. -/
theorem remaining_read (x : Char) (xs tail : List Char)
    (hD : ∀ c ∈ x :: xs, isSpace c = false ∧ c ≠ ',')
    (htail : tail = [] ∨ tail = " NOT NULL".data) :
    Contains (ToUpper (String.mk ("DEFAULT ".data ++ (x :: xs ++ tail)))) "NOT NULL"
      = decide (tail ≠ []) ∧
    Contains (ToUpper (String.mk ("DEFAULT ".data ++ (x :: xs ++ tail)))) "PRIMARY KEY" = false ∧
    reColumnDefault.FindStringSubmatch (String.mk ("DEFAULT ".data ++ (x :: xs ++ tail)))
      = [String.mk ("DEFAULT ".data ++ (x :: xs)), String.mk (x :: xs)] ∧
    reInlineReferences.FindStringSubmatch (String.mk ("DEFAULT ".data ++ (x :: xs ++ tail)))
      = [] := by
  have hU : ' ' ∉ (x :: xs).map toUpperChar := upper_no_blank _ (fun c hc => (hD c hc).1)
  have hre : ∀ c ∈ x :: xs, isReSpace c = false ∧ c ≠ ',' :=
    fun c hc => ⟨isReSpace_false c (hD c hc).1, (hD c hc).2⟩
  refine ⟨?_, ?_, ?_, ?_⟩
  · unfold Contains
    rw [upper_remaining _ _ htail]
    rcases htail with h | h
    · subst h
      rw [List.append_nil]
      have := no_pair_short "NOT".data "NULL".data "DEFAULT".data _ (by decide) hU (by decide)
      rw [show decide (([] : List Char) ≠ []) = false from rfl]
      exact this
    · subst h
      have := pair_at_end "NOT NULL".data
        ("DEFAULT".data ++ ' ' :: ((x :: xs).map toUpperChar ++ [' ']))
      rw [show decide (" NOT NULL".data ≠ []) = true from rfl]
      rw [← this]
      congr 1
      simp only [List.append_assoc, List.cons_append, List.nil_append]
  · unfold Contains
    rw [upper_remaining _ _ htail]
    rcases htail with h | h
    · subst h
      rw [List.append_nil]
      exact no_pair_short "PRIMARY".data "KEY".data "DEFAULT".data _ (by decide) hU (by decide)
    · subst h
      exact no_pair "PRIMARY".data "KEY".data "DEFAULT".data _ "NOT".data "NULL".data
        (by decide) hU (by decide) (by decide) (by decide) (by decide) (by decide)
  · exact reColumnDefault_find x xs tail (hre x (List.mem_cons_self _ _))
      (fun y hy => hre y (List.mem_cons_of_mem _ hy)) (fun y hy => by
        rcases htail with h | h
        · rw [h] at hy
          cases hy
        · rw [h] at hy
          cases hy
          rfl)
  · exact reInlineReferences_none (x :: xs) tail (fun c hc => (hre c hc).1) htail

theorem columnType_two (n t : String) : columnType [n, t] = (t, 1) := by
  simp [columnType, nth]

theorem columnType_plain (n t w : String) (more : List String)
    (hw : ToLower w ≠ "precision" ∧ ToLower w ≠ "varying" ∧ ToLower w ≠ "with" ∧
      ToLower w ≠ "without" ∧ HasPrefix w "(" = false) :
    columnType (n :: t :: w :: more) = (t, 1) := by
  simp [columnType, nth, hw.1, hw.2.1, hw.2.2.1, hw.2.2.2.1, hw.2.2.2.2]

/-- The method on a definition whose fields are a name, a type and modifiers in which no
primary key and no reference is read. -/
theorem parseColumnDefinition_fields (table : Table) (definition n t : String)
    (more : List String) (nn : Bool) (dflt : String)
    (hF : Fields definition = n :: t :: more) (hct : columnType (n :: t :: more) = (t, 1))
    (hnn : Contains (ToUpper (Join more " ")) "NOT NULL" = nn)
    (hpk : Contains (ToUpper (Join more " ")) "PRIMARY KEY" = false)
    (hdef : (if (reColumnDefault.FindStringSubmatch (Join more " ")).length ≥ 2 then
        nth (reColumnDefault.FindStringSubmatch (Join more " ")) 1 else "") = dflt)
    (href : reInlineReferences.FindStringSubmatch (Join more " ") = []) :
    parseColumnDefinition table definition
      = table.AddColumn
          { Name := n, Typ := t, Nullable := !nn, Default := dflt, Generated := "",
            Comment := "" } := by
  unfold parseColumnDefinition
  simp only [hF, hct]
  have hdrop : List.drop (1 + 1) (n :: t :: more) = more := rfl
  have hlen : ¬ (n :: t :: more).length < 2 := by simp
  have hno : ¬ ([] : List String).length ≥ 3 := by simp
  have h0 : nth (n :: t :: more) 0 = n := rfl
  simp only [hlen, if_false, hdrop, hnn, hpk, hdef, href, hno, h0, Bool.false_eq_true]

theorem GenerateColumnDef_words (col : Column) :
    GenerateColumnDef col
      = Join ([col.Name, col.Typ] ++ (if col.Default ≠ "" then ["DEFAULT", col.Default] else [])
          ++ (if !col.Nullable then ["NOT", "NULL"] else [])) " " := by
  apply String.ext
  unfold GenerateColumnDef
  by_cases hd : col.Default = "" <;> cases hn : col.Nullable <;>
    simp only [hd, hn, ne_eq, not_true_eq_false, not_false_eq_true, if_true, if_false,
      Bool.not_true, Bool.not_false, Bool.false_eq_true, Join, String.data_append,
      List.append_assoc, List.cons_append, List.nil_append, List.append_nil]

theorem word_ok (s : String) (h : s ≠ "" ∧ ∀ c ∈ s.data, isSpace c = false) :
    s.data ≠ [] ∧ ∀ c ∈ s.data, isSpace c = false :=
  ⟨fun e => h.1 (String.ext e), h.2⟩

/-- The definition that `GenerateColumnDef` writes for a column of plain words, read by
`parseColumnDefinition` into any table. -/
theorem parseColumnDefinition_written (table : Table) (col : Column)
    (hn : col.Name ≠ "" ∧ ∀ c ∈ col.Name.data, isSpace c = false)
    (ht : col.Typ ≠ "" ∧ ∀ c ∈ col.Typ.data, isSpace c = false)
    (hd : ∀ c ∈ col.Default.data, isSpace c = false ∧ c ≠ ',') :
    parseColumnDefinition table (GenerateColumnDef col)
      = table.AddColumn { col with Generated := "", Comment := "" } := by
  obtain ⟨n, t, nl, d, g, cm⟩ := col
  have hclosed : ∀ w ∈ ["DEFAULT", "NOT", "NULL"],
      w.data ≠ [] ∧ ∀ c ∈ w.data, isSpace c = false := by decide
  have hw : ToLower "DEFAULT" ≠ "precision" ∧ ToLower "DEFAULT" ≠ "varying" ∧
      ToLower "DEFAULT" ≠ "with" ∧ ToLower "DEFAULT" ≠ "without" ∧
      HasPrefix "DEFAULT" "(" = false := by decide
  have hw' : ToLower "NOT" ≠ "precision" ∧ ToLower "NOT" ≠ "varying" ∧
      ToLower "NOT" ≠ "with" ∧ ToLower "NOT" ≠ "without" ∧
      HasPrefix "NOT" "(" = false := by decide
  have hF : ∀ more : List String, (∀ w ∈ more, w.data ≠ [] ∧ ∀ c ∈ w.data, isSpace c = false) →
      Fields (Join (n :: t :: more) " ") = n :: t :: more := fun more hmore =>
    Fields_Join _ (fun w hm => by
      rcases List.mem_cons.1 hm with e | hm
      · rw [e]
        exact word_ok n hn
      · rcases List.mem_cons.1 hm with e | hm
        · rw [e]
          exact word_ok t ht
        · exact hmore w hm)
  by_cases hde : d = ""
  · subst hde
    cases nl with
    | true =>
      have hG : GenerateColumnDef ⟨n, t, true, "", g, cm⟩ = Join [n, t] " " := by
        rw [GenerateColumnDef_words]
        rfl
      rw [hG]
      exact parseColumnDefinition_fields table _ n t [] false ""
        (hF [] (fun w hm => by cases hm)) (columnType_two n t) rfl rfl rfl rfl
    | false =>
      have hG : GenerateColumnDef ⟨n, t, false, "", g, cm⟩ = Join [n, t, "NOT", "NULL"] " " := by
        rw [GenerateColumnDef_words]
        rfl
      rw [hG]
      exact parseColumnDefinition_fields table _ n t ["NOT", "NULL"] true ""
        (hF _ (fun w hm => hclosed w (by simp at hm ⊢; tauto)))
        (columnType_plain n t "NOT" _ hw') (by decide) (by decide) rfl rfl
  · obtain ⟨x, xs, hdata⟩ : ∃ x xs, d.data = x :: xs := by
      cases h : d.data with
      | nil => exact absurd (String.ext h) hde
      | cons x xs => exact ⟨x, xs, rfl⟩
    have hD : ∀ c ∈ x :: xs, isSpace c = false ∧ c ≠ ',' := by
      rw [← hdata]
      exact hd
    have hdw : d.data ≠ [] ∧ ∀ c ∈ d.data, isSpace c = false :=
      ⟨by rw [hdata]; simp, fun c hc => (hd c hc).1⟩
    have hdm : d = String.mk (x :: xs) := String.ext hdata
    cases nl with
    | true =>
      obtain ⟨r1, r2, r3, r4⟩ := remaining_read x xs [] hD (Or.inl rfl)
      have hJ : Join ["DEFAULT", d] " " = String.mk ("DEFAULT ".data ++ (x :: xs ++ [])) := by
        apply String.ext
        simp only [Join, String.data_append, hdata, List.append_nil]
        rfl
      have hG : GenerateColumnDef ⟨n, t, true, d, g, cm⟩ = Join [n, t, "DEFAULT", d] " " := by
        rw [GenerateColumnDef_words]
        simp [hde]
      rw [hG]
      refine parseColumnDefinition_fields table _ n t ["DEFAULT", d] false d
        (hF _ (fun w hm => ?_)) (columnType_plain n t "DEFAULT" _ hw) ?_ ?_ ?_ ?_
      · rcases List.mem_cons.1 hm with e | hm
        · rw [e]
          exact hclosed _ (by simp)
        · rw [List.mem_singleton] at hm
          rw [hm]
          exact hdw
      · rw [hJ, r1]
        rfl
      · rw [hJ, r2]
      · rw [hJ, r3, hdm]
        rfl
      · rw [hJ, r4]
    | false =>
      obtain ⟨r1, r2, r3, r4⟩ := remaining_read x xs " NOT NULL".data hD (Or.inr rfl)
      have hJ : Join ["DEFAULT", d, "NOT", "NULL"] " "
          = String.mk ("DEFAULT ".data ++ (x :: xs ++ " NOT NULL".data)) := by
        apply String.ext
        simp only [Join, String.data_append, hdata, List.append_assoc]
        rfl
      have hG : GenerateColumnDef ⟨n, t, false, d, g, cm⟩
          = Join [n, t, "DEFAULT", d, "NOT", "NULL"] " " := by
        rw [GenerateColumnDef_words]
        simp [hde]
      rw [hG]
      refine parseColumnDefinition_fields table _ n t ["DEFAULT", d, "NOT", "NULL"] true d
        (hF _ (fun w hm => ?_)) (columnType_plain n t "DEFAULT" _ hw) ?_ ?_ ?_ ?_
      · rcases List.mem_cons.1 hm with e | hm
        · rw [e]
          exact hclosed _ (by simp)
        · rcases List.mem_cons.1 hm with e | hm
          · rw [e]
            exact hdw
          · exact hclosed w (by simp at hm ⊢; tauto)
      · rw [hJ, r1]
        rfl
      · rw [hJ, r2]
      · rw [hJ, r3, hdm]
        rfl
      · rw [hJ, r4]

/-! ## Theorem: the definition of a column read back -/

/-- C37.  For every column whose name and type are words (not empty, no white space) and
whose default is empty or a word without a comma, `parseColumnDefinition` on the text of
`GenerateColumnDef` adds to the empty table exactly that column, with the same name, type,
default and nullability, and sets no primary key and no foreign key.  The words may hold
parentheses, and the name and the type may hold commas. -/
theorem GenerateColumnDef_reparses (col : Column) (tn : String)
    (hn : col.Name ≠ "" ∧ ∀ c ∈ col.Name.data, isSpace c = false)
    (ht : col.Typ ≠ "" ∧ ∀ c ∈ col.Typ.data, isSpace c = false)
    (hd : ∀ c ∈ col.Default.data, isSpace c = false ∧ c ≠ ',') :
    parseColumnDefinition (NewTable tn) (GenerateColumnDef col)
      = (NewTable tn).AddColumn { col with Generated := "", Comment := "" } ∧
    (parseColumnDefinition (NewTable tn) (GenerateColumnDef col)).Columns
      = [(col.Name, { col with Generated := "", Comment := "" })] ∧
    (parseColumnDefinition (NewTable tn) (GenerateColumnDef col)).ColumnOrder = [col.Name] ∧
    (parseColumnDefinition (NewTable tn) (GenerateColumnDef col)).PrimaryKey = none ∧
    (parseColumnDefinition (NewTable tn) (GenerateColumnDef col)).ForeignKeys = [] := by
  rw [parseColumnDefinition_written _ col hn ht hd]
  exact ⟨rfl, rfl, rfl, rfl, rfl⟩

/-- C37 at a concrete input: `created_at timestamptz DEFAULT now() NOT NULL` is read back as
the column it was written from. -/
theorem GenerateColumnDef_reparses_witness :
    GenerateColumnDef createdAtColumn = "created_at timestamptz DEFAULT now() NOT NULL" ∧
    (parseColumnDefinition (NewTable "t") (GenerateColumnDef createdAtColumn)).Columns
      = [("created_at", createdAtColumn)] ∧
    (parseColumnDefinition (NewTable "t") (GenerateColumnDef createdAtColumn)).PrimaryKey
      = none ∧
    (parseColumnDefinition (NewTable "t") (GenerateColumnDef createdAtColumn)).ForeignKeys
      = [] :=
  ⟨by decide,
    (GenerateColumnDef_reparses createdAtColumn "t" (by decide) (by decide) (by decide)).2.1,
    (GenerateColumnDef_reparses createdAtColumn "t" (by decide) (by decide) (by decide)).2.2.2.1,
    (GenerateColumnDef_reparses createdAtColumn "t" (by decide) (by decide) (by decide)).2.2.2.2⟩

/-! ## The lines of the text of a table -/

theorem concatAll_lines_data (lines : List String) :
    (concatAll (lines.map (fun line => line ++ "\n"))).data
      = (lines.map String.data).flatMap (fun l => l ++ ['\n']) := by
  induction lines with
  | nil => rfl
  | cons l rest ih =>
    rw [List.map_cons, concatAll, String.data_append, ih, List.map_cons, List.flatMap_cons,
      String.data_append]

/-- Lines without a newline, each written with a newline after it, are the pieces of the
text cut at the newlines, before the empty piece after the last newline. -/
theorem Split_lines (lines : List String) (h : ∀ l ∈ lines, '\n' ∉ l.data) :
    Split (concatAll (lines.map (fun line => line ++ "\n"))) '\n' = lines ++ [""] := by
  unfold Split
  rw [concatAll_lines_data, splitChars_lines '\n' (lines.map String.data) (fun l hl => by
    obtain ⟨l', hl', e⟩ := List.mem_map.1 hl
    rw [← e]
    exact h l' hl')]
  rw [List.map_append, List.map_map]
  have e : (String.mk ∘ String.data) = id := by
    funext l
    rfl
  rw [e, List.map_id]
  rfl

theorem commaLines_no_newline (clauses : List String) (h : ∀ c ∈ clauses, '\n' ∉ c.data) :
    ∀ l ∈ commaLines clauses, '\n' ∉ l.data := by
  induction clauses with
  | nil =>
    intro l hl
    cases hl
  | cons x rest ih =>
    have hx : '\n' ∉ x.data := h x (List.mem_cons_self _ _)
    cases rest with
    | nil =>
      intro l hl
      simp only [commaLines, List.mem_singleton] at hl
      rw [hl]
      simp only [String.data_append, List.mem_append, not_or]
      exact ⟨by decide, hx⟩
    | cons y rest' =>
      intro l hl
      have e1 : commaLines (x :: y :: rest') = ("    " ++ x ++ ",") :: commaLines (y :: rest') := rfl
      rw [e1] at hl
      rcases List.mem_cons.1 hl with hl | hl
      · rw [hl]
        simp only [String.data_append, List.mem_append, not_or]
        exact ⟨⟨by decide, hx⟩, by decide⟩
      · exact ih (fun c hc => h c (List.mem_cons_of_mem _ hc)) l hl

/-- C22, the code at the failing input, and the rule of the commas that holds for every
table.  After `CREATE TABLE t (id int, price numeric(10, 2));` the type of `price` is stored
as `numeric(10,`, and the text of `GenerateTableSQL` has the last line `    price
numeric(10,` before `);`: the last line ends with a comma.  For every table the text is the
line `CREATE TABLE <n> (`, then one line per clause, then the line `);`, then the text for
the indexes and the comments; the clauses are the column definitions in `ColumnOrder`, the
primary key if there is one, the unique constraints, the check constraints and the foreign
keys, in this order; a line is four spaces, the clause and, on every line except the last
one, a comma (`commaLines`, whose lines are spelt out), and when no clause holds a newline
these are the lines of the text cut at the newlines.  So every line except the last ends
with a comma, and the last line is the indented clause alone: it ends with a comma exactly
when the clause text itself does.  For the table `users` of the claim the text is the one
that the claim gives. -/
theorem GenerateTableSQL_comma_placement :
    (tableIn (applyMigrations (NewApplier NewDatabaseState)
        [(1, "CREATE TABLE t (id int, price numeric(10, 2));")]) "t").map GenerateTableSQL
      = some "CREATE TABLE t (\n    id int,\n    price numeric(10,\n);\n" ∧
    (tableIn (applyMigrations (NewApplier NewDatabaseState)
        [(1, "CREATE TABLE t (id int, price numeric(10, 2));")]) "t").map
        (fun t => commaLines (columnClauses t ++ constraintClauses t))
      = some ["    id int,", "    price numeric(10,"] ∧
    Split "CREATE TABLE t (\n    id int,\n    price numeric(10,\n);\n" '\n'
      = ["CREATE TABLE t (", "    id int,", "    price numeric(10,", ");", ""] ∧
    "    price numeric(10,".data.getLast? = some ',' ∧
    (∀ table : Table, GenerateTableSQL table
      = "CREATE TABLE " ++ table.Name ++ " (\n" ++
        concatAll ((commaLines (columnClauses table ++ constraintClauses table)).map
          (fun line => line ++ "\n")) ++
        ");\n" ++ tableTail table) ∧
    (∀ table : Table,
      (∀ clause ∈ columnClauses table ++ constraintClauses table, '\n' ∉ clause.data) →
      Split (concatAll ((commaLines (columnClauses table ++ constraintClauses table)).map
          (fun line => line ++ "\n"))) '\n'
        = commaLines (columnClauses table ++ constraintClauses table) ++ [""]) ∧
    (∀ clauses : List String, (commaLines clauses).length = clauses.length ∧
      (∀ i, (commaLines clauses)[i]?
          = (clauses[i]?).map (fun clause =>
              "    " ++ clause ++ (if i + 1 < clauses.length then "," else ""))) ∧
      (∀ i line, i + 1 < clauses.length → (commaLines clauses)[i]? = some line →
        line.data.getLast? = some ',') ∧
      (∀ clause line, clauses.getLast? = some clause →
        (commaLines clauses).getLast? = some line →
        line = "    " ++ clause ∧
        (clause.data.getLast? = some ',' → line.data.getLast? = some ',') ∧
        (clause.data.getLast? ≠ some ',' → line.data.getLast? ≠ some ','))) ∧
    GenerateTableSQL usersTable
      = "CREATE TABLE users (\n    id int,\n    name text NOT NULL,\n    PRIMARY KEY (id)\n);\n" := by
  refine ⟨by decide, by decide, by decide, by decide, GenerateTableSQL_lines, ?_, ?_, by decide⟩
  · intro table h
    exact Split_lines _ (commaLines_no_newline _ h)
  · intro clauses
    refine ⟨commaLines_length clauses, commaLines_getElem clauses,
      (commaLines_ends clauses).1, fun clause line hc hl => ?_⟩
    obtain ⟨h1, h2⟩ := (commaLines_ends clauses).2 clause line hc hl
    refine ⟨h1, fun hcl => ?_, h2⟩
    rw [h1, String.data_append]
    cases hd : clause.data with
    | nil =>
      rw [hd] at hcl
      cases hcl
    | cons c rest =>
      rw [hd] at hcl
      rw [List.getLast?_append_of_ne_nil _ (by simp)]
      exact hcl

end Schemactor
